import Mathlib

/-! BlinkenSort: the instrumented sorting animation of `Animation/Sort.hpp`.

A shallow embedding of `Item`, of the `SortAnimation` pacing engine and of the
sorting routines, followed by theorems about them.

* The process globals (`array`, `g_terminate`, the hooks, ...), the LED strip
  and the members of the single `SortAnimation` object are the fields of one
  record, `World`; every C++ function becomes a function `World → World`.
* Calls to the LED strip and to the sleep primitive are appended to
  `World.trace` (newest event first), so that transmit requests, paints and
  sleeps can be counted.
* An `Item*` is represented by its element offset from `array.data()`
  (an `Int`); objects with automatic storage lie outside the vector.
-/

namespace BlinkenSort

/-! # Part I: the embedding -/

/-! ## Constants and machine arithmetic -/

/-- The sentinel `static const uint16_t black = uint16_t(-1)`. -/
def black : Nat := 65535

/-- Modulus of `size_t` arithmetic (64-bit target). -/
def SIZE_MOD : Nat := 18446744073709551616

/-- Conversion of a value to `uint16_t` (`Item::value_type`). -/
def toU16 (n : Nat) : Nat := n % 65536

/-- Conversion of an unsigned value to `int32_t` (two's complement). -/
def toInt32 (n : Nat) : Int :=
  if n % 2 ^ 32 < 2 ^ 31 then ((n % 2 ^ 32 : Nat) : Int) else ((n % 2 ^ 32 : Nat) : Int) - 2 ^ 32

/-- The offset used for an `Item` with automatic storage (`key`, the `tmp` of
`std::swap`, the temporaries `Item(i)`): it is not inside the vector. -/
def stackItem : Int := -1

/-! ## Colours, trace events, the world -/

/-- Colours are kept as the constructor calls of `Color.hpp` that built them:
`Color(v)` (also the conversion of the literal `0`), `HSVColor(h, s, v)`, and
`HSVColor(h, s, v)` whose `white` member was overwritten. -/
inductive Color
  | plain (v : Nat)
  | hsv (hue sat val : Nat)
  | hsvWhite (hue sat val white : Nat)
  deriving DecidableEq

/-- Which routine painted: `flash_low` (normal) or `flash_high` (active). -/
inductive Level
  | low
  | high
  deriving DecidableEq

/-- External calls made by the engine, as they are recorded in the trace. -/
inductive Ev
  /-- The call `strip_.busy()` and its answer. -/
  | busy (answer : Bool)
  /-- The call `strip_.show()`: a transmit request. -/
  | stripShow
  /-- The call `strip_.setPixel(i, c)` made by `flash_low` or `flash_high`. -/
  | setPixel (lvl : Level) (i : Nat) (c : Color)
  /-- Entry into the no-argument `yield_delay()`: one pacing step. -/
  | yield
  /-- The call `delay_micros(us)`. -/
  | delay_micros (us : Nat)
  /-- The call `DelayHook()`. -/
  | delayHook
  /-- The call `SoundAccessHook(v)`. -/
  | sound (v : Nat)
  /-- The call `ComparisonCountHook(n)`. -/
  | count (n : Nat)
  deriving DecidableEq

/-- A call of one of the three static hooks of `Item`; `a`, `b` are the offsets
of the items from `array.data()`. -/
inductive Call
  /-- The call `Item::OnAccess(a, with_delay)`: an access event. -/
  | access (a : Int) (with_delay : Bool)
  /-- The call `Item::OnComparison(a, b)`: a comparison event. -/
  | comparison (a b : Int)
  /-- The call `Item::IncrementCounter()`. -/
  | counter
  deriving DecidableEq

/-- The enumeration `QuickSortPivotType`. -/
inductive QuickSortPivotType
  | PIVOT_FIRST
  | PIVOT_LAST
  | PIVOT_MID
  | PIVOT_RANDOM
  | PIVOT_MEDIAN3
  | PIVOT_SIZE
  deriving DecidableEq

/-- Process globals, LED strip and `SortAnimation` members. -/
structure World where
  /-- The `value_` of every element of the global `std::vector<Item> array`. -/
  array : List Nat
  g_terminate : Bool
  g_delay_factor : Nat
  intensity_flash_high : Nat
  /-- Whether `sort_animation_hook` is non-null (it then is the engine). -/
  sort_animation_hook : Bool
  /-- Whether `SoundAccessHook` is non-null. -/
  SoundAccessHook : Bool
  /-- Whether `DelayHook` is non-null. -/
  DelayHook : Bool
  /-- Whether `ComparisonCountHook` is non-null. -/
  ComparisonCountHook : Bool
  /-- The constant `HSV_HUE_MAX` of `Color.hpp`. -/
  HSV_HUE_MAX : Nat
  /-- The colours last set on the strip. -/
  pixels : List Color
  /-- The value of `strip_.intensity()`. -/
  intensity : Nat
  /-- The answer of the device to its `n`-th busy query. -/
  busy : Nat → Bool
  /-- Number of busy queries made so far. -/
  busy_calls : Nat
  intensity_last : Nat
  counter_value : Nat
  /-- The 256 ring slots `frame_buffer_`. -/
  frame_buffer_ : List Nat
  frame_buffer_pos_ : Nat
  frame_drop_ : Nat
  delay_time_ : Int
  enable_count_ : Bool
  /-- External calls so far, newest first. -/
  trace : List Ev
  /-- Calls of the static hooks of `Item` so far, newest first. -/
  calls : List Call
  g_quicksort_pivot : QuickSortPivotType
  /-- The outcome of the `k`-th call of the random number generator
  (`rand()` or `random(n)`). -/
  rand_stream : Nat → Nat
  /-- Number of random draws made so far. -/
  rand_calls : Nat

/-- The global `array_size`; the constructor keeps it equal to the vector's size. -/
def World.array_size (w : World) : Nat := w.array.length

/-- Record an external call. -/
def World.log (e : Ev) (w : World) : World := { w with trace := e :: w.trace }

/-! ## The LED strip (`LEDStripBase`) -/

/-- The call `strip_.setPixel(i, c)`. -/
def strip_setPixel (lvl : Level) (i : Nat) (c : Color) (w : World) : World :=
  { w with pixels := w.pixels.set i c, trace := Ev.setPixel lvl i c :: w.trace }

/-- The call `strip_.busy()`: the device answers its next query. -/
def strip_busy (w : World) : Bool × World :=
  (w.busy w.busy_calls,
   { w with busy_calls := w.busy_calls + 1, trace := Ev.busy (w.busy w.busy_calls) :: w.trace })

/-- The call `strip_.show()`. -/
def strip_show (w : World) : World := w.log Ev.stripShow

/-- The call `delay_micros(us)`. -/
def delay_micros (us : Nat) (w : World) : World := w.log (Ev.delay_micros us)

/-! ## `SortAnimation`: painting -/

/-- `uint16_t value_to_hue(size_t i) { return i * HSV_HUE_MAX / array_size; }` -/
def value_to_hue (i : Nat) (w : World) : Nat :=
  toU16 ((i * w.HSV_HUE_MAX) % SIZE_MOD / w.array_size)

/-- `SortAnimation::flash_low`. -/
def flash_low (i : Nat) (w : World) : World :=
  if w.array.getD i 0 = black then
    strip_setPixel Level.low i (Color.plain 0) w
  else
    strip_setPixel Level.low i (Color.hsv (value_to_hue (w.array.getD i 0) w) 255 w.intensity) w

/-- The brightness computed at the head of `flash_high`. -/
def intensity_high (w : World) : Nat :=
  if (w.intensity * w.intensity_flash_high) % SIZE_MOD / 100 > 255 then 255
  else (w.intensity * w.intensity_flash_high) % SIZE_MOD / 100

/-- `SortAnimation::flash_high`. -/
def flash_high (i : Nat) (w : World) : World :=
  if w.array.getD i 0 = black then
    strip_setPixel Level.high i (Color.plain (intensity_high w)) w
  else
    strip_setPixel Level.high i
      (Color.hsvWhite (value_to_hue (w.array.getD i 0) w) 255 (intensity_high w)
        (intensity_high w)) w

/-! ## `SortAnimation`: pacing -/

/-- The loop `while (remain > 100000) { delay_micros(100000); remain -= 100000; }`;
the first argument counts the iterations still allowed. -/
def yield_delay_loop : Nat → Nat → World → Nat × World
  | 0, remain, w => (remain, w)
  | fuel + 1, remain, w =>
    if remain > 100000 then yield_delay_loop fuel (remain - 100000) (delay_micros 100000 w)
    else (remain, w)

/-- The repaint loop `for (i = 0; i < array_size; ++i) flash_low(i)`. -/
def repaint_all (w : World) : World :=
  (List.range w.array_size).foldl (fun acc i => flash_low i acc) w

/-- The head of `yield_delay(int32_t)`:
`if (delay_time > 0) { ...loop...; delay_micros(remain); }`. -/
def sleep_for (delay_time : Int) (w : World) : World :=
  if delay_time > 0 then
    delay_micros (yield_delay_loop (delay_time.toNat / 100000) delay_time.toNat w).1
      (yield_delay_loop (delay_time.toNat / 100000) delay_time.toNat w).2
  else w

/-- The statement `if (DelayHook) DelayHook();`. -/
def call_DelayHook (w : World) : World :=
  if w.DelayHook then w.log Ev.delayHook else w

/-- The tail of `yield_delay(int32_t)`: a changed brightness repaints every position. -/
def intensity_check (w : World) : World :=
  if w.intensity_last ≠ w.intensity then
    repaint_all { w with intensity_last := w.intensity }
  else w

/-- `SortAnimation::yield_delay(int32_t delay_time)`. -/
def yield_delay_us (delay_time : Int) (w : World) : World :=
  intensity_check (call_DelayHook (sleep_for delay_time w))

/-- `SortAnimation::yield_delay()`. -/
def yield_delay (w : World) : World :=
  if w.delay_time_ < 0 then
    yield_delay_us w.delay_time_ (w.log Ev.yield)
  else
    yield_delay_us (toInt32 ((w.delay_time_.toNat * w.g_delay_factor) % SIZE_MOD / 1000))
      (w.log Ev.yield)

/-- The loop body `if (frame_buffer_[k] < array_size) flash_low(frame_buffer_[k]);`. -/
def restore_slot (k : Nat) (w : World) : World :=
  if w.frame_buffer_.getD k 0 < w.array_size then flash_low (w.frame_buffer_.getD k 0) w
  else w

/-- The loop `for (k = 0; k < frame_drop_; ++k) if (frame_buffer_[k] < array_size)
flash_low(frame_buffer_[k]);` shared by `flash_low_buffer` and `pflush`. -/
def restore_ring (w : World) : World :=
  (List.range w.frame_drop_).foldl (fun acc k => restore_slot k acc) w

/-- The statement `if (!strip_.busy()) strip_.show();`. -/
def show_unless_busy (w : World) : World :=
  if (strip_busy w).1 then (strip_busy w).2 else strip_show (strip_busy w).2

/-- The statement `frame_buffer_[frame_buffer_pos_] = i;`. -/
def ring_store (i : Nat) (w : World) : World :=
  { w with frame_buffer_ := w.frame_buffer_.set w.frame_buffer_pos_ i }

/-- The statement `frame_buffer_pos_ = frame_drop_ - 1;` (in `size_t`). -/
def ring_reset (w : World) : World :=
  { w with frame_buffer_pos_ := (w.frame_drop_ + SIZE_MOD - 1) % SIZE_MOD }

/-- The statement `--frame_buffer_pos_;` (reached with a non-zero counter). -/
def ring_dec (w : World) : World :=
  { w with frame_buffer_pos_ := w.frame_buffer_pos_ - 1 }

/-- `SortAnimation::flash_low_buffer`. -/
def flash_low_buffer (i : Nat) (w : World) : World :=
  if w.frame_buffer_pos_ = 0 then
    yield_delay (ring_reset (restore_ring (show_unless_busy (ring_store i w))))
  else
    ring_dec (ring_store i w)

/-- The one-position `SortAnimation::flash(size_t i, bool with_delay)`. -/
def flash (i : Nat) (with_delay : Bool) (w : World) : World :=
  if with_delay = false then flash_low i w
  else if w.frame_drop_ = 0 then
    flash_low i (yield_delay (show_unless_busy (flash_high i w)))
  else
    flash_low_buffer i (flash_high i w)

/-- The two-position `SortAnimation::flash(size_t i, size_t j, bool with_delay)`. -/
def flash2 (i j : Nat) (with_delay : Bool) (w : World) : World :=
  if with_delay = false then flash_low j (flash_low i w)
  else if w.frame_drop_ = 0 then
    flash_low i (flash_low j (yield_delay (show_unless_busy (flash_high j (flash_high i w)))))
  else
    flash_low_buffer i (flash_low_buffer j (flash_high j (flash_high i w)))

/-- `SortAnimation::pflush`. -/
def pflush (w : World) : World :=
  strip_show (yield_delay (ring_reset (restore_ring w)))

/-- The assignments of `set_delay_time` after its call of `pflush`. -/
def assign_delay_time (delay_time : Int) (w : World) : World :=
  if delay_time < 0 then
    { w with delay_time_ := delay_time,
             frame_drop_ := (-delay_time).toNat % SIZE_MOD,
             frame_buffer_pos_ := ((-delay_time).toNat % SIZE_MOD + SIZE_MOD - 1) % SIZE_MOD }
  else
    { w with delay_time_ := delay_time, frame_drop_ := 0, frame_buffer_pos_ := 0 }

/-- `SortAnimation::set_delay_time`. -/
def set_delay_time (delay_time : Int) (w : World) : World :=
  assign_delay_time delay_time (pflush w)

/-- `SortAnimation::set_enable_count`. -/
def set_enable_count (enable_count : Bool) (w : World) : World :=
  { w with enable_count_ := enable_count }

/-! ## `SortAnimation`: the event sink -/

/-- `SortAnimation::OnAccess`; `a` is the offset `a - array.data()`. -/
def SortAnimation.OnAccess (a : Int) (with_delay : Bool) (w : World) : World :=
  if a < 0 ∨ a ≥ (w.array_size : Int) then w
  else flash a.toNat with_delay w

/-- The statement `if (enable_count_) ++counter_value;`. -/
def count_up (w : World) : World :=
  if w.enable_count_ then { w with counter_value := (w.counter_value + 1) % SIZE_MOD } else w

/-- The statement `if (ComparisonCountHook) ComparisonCountHook(counter_value);`. -/
def call_ComparisonCountHook (w : World) : World :=
  if w.ComparisonCountHook then w.log (Ev.count w.counter_value) else w

/-- `SortAnimation::IncrementCounter`. -/
def SortAnimation.IncrementCounter (w : World) : World :=
  call_ComparisonCountHook (count_up w)

/-- The part of `SortAnimation::OnComparison` after `IncrementCounter()`. -/
def OnComparison_flash (a b : Int) (w : World) : World :=
  if (a ≥ 0 ∧ a < (w.array_size : Int)) ∧ (b ≥ 0 ∧ b < (w.array_size : Int)) then
    flash2 a.toNat b.toNat true w
  else if a ≥ 0 ∧ a < (w.array_size : Int) then
    flash a.toNat true w
  else if b ≥ 0 ∧ b < (w.array_size : Int) then
    flash b.toNat true w
  else w

/-- `SortAnimation::OnComparison`; `a` and `b` are offsets from `array.data()`. -/
def SortAnimation.OnComparison (a b : Int) (w : World) : World :=
  OnComparison_flash a b (SortAnimation.IncrementCounter w)

/-! ## `Item`: the global hooks -/

/-- The statement `if (SoundAccessHook) SoundAccessHook(v);`. -/
def call_SoundAccessHook (v : Nat) (w : World) : World :=
  if w.SoundAccessHook then w.log (Ev.sound v) else w

/-- Record a call of one of the static hooks of `Item`. -/
def note (c : Call) (w : World) : World := { w with calls := c :: w.calls }

/-- The body of `Item::OnAccess`: the registered sink, then the sound hook. -/
def Item.dispatch_access (a : Int) (v : Nat) (with_delay : Bool) (w : World) : World :=
  call_SoundAccessHook v (if w.sort_animation_hook then SortAnimation.OnAccess a with_delay w else w)

/-- `Item::OnAccess`; `a` is the offset of the item and `v` its `value_`. -/
def Item.OnAccess (a : Int) (v : Nat) (with_delay : Bool) (w : World) : World :=
  Item.dispatch_access a v with_delay (note (Call.access a with_delay) w)

/-- The body of `Item::OnComparison`: the registered sink, then the sound hook
for either value. -/
def Item.dispatch_comparison (a : Int) (va : Nat) (b : Int) (vb : Nat) (w : World) : World :=
  call_SoundAccessHook vb (call_SoundAccessHook va
    (if w.sort_animation_hook then SortAnimation.OnComparison a b w else w))

/-- `Item::OnComparison`; `va` and `vb` are the `value_` of the two items. -/
def Item.OnComparison (a : Int) (va : Nat) (b : Int) (vb : Nat) (w : World) : World :=
  Item.dispatch_comparison a va b vb (note (Call.comparison a b) w)

/-- The body of `Item::IncrementCounter`. -/
def Item.dispatch_counter (w : World) : World :=
  if w.sort_animation_hook then SortAnimation.IncrementCounter w else w

/-- `Item::IncrementCounter`. -/
def Item.IncrementCounter (w : World) : World :=
  Item.dispatch_counter (note Call.counter w)

/-- Write `v` into the `value_` of `array[i]`. -/
def poke (i v : Nat) (w : World) : World := { w with array := w.array.set i v }

/-- Read the `value_` of `array[i]`. -/
def peek (i : Nat) (w : World) : Nat := w.array.getD i 0

/-- Move construction `Item tmp(std::move(A[i]))` of a local from a buffer
element: the element is left `black` and the local is reported. The value
now held by `tmp` is `peek i w`. -/
def move_to_tmp (i : Nat) (w : World) : World :=
  Item.OnAccess stackItem (peek i w) true (poke i black w)

/-- Move assignment `A[i] = std::move(A[j])` between buffer elements:
`value_ = a.value_; a.value_ = black; OnAccess(this);`. -/
def move_assign (i j : Nat) (w : World) : World :=
  Item.OnAccess i (peek i (poke j black (poke i (peek j w) w))) true
    (poke j black (poke i (peek j w) w))

/-- Move assignment `A[j] = std::move(tmp)` from a local holding `v`. -/
def move_from_tmp (j v : Nat) (w : World) : World :=
  Item.OnAccess j (peek j (poke j v w)) true (poke j v w)

/-- `std::swap(A[i], A[j])` on two elements of the buffer:
`Item tmp(std::move(A[i])); A[i] = std::move(A[j]); A[j] = std::move(tmp);`. -/
def swap (i j : Nat) (w : World) : World :=
  move_from_tmp j (peek i w) (move_assign i j (move_to_tmp i w))

/-! ## Settling: `array_check` -/

/-- The comparison `array[i] != Item(i)` of `array_check`: the temporary
`Item(i)` is constructed (one access report), then `operator!=` reports the
comparison; its result is read afterwards by `array_check_step`. -/
def array_check_cmp (i : Nat) (w : World) : World :=
  Item.OnComparison i (peek i (Item.OnAccess stackItem (toU16 i) true w)) stackItem (toU16 i)
    (Item.OnAccess stackItem (toU16 i) true w)

/-- The branch `array[i] = Item(black);` of `array_check`: the temporary is
constructed (one access report) and move-assigned to `array[i]`. -/
def array_check_mark (i : Nat) (w : World) : World :=
  move_from_tmp i black (Item.OnAccess stackItem black true w)

/-- One iteration of the loop of `array_check`:
`if (array[i] != Item(i)) array[i] = Item(black);`. -/
def array_check_step (i : Nat) (w : World) : World :=
  if peek i (array_check_cmp i w) ≠ toU16 i then array_check_mark i (array_check_cmp i w)
  else array_check_cmp i w

/-- `SortAnimation::array_check`. -/
def array_check (w : World) : World :=
  (List.range w.array_size).foldl (fun acc i => array_check_step i acc) w

/-! ## Insertion sort -/

/-- The comparison `A[j] > key` of `InsertionSort`, `key` being a local that
holds `key`: the world after the comparison hook. -/
def InsertionSort_cmp (key j : Nat) (w : World) : World :=
  Item.OnComparison j (peek j w) stackItem key w

/-- The inner loop `while (j >= 0 && A[j] > key) { swap(A[j], A[j + 1]); j--; }`
of `InsertionSort`; the second argument is `j + 1`. -/
def InsertionSort_inner (key : Nat) : Nat → World → World
  | 0, w => w
  | j + 1, w =>
    if peek j (InsertionSort_cmp key j w) > key then
      InsertionSort_inner key j (swap j (j + 1) (InsertionSort_cmp key j w))
    else InsertionSort_cmp key j w

/-- The loop `for (i = ...; i < n && !g_terminate; ++i)` of `InsertionSort`;
the first argument is the number `n - i` of indices left. The body copies
`A[i]` into `key` (one access report for `key`) and runs the inner loop. -/
def InsertionSort_outer : Nat → Nat → World → World
  | 0, _, w => w
  | left + 1, i, w =>
    if w.g_terminate then w
    else
      InsertionSort_outer left (i + 1)
        (InsertionSort_inner (peek i w) i (Item.OnAccess stackItem (peek i w) true w))

/-- `void InsertionSort(Item* A, size_t n)` run on the global buffer. -/
def InsertionSort (n : Nat) (w : World) : World :=
  InsertionSort_outer (n - 1) 1 w

/-! ## Example worlds -/

/-- A strip of `xs.length` dark pixels at brightness 64 behind a buffer `xs`,
the engine members as the constructor of `SortAnimation` initialises them
before it calls `set_delay_time`, and nothing logged yet; the device answers
`dev` to its busy queries. -/
def initWorld (xs : List Nat) (dev : Nat → Bool) : World :=
  { array := xs, g_terminate := false, g_delay_factor := 1000, intensity_flash_high := 2,
    sort_animation_hook := true, SoundAccessHook := false, DelayHook := false,
    ComparisonCountHook := false, HSV_HUE_MAX := 1536,
    pixels := List.replicate xs.length (Color.plain 0), intensity := 64,
    busy := dev, busy_calls := 0, intensity_last := 64, counter_value := 0,
    frame_buffer_ := List.replicate 256 0, frame_buffer_pos_ := 0, frame_drop_ := 0,
    delay_time_ := 0, enable_count_ := true, trace := [], calls := [],
    g_quicksort_pivot := QuickSortPivotType.PIVOT_FIRST, rand_stream := fun _ => 0,
    rand_calls := 0 }

/-- The world left by the constructor `SortAnimation(strip, d)`. -/
def mkWorld (xs : List Nat) (d : Int) (dev : Nat → Bool) : World :=
  set_delay_time d (initWorld xs dev)

/-! ## Relations between worlds, used to state what a routine leaves alone -/

/-- The world `v` differs from `w` at most in the device shadow state
(`pixels`, `busy_calls`, `trace`), in `intensity_last` and in the ring
(`frame_buffer_`, `frame_buffer_pos_`). -/
structure Frame (w v : World) : Prop where
  array : v.array = w.array
  g_terminate : v.g_terminate = w.g_terminate
  g_delay_factor : v.g_delay_factor = w.g_delay_factor
  intensity_flash_high : v.intensity_flash_high = w.intensity_flash_high
  sort_animation_hook : v.sort_animation_hook = w.sort_animation_hook
  SoundAccessHook : v.SoundAccessHook = w.SoundAccessHook
  DelayHook : v.DelayHook = w.DelayHook
  ComparisonCountHook : v.ComparisonCountHook = w.ComparisonCountHook
  HSV_HUE_MAX : v.HSV_HUE_MAX = w.HSV_HUE_MAX
  intensity : v.intensity = w.intensity
  busy : v.busy = w.busy
  counter_value : v.counter_value = w.counter_value
  frame_drop_ : v.frame_drop_ = w.frame_drop_
  delay_time_ : v.delay_time_ = w.delay_time_
  enable_count_ : v.enable_count_ = w.enable_count_
  pixels_length : v.pixels.length = w.pixels.length
  g_quicksort_pivot : v.g_quicksort_pivot = w.g_quicksort_pivot
  rand_stream : v.rand_stream = w.rand_stream
  rand_calls : v.rand_calls = w.rand_calls
  calls : v.calls = w.calls


/-- Number of transmit requests (`strip_.show()` calls) made so far. -/
def shows (w : World) : Nat := w.trace.count Ev.stripShow

/-- Number of pacing steps (calls of the no-argument `yield_delay`) so far. -/
def yields (w : World) : Nat := w.trace.count Ev.yield

/-- Every `strip_.show()` of the trace directly follows a busy query that
answered `false` (the trace is newest first). -/
def guardedShows : List Ev → Bool
  | [] => true
  | e :: t => (e != Ev.stripShow || t.head? == some (Ev.busy false)) && guardedShows t

/-- The routine (`flash_low` or `flash_high`) that painted position `p` most recently. -/
def lastPaint : List Ev → Nat → Option Level
  | [], _ => none
  | Ev.setPixel l i _ :: t, p => if i = p then some l else lastPaint t p
  | Ev.busy _ :: t, p => lastPaint t p
  | Ev.stripShow :: t, p => lastPaint t p
  | Ev.yield :: t, p => lastPaint t p
  | Ev.delay_micros _ :: t, p => lastPaint t p
  | Ev.delayHook :: t, p => lastPaint t p
  | Ev.sound _ :: t, p => lastPaint t p
  | Ev.count _ :: t, p => lastPaint t p

/-- The colour `flash_low(i)` paints in the world `w`. -/
def low_color (i : Nat) (w : World) : Color :=
  if w.array.getD i 0 = black then Color.plain 0
  else Color.hsv (value_to_hue (w.array.getD i 0) w) 255 w.intensity

/-- Pixel `q` shows the normal-intensity colour of the value now at `array[q]`. -/
def Settled (w : World) (q : Nat) : Prop :=
  ∀ c, w.pixels[q]? = some c → c = low_color q w

/-- Position `q` needs a repaint: its most recent paint was an active one,
or (watched only when `m` is set) its pixel is not the normal-intensity
colour of `array[q]`. -/
def Hot (m : Bool) (w : World) (q : Nat) : Prop :=
  lastPaint w.trace q = some Level.high ∨ (m = true ∧ q < w.array_size ∧ ¬ Settled w q)

/-- Position `q` is recorded in a ring slot that the next flush will replay:
the slots above the ring counter, below `frame_drop_`. -/
def Pend (w : World) (q : Nat) : Prop :=
  ∃ s, w.frame_buffer_pos_ < s ∧ s < w.frame_drop_ ∧ w.frame_buffer_.getD s 0 = q

/-- Events that are neither a transmit request, nor a pacing step, nor a busy
query, nor an active-intensity paint. -/
def Calm (es : List Ev) : Prop :=
  ∀ e ∈ es, e ≠ Ev.stripShow ∧ e ≠ Ev.yield ∧ (∀ b, e ≠ Ev.busy b) ∧
    (∀ i c, e ≠ Ev.setPixel Level.high i c)

/-- The world `v` comes from `w` by normal-intensity repaints and sleeps only:
the ring and the busy-query count are untouched, the calls logged are calm,
and no position became hot. -/
structure Quiet (w v : World) : Prop where
  frame : Frame w v
  frame_buffer_ : v.frame_buffer_ = w.frame_buffer_
  frame_buffer_pos_ : v.frame_buffer_pos_ = w.frame_buffer_pos_
  busy_calls : v.busy_calls = w.busy_calls
  trace : ∃ es, v.trace = es ++ w.trace ∧ Calm es
  cool : ∀ m q, Hot m v q → Hot m w q

/-- The ring invariant of the engine in frame-drop mode with `frame_drop_ = k`:
the counter is below `k`, `k` fits the 256 slots, and the slots that await
the next flush hold positions of the buffer. -/
structure RingOK (k : Nat) (w : World) : Prop where
  drop : w.frame_drop_ = k
  pos_k : 1 ≤ k
  pos : w.frame_buffer_pos_ < k
  fits : k ≤ 256
  slots : w.frame_buffer_.length = 256
  inRange : ∀ s, w.frame_buffer_pos_ < s → s < k → w.frame_buffer_.getD s 0 < w.array_size

/-- The engine is in direct mode, or in frame-drop mode with a sound ring. -/
def EngineOK (w : World) : Prop :=
  w.frame_drop_ = 0 ∨ ∃ k, RingOK k w

/-- Every hot position is recorded in the ring for the next flush, except
possibly the positions singled out by `P`. -/
def Tidy (m : Bool) (P : Nat → Prop) (w : World) : Prop :=
  ∀ q, Hot m w q → Pend w q ∨ P q

/-- A paced flash event, as `OnAccess` and `OnComparison` issue them. -/
inductive FlashEvent
  | one (i : Nat)
  | two (i j : Nat)
  deriving DecidableEq

/-- The engine call of a paced flash event. -/
def FlashEvent.run : FlashEvent → World → World
  | FlashEvent.one i, w => flash i true w
  | FlashEvent.two i j, w => flash2 i j true w

/-- Number of ring records (`flash_low_buffer` calls) of an event in frame-drop mode. -/
def FlashEvent.records : FlashEvent → Nat
  | FlashEvent.one _ => 1
  | FlashEvent.two _ _ => 2

/-- All positions of the event are inside a buffer of `n` elements. -/
def FlashEvent.inRange (n : Nat) : FlashEvent → Prop
  | FlashEvent.one i => i < n
  | FlashEvent.two i j => i < n ∧ j < n

/-- The positions an event flashes. -/
def FlashEvent.positions : FlashEvent → List Nat
  | FlashEvent.one i => [i]
  | FlashEvent.two i j => [i, j]

/-- Process a sequence of paced flash events, oldest first. -/
def run_events (es : List FlashEvent) (w : World) : World :=
  es.foldl (fun acc e => e.run acc) w

/-- Total number of ring records of a sequence of events. -/
def total_records (es : List FlashEvent) : Nat :=
  (es.map FlashEvent.records).sum

/-- The colour `flash_high(i)` paints in the world `w`. -/
def high_color (i : Nat) (w : World) : Color :=
  if w.array.getD i 0 = black then Color.plain (intensity_high w)
  else Color.hsvWhite (value_to_hue (w.array.getD i 0) w) 255 (intensity_high w) (intensity_high w)

/-- The buffer of the example scenario of the specification. -/
def exBuffer : List Nat := [3, 1, 4, 0, 2, 6, 5, 7]

/-- Direct mode (`D = 0`), the device always idle. -/
def exDirectIdle : World := mkWorld exBuffer 0 (fun _ => false)

/-- Direct mode (`D = 0`), the device always busy. -/
def exDirectBusy : World := mkWorld exBuffer 0 (fun _ => true)

/-- Frame-drop mode with `drop = 1`, the device always idle. -/
def exDrop1 : World := mkWorld exBuffer (-1) (fun _ => false)

/-- Frame-drop mode with `drop = 4`, the device always idle. -/
def exDrop4 : World := mkWorld exBuffer (-4) (fun _ => false)

/-- As `Frame`, but the comparison counter may differ as well. -/
structure Steady (w v : World) : Prop where
  array : v.array = w.array
  g_terminate : v.g_terminate = w.g_terminate
  g_delay_factor : v.g_delay_factor = w.g_delay_factor
  intensity_flash_high : v.intensity_flash_high = w.intensity_flash_high
  sort_animation_hook : v.sort_animation_hook = w.sort_animation_hook
  SoundAccessHook : v.SoundAccessHook = w.SoundAccessHook
  DelayHook : v.DelayHook = w.DelayHook
  ComparisonCountHook : v.ComparisonCountHook = w.ComparisonCountHook
  HSV_HUE_MAX : v.HSV_HUE_MAX = w.HSV_HUE_MAX
  intensity : v.intensity = w.intensity
  busy : v.busy = w.busy
  frame_drop_ : v.frame_drop_ = w.frame_drop_
  delay_time_ : v.delay_time_ = w.delay_time_
  enable_count_ : v.enable_count_ = w.enable_count_
  pixels_length : v.pixels.length = w.pixels.length
  g_quicksort_pivot : v.g_quicksort_pivot = w.g_quicksort_pivot
  rand_stream : v.rand_stream = w.rand_stream
  rand_calls : v.rand_calls = w.rand_calls

/-- What one iteration of `array_check` does to the buffer values. -/
def check_list (A : List Nat) (i : Nat) : List Nat :=
  if A.getD i 0 ≠ toU16 i then A.set i black else A

/-- What `std::swap(A[i], A[j])` does to the buffer values: the three moves,
each leaving `black` in its source. -/
def swap_list (A : List Nat) (i j : Nat) : List Nat :=
  (((A.set i black).set i ((A.set i black).getD j 0)).set j black).set j (A.getD i 0)

/-- The log of `v` extends the log of `w`. -/
def Grows (w v : World) : Prop := ∃ es, v.trace = es ++ w.trace

/-- The world `v` differs from `w` only in the comparison counter, in the
busy-query count, in `intensity_last` and by logged calls that are not paints. -/
structure Silent (w v : World) : Prop where
  steady : Steady w v
  pixels : v.pixels = w.pixels
  frame_buffer_ : v.frame_buffer_ = w.frame_buffer_
  frame_buffer_pos_ : v.frame_buffer_pos_ = w.frame_buffer_pos_
  paints : ∀ q, lastPaint v.trace q = lastPaint w.trace q
  grows : Grows w v

/-- The positions flashed by a sequence of events. -/
def touched : List FlashEvent → List Nat
  | [] => []
  | e :: es => e.positions ++ touched es

/-- Position `q` has been painted at least once. -/
def Seen (w : World) (q : Nat) : Prop := lastPaint w.trace q ≠ none


/-! ## `Item`: the operations

An item is named by its offset from `array.data()`.  The `value_` of a buffer
element lives in `World.array`; the `value_` of any other item (a local, a
temporary, an element of a scratch array) is held by the code that owns it and
is passed to the operation. -/

/-- Write `v` into the `value_` of the item at offset `a`, when that item is an
element of the buffer. -/
def store (a : Int) (v : Nat) (w : World) : World :=
  if 0 ≤ a ∧ a < (w.array_size : Int) then poke a.toNat v w else w

/-- `Item(const value_type& d)` for the item at offset `self`. -/
def Item.construct (self : Int) (d : Nat) (w : World) : World :=
  Item.OnAccess self (toU16 d) true (store self (toU16 d) w)

/-- `Item(const Item& v)`; `v` is the `value_` of the source. -/
def Item.copy_construct (self : Int) (v : Nat) (w : World) : World :=
  Item.OnAccess self v true (store self v w)

/-- `Item(Item&& v)`; `src` is the offset of the source and `v` its `value_`. -/
def Item.move_construct (self src : Int) (v : Nat) (w : World) : World :=
  Item.OnAccess self v true (store src black (store self v w))

/-- `operator = (const Item& a)`; `v` is the `value_` of the source. -/
def Item.copy_assign (self : Int) (v : Nat) (w : World) : World :=
  Item.OnAccess self v true (store self v w)

/-- `operator = (Item&& a)`; `src` is the offset of the source and `v` its
`value_`.  Moving an item onto itself leaves it `black`. -/
def Item.move_assign (self src : Int) (v : Nat) (w : World) : World :=
  Item.OnAccess self (if self = src then black else v) true (store src black (store self v w))

/-- `operator ++ (int)`; `v` is the `value_` before the call. -/
def Item.post_increment (self : Int) (v : Nat) (w : World) : World :=
  Item.OnAccess self (toU16 (v + 1)) true (store self (toU16 (v + 1)) w)

/-- `operator -- (int)`; `v` is the `value_` before the call. -/
def Item.post_decrement (self : Int) (v : Nat) (w : World) : World :=
  Item.OnAccess self (toU16 (v + 65535)) true (store self (toU16 (v + 65535)) w)

/-- `SetNoDelay(const value_type& d)`. -/
def Item.SetNoDelay (self : Int) (d : Nat) (w : World) : World :=
  Item.OnAccess self (toU16 d) false (store self (toU16 d) w)

/-- `SetNoDelay(const Item& a)`; `v` is the `value_` of the source. -/
def Item.SetNoDelay_item (self : Int) (v : Nat) (w : World) : World :=
  Item.OnAccess self v false (store self v w)

/-- `value()`; `v` is the `value_` of the item. -/
def Item.value (self : Int) (v : Nat) (w : World) : Nat × World :=
  (v, Item.OnAccess self v true w)

/-- `operator ==`; `va`, `vb` are the `value_` of `*this` and of the argument. -/
def Item.eq (a : Int) (va : Nat) (b : Int) (vb : Nat) (w : World) : Bool × World :=
  (decide (va = vb), Item.OnComparison a va b vb w)

/-- `operator !=`. -/
def Item.ne (a : Int) (va : Nat) (b : Int) (vb : Nat) (w : World) : Bool × World :=
  (decide (va ≠ vb), Item.OnComparison a va b vb w)

/-- `operator <`. -/
def Item.lt (a : Int) (va : Nat) (b : Int) (vb : Nat) (w : World) : Bool × World :=
  (decide (va < vb), Item.OnComparison a va b vb w)

/-- `operator <=`. -/
def Item.le (a : Int) (va : Nat) (b : Int) (vb : Nat) (w : World) : Bool × World :=
  (decide (va ≤ vb), Item.OnComparison a va b vb w)

/-- `operator >`. -/
def Item.gt (a : Int) (va : Nat) (b : Int) (vb : Nat) (w : World) : Bool × World :=
  (decide (va > vb), Item.OnComparison a va b vb w)

/-- `operator >=`. -/
def Item.ge (a : Int) (va : Nat) (b : Int) (vb : Nat) (w : World) : Bool × World :=
  (decide (va ≥ vb), Item.OnComparison a va b vb w)

/-- `cmp`: the ternary comparison. -/
def Item.cmp (a : Int) (va : Nat) (b : Int) (vb : Nat) (w : World) : Int × World :=
  (if va = vb then 0 else if va < vb then -1 else 1, Item.OnComparison a va b vb w)

/-- `equal_direct`. -/
def Item.equal_direct (va vb : Nat) (w : World) : Bool × World := (decide (va = vb), w)

/-- `less_direct`. -/
def Item.less_direct (va vb : Nat) (w : World) : Bool × World := (decide (va < vb), w)

/-- `greater_direct`. -/
def Item.greater_direct (va vb : Nat) (w : World) : Bool × World := (decide (va > vb), w)

/-! ## CycleSort -/

/-- The body of the rank-finding loop of `CycleSort` at index `i`:
`if (A[i].less_direct(item)) rank++; A[i].IncrementCounter();`, where `item`
is the reference `A[cycleStart]`. -/
def CycleSort_scan_step (cycleStart i rank : Nat) (w : World) : Nat × World :=
  (if (Item.less_direct (peek i w) (peek cycleStart w) w).1 then rank + 1 else rank,
    Item.IncrementCounter (Item.less_direct (peek i w) (peek cycleStart w) w).2)

/-- The rank-finding loop `for (i = cycleStart + 1; i < n; ++i)`, with the
number of iterations left as first argument. -/
def CycleSort_scan (cycleStart : Nat) : Nat → Nat → Nat → World → Nat × World
  | 0, _, rank, w => (rank, w)
  | c + 1, i, rank, w =>
      CycleSort_scan cycleStart c (i + 1) (CycleSort_scan_step cycleStart i rank w).1
        (CycleSort_scan_step cycleStart i rank w).2

/-- The rank-finding scan of `CycleSort`: `rank = cycleStart;` and the loop
over the elements after `cycleStart`. -/
def CycleSort_rank (n cycleStart : Nat) (w : World) : Nat × World :=
  CycleSort_scan cycleStart (n - (cycleStart + 1)) (cycleStart + 1) cycleStart w

/-- The loop `while (item == A[rank]) rank++;`; `none` when the fuel is used up. -/
def CycleSort_skip (cycleStart : Nat) : Nat → Nat → World → Option (Nat × World)
  | 0, _, _ => none
  | f + 1, rank, w =>
      if (Item.eq cycleStart (peek cycleStart w) rank (peek rank w) w).1 then
        CycleSort_skip cycleStart f (rank + 1)
          (Item.eq cycleStart (peek cycleStart w) rank (peek rank w) w).2
      else some (rank, (Item.eq cycleStart (peek cycleStart w) rank (peek rank w) w).2)

/-- The end of one round of the `do ... while (rank != cycleStart)` loop, after
the scan found `rank`: skip duplicates, swap, and say whether to go on. -/
def CycleSort_place (n cycleStart rank : Nat) (w : World) : Option (Bool × World) :=
  match CycleSort_skip cycleStart n rank w with
  | none => none
  | some r => some (decide (r.1 ≠ cycleStart), swap r.1 cycleStart r.2)

/-- The `do ... while (rank != cycleStart)` loop of `CycleSort`; `none` when
the fuel is used up. -/
def CycleSort_cycle (n cycleStart : Nat) : Nat → World → Option World
  | 0, _ => none
  | f + 1, w =>
      if (CycleSort_rank n cycleStart w).1 = cycleStart then
        some (CycleSort_rank n cycleStart w).2
      else
        match CycleSort_place n cycleStart (CycleSort_rank n cycleStart w).1
            (CycleSort_rank n cycleStart w).2 with
        | none => none
        | some r => if r.1 then CycleSort_cycle n cycleStart f r.2 else some r.2

/-- The loop `for (cycleStart = 0; cycleStart + 1 < n; ++cycleStart)`, with the
number of iterations left as first argument. -/
def CycleSort_outer (n : Nat) : Nat → Nat → World → Option World
  | 0, _, w => some w
  | c + 1, cycleStart, w =>
      match CycleSort_cycle n cycleStart (n + 1) w with
      | none => none
      | some w1 => CycleSort_outer n c (cycleStart + 1) w1

/-- `CycleSort(A, n)`. -/
def CycleSort (n : Nat) (w : World) : Option World :=
  CycleSort_outer n (n - 1) 0 w

/-- Number of hook calls that the sink charges to the comparison counter:
the comparison events and the direct counter increments. -/
def charges (cs : List Call) : Nat :=
  (cs.filter (fun c => match c with
    | Call.comparison _ _ => true
    | Call.counter => true
    | Call.access _ _ => false)).length

/-- Number of comparison events among the hook calls. -/
def comparisons (cs : List Call) : Nat :=
  (cs.filter (fun c => match c with
    | Call.comparison _ _ => true
    | _ => false)).length

/-- Number of direct counter increments among the hook calls. -/
def increments (cs : List Call) : Nat := cs.count Call.counter

/-- The comparison counter of `v` is that of `w` plus the number of charged
hook calls recorded in between (modulo 2^64); the sink and its counting switch
are the same. -/
def Charged (w v : World) : Prop :=
  v.sort_animation_hook = w.sort_animation_hook ∧ v.enable_count_ = w.enable_count_ ∧
    (w.counter_value < SIZE_MOD → v.counter_value < SIZE_MOD) ∧
    ∃ d, v.calls = d ++ w.calls ∧
      v.counter_value % SIZE_MOD = (w.counter_value + charges d) % SIZE_MOD

/-! ## The setup shuffle -/

/-- `SwapNoDelay(Item& a)` called on `array[self]` with the argument `array[a]`:
`Item tmp; tmp.SetNoDelay(a); a.SetNoDelay(*this); SetNoDelay(tmp);`. -/
def Item.SwapNoDelay (self a : Nat) (w : World) : World :=
  Item.SetNoDelay_item self (peek a w)
    (Item.SetNoDelay_item a (peek self (Item.SetNoDelay_item stackItem (peek a w) w))
      (Item.SetNoDelay_item stackItem (peek a w) w))

/-- A call `random(n)` or `rand()` of the random number generator: the next
outcome of the stream. -/
def random (w : World) : Nat × World :=
  (w.rand_stream w.rand_calls, { w with rand_calls := w.rand_calls + 1 })

/-- The first loop of `array_randomize`: `array[i].SetNoDelay(i)` for every
`i`, with the number of iterations left as first argument. -/
def array_randomize_fill : Nat → Nat → World → World
  | 0, _, w => w
  | c + 1, i, w => array_randomize_fill c (i + 1) (Item.SetNoDelay i i w)

/-- The body of the second loop of `array_randomize`:
`j = random(array_size); array[i].SwapNoDelay(array[j]);`. -/
def array_randomize_step (i : Nat) (w : World) : World :=
  Item.SwapNoDelay i (random w).1 (random w).2

/-- The second loop of `array_randomize`, with the number of iterations left
as first argument. -/
def array_randomize_shuffle : Nat → Nat → World → World
  | 0, _, w => w
  | c + 1, i, w => array_randomize_shuffle c (i + 1) (array_randomize_step i w)

/-- `SortAnimation::array_randomize`. -/
def array_randomize (w : World) : World :=
  array_randomize_shuffle w.array_size 0 (array_randomize_fill w.array_size 0 w)

/-- The buffer that `array_randomize` leaves on `n` elements when the random
number generator answers with `draws`, in this order. -/
def shuffle_of (n : Nat) (draws : List Nat) : List Nat :=
  (array_randomize
    { initWorld (List.replicate n 0) (fun _ => false) with
      rand_stream := fun k => draws.getD k 0 }).array

/-- All sequences of `k` draws from `0..n-1`. -/
def draw_sequences (n : Nat) : Nat → List (List Nat)
  | 0 => [[]]
  | k + 1 => (List.range n).flatMap (fun j => (draw_sequences n k).map (fun ds => j :: ds))

/-- Number of sequences of `n` draws from `0..n-1` for which `array_randomize`
leaves the buffer `p` on `n` elements. -/
def shuffle_count (n : Nat) (p : List Nat) : Nat :=
  ((draw_sequences n n).filter (fun ds => decide (shuffle_of n ds = p))).length

/-! ## Merge sort -/

/-- The loop variables of `Merge`: the two read indices, the scratch array
`out` filled so far (`o` is its length), and the state `s` (the world, or just
the buffer values). -/
structure MergeState (σ : Type) where
  i : Nat
  j : Nat
  out : List Nat
  s : σ

/-- The statement `out[o++] = std::move(A[k])`: a move assignment to a scratch
item, which is not in the buffer. -/
def Merge_take (k : Nat) (out : List Nat) (w : World) : List Nat × World :=
  (out ++ [peek k w], Item.move_assign stackItem k (peek k w) w)

/-- The loop `while (i < mid && j < hi && !g_terminate)` of `Merge`; the first
argument bounds the number of iterations by the elements left in both runs. -/
def Merge_main (mid hi : Nat) : Nat → Nat → Nat → List Nat → World → MergeState World
  | 0, i, j, out, w => ⟨i, j, out, w⟩
  | c + 1, i, j, out, w =>
      if i < mid ∧ j < hi ∧ w.g_terminate = false then
        if (Item.lt i (peek i w) j (peek j w) w).1 then
          Merge_main mid hi c (i + 1) j
            (Merge_take i out (Item.lt i (peek i w) j (peek j w) w).2).1
            (Merge_take i out (Item.lt i (peek i w) j (peek j w) w).2).2
        else
          Merge_main mid hi c i (j + 1)
            (Merge_take j out (Item.lt i (peek i w) j (peek j w) w).2).1
            (Merge_take j out (Item.lt i (peek i w) j (peek j w) w).2).2
      else ⟨i, j, out, w⟩

/-- The loops `while (k < end) out[o++] = std::move(A[k++]);` of `Merge`, with
the number of iterations as first argument. -/
def Merge_rest : Nat → Nat → List Nat → World → List Nat × World
  | 0, _, out, w => (out, w)
  | c + 1, k, out, w => Merge_rest c (k + 1) (Merge_take k out w).1 (Merge_take k out w).2

/-- The two "copy rest" loops of `Merge`, from the state left by the main loop. -/
def Merge_rests (mid hi : Nat) (s : MergeState World) : List Nat × World :=
  Merge_rest (hi - s.j) s.j (Merge_rest (mid - s.i) s.i s.out s.s).1
    (Merge_rest (mid - s.i) s.i s.out s.s).2

/-- The first half of `Merge`: every element of both runs is moved to the
scratch array `out`. -/
def Merge_gather (lo mid hi : Nat) (w : World) : List Nat × World :=
  Merge_rests mid hi (Merge_main mid hi ((mid - lo) + (hi - mid)) lo mid [] w)

/-- The loop `for (i = 0; i < hi - lo && !g_terminate; ++i) A[lo + i] =
std::move(out[i]);`, with the number of iterations left as first argument. -/
def Merge_back (lo : Nat) : Nat → Nat → List Nat → World → List Nat × World
  | 0, _, out, w => (out, w)
  | c + 1, i, out, w =>
      if w.g_terminate = false then
        Merge_back lo c (i + 1) (out.set i black)
          (Item.move_assign (lo + i : Nat) stackItem (out.getD i 0) w)
      else (out, w)

/-- `Merge(A, lo, mid, hi)`. -/
def Merge (lo mid hi : Nat) (w : World) : World :=
  (Merge_back lo (hi - lo) 0 (Merge_gather lo mid hi w).1 (Merge_gather lo mid hi w).2).2

/-- `MergeSort(A, lo, hi)`; the first argument bounds the depth of the
recursion, `none` when it is used up. -/
def MergeSort_rec : Nat → Nat → Nat → World → Option World
  | 0, _, _, _ => none
  | f + 1, lo, hi, w =>
      if w.g_terminate then some w
      else if lo + 1 < hi then
        (MergeSort_rec f lo ((lo + hi) / 2) w).bind (fun w1 =>
          (MergeSort_rec f ((lo + hi) / 2) hi w1).bind (fun w2 =>
            some (Merge lo ((lo + hi) / 2) hi w2)))
      else some w

/-- `MergeSort(A, n)`. -/
def MergeSort (n : Nat) (w : World) : Option World := MergeSort_rec (n + 1) 0 n w

/-! ### What merge sort does to the buffer values -/

/-- What `out[o++] = std::move(A[k])` does to the scratch array and the buffer. -/
def take_list (k : Nat) (out A : List Nat) : List Nat × List Nat :=
  (out ++ [A.getD k 0], A.set k black)

/-- The main loop of `Merge` on the buffer values (cancellation flag clear). -/
def Merge_main_list (mid hi : Nat) : Nat → Nat → Nat → List Nat → List Nat →
    MergeState (List Nat)
  | 0, i, j, out, A => ⟨i, j, out, A⟩
  | c + 1, i, j, out, A =>
      if i < mid ∧ j < hi then
        if A.getD i 0 < A.getD j 0 then
          Merge_main_list mid hi c (i + 1) j (take_list i out A).1 (take_list i out A).2
        else
          Merge_main_list mid hi c i (j + 1) (take_list j out A).1 (take_list j out A).2
      else ⟨i, j, out, A⟩

/-- A "copy rest" loop of `Merge` on the buffer values. -/
def Merge_rest_list : Nat → Nat → List Nat → List Nat → List Nat × List Nat
  | 0, _, out, A => (out, A)
  | c + 1, k, out, A => Merge_rest_list c (k + 1) (take_list k out A).1 (take_list k out A).2

/-- Both "copy rest" loops of `Merge` on the buffer values. -/
def Merge_rests_list (mid hi : Nat) (s : MergeState (List Nat)) : List Nat × List Nat :=
  Merge_rest_list (hi - s.j) s.j (Merge_rest_list (mid - s.i) s.i s.out s.s).1
    (Merge_rest_list (mid - s.i) s.i s.out s.s).2

/-- The first half of `Merge` on the buffer values. -/
def Merge_gather_list (lo mid hi : Nat) (A : List Nat) : List Nat × List Nat :=
  Merge_rests_list mid hi (Merge_main_list mid hi ((mid - lo) + (hi - mid)) lo mid [] A)

/-- The "copy back" loop of `Merge` on the buffer values. -/
def Merge_back_list (lo : Nat) : Nat → Nat → List Nat → List Nat → List Nat × List Nat
  | 0, _, out, A => (out, A)
  | c + 1, i, out, A =>
      Merge_back_list lo c (i + 1) (out.set i black) (A.set (lo + i) (out.getD i 0))

/-- `Merge` on the buffer values. -/
def Merge_list (lo mid hi : Nat) (A : List Nat) : List Nat :=
  (Merge_back_list lo (hi - lo) 0 (Merge_gather_list lo mid hi A).1
    (Merge_gather_list lo mid hi A).2).2

/-- `MergeSort(A, lo, hi)` on the buffer values. -/
def MergeSort_list : Nat → Nat → Nat → List Nat → Option (List Nat)
  | 0, _, _, _ => none
  | f + 1, lo, hi, A =>
      if lo + 1 < hi then
        (MergeSort_list f lo ((lo + hi) / 2) A).bind (fun A1 =>
          (MergeSort_list f ((lo + hi) / 2) hi A1).bind (fun A2 =>
            some (Merge_list lo ((lo + hi) / 2) hi A2)))
      else some A

/-- The merge of two runs as `Merge` forms it: the head of the left run goes
first when it is smaller than the head of the right run. -/
def merge_runs : List Nat → List Nat → List Nat
  | [], r => r
  | a :: l, [] => a :: l
  | a :: l, b :: r =>
      if a < b then a :: merge_runs l (b :: r) else b :: merge_runs (a :: l) r

/-- The loop variables of `Merge` with the world reduced to the buffer values. -/
def MergeState.data (s : MergeState World) : MergeState (List Nat) :=
  ⟨s.i, s.j, s.out, s.s.array⟩

/-! ## Cocktail shaker sort -/

/-- The body of both passes of `CocktailShakerSort` at the adjacent pair
`(k, k + 1)`: `if (A[k] > A[k + 1]) swap(A[k], A[k + 1]);`, with the outcome of
the comparison. -/
def Cocktail_step (k : Nat) (w : World) : Bool × World :=
  ((Item.gt k (peek k w) (k + 1 : Nat) (peek (k + 1) w) w).1,
    if (Item.gt k (peek k w) (k + 1 : Nat) (peek (k + 1) w) w).1 then
      swap k (k + 1) (Item.gt k (peek k w) (k + 1 : Nat) (peek (k + 1) w) w).2
    else (Item.gt k (peek k w) (k + 1 : Nat) (peek (k + 1) w) w).2)

/-- The downward pass `for (i = hi; i > lo; --i)`: the first argument is
`i - lo`, the second the variable `mov`. -/
def Cocktail_down (lo : Nat) : Nat → Nat → World → Nat × World
  | 0, mov, w => (mov, w)
  | c + 1, mov, w =>
      Cocktail_down lo c (if (Cocktail_step (lo + c) w).1 then lo + c + 1 else mov)
        (Cocktail_step (lo + c) w).2

/-- The upward pass `for (i = lo; i < hi; ++i)`: the first argument is
`hi - i`, then `i` and the variable `mov`. -/
def Cocktail_up : Nat → Nat → Nat → World → Nat × World
  | 0, _, mov, w => (mov, w)
  | c + 1, i, mov, w =>
      Cocktail_up c (i + 1) (if (Cocktail_step i w).1 then i else mov) (Cocktail_step i w).2

/-- The upward pass of one round, from the result of the downward pass:
`lo = mov;` and the loop. -/
def Cocktail_round_up (hi : Nat) (d : Nat × World) : Nat × World :=
  Cocktail_up (hi - d.1) d.1 d.1 d.2

/-- The loop `while (lo < hi)` of `CocktailShakerSort`; `none` when the fuel is
used up. -/
def Cocktail_while : Nat → Nat → Nat → Nat → World → Option World
  | 0, lo, hi, _, w => if lo < hi then none else some w
  | f + 1, lo, hi, mov, w =>
      if lo < hi then
        Cocktail_while f (Cocktail_down lo (hi - lo) mov w).1
          (Cocktail_round_up hi (Cocktail_down lo (hi - lo) mov w)).1
          (Cocktail_round_up hi (Cocktail_down lo (hi - lo) mov w)).1
          (Cocktail_round_up hi (Cocktail_down lo (hi - lo) mov w)).2
      else some w

/-- `CocktailShakerSort(A, n)`; `hi = n - 1` is computed in `size_t`. -/
def CocktailShakerSort (n : Nat) (w : World) : Option World :=
  Cocktail_while n 0 ((n + SIZE_MOD - 1) % SIZE_MOD) 0 w

/-! ### What cocktail shaker sort does to the buffer values -/

/-- The body of both passes on the buffer values. -/
def Cocktail_step_list (k : Nat) (A : List Nat) : Bool × List Nat :=
  (decide (A.getD k 0 > A.getD (k + 1) 0),
    if A.getD k 0 > A.getD (k + 1) 0 then swap_list A k (k + 1) else A)

/-- The downward pass on the buffer values. -/
def Cocktail_down_list (lo : Nat) : Nat → Nat → List Nat → Nat × List Nat
  | 0, mov, A => (mov, A)
  | c + 1, mov, A =>
      Cocktail_down_list lo c (if (Cocktail_step_list (lo + c) A).1 then lo + c + 1 else mov)
        (Cocktail_step_list (lo + c) A).2

/-- The upward pass on the buffer values. -/
def Cocktail_up_list : Nat → Nat → Nat → List Nat → Nat × List Nat
  | 0, _, mov, A => (mov, A)
  | c + 1, i, mov, A =>
      Cocktail_up_list c (i + 1) (if (Cocktail_step_list i A).1 then i else mov)
        (Cocktail_step_list i A).2

/-- The upward pass of one round on the buffer values. -/
def Cocktail_round_up_list (hi : Nat) (d : Nat × List Nat) : Nat × List Nat :=
  Cocktail_up_list (hi - d.1) d.1 d.1 d.2

/-- The loop `while (lo < hi)` on the buffer values. -/
def Cocktail_while_list : Nat → Nat → Nat → Nat → List Nat → Option (List Nat)
  | 0, lo, hi, _, A => if lo < hi then none else some A
  | f + 1, lo, hi, mov, A =>
      if lo < hi then
        Cocktail_while_list f (Cocktail_down_list lo (hi - lo) mov A).1
          (Cocktail_round_up_list hi (Cocktail_down_list lo (hi - lo) mov A)).1
          (Cocktail_round_up_list hi (Cocktail_down_list lo (hi - lo) mov A)).1
          (Cocktail_round_up_list hi (Cocktail_down_list lo (hi - lo) mov A)).2
      else some A

/-- Every element before position `lo` is at most every element after it. -/
def Low (lo : Nat) (A : List Nat) : Prop :=
  ∀ a b, a < lo → a < b → b < A.length → A.getD a 0 ≤ A.getD b 0

/-- Every element after position `hi` is at least every element before it. -/
def High (hi : Nat) (A : List Nat) : Prop :=
  ∀ a b, hi < b → b < A.length → a < b → A.getD a 0 ≤ A.getD b 0

/-- Every position outside the window `lo..hi` holds its final value. -/
def Placed (lo hi : Nat) (A : List Nat) : Prop :=
  ∀ k, k < A.length → k < lo ∨ hi < k → A.getD k 0 = k

/-! ## Heap sort

Every use of an index of the buffer is checked against `array_size`: the
result is `none` when an index outside the buffer is used, or when the fuel of
a loop is used up. -/

/-- The statement `if (child + 1 < n && A[child + 1] > A[child]) child++;` of
the sift loop. -/
def HeapSort_pick (n child : Nat) (w : World) : Option (Nat × World) :=
  if child + 1 < n then
    if child + 1 < w.array_size then
      some
        (if (Item.gt (child + 1 : Nat) (peek (child + 1) w) child (peek child w) w).1
          then child + 1 else child,
        (Item.gt (child + 1 : Nat) (peek (child + 1) w) child (peek child w) w).2)
    else none
  else some (child, w)

/-- The sift loop `while (child < n)` of `HeapSort`, from the state with the
given `parent` and `child`. -/
def HeapSort_sift (n : Nat) : Nat → Nat → Nat → World → Option World
  | 0, _, child, w => if child < n then none else some w
  | f + 1, parent, child, w =>
      if child < n then
        (HeapSort_pick n child w).bind (fun r =>
          if r.1 < r.2.array_size ∧ parent < r.2.array_size then
            if (Item.gt r.1 (peek r.1 r.2) parent (peek parent r.2) r.2).1 then
              HeapSort_sift n f r.1 (r.1 * 2 + 1)
                (swap parent r.1 (Item.gt r.1 (peek r.1 r.2) parent (peek parent r.2) r.2).2)
            else some (Item.gt r.1 (peek r.1 r.2) parent (peek parent r.2) r.2).2
          else none)
      else some w

/-- The loop `while (!g_terminate)` of `HeapSort`, from the state with the
given `i` and `n`; `n--` is computed in `size_t`. -/
def HeapSort_loop : Nat → Nat → Nat → World → Option World
  | 0, _, _, w => if w.g_terminate then some w else none
  | f + 1, i, n, w =>
      if w.g_terminate then some w
      else if i > 0 then
        (HeapSort_sift n n (i - 1) ((i - 1) * 2 + 1) w).bind (fun w1 =>
          HeapSort_loop f (i - 1) n w1)
      else if (n + SIZE_MOD - 1) % SIZE_MOD = 0 then some w
      else if (n + SIZE_MOD - 1) % SIZE_MOD < w.array_size then
        (HeapSort_sift ((n + SIZE_MOD - 1) % SIZE_MOD) ((n + SIZE_MOD - 1) % SIZE_MOD) 0 (0 * 2 + 1)
            (swap 0 ((n + SIZE_MOD - 1) % SIZE_MOD) w)).bind (fun w1 =>
          HeapSort_loop f 0 ((n + SIZE_MOD - 1) % SIZE_MOD) w1)
      else none

/-- `HeapSort(A, n)`. -/
def HeapSort (n : Nat) (w : World) : Option World :=
  HeapSort_loop (n / 2 + n) (n / 2) n w

/-! ### What heap sort does to the buffer values -/

/-- The choice of the larger child on the buffer values. -/
def HeapSort_pick_list (n child : Nat) (A : List Nat) : Option Nat :=
  if child + 1 < n then
    if child + 1 < A.length then
      some (if A.getD (child + 1) 0 > A.getD child 0 then child + 1 else child)
    else none
  else some child

/-- The sift loop on the buffer values. -/
def HeapSort_sift_list (n : Nat) : Nat → Nat → Nat → List Nat → Option (List Nat)
  | 0, _, child, A => if child < n then none else some A
  | f + 1, parent, child, A =>
      if child < n then
        (HeapSort_pick_list n child A).bind (fun m =>
          if m < A.length ∧ parent < A.length then
            if A.getD m 0 > A.getD parent 0 then
              HeapSort_sift_list n f m (m * 2 + 1) (swap_list A parent m)
            else some A
          else none)
      else some A

/-- The loop of `HeapSort` on the buffer values (cancellation flag clear). -/
def HeapSort_loop_list : Nat → Nat → Nat → List Nat → Option (List Nat)
  | 0, _, _, _ => none
  | f + 1, i, n, A =>
      if i > 0 then
        (HeapSort_sift_list n n (i - 1) ((i - 1) * 2 + 1) A).bind (fun A1 =>
          HeapSort_loop_list f (i - 1) n A1)
      else if (n + SIZE_MOD - 1) % SIZE_MOD = 0 then some A
      else if (n + SIZE_MOD - 1) % SIZE_MOD < A.length then
        (HeapSort_sift_list ((n + SIZE_MOD - 1) % SIZE_MOD) ((n + SIZE_MOD - 1) % SIZE_MOD) 0
            (0 * 2 + 1) (swap_list A 0 ((n + SIZE_MOD - 1) % SIZE_MOD))).bind (fun A1 =>
          HeapSort_loop_list f 0 ((n + SIZE_MOD - 1) % SIZE_MOD) A1)
      else none

/-- The heap condition at node `j` of a heap of `n` elements: no child is
larger than `j`. -/
def HeapAt (A : List Nat) (n j : Nat) : Prop :=
  (2 * j + 1 < n → A.getD (2 * j + 1) 0 ≤ A.getD j 0) ∧
    (2 * j + 2 < n → A.getD (2 * j + 2) 0 ≤ A.getD j 0)

/-! ## Quick sort (Hoare partition)

The `ssize_t` variables `hi` and `j` never go below `-1`; they are held as
`hi + 1` and `j + 1`, so the range of a call is `lo ≤ k < hi`.  Every use of an
index of the buffer is checked against this range: the result is `none` when
an index outside the range is used, or when the fuel of a loop is used up. -/

/-- The last part of `QuickSortSelectPivot` for `PIVOT_MEDIAN3`, when the three
elements are different; `l`, `m`, `h` are the values of `A[lo]`, `A[mid]` and
`A[hi - 1]` (here `hi` is the parameter of `QuickSortSelectPivot`). -/
def median3_pick (lo mid hi : Nat) (w : World) : Nat × World :=
  if (Item.lt lo (peek lo w) mid (peek mid w) w).1 then
    if (Item.lt mid (peek mid w) (hi - 1 : Nat) (peek (hi - 1) w)
        (Item.lt lo (peek lo w) mid (peek mid w) w).2).1 then
      (mid, (Item.lt mid (peek mid w) (hi - 1 : Nat) (peek (hi - 1) w)
        (Item.lt lo (peek lo w) mid (peek mid w) w).2).2)
    else
      (if (Item.lt lo (peek lo w) (hi - 1 : Nat) (peek (hi - 1) w)
          (Item.lt mid (peek mid w) (hi - 1 : Nat) (peek (hi - 1) w)
            (Item.lt lo (peek lo w) mid (peek mid w) w).2).2).1 then hi - 1 else lo,
        (Item.lt lo (peek lo w) (hi - 1 : Nat) (peek (hi - 1) w)
          (Item.lt mid (peek mid w) (hi - 1 : Nat) (peek (hi - 1) w)
            (Item.lt lo (peek lo w) mid (peek mid w) w).2).2).2)
  else
    if (Item.gt mid (peek mid w) (hi - 1 : Nat) (peek (hi - 1) w)
        (Item.lt lo (peek lo w) mid (peek mid w) w).2).1 then
      (mid, (Item.gt mid (peek mid w) (hi - 1 : Nat) (peek (hi - 1) w)
        (Item.lt lo (peek lo w) mid (peek mid w) w).2).2)
    else
      (if (Item.lt lo (peek lo w) (hi - 1 : Nat) (peek (hi - 1) w)
          (Item.gt mid (peek mid w) (hi - 1 : Nat) (peek (hi - 1) w)
            (Item.lt lo (peek lo w) mid (peek mid w) w).2).2).1 then lo else hi - 1,
        (Item.lt lo (peek lo w) (hi - 1 : Nat) (peek (hi - 1) w)
          (Item.gt mid (peek mid w) (hi - 1 : Nat) (peek (hi - 1) w)
            (Item.lt lo (peek lo w) mid (peek mid w) w).2).2).2)

/-- The branch `PIVOT_MEDIAN3` of `QuickSortSelectPivot`. -/
def median3 (lo hi : Nat) (w : World) : Option (Nat × World) :=
  if lo < hi then
    if (Item.eq lo (peek lo w) ((lo + hi) / 2 : Nat) (peek ((lo + hi) / 2) w) w).1 then
      some (lo, (Item.eq lo (peek lo w) ((lo + hi) / 2 : Nat) (peek ((lo + hi) / 2) w) w).2)
    else if (Item.eq lo (peek lo w) (hi - 1 : Nat) (peek (hi - 1) w)
        (Item.eq lo (peek lo w) ((lo + hi) / 2 : Nat) (peek ((lo + hi) / 2) w) w).2).1 then
      some (hi - 1, (Item.eq lo (peek lo w) (hi - 1 : Nat) (peek (hi - 1) w)
        (Item.eq lo (peek lo w) ((lo + hi) / 2 : Nat) (peek ((lo + hi) / 2) w) w).2).2)
    else if (Item.eq ((lo + hi) / 2 : Nat) (peek ((lo + hi) / 2) w) (hi - 1 : Nat)
        (peek (hi - 1) w)
        (Item.eq lo (peek lo w) (hi - 1 : Nat) (peek (hi - 1) w)
          (Item.eq lo (peek lo w) ((lo + hi) / 2 : Nat) (peek ((lo + hi) / 2) w) w).2).2).1 then
      some (hi - 1, (Item.eq ((lo + hi) / 2 : Nat) (peek ((lo + hi) / 2) w) (hi - 1 : Nat)
        (peek (hi - 1) w)
        (Item.eq lo (peek lo w) (hi - 1 : Nat) (peek (hi - 1) w)
          (Item.eq lo (peek lo w) ((lo + hi) / 2 : Nat) (peek ((lo + hi) / 2) w) w).2).2).2)
    else
      some (median3_pick lo ((lo + hi) / 2) hi
        (Item.eq ((lo + hi) / 2 : Nat) (peek ((lo + hi) / 2) w) (hi - 1 : Nat)
          (peek (hi - 1) w)
          (Item.eq lo (peek lo w) (hi - 1 : Nat) (peek (hi - 1) w)
            (Item.eq lo (peek lo w) ((lo + hi) / 2 : Nat) (peek ((lo + hi) / 2) w) w).2).2).2)
  else none

/-- `QuickSortSelectPivot(A, lo, hi)`; `PIVOT_RANDOM` takes the next outcome of
`rand()`, and fails on an empty range (division by zero). -/
def QuickSortSelectPivot (lo hi : Nat) (w : World) : Option (Nat × World) :=
  match w.g_quicksort_pivot with
  | QuickSortPivotType.PIVOT_FIRST => some (lo, w)
  | QuickSortPivotType.PIVOT_LAST => some (hi - 1, w)
  | QuickSortPivotType.PIVOT_MID => some ((lo + hi) / 2, w)
  | QuickSortPivotType.PIVOT_RANDOM =>
      if hi - lo = 0 then none else some (lo + (random w).1 % (hi - lo), (random w).2)
  | QuickSortPivotType.PIVOT_MEDIAN3 => median3 lo hi w
  | QuickSortPivotType.PIVOT_SIZE => some (lo, w)

/-- The loop `while (A[i] < A[p]) i++;`. -/
def QS_scan_up (lo hi p : Nat) : Nat → Nat → World → Option (Nat × World)
  | 0, _, _ => none
  | f + 1, i, w =>
      if (lo ≤ i ∧ i < hi) ∧ (lo ≤ p ∧ p < hi) then
        if (Item.lt i (peek i w) p (peek p w) w).1 then
          QS_scan_up lo hi p f (i + 1) (Item.lt i (peek i w) p (peek p w) w).2
        else some (i, (Item.lt i (peek i w) p (peek p w) w).2)
      else none

/-- The loop `while (A[j] > A[p]) j--;`, on `j + 1`. -/
def QS_scan_down (lo hi p : Nat) : Nat → Nat → World → Option (Nat × World)
  | 0, _, _ => none
  | f + 1, j1, w =>
      if (lo + 1 ≤ j1 ∧ j1 ≤ hi) ∧ (lo ≤ p ∧ p < hi) then
        if (Item.gt (j1 - 1 : Nat) (peek (j1 - 1) w) p (peek p w) w).1 then
          QS_scan_down lo hi p f (j1 - 1) (Item.gt (j1 - 1 : Nat) (peek (j1 - 1) w) p (peek p w) w).2
        else some (j1, (Item.gt (j1 - 1 : Nat) (peek (j1 - 1) w) p (peek p w) w).2)
      else none

/-- The two scan indices when the partition loop ends (`j1` is `j + 1`), with
the state `s` (the world, or just the buffer values). -/
structure QSCut (σ : Type) where
  i : Nat
  j1 : Nat
  s : σ

/-- The statement `p = (p == i ? j : p == j ? i : p);`. -/
def follow_pivot (p i j : Nat) : Nat := if p = i then j else if p = j then i else p

/-- The loop `while (i <= j && !g_terminate)` of `QuickSortLR`. -/
def QS_partition (lo hi : Nat) : Nat → Nat → Nat → Nat → World → Option (QSCut World)
  | 0, i, j1, _, w => if i < j1 ∧ w.g_terminate = false then none else some ⟨i, j1, w⟩
  | f + 1, i, j1, p, w =>
      if i < j1 ∧ w.g_terminate = false then
        (QS_scan_up lo hi p (hi - lo + 1) i w).bind (fun a =>
          (QS_scan_down lo hi p (hi - lo + 1) j1 a.2).bind (fun b =>
            if a.1 < b.1 then
              QS_partition lo hi f (a.1 + 1) (b.1 - 1) (follow_pivot p a.1 (b.1 - 1))
                (swap a.1 (b.1 - 1) b.2)
            else QS_partition lo hi f a.1 b.1 p b.2))
      else some ⟨i, j1, w⟩

/-- `QuickSortLR(A, lo, hi)` (with `hi + 1` as third argument); the first
argument bounds the depth of the recursion. -/
def QuickSortLR_rec : Nat → Nat → Nat → World → Option World
  | 0, _, _, _ => none
  | f + 1, lo, hi, w =>
      if w.g_terminate then some w
      else
        (QuickSortSelectPivot lo hi w).bind (fun s =>
          (QS_partition lo hi (hi - lo + 1) lo hi s.1 s.2).bind (fun c =>
            (if lo + 1 < c.j1 then QuickSortLR_rec f lo c.j1 c.s else some c.s).bind (fun w1 =>
              if c.i + 1 < hi then QuickSortLR_rec f c.i hi w1 else some w1)))

/-- The conversion `(QuickSortPivotType)k`. -/
def pivot_of_nat : Nat → QuickSortPivotType
  | 0 => QuickSortPivotType.PIVOT_FIRST
  | 1 => QuickSortPivotType.PIVOT_LAST
  | 2 => QuickSortPivotType.PIVOT_MID
  | 3 => QuickSortPivotType.PIVOT_RANDOM
  | 4 => QuickSortPivotType.PIVOT_MEDIAN3
  | _ => QuickSortPivotType.PIVOT_SIZE

/-- `QuickSortLR(A, n)`: a pivot rule is drawn (`random(PIVOT_SIZE)`), then
`QuickSortLR(A, 0, n - 1)` runs. -/
def QuickSortLR (n : Nat) (w : World) : Option World :=
  QuickSortLR_rec (n + 1) 0 n
    { (random w).2 with g_quicksort_pivot := pivot_of_nat (random w).1 }

/-! ### What quick sort does to the buffer values -/

/-- The last part of `PIVOT_MEDIAN3` on the buffer values. -/
def median3_pick_list (lo mid hi : Nat) (A : List Nat) : Nat :=
  if A.getD lo 0 < A.getD mid 0 then
    if A.getD mid 0 < A.getD (hi - 1) 0 then mid
    else if A.getD lo 0 < A.getD (hi - 1) 0 then hi - 1 else lo
  else
    if A.getD mid 0 > A.getD (hi - 1) 0 then mid
    else if A.getD lo 0 < A.getD (hi - 1) 0 then lo else hi - 1

/-- The branch `PIVOT_MEDIAN3` on the buffer values. -/
def median3_list (lo hi : Nat) (A : List Nat) : Option Nat :=
  if lo < hi then
    if A.getD lo 0 = A.getD ((lo + hi) / 2) 0 then some lo
    else if A.getD lo 0 = A.getD (hi - 1) 0 then some (hi - 1)
    else if A.getD ((lo + hi) / 2) 0 = A.getD (hi - 1) 0 then some (hi - 1)
    else some (median3_pick_list lo ((lo + hi) / 2) hi A)
  else none

/-- The index chosen by `QuickSortSelectPivot` under the pivot rule `rule`,
with the number of random draws made so far before and after; `rs` is the
stream of outcomes. -/
def QuickSortSelectPivot_list (rule : QuickSortPivotType) (rs : Nat → Nat) (lo hi : Nat)
    (A : List Nat) (rc : Nat) : Option (Nat × Nat) :=
  match rule with
  | QuickSortPivotType.PIVOT_FIRST => some (lo, rc)
  | QuickSortPivotType.PIVOT_LAST => some (hi - 1, rc)
  | QuickSortPivotType.PIVOT_MID => some ((lo + hi) / 2, rc)
  | QuickSortPivotType.PIVOT_RANDOM =>
      if hi - lo = 0 then none else some (lo + rs rc % (hi - lo), rc + 1)
  | QuickSortPivotType.PIVOT_MEDIAN3 => (median3_list lo hi A).map (fun p => (p, rc))
  | QuickSortPivotType.PIVOT_SIZE => some (lo, rc)

/-- The upward scan on the buffer values. -/
def QS_scan_up_list (lo hi p : Nat) : Nat → Nat → List Nat → Option Nat
  | 0, _, _ => none
  | f + 1, i, A =>
      if (lo ≤ i ∧ i < hi) ∧ (lo ≤ p ∧ p < hi) then
        if A.getD i 0 < A.getD p 0 then QS_scan_up_list lo hi p f (i + 1) A else some i
      else none

/-- The downward scan on the buffer values. -/
def QS_scan_down_list (lo hi p : Nat) : Nat → Nat → List Nat → Option Nat
  | 0, _, _ => none
  | f + 1, j1, A =>
      if (lo + 1 ≤ j1 ∧ j1 ≤ hi) ∧ (lo ≤ p ∧ p < hi) then
        if A.getD (j1 - 1) 0 > A.getD p 0 then QS_scan_down_list lo hi p f (j1 - 1) A
        else some j1
      else none

/-- The partition loop on the buffer values (cancellation flag clear). -/
def QS_partition_list (lo hi : Nat) : Nat → Nat → Nat → Nat → List Nat →
    Option (QSCut (List Nat))
  | 0, i, j1, _, A => if i < j1 then none else some ⟨i, j1, A⟩
  | f + 1, i, j1, p, A =>
      if i < j1 then
        (QS_scan_up_list lo hi p (hi - lo + 1) i A).bind (fun a =>
          (QS_scan_down_list lo hi p (hi - lo + 1) j1 A).bind (fun b =>
            if a < b then
              QS_partition_list lo hi f (a + 1) (b - 1) (follow_pivot p a (b - 1))
                (swap_list A a (b - 1))
            else QS_partition_list lo hi f a b p A))
      else some ⟨i, j1, A⟩

/-- `QuickSortLR(A, lo, hi)` on the buffer values and the number of random
draws (cancellation flag clear). -/
def QuickSortLR_list (rule : QuickSortPivotType) (rs : Nat → Nat) :
    Nat → Nat → Nat → List Nat → Nat → Option (List Nat × Nat)
  | 0, _, _, _, _ => none
  | f + 1, lo, hi, A, rc =>
      (QuickSortSelectPivot_list rule rs lo hi A rc).bind (fun s =>
        (QS_partition_list lo hi (hi - lo + 1) lo hi s.1 A).bind (fun c =>
          (if lo + 1 < c.j1 then QuickSortLR_list rule rs f lo c.j1 c.s s.2
            else some (c.s, s.2)).bind (fun r =>
            if c.i + 1 < hi then QuickSortLR_list rule rs f c.i hi r.1 r.2 else some r)))

/-- The world `v` has the cancellation flag, the pivot rule and the stream of
random outcomes of `w`. -/
structure SameRules (w v : World) : Prop where
  g_terminate : v.g_terminate = w.g_terminate
  g_quicksort_pivot : v.g_quicksort_pivot = w.g_quicksort_pivot
  rand_stream : v.rand_stream = w.rand_stream

/-! ### What insertion sort and cycle sort do to the buffer values -/

/-- The inner loop of `InsertionSort` on the buffer values. -/
def InsertionSort_inner_list (key : Nat) : Nat → List Nat → List Nat
  | 0, A => A
  | j + 1, A =>
    if A.getD j 0 > key then InsertionSort_inner_list key j (swap_list A j (j + 1)) else A

/-- The outer loop of `InsertionSort` on the buffer values (cancellation flag
clear). -/
def InsertionSort_outer_list : Nat → Nat → List Nat → List Nat
  | 0, _, A => A
  | left + 1, i, A =>
    InsertionSort_outer_list left (i + 1) (InsertionSort_inner_list (A.getD i 0) i A)

/-- The rank-finding loop of `CycleSort` on the buffer values: the rank found. -/
def CycleSort_scan_list (cycleStart : Nat) : Nat → Nat → Nat → List Nat → Nat
  | 0, _, rank, _ => rank
  | c + 1, i, rank, A =>
      CycleSort_scan_list cycleStart c (i + 1)
        (if A.getD i 0 < A.getD cycleStart 0 then rank + 1 else rank) A

/-- The loop `while (item == A[rank]) rank++;` on the buffer values. -/
def CycleSort_skip_list (cycleStart : Nat) : Nat → Nat → List Nat → Option Nat
  | 0, _, _ => none
  | f + 1, rank, A =>
      if A.getD cycleStart 0 = A.getD rank 0 then CycleSort_skip_list cycleStart f (rank + 1) A
      else some rank

/-- The `do ... while` loop of `CycleSort` on the buffer values. -/
def CycleSort_cycle_list (n cycleStart : Nat) : Nat → List Nat → Option (List Nat)
  | 0, _ => none
  | f + 1, A =>
      if CycleSort_scan_list cycleStart (n - (cycleStart + 1)) (cycleStart + 1) cycleStart A =
          cycleStart then
        some A
      else
        (CycleSort_skip_list cycleStart n
          (CycleSort_scan_list cycleStart (n - (cycleStart + 1)) (cycleStart + 1) cycleStart A)
          A).bind (fun rank =>
            if rank ≠ cycleStart then
              CycleSort_cycle_list n cycleStart f (swap_list A rank cycleStart)
            else some (swap_list A rank cycleStart))

/-- The outer loop of `CycleSort` on the buffer values. -/
def CycleSort_outer_list (n : Nat) : Nat → Nat → List Nat → Option (List Nat)
  | 0, _, A => some A
  | c + 1, cycleStart, A =>
      (CycleSort_cycle_list n cycleStart (n + 1) A).bind (fun A1 =>
        CycleSort_outer_list n c (cycleStart + 1) A1)

/-! ## Bozo sort and the clock -/

/-- The microseconds slept so far: the sum of the `delay_micros` calls of a log. -/
def slept_us : List Ev → Nat
  | [] => 0
  | Ev.delay_micros us :: es => us + slept_us es
  | _ :: es => slept_us es

/-- A clock in milliseconds that advances exactly by the time slept. -/
def sleep_clock (w : World) : Nat := slept_us w.trace / 1000

/-- One statement `swap(A[random(n)], A[random(n)]);` of `BozoSort`, the draw
for the first argument being made first. -/
def BozoSort_swap (w : World) : World :=
  swap (random w).1 (random (random w).2).1 (random (random w).2).2

/-- The body of the loop of `BozoSort`: four random swaps. -/
def BozoSort_round (w : World) : World :=
  BozoSort_swap (BozoSort_swap (BozoSort_swap (BozoSort_swap w)))

/-- The loop `while (millis() < ts)` of `BozoSort`; `millis` is the clock, read
from the world because the sleeps of the sink take time; `none` when the fuel
is used up. -/
def BozoSort_loop (millis : World → Nat) (ts : Nat) : Nat → World → Option World
  | 0, w => if millis w < ts then none else some w
  | f + 1, w =>
      if millis w < ts then BozoSort_loop millis ts f (BozoSort_round w) else some w

/-- `BozoSort(A, n)`: random swaps until 20000 ms have passed. -/
def BozoSort (millis : World → Nat) (fuel : Nat) (w : World) : Option World :=
  BozoSort_loop millis (millis w + 20000) fuel w

/-! ## Routines over the operations of `Item` -/

/-- A routine that acts on the world only by reading and writing the raw values
of the buffer, by calling the three hooks of `Item`, by drawing random numbers
and by reading the cancellation flag; `α` is what it returns. -/
inductive Routine (α : Type) where
  /-- Return `a`. -/
  | done (a : α)
  /-- Read the `value_` of `array[i]`. -/
  | read (i : Nat) (k : Nat → Routine α)
  /-- Write the `value_` of `array[i]`. -/
  | write (i v : Nat) (k : Routine α)
  /-- Call `Item::OnAccess`. -/
  | access (a : Int) (v : Nat) (with_delay : Bool) (k : Routine α)
  /-- Call `Item::OnComparison`. -/
  | comparison (a : Int) (va : Nat) (b : Int) (vb : Nat) (k : Routine α)
  /-- Call `Item::IncrementCounter`. -/
  | counter (k : Routine α)
  /-- Call `random(n)` or `rand()`. -/
  | draw (k : Nat → Routine α)
  /-- Read `g_terminate`. -/
  | flag (k : Bool → Routine α)

/-- Run a routine. -/
def Routine.run {α : Type} : Routine α → World → α × World
  | Routine.done a, w => (a, w)
  | Routine.read i k, w => (k (peek i w)).run w
  | Routine.write i v k, w => k.run (poke i v w)
  | Routine.access a v d k, w => k.run (Item.OnAccess a v d w)
  | Routine.comparison a va b vb k, w => k.run (Item.OnComparison a va b vb w)
  | Routine.counter k, w => k.run (Item.IncrementCounter w)
  | Routine.draw k, w => (k (random w).1).run (random w).2
  | Routine.flag k, w => (k w.g_terminate).run w

/-- `std::swap(A[i], A[j])` as a routine. -/
def swap_routine (i j : Nat) : Routine Unit :=
  Routine.read i (fun vi =>
    Routine.write i black (
      Routine.access stackItem vi true (
        Routine.read j (fun vj =>
          Routine.write i vj (
            Routine.write j black (
              Routine.read i (fun vi1 =>
                Routine.access i vi1 true (
                  Routine.write j vi (
                    Routine.read j (fun vj1 =>
                      Routine.access j vj1 true (Routine.done ())))))))))))

/-- The worlds `w` and `v` hold the same data: buffer, cancellation flag, pivot
rule and random number generator; their sinks may differ in every way. -/
structure SameData (w v : World) : Prop where
  array : v.array = w.array
  g_terminate : v.g_terminate = w.g_terminate
  g_quicksort_pivot : v.g_quicksort_pivot = w.g_quicksort_pivot
  rand_stream : v.rand_stream = w.rand_stream
  rand_calls : v.rand_calls = w.rand_calls

/-- The example buffer behind an engine with pacing delay `d`, the random
number generator answering `rs`. -/
def exPaced (d : Int) (rs : Nat → Nat) : World :=
  { mkWorld exBuffer d (fun _ => false) with rand_stream := rs }

/-- The example buffer with no sink registered. -/
def exNoSink : World :=
  { initWorld exBuffer (fun _ => false) with sort_animation_hook := false }

/-- Number of paced access events recorded for the item at offset `a`. -/
def accesses (a : Int) (cs : List Call) : Nat := cs.count (Call.access a true)

/-! ## Sleeping -/

/-- The world `v` has logged, since `w`, calls that sleep `n` microseconds in
total, and each of its `delay_micros` calls is for at most 100000 microseconds. -/
def Sleeps (w v : World) (n : Nat) : Prop :=
  ∃ es, v.trace = es ++ w.trace ∧ slept_us es = n ∧
    ∀ us, Ev.delay_micros us ∈ es → us ≤ 100000

/-! ## The ring: records, engine calls, checked indices -/

/-- A sequence of ring records: `flash_low_buffer(i)` for every `i` of `ps`,
oldest first. -/
def run_records (ps : List Nat) (w : World) : World :=
  ps.foldl (fun acc i => flash_low_buffer i acc) w

/-- The bounds of the ring in frame-drop mode with `frame_drop_ = k`: the
counter is below `k`, and `k` is at most the number of slots, which is 256. -/
structure RingBounds (k : Nat) (w : World) : Prop where
  drop : w.frame_drop_ = k
  pos_k : 1 ≤ k
  pos : w.frame_buffer_pos_ < k
  fits : k ≤ 256
  slots : w.frame_buffer_.length = 256

/-- A call of the engine that touches the ring: a one-position flash, a
two-position flash, or `pflush`. -/
inductive EngineCall
  | one (i : Nat) (with_delay : Bool)
  | two (i j : Nat) (with_delay : Bool)
  | flush
  deriving DecidableEq

/-- The engine routine of a call. -/
def EngineCall.run : EngineCall → World → World
  | EngineCall.one i d, w => flash i d w
  | EngineCall.two i j d, w => flash2 i j d w
  | EngineCall.flush, w => pflush w

/-- Process a sequence of engine calls, oldest first. -/
def run_calls (cs : List EngineCall) (w : World) : World :=
  cs.foldl (fun acc c => c.run acc) w

/-- The statement `frame_buffer_[frame_buffer_pos_] = i;`, failing when the
index is not inside `frame_buffer_`. -/
def ring_store_checked (i : Nat) (w : World) : Option World :=
  if w.frame_buffer_pos_ < w.frame_buffer_.length then some (ring_store i w) else none

/-- The loop body `if (frame_buffer_[k] < array_size) flash_low(frame_buffer_[k]);`,
failing when the index `k` is not inside `frame_buffer_`. -/
def restore_slot_checked (k : Nat) (w : World) : Option World :=
  if k < w.frame_buffer_.length then some (restore_slot k w) else none

/-- The replay loop of `flash_low_buffer` and `pflush` with checked indices. -/
def restore_ring_checked (w : World) : Option World :=
  (List.range w.frame_drop_).foldl (fun acc k => acc.bind (restore_slot_checked k)) (some w)

/-- `SortAnimation::flash_low_buffer` with checked indices. -/
def flash_low_buffer_checked (i : Nat) (w : World) : Option World :=
  if w.frame_buffer_pos_ = 0 then
    ((ring_store_checked i w).bind (fun w1 => restore_ring_checked (show_unless_busy w1))).map
      (fun w2 => yield_delay (ring_reset w2))
  else
    (ring_store_checked i w).map ring_dec

/-- The one-position `SortAnimation::flash` with checked ring indices. -/
def flash_checked (i : Nat) (with_delay : Bool) (w : World) : Option World :=
  if with_delay = false then some (flash_low i w)
  else if w.frame_drop_ = 0 then
    some (flash_low i (yield_delay (show_unless_busy (flash_high i w))))
  else
    flash_low_buffer_checked i (flash_high i w)

/-- The two-position `SortAnimation::flash` with checked ring indices. -/
def flash2_checked (i j : Nat) (with_delay : Bool) (w : World) : Option World :=
  if with_delay = false then some (flash_low j (flash_low i w))
  else if w.frame_drop_ = 0 then
    some (flash_low i (flash_low j (yield_delay (show_unless_busy (flash_high j (flash_high i w))))))
  else
    (flash_low_buffer_checked j (flash_high j (flash_high i w))).bind (flash_low_buffer_checked i)

/-- `SortAnimation::pflush` with checked ring indices. -/
def pflush_checked (w : World) : Option World :=
  (restore_ring_checked w).map (fun w1 => strip_show (yield_delay (ring_reset w1)))

/-- The engine routine of a call, with checked ring indices. -/
def EngineCall.run_checked : EngineCall → World → Option World
  | EngineCall.one i d, w => flash_checked i d w
  | EngineCall.two i j d, w => flash2_checked i j d w
  | EngineCall.flush, w => pflush_checked w

/-- Process a sequence of engine calls with checked ring indices. -/
def run_calls_checked (cs : List EngineCall) (w : World) : Option World :=
  cs.foldl (fun acc c => acc.bind c.run_checked) (some w)

/-! ## Transmit requests behind a busy query -/

/-- The world `v` has logged calls since `w`, and among these every
`strip_.show()` directly follows a busy query, also made since `w`, that the
device answered with idle. -/
def Guarded (w v : World) : Prop :=
  ∃ es, v.trace = es ++ w.trace ∧ guardedShows es = true
/-! # Part II: theorems -/

/-! ## Frame lemmas: what the engine never writes -/

theorem frame_refl (w : World) : Frame w w := by
  constructor <;> rfl

theorem Frame.ftrans {a b c : World} (h1 : Frame a b) (h2 : Frame b c) : Frame a c := by
  constructor
  · exact h2.array.trans h1.array
  · exact h2.g_terminate.trans h1.g_terminate
  · exact h2.g_delay_factor.trans h1.g_delay_factor
  · exact h2.intensity_flash_high.trans h1.intensity_flash_high
  · exact h2.sort_animation_hook.trans h1.sort_animation_hook
  · exact h2.SoundAccessHook.trans h1.SoundAccessHook
  · exact h2.DelayHook.trans h1.DelayHook
  · exact h2.ComparisonCountHook.trans h1.ComparisonCountHook
  · exact h2.HSV_HUE_MAX.trans h1.HSV_HUE_MAX
  · exact h2.intensity.trans h1.intensity
  · exact h2.busy.trans h1.busy
  · exact h2.counter_value.trans h1.counter_value
  · exact h2.frame_drop_.trans h1.frame_drop_
  · exact h2.delay_time_.trans h1.delay_time_
  · exact h2.enable_count_.trans h1.enable_count_
  · exact h2.pixels_length.trans h1.pixels_length
  · exact h2.g_quicksort_pivot.trans h1.g_quicksort_pivot
  · exact h2.rand_stream.trans h1.rand_stream
  · exact h2.rand_calls.trans h1.rand_calls
  · exact h2.calls.trans h1.calls

theorem Frame.size_eq {w v : World} (h : Frame w v) : v.array_size = w.array_size := by
  unfold World.array_size
  rw [h.array]

theorem Frame.peek_eq {w v : World} (h : Frame w v) (i : Nat) : peek i v = peek i w := by
  unfold BlinkenSort.peek
  rw [h.array]

theorem frame_log (e : Ev) (w : World) : Frame w (w.log e) := by
  constructor <;> rfl

theorem frame_setPixel (lvl : Level) (i : Nat) (c : Color) (w : World) :
    Frame w (strip_setPixel lvl i c w) := by
  constructor <;> first | rfl | simp [strip_setPixel]

theorem frame_busy (w : World) : Frame w (strip_busy w).2 := by
  constructor <;> rfl

theorem frame_show (w : World) : Frame w (strip_show w) := frame_log _ w

theorem frame_ring_store (i : Nat) (w : World) : Frame w (ring_store i w) := by
  constructor <;> rfl

theorem frame_ring_reset (w : World) : Frame w (ring_reset w) := by
  unfold ring_reset
  constructor <;> exact rfl

theorem frame_ring_dec (w : World) : Frame w (ring_dec w) := by
  constructor <;> rfl

theorem frame_intensity_last (w : World) (x : Nat) : Frame w { w with intensity_last := x } := by
  constructor <;> rfl

theorem frame_foldl {α : Type} (f : World → α → World) (hf : ∀ w a, Frame w (f w a))
    (l : List α) (w : World) : Frame w (l.foldl f w) := by
  induction l generalizing w with
  | nil => exact frame_refl w
  | cons a l ih => exact (hf w a).ftrans (ih (f w a))

/-! ## Calm traces and hot positions -/

theorem calm_nil : Calm [] := by
  intro e he
  cases he

theorem calm_append {a b : List Ev} (ha : Calm a) (hb : Calm b) : Calm (a ++ b) := by
  intro e he
  rcases List.mem_append.1 he with h | h
  · exact ha e h
  · exact hb e h

theorem calm_single_low (i : Nat) (c : Color) : Calm [Ev.setPixel Level.low i c] := by
  intro e he
  rw [List.mem_singleton] at he
  subst he
  simp

theorem calm_single_delay (us : Nat) : Calm [Ev.delay_micros us] := by
  intro e he
  rw [List.mem_singleton] at he
  subst he
  simp

theorem calm_single_delayHook : Calm [Ev.delayHook] := by
  intro e he
  rw [List.mem_singleton] at he
  subst he
  simp

theorem calm_count_show {es : List Ev} (h : Calm es) : es.count Ev.stripShow = 0 := by
  rw [List.count_eq_zero]
  intro hm
  exact (h _ hm).1 rfl

theorem calm_count_yield {es : List Ev} (h : Calm es) : es.count Ev.yield = 0 := by
  rw [List.count_eq_zero]
  intro hm
  exact (h _ hm).2.1 rfl

theorem low_color_congr {w v : World} (q : Nat) (ha : v.array = w.array)
    (hi : v.intensity = w.intensity) (hh : v.HSV_HUE_MAX = w.HSV_HUE_MAX) :
    low_color q v = low_color q w := by
  unfold low_color value_to_hue World.array_size
  rw [ha, hi, hh]

theorem Frame.low_color_eq {w v : World} (h : Frame w v) (q : Nat) :
    low_color q v = low_color q w :=
  low_color_congr q h.array h.intensity h.HSV_HUE_MAX

/-- Hotness only depends on the buffer, the pixels, the brightness and the paints logged. -/
theorem hot_congr {w v : World} (hf : Frame w v) (hp : v.pixels = w.pixels)
    (ht : ∀ q, lastPaint v.trace q = lastPaint w.trace q) (m : Bool) (q : Nat) :
    Hot m v q ↔ Hot m w q := by
  unfold Hot Settled
  rw [ht q, hf.size_eq, hp, hf.low_color_eq q]

theorem flash_low_eq (i : Nat) (w : World) :
    flash_low i w = strip_setPixel Level.low i (low_color i w) w := by
  unfold flash_low low_color
  split <;> rfl

theorem hot_flash_low {m : Bool} {i q : Nat} {w : World} (h : Hot m (flash_low i w) q) :
    q ≠ i ∧ Hot m w q := by
  have hf : Frame w (flash_low i w) := by
    rw [flash_low_eq]
    exact frame_setPixel _ _ _ _
  rw [flash_low_eq] at h hf
  unfold Hot Settled at h
  rw [hf.size_eq, hf.low_color_eq q] at h
  by_cases hq : i = q
  · subst hq
    exfalso
    rcases h with h | ⟨_, _, h⟩
    · simp [strip_setPixel, lastPaint] at h
    · apply h
      intro c hc
      simp only [strip_setPixel] at hc
      rw [List.getElem?_set] at hc
      split at hc
      · split at hc
        · exact (Option.some.inj hc).symm
        · cases hc
      · exact absurd rfl ‹¬ i = i›
  · refine ⟨fun e => hq e.symm, ?_⟩
    unfold Hot Settled
    rcases h with h | ⟨h0, h1, h2⟩
    · left
      simpa [strip_setPixel, lastPaint, hq] using h
    · right
      refine ⟨h0, h1, ?_⟩
      simpa [strip_setPixel, List.getElem?_set, hq] using h2


/-! ## Quiet routines: repaints at normal intensity and sleeps -/

theorem quiet_refl (w : World) : Quiet w w :=
  ⟨frame_refl w, rfl, rfl, rfl, ⟨[], rfl, calm_nil⟩, fun _ _ h => h⟩

theorem Quiet.qtrans {a b c : World} (h1 : Quiet a b) (h2 : Quiet b c) : Quiet a c := by
  obtain ⟨e1, t1, c1⟩ := h1.trace
  obtain ⟨e2, t2, c2⟩ := h2.trace
  refine ⟨h1.frame.ftrans h2.frame, h2.frame_buffer_.trans h1.frame_buffer_,
    h2.frame_buffer_pos_.trans h1.frame_buffer_pos_, h2.busy_calls.trans h1.busy_calls,
    ⟨e2 ++ e1, ?_, calm_append c2 c1⟩, fun m q h => h1.cool m q (h2.cool m q h)⟩
  rw [t2, t1, List.append_assoc]

theorem hot_delay_micros (us : Nat) (w : World) (m : Bool) (q : Nat) :
    Hot m (delay_micros us w) q ↔ Hot m w q :=
  hot_congr (frame_log (Ev.delay_micros us) w) rfl (fun _ => rfl) m q

theorem hot_delayHook (w : World) (m : Bool) (q : Nat) :
    Hot m (w.log Ev.delayHook) q ↔ Hot m w q :=
  hot_congr (frame_log Ev.delayHook w) rfl (fun _ => rfl) m q

theorem quiet_delay_micros (us : Nat) (w : World) : Quiet w (delay_micros us w) :=
  ⟨frame_log _ w, rfl, rfl, rfl, ⟨[Ev.delay_micros us], rfl, calm_single_delay us⟩,
    fun m q h => (hot_delay_micros us w m q).1 h⟩

theorem quiet_delayHook (w : World) : Quiet w (w.log Ev.delayHook) :=
  ⟨frame_log _ w, rfl, rfl, rfl, ⟨[Ev.delayHook], rfl, calm_single_delayHook⟩,
    fun m q h => (hot_delayHook w m q).1 h⟩

theorem quiet_intensity_last (w : World) (x : Nat) :
    Quiet w { w with intensity_last := x } :=
  ⟨frame_intensity_last w x, rfl, rfl, rfl, ⟨[], rfl, calm_nil⟩,
    fun m q h => (hot_congr (frame_intensity_last w x) rfl (fun _ => rfl) m q).1 h⟩

theorem quiet_flash_low (i : Nat) (w : World) : Quiet w (flash_low i w) := by
  refine ⟨?_, ?_, ?_, ?_, ⟨[Ev.setPixel Level.low i (low_color i w)], ?_, calm_single_low _ _⟩,
    fun _ _ h => (hot_flash_low h).2⟩
  · rw [flash_low_eq]
    exact frame_setPixel _ _ _ _
  all_goals rw [flash_low_eq]; rfl

theorem quiet_foldl {α : Type} (f : World → α → World) (hf : ∀ w a, Quiet w (f w a))
    (l : List α) (w : World) : Quiet w (l.foldl f w) := by
  induction l generalizing w with
  | nil => exact quiet_refl w
  | cons a l ih => exact (hf w a).qtrans (ih (f w a))

theorem quiet_yield_delay_loop (fuel remain : Nat) (w : World) :
    Quiet w (yield_delay_loop fuel remain w).2 := by
  induction fuel generalizing remain w with
  | zero => exact quiet_refl w
  | succ fuel ih =>
    unfold yield_delay_loop
    split
    · exact (quiet_delay_micros _ w).qtrans (ih _ _)
    · exact quiet_refl w

theorem quiet_repaint_all (w : World) : Quiet w (repaint_all w) :=
  quiet_foldl _ (fun w i => quiet_flash_low i w) _ w

theorem quiet_sleep_for (d : Int) (w : World) : Quiet w (sleep_for d w) := by
  unfold sleep_for
  split
  · exact (quiet_yield_delay_loop _ _ w).qtrans (quiet_delay_micros _ _)
  · exact quiet_refl w

theorem quiet_call_DelayHook (w : World) : Quiet w (call_DelayHook w) := by
  unfold call_DelayHook
  split
  · exact quiet_delayHook w
  · exact quiet_refl w

theorem quiet_intensity_check (w : World) : Quiet w (intensity_check w) := by
  unfold intensity_check
  split
  · exact (quiet_intensity_last w _).qtrans (quiet_repaint_all _)
  · exact quiet_refl w

theorem quiet_yield_delay_us (d : Int) (w : World) : Quiet w (yield_delay_us d w) :=
  ((quiet_sleep_for d w).qtrans (quiet_call_DelayHook _)).qtrans (quiet_intensity_check _)

theorem quiet_restore_slot (k : Nat) (w : World) : Quiet w (restore_slot k w) := by
  unfold restore_slot
  split
  · exact quiet_flash_low _ w
  · exact quiet_refl w

theorem quiet_restore_ring (w : World) : Quiet w (restore_ring w) :=
  quiet_foldl _ (fun w k => quiet_restore_slot k w) _ w

theorem Quiet.shows_eq {w v : World} (h : Quiet w v) : shows v = shows w := by
  obtain ⟨es, ht, hc⟩ := h.trace
  unfold BlinkenSort.shows
  rw [ht, List.count_append, calm_count_show hc, Nat.zero_add]

theorem Quiet.yields_eq {w v : World} (h : Quiet w v) : yields v = yields w := by
  obtain ⟨es, ht, hc⟩ := h.trace
  unfold BlinkenSort.yields
  rw [ht, List.count_append, calm_count_yield hc, Nat.zero_add]

/-! ## Frame lemmas for the flash routines -/

theorem frame_flash_low (i : Nat) (w : World) : Frame w (flash_low i w) :=
  (quiet_flash_low i w).frame

theorem frame_flash_high (i : Nat) (w : World) : Frame w (flash_high i w) := by
  unfold flash_high
  split <;> exact frame_setPixel _ _ _ _

theorem frame_yield_delay (w : World) : Frame w (yield_delay w) := by
  unfold yield_delay
  split <;> exact (frame_log _ w).ftrans (quiet_yield_delay_us _ _).frame

theorem frame_restore_ring (w : World) : Frame w (restore_ring w) :=
  (quiet_restore_ring w).frame

theorem frame_show_unless_busy (w : World) : Frame w (show_unless_busy w) := by
  unfold show_unless_busy
  split
  · exact frame_busy w
  · exact (frame_busy w).ftrans (frame_show _)

theorem frame_flash_low_buffer (i : Nat) (w : World) : Frame w (flash_low_buffer i w) := by
  unfold flash_low_buffer
  split
  · exact ((((frame_ring_store i w).ftrans (frame_show_unless_busy _)).ftrans
      (frame_restore_ring _)).ftrans (frame_ring_reset _)).ftrans (frame_yield_delay _)
  · exact (frame_ring_store i w).ftrans (frame_ring_dec _)

theorem frame_flash (i : Nat) (d : Bool) (w : World) : Frame w (flash i d w) := by
  unfold flash
  split
  · exact frame_flash_low i w
  · split
    · exact (((frame_flash_high i w).ftrans (frame_show_unless_busy _)).ftrans
        (frame_yield_delay _)).ftrans (frame_flash_low i _)
    · exact (frame_flash_high i w).ftrans (frame_flash_low_buffer i _)

theorem frame_flash2 (i j : Nat) (d : Bool) (w : World) : Frame w (flash2 i j d w) := by
  unfold flash2
  split
  · exact (frame_flash_low i w).ftrans (frame_flash_low j _)
  · split
    · exact (((((frame_flash_high i w).ftrans (frame_flash_high j _)).ftrans
        (frame_show_unless_busy _)).ftrans (frame_yield_delay _)).ftrans
        (frame_flash_low j _)).ftrans (frame_flash_low i _)
    · exact (((frame_flash_high i w).ftrans (frame_flash_high j _)).ftrans
        (frame_flash_low_buffer j _)).ftrans (frame_flash_low_buffer i _)

theorem frame_pflush (w : World) : Frame w (pflush w) :=
  (((frame_restore_ring w).ftrans (frame_ring_reset _)).ftrans (frame_yield_delay _)).ftrans
    (frame_show _)

theorem frame_OnAccess (a : Int) (d : Bool) (w : World) :
    Frame w (SortAnimation.OnAccess a d w) := by
  unfold SortAnimation.OnAccess
  split
  · exact frame_refl w
  · exact frame_flash _ _ w

theorem frame_call_SoundAccessHook (v : Nat) (w : World) :
    Frame w (call_SoundAccessHook v w) := by
  unfold call_SoundAccessHook
  split
  · exact frame_log _ w
  · exact frame_refl w

theorem frame_dispatch_access (a : Int) (v : Nat) (d : Bool) (w : World) :
    Frame w (Item.dispatch_access a v d w) := by
  unfold Item.dispatch_access
  refine Frame.ftrans ?_ (frame_call_SoundAccessHook v _)
  split
  · exact frame_OnAccess a d w
  · exact frame_refl w


theorem frame_call_ComparisonCountHook (w : World) :
    Frame w (call_ComparisonCountHook w) := by
  unfold call_ComparisonCountHook
  split
  · exact frame_log _ w
  · exact frame_refl w

theorem frame_OnComparison_flash (a b : Int) (w : World) :
    Frame w (OnComparison_flash a b w) := by
  unfold OnComparison_flash
  split
  · exact frame_flash2 _ _ _ w
  · split
    · exact frame_flash _ _ w
    · split
      · exact frame_flash _ _ w
      · exact frame_refl w

/-! ## Effect of the single steps on the trace -/

theorem flash_high_eq (i : Nat) (w : World) :
    flash_high i w = strip_setPixel Level.high i (high_color i w) w := by
  unfold flash_high high_color
  split <;> rfl

theorem shows_flash_high (i : Nat) (w : World) : shows (flash_high i w) = shows w := by
  rw [flash_high_eq]
  simp [shows, strip_setPixel]

theorem yields_flash_high (i : Nat) (w : World) : yields (flash_high i w) = yields w := by
  rw [flash_high_eq]
  simp [yields, strip_setPixel]

theorem busy_calls_flash_high (i : Nat) (w : World) :
    (flash_high i w).busy_calls = w.busy_calls := by
  rw [flash_high_eq]
  rfl

theorem shows_show_unless_busy (w : World) :
    shows (show_unless_busy w) = shows w + (if w.busy w.busy_calls then 0 else 1) := by
  unfold show_unless_busy strip_busy strip_show World.log
  by_cases h : w.busy w.busy_calls = true <;> simp [shows, h]

theorem yields_show_unless_busy (w : World) : yields (show_unless_busy w) = yields w := by
  unfold show_unless_busy strip_busy strip_show World.log
  by_cases h : w.busy w.busy_calls = true <;> simp [yields, h]

theorem quiet_yield_delay (w : World) : Quiet (w.log Ev.yield) (yield_delay w) := by
  unfold yield_delay
  split <;> exact quiet_yield_delay_us _ _

theorem shows_yield_delay (w : World) : shows (yield_delay w) = shows w := by
  rw [(quiet_yield_delay w).shows_eq]
  simp [shows, World.log]

theorem yields_yield_delay (w : World) : yields (yield_delay w) = yields w + 1 := by
  rw [(quiet_yield_delay w).yields_eq]
  simp [yields, World.log]

theorem shows_flash_low (i : Nat) (w : World) : shows (flash_low i w) = shows w :=
  (quiet_flash_low i w).shows_eq

theorem yields_flash_low (i : Nat) (w : World) : yields (flash_low i w) = yields w :=
  (quiet_flash_low i w).yields_eq

/-! ## Claims about single events -/

/-- C4: an access event whose element lies outside the working buffer (offset
below 0, or at or beyond `array_size`) leaves the whole world as it is, for
either value of `with_delay`: no pixel colour, no ring slot and not the ring
counter change, and nothing is added to the trace (no transmit request, no
sleep). -/
theorem OnAccess_outside_ignored (w : World) (a : Int) (with_delay : Bool)
    (h : a < 0 ∨ (w.array_size : Int) ≤ a) :
    SortAnimation.OnAccess a with_delay w = w ∧
      (SortAnimation.OnAccess a with_delay w).pixels = w.pixels ∧
      (SortAnimation.OnAccess a with_delay w).frame_buffer_ = w.frame_buffer_ ∧
      (SortAnimation.OnAccess a with_delay w).frame_buffer_pos_ = w.frame_buffer_pos_ ∧
      (SortAnimation.OnAccess a with_delay w).trace = w.trace := by
  have e : SortAnimation.OnAccess a with_delay w = w := by
    unfold SortAnimation.OnAccess
    rw [if_pos h]
  rw [e]
  exact ⟨rfl, rfl, rfl, rfl, rfl⟩

/-- Witness of C4: the element one past the end of the 8-element example buffer. -/
theorem OnAccess_outside_ignored_witness :
    ((8 : Int) < 0 ∨ (exDrop4.array_size : Int) ≤ 8) ∧
      SortAnimation.OnAccess 8 true exDrop4 = exDrop4 :=
  ⟨by decide, (OnAccess_outside_ignored exDrop4 8 true (by decide)).1⟩

/-- C3 as stated fails: in direct mode with a busy device a paced
one-position flash requests no transmit at all. -/
theorem direct_flash_busy_counterexample :
    exDirectBusy.frame_drop_ = 0 ∧
      shows (flash 0 true exDirectBusy) = shows exDirectBusy ∧
      ¬ (shows (flash 0 true exDirectBusy) = shows exDirectBusy + 1) := by
  decide

/-- C3, amended: in direct mode (`frame_drop_ = 0`) every paced flash event,
one-position or two-position, performs exactly one pacing step and requests
exactly one transmit when the busy query answers idle, none when it answers
busy. -/
theorem direct_flash_one_step (w : World) (i j : Nat) (h : w.frame_drop_ = 0) :
    (yields (flash i true w) = yields w + 1 ∧
      shows (flash i true w) = shows w + (if w.busy w.busy_calls then 0 else 1)) ∧
    (yields (flash2 i j true w) = yields w + 1 ∧
      shows (flash2 i j true w) = shows w + (if w.busy w.busy_calls then 0 else 1)) := by
  have e1 : flash i true w = flash_low i (yield_delay (show_unless_busy (flash_high i w))) := by
    unfold flash
    simp [h]
  have e2 : flash2 i j true w =
      flash_low i (flash_low j (yield_delay (show_unless_busy (flash_high j (flash_high i w))))) := by
    unfold flash2
    simp [h]
  have b1 : (flash_high i w).busy = w.busy := (frame_flash_high i w).busy
  have b2 : (flash_high j (flash_high i w)).busy = w.busy :=
    ((frame_flash_high i w).ftrans (frame_flash_high j _)).busy
  refine ⟨⟨?_, ?_⟩, ?_, ?_⟩
  · rw [e1, yields_flash_low, yields_yield_delay, yields_show_unless_busy, yields_flash_high]
  · rw [e1, shows_flash_low, shows_yield_delay, shows_show_unless_busy, shows_flash_high,
      busy_calls_flash_high, b1]
  · rw [e2, yields_flash_low, yields_flash_low, yields_yield_delay, yields_show_unless_busy,
      yields_flash_high, yields_flash_high]
  · rw [e2, shows_flash_low, shows_flash_low, shows_yield_delay, shows_show_unless_busy,
      shows_flash_high, shows_flash_high, busy_calls_flash_high, busy_calls_flash_high, b2]

/-- Witness of the amended C3 on the idle example device. -/
theorem direct_flash_one_step_witness :
    exDirectIdle.frame_drop_ = 0 ∧
      yields (flash 2 true exDirectIdle) = yields exDirectIdle + 1 ∧
      shows (flash2 2 5 true exDirectIdle) = shows exDirectIdle + 1 :=
  ⟨by decide, (direct_flash_one_step exDirectIdle 2 5 (by decide)).1.1,
    (direct_flash_one_step exDirectIdle 2 5 (by decide)).2.2⟩

/-! ## Transmit requests and the busy flag -/

theorem ring_reset_trace (w : World) : (ring_reset w).trace = w.trace := by
  unfold ring_reset
  rfl

theorem ring_reset_busy_calls (w : World) : (ring_reset w).busy_calls = w.busy_calls := by
  unfold ring_reset
  rfl

theorem ring_store_trace (i : Nat) (w : World) : (ring_store i w).trace = w.trace := rfl

theorem ring_dec_trace (w : World) : (ring_dec w).trace = w.trace := rfl

theorem shows_ring_reset (w : World) : shows (ring_reset w) = shows w := by
  unfold shows
  rw [ring_reset_trace]

theorem assign_delay_time_trace (d : Int) (w : World) :
    (assign_delay_time d w).trace = w.trace := by
  unfold assign_delay_time
  split <;> rfl

theorem assign_delay_time_busy_calls (d : Int) (w : World) :
    (assign_delay_time d w).busy_calls = w.busy_calls := by
  unfold assign_delay_time
  split <;> rfl

theorem shows_ring_store (i : Nat) (w : World) : shows (ring_store i w) = shows w := rfl

theorem shows_ring_dec (w : World) : shows (ring_dec w) = shows w := rfl

theorem guarded_cons {e : Ev} {t : List Ev} (he : e ≠ Ev.stripShow)
    (h : guardedShows t = true) : guardedShows (e :: t) = true := by
  simp [guardedShows, he, h]

theorem guarded_append_calm {es t : List Ev} (hc : Calm es) (h : guardedShows t = true) :
    guardedShows (es ++ t) = true := by
  induction es with
  | nil => exact h
  | cons e es ih =>
    have h1 : Calm es := fun x hx => hc x (List.mem_cons_of_mem _ hx)
    exact guarded_cons (hc e (List.mem_cons_self _ _)).1 (ih h1)

theorem Quiet.guarded_of {w v : World} (h : Quiet w v) (hg : guardedShows w.trace = true) :
    guardedShows v.trace = true := by
  obtain ⟨es, ht, hc⟩ := h.trace
  rw [ht]
  exact guarded_append_calm hc hg

theorem guarded_flash_high (i : Nat) (w : World) (hg : guardedShows w.trace = true) :
    guardedShows (flash_high i w).trace = true := by
  rw [flash_high_eq]
  exact guarded_cons (by simp) hg

theorem guarded_show_unless_busy (w : World) (hg : guardedShows w.trace = true) :
    guardedShows (show_unless_busy w).trace = true := by
  unfold show_unless_busy strip_busy strip_show World.log
  by_cases h : w.busy w.busy_calls = true
  · simp [h, guardedShows, hg]
  · simp [h, guardedShows, hg]

theorem guarded_yield_delay (w : World) (hg : guardedShows w.trace = true) :
    guardedShows (yield_delay w).trace = true :=
  (quiet_yield_delay w).guarded_of (guarded_cons (by simp) hg)

theorem guarded_flash_low_buffer (i : Nat) (w : World) (hg : guardedShows w.trace = true) :
    guardedShows (flash_low_buffer i w).trace = true := by
  unfold flash_low_buffer
  split
  · apply guarded_yield_delay
    rw [ring_reset_trace]
    refine (quiet_restore_ring _).guarded_of (guarded_show_unless_busy _ ?_)
    rw [ring_store_trace]
    exact hg
  · rw [ring_dec_trace, ring_store_trace]
    exact hg

theorem guarded_flash (i : Nat) (d : Bool) (w : World) (hg : guardedShows w.trace = true) :
    guardedShows (flash i d w).trace = true := by
  unfold flash
  split
  · exact (quiet_flash_low i w).guarded_of hg
  · split
    · exact (quiet_flash_low i _).guarded_of (guarded_yield_delay _
        (guarded_show_unless_busy _ (guarded_flash_high i w hg)))
    · exact guarded_flash_low_buffer i _ (guarded_flash_high i w hg)

theorem guarded_flash2 (i j : Nat) (d : Bool) (w : World) (hg : guardedShows w.trace = true) :
    guardedShows (flash2 i j d w).trace = true := by
  unfold flash2
  split
  · exact (quiet_flash_low j _).guarded_of ((quiet_flash_low i w).guarded_of hg)
  · split
    · exact (quiet_flash_low i _).guarded_of ((quiet_flash_low j _).guarded_of (guarded_yield_delay _
        (guarded_show_unless_busy _ (guarded_flash_high j _ (guarded_flash_high i w hg)))))
    · exact guarded_flash_low_buffer i _ (guarded_flash_low_buffer j _
        (guarded_flash_high j _ (guarded_flash_high i w hg)))

theorem busy_calls_yield_delay (w : World) : (yield_delay w).busy_calls = w.busy_calls :=
  (quiet_yield_delay w).busy_calls

theorem shows_pflush (w : World) : shows (pflush w) = shows w + 1 := by
  have h1 : shows (yield_delay (ring_reset (restore_ring w))) = shows w := by
    rw [shows_yield_delay, shows_ring_reset]
    exact (quiet_restore_ring w).shows_eq
  unfold pflush strip_show World.log
  simp only [shows] at h1 ⊢
  rw [List.count_cons_self, h1]

theorem busy_calls_pflush (w : World) : (pflush w).busy_calls = w.busy_calls := by
  have h1 : (yield_delay (ring_reset (restore_ring w))).busy_calls = w.busy_calls := by
    rw [busy_calls_yield_delay, ring_reset_busy_calls]
    exact (quiet_restore_ring w).busy_calls
  exact h1

/-! ### Transmit requests relative to the calls an operation logs -/

theorem guarded_append {a b : List Ev} (ha : guardedShows a = true)
    (hb : guardedShows b = true) : guardedShows (a ++ b) = true := by
  induction a with
  | nil => exact hb
  | cons e a ih =>
    cases a with
    | nil =>
      simp only [guardedShows, List.head?_nil, Bool.and_true] at ha
      have he : e ≠ Ev.stripShow := by
        intro h
        subst h
        simp at ha
      exact guarded_cons he hb
    | cons x a =>
      simp only [guardedShows, List.head?_cons, Bool.and_eq_true] at ha
      have hi := ih (by simp only [guardedShows, Bool.and_eq_true]; exact ha.2)
      simp only [List.cons_append, guardedShows, List.head?_cons, Bool.and_eq_true]
      simp only [List.cons_append, guardedShows, List.head?_cons, Bool.and_eq_true] at hi
      exact ⟨ha.1, hi⟩

theorem guarded_of_calm {es : List Ev} (hc : Calm es) : guardedShows es = true := by
  have h := guarded_append_calm (t := []) hc rfl
  rw [List.append_nil] at h
  exact h

theorem guarded_same (w : World) : Guarded w w := ⟨[], rfl, rfl⟩

theorem Guarded.gthen {a b c : World} (h1 : Guarded a b) (h2 : Guarded b c) : Guarded a c := by
  obtain ⟨e1, t1, g1⟩ := h1
  obtain ⟨e2, t2, g2⟩ := h2
  exact ⟨e2 ++ e1, by rw [t2, t1, List.append_assoc], guarded_append g2 g1⟩

theorem guarded_of_trace {w v : World} (h : v.trace = w.trace) : Guarded w v := ⟨[], h, rfl⟩

theorem Quiet.guarded {w v : World} (h : Quiet w v) : Guarded w v := by
  obtain ⟨es, ht, hc⟩ := h.trace
  exact ⟨es, ht, guarded_of_calm hc⟩

theorem guardedBy_show_unless_busy (w : World) : Guarded w (show_unless_busy w) := by
  by_cases h : w.busy w.busy_calls = true
  · refine ⟨[Ev.busy true], ?_, by decide⟩
    unfold show_unless_busy strip_busy
    simp [h]
  · refine ⟨[Ev.stripShow, Ev.busy false], ?_, by decide⟩
    unfold show_unless_busy strip_busy strip_show World.log
    simp [h]

theorem guardedBy_flash_high (i : Nat) (w : World) : Guarded w (flash_high i w) := by
  rw [flash_high_eq]
  exact ⟨[Ev.setPixel Level.high i (high_color i w)], rfl, by simp [guardedShows]⟩

theorem guardedBy_yield_delay (w : World) : Guarded w (yield_delay w) :=
  Guarded.gthen ⟨[Ev.yield], rfl, by decide⟩ (quiet_yield_delay w).guarded

theorem guardedBy_flash_low_buffer (i : Nat) (w : World) : Guarded w (flash_low_buffer i w) := by
  unfold flash_low_buffer
  split
  · exact (((guarded_of_trace (ring_store_trace i w)).gthen (guardedBy_show_unless_busy _)).gthen
      (quiet_restore_ring _).guarded).gthen
      ((guarded_of_trace (ring_reset_trace _)).gthen (guardedBy_yield_delay _))
  · exact guarded_of_trace rfl

theorem guardedBy_flash (i : Nat) (d : Bool) (w : World) : Guarded w (flash i d w) := by
  unfold flash
  split
  · exact (quiet_flash_low i w).guarded
  · split
    · exact (((guardedBy_flash_high i w).gthen (guardedBy_show_unless_busy _)).gthen
        (guardedBy_yield_delay _)).gthen (quiet_flash_low i _).guarded
    · exact (guardedBy_flash_high i w).gthen (guardedBy_flash_low_buffer i _)

theorem guardedBy_flash2 (i j : Nat) (d : Bool) (w : World) : Guarded w (flash2 i j d w) := by
  unfold flash2
  split
  · exact (quiet_flash_low i w).guarded.gthen (quiet_flash_low j _).guarded
  · split
    · exact (((((guardedBy_flash_high i w).gthen (guardedBy_flash_high j _)).gthen
        (guardedBy_show_unless_busy _)).gthen (guardedBy_yield_delay _)).gthen
        (quiet_flash_low j _).guarded).gthen (quiet_flash_low i _).guarded
    · exact (((guardedBy_flash_high i w).gthen (guardedBy_flash_high j _)).gthen
        (guardedBy_flash_low_buffer j _)).gthen (guardedBy_flash_low_buffer i _)

/-! ### A busy device gets no transmit request from a flash -/

theorem busy_skips_show_unless_busy (w : World) (hb : ∀ n, w.busy n = true) :
    shows (show_unless_busy w) = shows w := by
  rw [shows_show_unless_busy, if_pos (hb _), Nat.add_zero]

theorem busy_skips_flash_low_buffer (i : Nat) (w : World) (hb : ∀ n, w.busy n = true) :
    shows (flash_low_buffer i w) = shows w := by
  unfold flash_low_buffer
  split
  · rw [shows_yield_delay, shows_ring_reset, (quiet_restore_ring _).shows_eq,
      busy_skips_show_unless_busy (ring_store i w) (fun n => hb n)]
    rfl
  · rfl

theorem busy_skips_flash (i : Nat) (d : Bool) (w : World) (hb : ∀ n, w.busy n = true) :
    shows (flash i d w) = shows w := by
  have hh : ∀ n, (flash_high i w).busy n = true := by
    intro n
    rw [(frame_flash_high i w).busy]
    exact hb n
  unfold flash
  split
  · exact shows_flash_low i w
  · split
    · rw [shows_flash_low, shows_yield_delay, busy_skips_show_unless_busy _ hh, shows_flash_high]
    · rw [busy_skips_flash_low_buffer _ _ hh, shows_flash_high]

theorem busy_skips_flash2 (i j : Nat) (d : Bool) (w : World) (hb : ∀ n, w.busy n = true) :
    shows (flash2 i j d w) = shows w := by
  have hh : ∀ n, (flash_high j (flash_high i w)).busy n = true := by
    intro n
    rw [((frame_flash_high i w).ftrans (frame_flash_high j _)).busy]
    exact hb n
  have hh2 : ∀ n, (flash_low_buffer j (flash_high j (flash_high i w))).busy n = true := by
    intro n
    rw [(frame_flash_low_buffer j _).busy]
    exact hh n
  unfold flash2
  split
  · rw [shows_flash_low, shows_flash_low]
  · split
    · rw [shows_flash_low, shows_flash_low, shows_yield_delay, busy_skips_show_unless_busy _ hh,
        shows_flash_high, shows_flash_high]
    · rw [busy_skips_flash_low_buffer _ _ hh2, busy_skips_flash_low_buffer _ _ hh,
        shows_flash_high, shows_flash_high]

/-- The transmit request of `pflush` does not follow a busy query. -/
theorem pflush_unguarded (w : World) : guardedShows (pflush w).trace = false := by
  obtain ⟨es, ht, hc⟩ := (quiet_yield_delay (ring_reset (restore_ring w))).trace
  have e : (pflush w).trace =
      Ev.stripShow :: (es ++ Ev.yield :: (ring_reset (restore_ring w)).trace) := by
    unfold pflush strip_show World.log
    show Ev.stripShow :: (yield_delay (ring_reset (restore_ring w))).trace = _
    rw [ht]
    rfl
  rw [e]
  cases es with
  | nil => simp [guardedShows]
  | cons x es =>
    have hx := (hc x (List.mem_cons_self _ _)).2.2.1 false
    simp only [guardedShows, List.cons_append, List.head?_cons, Bool.and_eq_false_iff]
    left
    simp
    exact fun h => hx h

theorem exDirectBusy_busy : ∀ n, exDirectBusy.busy n = true := by
  intro n
  have h : exDirectBusy.busy = (initWorld exBuffer (fun _ => true)).busy := by
    have h1 : exDirectBusy.busy = (pflush (initWorld exBuffer (fun _ => true))).busy := by
      unfold exDirectBusy mkWorld set_delay_time assign_delay_time
      split <;> rfl
    rw [h1, (frame_pflush _).busy]
  rw [h]
  rfl

/-- C10 as stated fails: on the engine as its constructor leaves it, with a
device that answers busy to every query, `pflush` requests a transmit; it does
not query the busy flag at all. -/
theorem pflush_show_unguarded_counterexample :
    (∀ n, exDirectBusy.busy n = true) ∧
      (pflush exDirectBusy).busy_calls = exDirectBusy.busy_calls ∧
      (pflush exDirectBusy).trace = Ev.stripShow :: Ev.yield :: exDirectBusy.trace ∧
      shows (pflush exDirectBusy) = shows exDirectBusy + 1 :=
  ⟨exDirectBusy_busy, by decide, by decide, by decide⟩

/-- C10, amended: in every state of the engine, among the calls that a one- or
two-position flash (in either mode, paced or not) or `flash_low_buffer` logs,
every `strip_.show()` directly follows a busy query of the same operation that
the device answered with idle; with a device that answers busy to every query
these operations request no transmit.  `pflush`, and `set_delay_time` through
it, never queries the busy flag and requests exactly one transmit, which
follows no busy query. -/
theorem show_guarded_except_pflush (w : World) (i j : Nat) (with_delay : Bool) (d : Int) :
    (∃ es, (flash i with_delay w).trace = es ++ w.trace ∧ guardedShows es = true) ∧
      (∃ es, (flash2 i j with_delay w).trace = es ++ w.trace ∧ guardedShows es = true) ∧
      (∃ es, (flash_low_buffer i w).trace = es ++ w.trace ∧ guardedShows es = true) ∧
      ((∀ n, w.busy n = true) →
        shows (flash i with_delay w) = shows w ∧ shows (flash2 i j with_delay w) = shows w ∧
          shows (flash_low_buffer i w) = shows w) ∧
      ((pflush w).busy_calls = w.busy_calls ∧ shows (pflush w) = shows w + 1 ∧
        guardedShows (pflush w).trace = false) ∧
      ((set_delay_time d w).busy_calls = w.busy_calls ∧
        shows (set_delay_time d w) = shows w + 1 ∧
        guardedShows (set_delay_time d w).trace = false) := by
  refine ⟨guardedBy_flash i with_delay w, guardedBy_flash2 i j with_delay w,
    guardedBy_flash_low_buffer i w,
    fun hb => ⟨busy_skips_flash i with_delay w hb, busy_skips_flash2 i j with_delay w hb,
      busy_skips_flash_low_buffer i w hb⟩,
    ⟨busy_calls_pflush w, shows_pflush w, pflush_unguarded w⟩, ?_, ?_, ?_⟩
  · rw [← busy_calls_pflush w]
    exact assign_delay_time_busy_calls d (pflush w)
  · rw [← shows_pflush w]
    unfold set_delay_time shows
    rw [assign_delay_time_trace]
  · unfold set_delay_time
    rw [assign_delay_time_trace]
    exact pflush_unguarded w

/-- Witness of the amended C10 on the engine as its constructor leaves it: with
the device always busy a two-position flash requests no transmit, and with the
device idle the one transmit request of a flash follows its busy query. -/
theorem show_guarded_except_pflush_witness :
    ((∀ n, exDirectBusy.busy n = true) ∧
        shows (flash2 0 1 true exDirectBusy) = shows exDirectBusy) ∧
      (shows (flash 0 true exDirectIdle) = shows exDirectIdle + 1 ∧
        ∃ es, (flash 0 true exDirectIdle).trace = es ++ exDirectIdle.trace ∧
          guardedShows es = true) ∧
      guardedShows exDirectIdle.trace = false :=
  ⟨⟨exDirectBusy_busy,
      ((show_guarded_except_pflush exDirectBusy 0 1 true 0).2.2.2.1 exDirectBusy_busy).2.1⟩,
    ⟨by decide, (show_guarded_except_pflush exDirectIdle 0 0 true 0).1⟩, by decide⟩

/-! ## The comparison hook and the counter -/

theorem Frame.steady {w v : World} (h : Frame w v) : Steady w v :=
  ⟨h.array, h.g_terminate, h.g_delay_factor, h.intensity_flash_high, h.sort_animation_hook,
    h.SoundAccessHook, h.DelayHook, h.ComparisonCountHook, h.HSV_HUE_MAX, h.intensity, h.busy,
    h.frame_drop_, h.delay_time_, h.enable_count_, h.pixels_length,
    h.g_quicksort_pivot, h.rand_stream, h.rand_calls⟩

theorem Steady.strans {a b c : World} (h1 : Steady a b) (h2 : Steady b c) : Steady a c := by
  constructor
  · exact h2.array.trans h1.array
  · exact h2.g_terminate.trans h1.g_terminate
  · exact h2.g_delay_factor.trans h1.g_delay_factor
  · exact h2.intensity_flash_high.trans h1.intensity_flash_high
  · exact h2.sort_animation_hook.trans h1.sort_animation_hook
  · exact h2.SoundAccessHook.trans h1.SoundAccessHook
  · exact h2.DelayHook.trans h1.DelayHook
  · exact h2.ComparisonCountHook.trans h1.ComparisonCountHook
  · exact h2.HSV_HUE_MAX.trans h1.HSV_HUE_MAX
  · exact h2.intensity.trans h1.intensity
  · exact h2.busy.trans h1.busy
  · exact h2.frame_drop_.trans h1.frame_drop_
  · exact h2.delay_time_.trans h1.delay_time_
  · exact h2.enable_count_.trans h1.enable_count_
  · exact h2.pixels_length.trans h1.pixels_length
  · exact h2.g_quicksort_pivot.trans h1.g_quicksort_pivot
  · exact h2.rand_stream.trans h1.rand_stream
  · exact h2.rand_calls.trans h1.rand_calls

theorem Steady.frame_of {w v : World} (h : Steady w v)
    (hc : v.counter_value = w.counter_value) (hk : v.calls = w.calls) : Frame w v :=
  ⟨h.array, h.g_terminate, h.g_delay_factor, h.intensity_flash_high, h.sort_animation_hook,
    h.SoundAccessHook, h.DelayHook, h.ComparisonCountHook, h.HSV_HUE_MAX, h.intensity, h.busy,
    hc, h.frame_drop_, h.delay_time_, h.enable_count_, h.pixels_length,
    h.g_quicksort_pivot, h.rand_stream, h.rand_calls, hk⟩

theorem steady_note (c : Call) (w : World) : Steady w (note c w) := by
  constructor <;> rfl

theorem steady_Item_OnAccess (a : Int) (v : Nat) (d : Bool) (w : World) :
    Steady w (Item.OnAccess a v d w) :=
  (steady_note _ w).strans (frame_dispatch_access a v d _).steady

theorem counter_Item_OnAccess (a : Int) (v : Nat) (d : Bool) (w : World) :
    (Item.OnAccess a v d w).counter_value = w.counter_value :=
  (frame_dispatch_access a v d _).counter_value

theorem calls_Item_OnAccess (a : Int) (v : Nat) (d : Bool) (w : World) :
    (Item.OnAccess a v d w).calls = Call.access a d :: w.calls :=
  (frame_dispatch_access a v d _).calls

theorem steady_count_up (w : World) : Steady w (count_up w) := by
  unfold count_up
  split
  · constructor <;> rfl
  · exact (frame_refl w).steady

theorem steady_IncrementCounter (w : World) : Steady w (SortAnimation.IncrementCounter w) :=
  (steady_count_up w).strans (frame_call_ComparisonCountHook _).steady

theorem counter_IncrementCounter (w : World) :
    (SortAnimation.IncrementCounter w).counter_value =
      if w.enable_count_ then (w.counter_value + 1) % SIZE_MOD else w.counter_value := by
  unfold SortAnimation.IncrementCounter
  rw [(frame_call_ComparisonCountHook _).counter_value]
  unfold count_up
  split <;> rfl

theorem steady_OnComparison (a b : Int) (w : World) :
    Steady w (SortAnimation.OnComparison a b w) :=
  (steady_IncrementCounter w).strans (frame_OnComparison_flash a b _).steady

theorem counter_OnComparison (a b : Int) (w : World) :
    (SortAnimation.OnComparison a b w).counter_value =
      if w.enable_count_ then (w.counter_value + 1) % SIZE_MOD else w.counter_value := by
  unfold SortAnimation.OnComparison
  rw [(frame_OnComparison_flash a b _).counter_value, counter_IncrementCounter]

theorem steady_dispatch_comparison (a : Int) (va : Nat) (b : Int) (vb : Nat) (w : World) :
    Steady w (Item.dispatch_comparison a va b vb w) := by
  unfold Item.dispatch_comparison
  refine Steady.strans ?_
    ((frame_call_SoundAccessHook va _).ftrans (frame_call_SoundAccessHook vb _)).steady
  split
  · exact steady_OnComparison a b w
  · exact (frame_refl w).steady

theorem steady_Item_OnComparison (a : Int) (va : Nat) (b : Int) (vb : Nat) (w : World) :
    Steady w (Item.OnComparison a va b vb w) :=
  (steady_note _ w).strans (steady_dispatch_comparison a va b vb _)

theorem counter_dispatch_comparison (a : Int) (va : Nat) (b : Int) (vb : Nat) (w : World) :
    (Item.dispatch_comparison a va b vb w).counter_value =
      if w.sort_animation_hook = true ∧ w.enable_count_ = true then
        (w.counter_value + 1) % SIZE_MOD
      else w.counter_value := by
  unfold Item.dispatch_comparison
  rw [((frame_call_SoundAccessHook va _).ftrans (frame_call_SoundAccessHook vb _)).counter_value]
  by_cases h : w.sort_animation_hook = true
  · rw [if_pos h, counter_OnComparison]
    by_cases h2 : w.enable_count_ = true <;> simp [h, h2]
  · rw [if_neg h]
    simp [h]

theorem counter_Item_OnComparison (a : Int) (va : Nat) (b : Int) (vb : Nat) (w : World) :
    (Item.OnComparison a va b vb w).counter_value =
      if w.sort_animation_hook = true ∧ w.enable_count_ = true then
        (w.counter_value + 1) % SIZE_MOD
      else w.counter_value :=
  counter_dispatch_comparison a va b vb (note (Call.comparison a b) w)

theorem steady_poke (i v : Nat) (w : World) :
    (poke i v w).counter_value = w.counter_value ∧
      (poke i v w).enable_count_ = w.enable_count_ ∧
      (poke i v w).sort_animation_hook = w.sort_animation_hook ∧
      (poke i v w).array_size = w.array_size := by
  refine ⟨rfl, rfl, rfl, ?_⟩
  simp [poke, World.array_size]

/-- The fields an `array_check` iteration never changes. -/
theorem array_check_cmp_steady (i : Nat) (w : World) : Steady w (array_check_cmp i w) :=
  (steady_Item_OnAccess _ _ _ w).strans (steady_Item_OnComparison _ _ _ _ _)

theorem array_check_cmp_counter (i : Nat) (w : World) :
    (array_check_cmp i w).counter_value =
      if w.sort_animation_hook = true ∧ w.enable_count_ = true then
        (w.counter_value + 1) % SIZE_MOD
      else w.counter_value := by
  unfold array_check_cmp
  rw [counter_Item_OnComparison, (steady_Item_OnAccess _ _ _ w).sort_animation_hook,
    (steady_Item_OnAccess _ _ _ w).enable_count_, counter_Item_OnAccess _ _ _ w]

theorem array_check_mark_fields (i : Nat) (w : World) :
    (array_check_mark i w).counter_value = w.counter_value ∧
      (array_check_mark i w).enable_count_ = w.enable_count_ ∧
      (array_check_mark i w).sort_animation_hook = w.sort_animation_hook ∧
      (array_check_mark i w).array = w.array.set i black := by
  unfold array_check_mark move_from_tmp
  have h1 := steady_Item_OnAccess stackItem black true w
  have h2 := steady_Item_OnAccess (↑i) (peek i (poke i black (Item.OnAccess stackItem black true w)))
    true (poke i black (Item.OnAccess stackItem black true w))
  refine ⟨?_, ?_, ?_, ?_⟩
  · rw [counter_Item_OnAccess]
    exact counter_Item_OnAccess _ _ _ w
  · rw [h2.enable_count_]
    exact h1.enable_count_
  · rw [h2.sort_animation_hook]
    exact h1.sort_animation_hook
  · rw [h2.array]
    show (Item.OnAccess stackItem black true w).array.set i black = _
    rw [h1.array]

theorem array_check_step_fields (i : Nat) (w : World) :
    (array_check_step i w).counter_value = (array_check_cmp i w).counter_value ∧
      (array_check_step i w).enable_count_ = w.enable_count_ ∧
      (array_check_step i w).sort_animation_hook = w.sort_animation_hook ∧
      (array_check_step i w).array = check_list w.array i := by
  have hs := array_check_cmp_steady i w
  have hm := array_check_mark_fields i (array_check_cmp i w)
  have hp : peek i (array_check_cmp i w) = w.array.getD i 0 := by
    unfold peek
    rw [hs.array]
  unfold array_check_step check_list
  rw [hp]
  by_cases h : w.array.getD i 0 = toU16 i
  · rw [if_neg (not_not.2 h), if_neg (not_not.2 h)]
    exact ⟨rfl, hs.enable_count_, hs.sort_animation_hook, hs.array⟩
  · rw [if_pos h, if_pos h]
    refine ⟨hm.1, hm.2.1.trans hs.enable_count_, hm.2.2.1.trans hs.sort_animation_hook, ?_⟩
    rw [hm.2.2.2, hs.array]

/-! ## Settling: what `array_check` does to the counter and to the buffer -/

theorem array_check_fold (l : List Nat) (w : World) :
    (l.foldl (fun acc i => array_check_step i acc) w).enable_count_ = w.enable_count_ ∧
      (l.foldl (fun acc i => array_check_step i acc) w).sort_animation_hook =
        w.sort_animation_hook ∧
      (l.foldl (fun acc i => array_check_step i acc) w).array = l.foldl check_list w.array ∧
      (l.foldl (fun acc i => array_check_step i acc) w).counter_value % SIZE_MOD =
        if w.sort_animation_hook = true ∧ w.enable_count_ = true then
          (w.counter_value + l.length) % SIZE_MOD
        else w.counter_value % SIZE_MOD := by
  induction l generalizing w with
  | nil =>
    refine ⟨rfl, rfl, rfl, ?_⟩
    split <;> rfl
  | cons i l ih =>
    obtain ⟨h1, h2, h3, h4⟩ := ih (array_check_step i w)
    obtain ⟨s1, s2, s3, s4⟩ := array_check_step_fields i w
    simp only [List.foldl_cons]
    refine ⟨h1.trans s2, h2.trans s3, ?_, ?_⟩
    · rw [h3, s4]
    · rw [h4, s2, s3, s1, array_check_cmp_counter]
      split
      · rw [List.length_cons, Nat.mod_add_mod]
        congr 1
        omega
      · rfl

theorem array_check_fold_off (l : List Nat) (w : World) (h : w.enable_count_ = false) :
    (l.foldl (fun acc i => array_check_step i acc) w).counter_value = w.counter_value := by
  induction l generalizing w with
  | nil => rfl
  | cons i l ih =>
    obtain ⟨s1, s2, _, _⟩ := array_check_step_fields i w
    simp only [List.foldl_cons]
    rw [ih _ (s2.trans h), s1, array_check_cmp_counter]
    simp [h]

/-- C6: once counting has been disabled with `set_enable_count(false)`, the
settling check `array_check` leaves `counter_value` as it was, for every
buffer and every counter value; had counting been enabled (and the engine
registered), the same pass would have added its `array_size` comparisons. -/
theorem array_check_counter_disabled (w : World) :
    (array_check (set_enable_count false w)).counter_value = w.counter_value ∧
      (array_check (set_enable_count true w)).counter_value % SIZE_MOD =
        if w.sort_animation_hook = true then (w.counter_value + w.array_size) % SIZE_MOD
        else w.counter_value % SIZE_MOD := by
  constructor
  · exact array_check_fold_off _ (set_enable_count false w) rfl
  · have h := (array_check_fold (List.range (set_enable_count true w).array_size)
      (set_enable_count true w)).2.2.2
    unfold array_check
    rw [h, List.length_range]
    by_cases hh : w.sort_animation_hook = true
    · rw [if_pos hh, if_pos ⟨hh, rfl⟩]
      rfl
    · rw [if_neg hh, if_neg (fun c => hh c.1)]
      rfl

theorem check_list_length (A : List Nat) (i : Nat) : (check_list A i).length = A.length := by
  unfold check_list
  split
  · exact List.length_set _ _ _
  · rfl

theorem check_list_getD (A : List Nat) (i j : Nat) (hi : i < A.length) :
    (check_list A i).getD j 0 =
      if j = i then (if A.getD i 0 = toU16 i then A.getD i 0 else black) else A.getD j 0 := by
  unfold check_list
  by_cases h : A.getD i 0 = toU16 i
  · rw [if_neg (not_not.2 h)]
    by_cases hj : j = i
    · rw [if_pos hj, if_pos h, hj]
    · rw [if_neg hj]
  · rw [if_pos h]
    by_cases hj : j = i
    · subst hj
      rw [if_pos rfl, if_neg h]
      simp [List.getD_eq_getElem?_getD, List.getElem?_set, hi]
    · rw [if_neg hj]
      have hne : ¬ i = j := fun e => hj e.symm
      simp [List.getD_eq_getElem?_getD, List.getElem?_set, hne]

theorem check_fold_spec (A : List Nat) (n : Nat) (hn : n ≤ A.length) :
    ((List.range n).foldl check_list A).length = A.length ∧
      ∀ j, ((List.range n).foldl check_list A).getD j 0 =
        if j < n then (if A.getD j 0 = toU16 j then A.getD j 0 else black) else A.getD j 0 := by
  induction n with
  | zero =>
    refine ⟨rfl, fun j => ?_⟩
    simp
  | succ n ih =>
    obtain ⟨hl, hg⟩ := ih (Nat.le_of_succ_le hn)
    rw [List.range_succ, List.foldl_append]
    simp only [List.foldl_cons, List.foldl_nil]
    refine ⟨by rw [check_list_length, hl], fun j => ?_⟩
    rw [check_list_getD _ _ _ (by rw [hl]; omega)]
    by_cases hj : j = n
    · subst hj
      rw [if_pos rfl, hg j, if_neg (Nat.lt_irrefl j), if_pos (Nat.lt_succ_self j)]
    · rw [if_neg hj, hg j]
      by_cases hlt : j < n
      · rw [if_pos hlt, if_pos (Nat.lt_succ_of_lt hlt)]
      · rw [if_neg hlt, if_neg (by omega)]

theorem array_check_array (w : World) :
    (array_check w).array.length = w.array.length ∧
      ∀ j, (array_check w).array.getD j 0 =
        if j < w.array.length then
          (if w.array.getD j 0 = toU16 j then w.array.getD j 0 else black)
        else w.array.getD j 0 := by
  unfold array_check
  rw [(array_check_fold _ w).2.2.1]
  exact check_fold_spec w.array w.array.length (Nat.le_refl _)

theorem list_eq_of_getD {l1 l2 : List Nat} (hl : l1.length = l2.length)
    (h : ∀ j, j < l1.length → l1.getD j 0 = l2.getD j 0) : l1 = l2 := by
  apply List.ext_getElem hl
  intro n h1 h2
  have e := h n h1
  rw [List.getD_eq_getElem _ _ h1, List.getD_eq_getElem _ _ h2] at e
  exact e

theorem eq_range_iff (A : List Nat) :
    A = List.range A.length ↔ ∀ i, i < A.length → A.getD i 0 = i := by
  constructor
  · intro h i hi
    have e := congrArg (fun l => l.getD i 0) h
    simp only at e
    rw [e]
    simp [List.getD_eq_getElem?_getD, hi]
  · intro h
    apply list_eq_of_getD (by rw [List.length_range])
    intro j hj
    rw [h j hj, List.getD_eq_getElem _ _ (by rw [List.length_range]; exact hj),
      List.getElem_range]

theorem toU16_small {i : Nat} (h : i < 65536) : toU16 i = i := Nat.mod_eq_of_lt h

/-- C7 as stated fails in its last part: a buffer whose only element is the
sentinel is left unchanged by `array_check` although it is not the identity. -/
theorem array_check_unchanged_counterexample :
    (mkWorld [65535] (-4) (fun _ => false)).array = [65535] ∧
      (array_check (mkWorld [65535] (-4) (fun _ => false))).array = [65535] ∧
      ([65535] : List Nat) ≠ List.range 1 := by
  decide

/-- C7, amended: for a buffer of at most 65535 elements, after `array_check`
every position `i` holds `i` if it held `i` before and the sentinel `black`
otherwise; so the buffer is left unchanged exactly when every position held
its index or already the sentinel, and, for a buffer without sentinel, exactly
when it was the identity. -/
theorem array_check_marks_mismatches (w : World) (hN : w.array.length ≤ 65535) :
    (array_check w).array.length = w.array.length ∧
      (∀ i, i < w.array.length →
        (array_check w).array.getD i 0 = if w.array.getD i 0 = i then i else black) ∧
      ((array_check w).array = w.array ↔
        ∀ i, i < w.array.length → w.array.getD i 0 = i ∨ w.array.getD i 0 = black) ∧
      (black ∉ w.array →
        ((array_check w).array = w.array ↔ w.array = List.range w.array.length)) := by
  obtain ⟨hl, hg⟩ := array_check_array w
  have hpt : ∀ i, i < w.array.length →
      (array_check w).array.getD i 0 = if w.array.getD i 0 = i then i else black := by
    intro i hi
    rw [hg i, if_pos hi, toU16_small (by omega)]
    by_cases h : w.array.getD i 0 = i
    · rw [if_pos h, if_pos h, h]
    · rw [if_neg h, if_neg h]
  have hiff : (array_check w).array = w.array ↔
      ∀ i, i < w.array.length → w.array.getD i 0 = i ∨ w.array.getD i 0 = black := by
    constructor
    · intro e i hi
      have h := hpt i hi
      rw [e] at h
      by_cases hc : w.array.getD i 0 = i
      · exact Or.inl hc
      · rw [if_neg hc] at h
        exact Or.inr h
    · intro h
      apply list_eq_of_getD hl
      intro j hj
      rw [hl] at hj
      rw [hpt j hj]
      rcases h j hj with h1 | h1
      · rw [if_pos h1, h1]
      · by_cases hc : w.array.getD j 0 = j
        · rw [if_pos hc, hc]
        · rw [if_neg hc, h1]
  refine ⟨hl, hpt, hiff, fun hb => ?_⟩
  rw [hiff, eq_range_iff]
  constructor
  · intro h i hi
    rcases h i hi with h1 | h1
    · exact h1
    · exfalso
      apply hb
      rw [← h1, List.getD_eq_getElem _ _ hi]
      exact List.getElem_mem _
  · intro h i hi
    exact Or.inl (h i hi)

/-- Witness of the amended C7 on the example buffer. -/
theorem array_check_marks_mismatches_witness :
    exDrop4.array.length ≤ 65535 ∧
      (array_check exDrop4).array.getD 0 0 = black ∧
      (array_check exDrop4).array.getD 1 0 = 1 :=
  ⟨by decide, (array_check_marks_mismatches exDrop4 (by decide)).2.1 0 (by decide),
    (array_check_marks_mismatches exDrop4 (by decide)).2.1 1 (by decide)⟩

/-! ## Comparison events that reference an element outside the buffer -/

theorem pixels_IncrementCounter (w : World) :
    (SortAnimation.IncrementCounter w).pixels = w.pixels := by
  unfold SortAnimation.IncrementCounter call_ComparisonCountHook count_up World.log
  split <;> split <;> rfl

theorem shows_IncrementCounter (w : World) :
    shows (SortAnimation.IncrementCounter w) = shows w := by
  unfold SortAnimation.IncrementCounter call_ComparisonCountHook count_up World.log shows
  split <;> split <;> simp

/-- C5 as stated fails: a comparison of the in-range element 0 with an
element outside the buffer (offset -1, a local such as `key`) repaints
pixel 0 and requests a transmit. -/
theorem OnComparison_one_outside_counterexample :
    ((-1 : Int) < 0 ∨ (exDirectIdle.array_size : Int) ≤ -1) ∧
      (SortAnimation.OnComparison 0 (-1) exDirectIdle).pixels ≠ exDirectIdle.pixels ∧
      shows (SortAnimation.OnComparison 0 (-1) exDirectIdle) = shows exDirectIdle + 1 := by
  decide

/-- C5, amended: a comparison event in which both referenced elements lie
outside the working buffer only runs `IncrementCounter`: no pixel colour is
changed and no transmit is requested. When exactly one of the two lies
outside, the other one is flashed alone as a paced one-position flash. -/
theorem OnComparison_outside (w : World) (a b : Int)
    (ha : a < 0 ∨ (w.array_size : Int) ≤ a) :
    ((b < 0 ∨ (w.array_size : Int) ≤ b) →
      SortAnimation.OnComparison a b w = SortAnimation.IncrementCounter w ∧
        (SortAnimation.OnComparison a b w).pixels = w.pixels ∧
        shows (SortAnimation.OnComparison a b w) = shows w) ∧
    ((0 ≤ b ∧ b < (w.array_size : Int)) →
      SortAnimation.OnComparison a b w = flash b.toNat true (SortAnimation.IncrementCounter w) ∧
        SortAnimation.OnComparison b a w =
          flash b.toNat true (SortAnimation.IncrementCounter w)) := by
  have hs : (SortAnimation.IncrementCounter w).array_size = w.array_size := by
    unfold World.array_size
    rw [(steady_IncrementCounter w).array]
  have hna : ¬ (a ≥ 0 ∧ a < (w.array_size : Int)) := by omega
  constructor
  · intro hb
    have hnb : ¬ (b ≥ 0 ∧ b < (w.array_size : Int)) := by omega
    have e : SortAnimation.OnComparison a b w = SortAnimation.IncrementCounter w := by
      unfold SortAnimation.OnComparison OnComparison_flash
      rw [hs, if_neg (fun c => hna c.1), if_neg hna, if_neg hnb]
    rw [e]
    exact ⟨rfl, pixels_IncrementCounter w, shows_IncrementCounter w⟩
  · intro hb
    have hb2 : b ≥ 0 ∧ b < (w.array_size : Int) := ⟨hb.1, hb.2⟩
    constructor
    · unfold SortAnimation.OnComparison OnComparison_flash
      rw [hs, if_neg (fun c => hna c.1), if_neg hna, if_pos hb2]
    · unfold SortAnimation.OnComparison OnComparison_flash
      rw [hs, if_neg (fun c => hna c.2), if_pos hb2]

/-- Witness of the amended C5: two locals compared with each other. -/
theorem OnComparison_outside_witness :
    ((-1 : Int) < 0 ∨ (exDirectIdle.array_size : Int) ≤ -1) ∧
      (SortAnimation.OnComparison (-1) (-1) exDirectIdle).pixels = exDirectIdle.pixels ∧
      shows (SortAnimation.OnComparison (-1) (-1) exDirectIdle) = shows exDirectIdle :=
  ⟨by decide,
    ((OnComparison_outside exDirectIdle (-1) (-1) (by decide)).1 (by decide)).2.1,
    ((OnComparison_outside exDirectIdle (-1) (-1) (by decide)).1 (by decide)).2.2⟩

/-! ## Insertion sort -/

theorem poke_array (i v : Nat) (w : World) : (poke i v w).array = w.array.set i v := rfl

theorem poke_g_terminate (i v : Nat) (w : World) : (poke i v w).g_terminate = w.g_terminate := rfl

theorem swap_fields (i j : Nat) (w : World) :
    (swap i j w).g_terminate = w.g_terminate ∧ (swap i j w).array = swap_list w.array i j := by
  unfold swap move_from_tmp move_assign move_to_tmp
  constructor
  · simp only [(steady_Item_OnAccess _ _ _ _).g_terminate, poke_g_terminate]
  · simp only [(steady_Item_OnAccess _ _ _ _).array, poke_array, peek, swap_list]

theorem swap_list_adjacent (L : List Nat) (x y : Nat) (R : List Nat) :
    swap_list (L ++ x :: y :: R) L.length (L.length + 1) = L ++ y :: x :: R := by
  induction L with
  | nil => simp [swap_list]
  | cons a L ih =>
    unfold swap_list at ih ⊢
    simp only [List.cons_append, List.length_cons, List.set_cons_succ, List.getD_cons_succ]
    rw [ih]

theorem InsertionSort_cmp_fields (key j : Nat) (w : World) :
    (InsertionSort_cmp key j w).g_terminate = w.g_terminate ∧
      (InsertionSort_cmp key j w).array = w.array :=
  ⟨(steady_Item_OnComparison _ _ _ _ w).g_terminate, (steady_Item_OnComparison _ _ _ _ w).array⟩

theorem getD_append_cons (L : List Nat) (x : Nat) (R : List Nat) :
    (L ++ x :: R).getD L.length 0 = x := by
  induction L with
  | nil => rfl
  | cons a L ih => simpa using ih

/-- The inner loop moves `key` to the left into the sorted run before it. -/
theorem InsertionSort_inner_spec (key n : Nat) :
    ∀ (L R : List Nat) (w : World), w.array = L ++ key :: R → L.length = n →
      L.Pairwise (· ≤ ·) →
      (InsertionSort_inner key n w).g_terminate = w.g_terminate ∧
      ∃ P : List Nat, P.length = n + 1 ∧ P.Pairwise (· ≤ ·) ∧ P.Perm (key :: L) ∧
        (InsertionSort_inner key n w).array = P ++ R := by
  induction n with
  | zero =>
    intro L R w hA hL _
    have hnil : L = [] := List.length_eq_zero.1 hL
    subst hnil
    refine ⟨rfl, [key], rfl, List.pairwise_singleton _ _, List.Perm.refl _, ?_⟩
    simpa [InsertionSort_inner] using hA
  | succ n ih =>
    intro L R w hA hL hS
    rcases List.eq_nil_or_concat L with hnil | ⟨L0, x, hc⟩
    · subst hnil
      simp at hL
    · rw [List.concat_eq_append] at hc
      subst hc
      have hL0 : L0.length = n := by simpa using hL
      obtain ⟨hS0, -, hle⟩ := List.pairwise_append.1 hS
      have hcmp := InsertionSort_cmp_fields key n w
      have hpeek : peek n (InsertionSort_cmp key n w) = x := by
        unfold peek
        rw [hcmp.2, hA, List.append_assoc, ← hL0]
        exact getD_append_cons L0 x _
      unfold InsertionSort_inner
      rw [hpeek]
      by_cases hx : x > key
      · rw [if_pos hx]
        have hsw := swap_fields n (n + 1) (InsertionSort_cmp key n w)
        have harr : (swap n (n + 1) (InsertionSort_cmp key n w)).array =
            L0 ++ key :: (x :: R) := by
          rw [hsw.2, hcmp.2, hA, List.append_assoc, ← hL0]
          exact swap_list_adjacent L0 x key R
        obtain ⟨hg, P, hPl, hPs, hPp, hPa⟩ := ih L0 (x :: R) _ harr hL0 hS0
        refine ⟨by rw [hg, hsw.1, hcmp.1], P ++ [x], by simp [hPl], ?_, ?_, ?_⟩
        · rw [List.pairwise_append]
          refine ⟨hPs, List.pairwise_singleton _ _, ?_⟩
          intro a ha b hb
          rw [List.mem_singleton] at hb
          subst hb
          rcases List.mem_cons.1 (hPp.subset ha) with h | h
          · rw [h]
            exact Nat.le_of_lt hx
          · exact hle a h b (List.mem_singleton_self _)
        · exact (hPp.append_right [x]).trans (List.Perm.refl _)
        · rw [hPa, List.append_assoc]
          rfl
      · rw [if_neg hx]
        have hxk : x ≤ key := Nat.le_of_not_lt hx
        refine ⟨hcmp.1, (L0 ++ [x]) ++ [key], by simp [hL0], ?_, ?_, ?_⟩
        · rw [List.pairwise_append]
          refine ⟨hS, List.pairwise_singleton _ _, ?_⟩
          intro a ha b hb
          rw [List.mem_singleton] at hb
          subst hb
          rcases List.mem_append.1 ha with h | h
          · exact Nat.le_trans (hle a h x (List.mem_singleton_self _)) hxk
          · rw [List.mem_singleton] at h
            rw [h]
            exact hxk
        · exact List.perm_append_singleton _ _
        · rw [hcmp.2, hA]
          simp

/-- The outer loop extends the sorted run by one element per iteration. -/
theorem InsertionSort_outer_spec (left : Nat) :
    ∀ (i : Nat) (P S : List Nat) (w : World), w.array = P ++ S → P.length = i →
      S.length = left → P.Pairwise (· ≤ ·) → w.g_terminate = false →
      (InsertionSort_outer left i w).array.Pairwise (· ≤ ·) ∧
        (InsertionSort_outer left i w).array.Perm w.array := by
  induction left with
  | zero =>
    intro i P S w hA _ hS hP _
    have hnil : S = [] := List.length_eq_zero.1 hS
    subst hnil
    unfold InsertionSort_outer
    rw [hA, List.append_nil]
    exact ⟨hP, List.Perm.refl _⟩
  | succ left ih =>
    intro i P S w hA hPl hS hP hg
    cases S with
    | nil => simp at hS
    | cons key R =>
      have hR : R.length = left := by simpa using hS
      have hpeek : peek i w = key := by
        unfold peek
        rw [hA, ← hPl]
        exact getD_append_cons P key R
      have hacc := steady_Item_OnAccess stackItem key true w
      obtain ⟨hgi, P1, hP1l, hP1s, hP1p, hP1a⟩ :=
        InsertionSort_inner_spec key i P R (Item.OnAccess stackItem key true w)
          (by rw [hacc.array, hA]) hPl hP
      have hg1 : (InsertionSort_inner key i (Item.OnAccess stackItem key true w)).g_terminate
          = false := by
        rw [hgi, hacc.g_terminate, hg]
      obtain ⟨hs, hp⟩ := ih (i + 1) P1 R _ hP1a hP1l hR hP1s hg1
      unfold InsertionSort_outer
      rw [hg, hpeek]
      simp only [Bool.false_eq_true, if_false]
      refine ⟨hs, hp.trans ?_⟩
      rw [hP1a, hA]
      exact (hP1p.append_right R).trans List.perm_middle.symm

/-- With the cancellation flag clear, `InsertionSort` on the whole buffer
leaves a sorted permutation of the values it found. -/
theorem InsertionSort_sorts (w : World) (hg : w.g_terminate = false) :
    (InsertionSort w.array.length w).array.Pairwise (· ≤ ·) ∧
      (InsertionSort w.array.length w).array.Perm w.array := by
  unfold InsertionSort
  cases hA : w.array with
  | nil =>
    simp only [List.length_nil]
    unfold InsertionSort_outer
    rw [hA]
    exact ⟨List.Pairwise.nil, List.Perm.refl _⟩
  | cons a S =>
    have h := InsertionSort_outer_spec S.length 1 [a] S w (by rw [hA]; rfl) rfl rfl
      (List.pairwise_singleton _ _) hg
    rw [hA] at h
    simpa using h

theorem InsertionSort_identity (w : World) (N : Nat) (hg : w.g_terminate = false)
    (hp : w.array.Perm (List.range N)) :
    (InsertionSort N w).array = List.range N := by
  have hN : w.array.length = N := by rw [hp.length_eq, List.length_range]
  obtain ⟨hs, hq⟩ := InsertionSort_sorts w hg
  rw [hN] at hs hq
  exact List.eq_of_perm_of_sorted (hq.trans hp) hs (List.sorted_le_range N)

/-- C1: for every `N > 0` and every buffer whose values are a permutation of
`0..N-1`, `InsertionSort` run with the cancellation flag clear returns (the
model is a total function) and leaves the buffer equal to `[0, 1, ..., N-1]`:
every element holds its own index, and the sort leaves no sentinel behind (a
`0xFFFF` in the result was already in the input, which can only be the
genuine value 65535 of a buffer of 65536 elements; for `N ≤ 65535` no element
holds `0xFFFF`); in particular `[3,1,4,0,2,6,5,7]` becomes `[0,1,2,3,4,5,6,7]`. -/
theorem InsertionSort_permutation (w : World) (N : Nat) (hN : 0 < N)
    (hg : w.g_terminate = false) (hp : w.array.Perm (List.range N)) :
    (InsertionSort N w).array = List.range N ∧
      (∀ i, i < N → (InsertionSort N w).array.getD i 0 = i) ∧
      (black ∈ (InsertionSort N w).array → black ∈ w.array) ∧
      (N ≤ 65535 → black ∉ (InsertionSort N w).array) ∧
      (InsertionSort 8 exDrop4).array = [0, 1, 2, 3, 4, 5, 6, 7] := by
  have h := InsertionSort_identity w N hg hp
  refine ⟨h, ?_, ?_, ?_, by decide⟩
  · intro i hi
    rw [h]
    simp [List.getD_eq_getElem?_getD, hi]
  · intro hb
    rw [h] at hb
    exact hp.symm.subset hb
  · intro hle hb
    rw [h, List.mem_range] at hb
    unfold black at hb
    omega

/-- Witness of C1: the example scenario of the specification. -/
theorem InsertionSort_permutation_witness :
    (0 < 8 ∧ exDrop4.g_terminate = false ∧ exDrop4.array = [3, 1, 4, 0, 2, 6, 5, 7]) ∧
      (InsertionSort 8 exDrop4).array = List.range 8 :=
  ⟨by decide, (InsertionSort_permutation exDrop4 8 (by decide) (by decide) (by decide)).1⟩

/-! ## The ring of frame-drop mode -/

theorem ring_show_unless_busy (w : World) :
    (show_unless_busy w).frame_buffer_ = w.frame_buffer_ ∧
      (show_unless_busy w).frame_buffer_pos_ = w.frame_buffer_pos_ ∧
      (show_unless_busy w).pixels = w.pixels := by
  unfold show_unless_busy
  split <;> exact ⟨rfl, rfl, rfl⟩

theorem ring_yield_delay (w : World) :
    (yield_delay w).frame_buffer_ = w.frame_buffer_ ∧
      (yield_delay w).frame_buffer_pos_ = w.frame_buffer_pos_ :=
  ⟨(quiet_yield_delay w).frame_buffer_, (quiet_yield_delay w).frame_buffer_pos_⟩

theorem ring_flash_high (i : Nat) (w : World) :
    (flash_high i w).frame_buffer_ = w.frame_buffer_ ∧
      (flash_high i w).frame_buffer_pos_ = w.frame_buffer_pos_ := by
  rw [flash_high_eq]
  exact ⟨rfl, rfl⟩

theorem ring_reset_fields (w : World) :
    (ring_reset w).frame_buffer_ = w.frame_buffer_ ∧
      (ring_reset w).frame_buffer_pos_ = (w.frame_drop_ + SIZE_MOD - 1) % SIZE_MOD ∧
      (ring_reset w).pixels = w.pixels := by
  unfold ring_reset
  exact ⟨rfl, rfl, rfl⟩

theorem ring_reset_pos {k : Nat} (w : World) (hd : w.frame_drop_ = k) (h1 : 1 ≤ k)
    (h2 : k ≤ 256) : (ring_reset w).frame_buffer_pos_ = k - 1 := by
  rw [(ring_reset_fields w).2.1, hd]
  unfold SIZE_MOD
  omega

/-- The fields of the world after the flushing branch of `flash_low_buffer`. -/
theorem flush_branch_fields {k : Nat} (i : Nat) (w : World) (hd : w.frame_drop_ = k)
    (h1 : 1 ≤ k) (h2 : k ≤ 256) :
    (yield_delay (ring_reset (restore_ring (show_unless_busy (ring_store i w))))).frame_buffer_pos_
        = k - 1 ∧
      (yield_delay (ring_reset (restore_ring (show_unless_busy (ring_store i w))))).frame_buffer_
        = w.frame_buffer_.set w.frame_buffer_pos_ i ∧
      shows (yield_delay (ring_reset (restore_ring (show_unless_busy (ring_store i w)))))
        = shows w + (if w.busy w.busy_calls then 0 else 1) := by
  have hq := quiet_restore_ring (show_unless_busy (ring_store i w))
  have hs := ring_show_unless_busy (ring_store i w)
  refine ⟨?_, ?_, ?_⟩
  · rw [(ring_yield_delay _).2]
    apply ring_reset_pos _ _ h1 h2
    rw [hq.frame.frame_drop_, (frame_show_unless_busy _).frame_drop_]
    exact hd
  · rw [(ring_yield_delay _).1, (ring_reset_fields _).1, hq.frame_buffer_, hs.1]
    rfl
  · rw [shows_yield_delay, shows_ring_reset, hq.shows_eq, shows_show_unless_busy]
    rfl

theorem ringOK_flash_low_buffer {k i : Nat} {w : World} (h : RingOK k w)
    (hi : i < w.array_size) : RingOK k (flash_low_buffer i w) := by
  have hf := frame_flash_low_buffer i w
  by_cases hp : w.frame_buffer_pos_ = 0
  · obtain ⟨e1, e2, -⟩ := flush_branch_fields i w h.drop h.pos_k h.fits
    have ev : flash_low_buffer i w =
        yield_delay (ring_reset (restore_ring (show_unless_busy (ring_store i w)))) := by
      unfold flash_low_buffer
      rw [if_pos hp]
    rw [← ev] at e1 e2
    refine ⟨hf.frame_drop_.trans h.drop, h.pos_k, ?_, h.fits, ?_, ?_⟩
    · rw [e1]
      have := h.pos_k
      omega
    · rw [e2, List.length_set]
      exact h.slots
    · intro s hs1 hs2
      rw [e1] at hs1
      omega
  · have ev : flash_low_buffer i w = ring_dec (ring_store i w) := by
      unfold flash_low_buffer
      rw [if_neg hp]
    have e1 : (flash_low_buffer i w).frame_buffer_pos_ = w.frame_buffer_pos_ - 1 := by
      rw [ev]
      rfl
    have e2 : (flash_low_buffer i w).frame_buffer_ = w.frame_buffer_.set w.frame_buffer_pos_ i := by
      rw [ev]
      rfl
    refine ⟨hf.frame_drop_.trans h.drop, h.pos_k, ?_, h.fits, ?_, ?_⟩
    · rw [e1]
      have := h.pos
      omega
    · rw [e2, List.length_set]
      exact h.slots
    · intro s hs1 hs2
      rw [e1] at hs1
      rw [e2, hf.size_eq]
      by_cases hs : s = w.frame_buffer_pos_
      · subst hs
        have hlt : w.frame_buffer_pos_ < w.frame_buffer_.length := by
          rw [h.slots]
          have := h.pos
          have := h.fits
          omega
        simp [List.getD_eq_getElem?_getD, List.getElem?_set, hlt]
        exact hi
      · have hne : ¬ w.frame_buffer_pos_ = s := fun e => hs e.symm
        have hgt : w.frame_buffer_pos_ < s := by omega
        have := h.inRange s hgt hs2
        simpa [List.getD_eq_getElem?_getD, List.getElem?_set, hne] using this

/-- One ring record adds at most one to `shows * k - counter`. -/
theorem potential_flash_low_buffer {k i : Nat} {w : World} (h : RingOK k w) :
    shows (flash_low_buffer i w) * k + w.frame_buffer_pos_ ≤
      shows w * k + (flash_low_buffer i w).frame_buffer_pos_ + 1 := by
  by_cases hp : w.frame_buffer_pos_ = 0
  · obtain ⟨e1, -, e3⟩ := flush_branch_fields i w h.drop h.pos_k h.fits
    have ev : flash_low_buffer i w =
        yield_delay (ring_reset (restore_ring (show_unless_busy (ring_store i w)))) := by
      unfold flash_low_buffer
      rw [if_pos hp]
    rw [← ev] at e1 e3
    have hle : shows (flash_low_buffer i w) ≤ shows w + 1 := by
      rw [e3]
      split <;> omega
    have hm : shows (flash_low_buffer i w) * k ≤ (shows w + 1) * k :=
      Nat.mul_le_mul_right k hle
    rw [Nat.add_mul, Nat.one_mul] at hm
    rw [e1, hp]
    have := h.pos_k
    omega
  · have ev : flash_low_buffer i w = ring_dec (ring_store i w) := by
      unfold flash_low_buffer
      rw [if_neg hp]
    have e1 : (flash_low_buffer i w).frame_buffer_pos_ = w.frame_buffer_pos_ - 1 := by
      rw [ev]
      rfl
    have e3 : shows (flash_low_buffer i w) = shows w := by
      rw [ev]
      rfl
    rw [e1, e3]
    omega

theorem ringOK_flash_high {k i : Nat} {w : World} (h : RingOK k w) :
    RingOK k (flash_high i w) := by
  have hf := frame_flash_high i w
  obtain ⟨r1, r2⟩ := ring_flash_high i w
  refine ⟨hf.frame_drop_.trans h.drop, h.pos_k, ?_, h.fits, ?_, ?_⟩
  · rw [r2]
    exact h.pos
  · rw [r1]
    exact h.slots
  · intro s hs1 hs2
    rw [r2] at hs1
    rw [r1, hf.size_eq]
    exact h.inRange s hs1 hs2

theorem flash_drop_eq {k : Nat} (i : Nat) {w : World} (h : RingOK k w) :
    flash i true w = flash_low_buffer i (flash_high i w) := by
  have hk : w.frame_drop_ ≠ 0 := by
    rw [h.drop]
    have := h.pos_k
    omega
  unfold flash
  simp [hk]

theorem flash2_drop_eq {k : Nat} (i j : Nat) {w : World} (h : RingOK k w) :
    flash2 i j true w =
      flash_low_buffer i (flash_low_buffer j (flash_high j (flash_high i w))) := by
  have hk : w.frame_drop_ ≠ 0 := by
    rw [h.drop]
    have := h.pos_k
    omega
  unfold flash2
  simp [hk]

/-- A paced flash event keeps the ring invariant and adds at most its number
of ring records to `shows * k - counter`. -/
theorem event_step {k : Nat} (e : FlashEvent) {w : World} (h : RingOK k w)
    (hr : e.inRange w.array_size) :
    RingOK k (e.run w) ∧ (e.run w).array_size = w.array_size ∧
      shows (e.run w) * k + w.frame_buffer_pos_ ≤
        shows w * k + (e.run w).frame_buffer_pos_ + e.records := by
  cases e with
  | one i =>
    have h1 := ringOK_flash_high (i := i) h
    have hi : i < (flash_high i w).array_size := by
      rw [(frame_flash_high i w).size_eq]
      exact hr
    have hp := potential_flash_low_buffer (i := i) h1
    rw [shows_flash_high, (ring_flash_high i w).2] at hp
    simp only [FlashEvent.run, FlashEvent.records]
    rw [flash_drop_eq i h]
    exact ⟨ringOK_flash_low_buffer h1 hi,
      ((frame_flash_high i w).ftrans (frame_flash_low_buffer i _)).size_eq, hp⟩
  | two i j =>
    have h1 := ringOK_flash_high (i := j) (ringOK_flash_high (i := i) h)
    have hs : (flash_high j (flash_high i w)).array_size = w.array_size :=
      ((frame_flash_high i w).ftrans (frame_flash_high j _)).size_eq
    have hj : j < (flash_high j (flash_high i w)).array_size := by
      rw [hs]
      exact hr.2
    have h2 := ringOK_flash_low_buffer h1 hj
    have hs2 : (flash_low_buffer j (flash_high j (flash_high i w))).array_size = w.array_size := by
      rw [(frame_flash_low_buffer j _).size_eq]
      exact hs
    have hi : i < (flash_low_buffer j (flash_high j (flash_high i w))).array_size := by
      rw [hs2]
      exact hr.1
    have p1 := potential_flash_low_buffer (i := j) h1
    have p2 := potential_flash_low_buffer (i := i) h2
    rw [shows_flash_high, shows_flash_high, (ring_flash_high j _).2, (ring_flash_high i w).2] at p1
    simp only [FlashEvent.run, FlashEvent.records]
    rw [flash2_drop_eq i j h]
    refine ⟨ringOK_flash_low_buffer h2 hi, ?_, ?_⟩
    · rw [(frame_flash_low_buffer i _).size_eq]
      exact hs2
    · omega

theorem run_events_cons (e : FlashEvent) (es : List FlashEvent) (w : World) :
    run_events (e :: es) w = run_events es (e.run w) := rfl

theorem total_records_cons (e : FlashEvent) (es : List FlashEvent) :
    total_records (e :: es) = e.records + total_records es := by
  simp [total_records]

theorem run_events_potential {k : Nat} (es : List FlashEvent) :
    ∀ (w : World), RingOK k w → (∀ e ∈ es, e.inRange w.array_size) →
      RingOK k (run_events es w) ∧ (run_events es w).array_size = w.array_size ∧
        shows (run_events es w) * k + w.frame_buffer_pos_ ≤
          shows w * k + (run_events es w).frame_buffer_pos_ + total_records es := by
  induction es with
  | nil =>
    intro w h _
    exact ⟨h, rfl, by simp [run_events, total_records]⟩
  | cons e es ih =>
    intro w h hr
    obtain ⟨h1, hs1, p1⟩ := event_step e h (hr e (List.mem_cons_self _ _))
    obtain ⟨h2, hs2, p2⟩ := ih (e.run w) h1 (by
      intro x hx
      rw [hs1]
      exact hr x (List.mem_cons_of_mem _ hx))
    rw [run_events_cons, total_records_cons]
    refine ⟨h2, hs2.trans hs1, ?_⟩
    omega

theorem ring_pflush (w : World) : (pflush w).frame_buffer_ = w.frame_buffer_ := by
  unfold pflush
  have h : (strip_show (yield_delay (ring_reset (restore_ring w)))).frame_buffer_ =
      (yield_delay (ring_reset (restore_ring w))).frame_buffer_ := rfl
  rw [h, (ring_yield_delay _).1, (ring_reset_fields _).1, (quiet_restore_ring w).frame_buffer_]

/-- `set_delay_time(-k)` establishes the ring invariant for `1 ≤ k ≤ 256`. -/
theorem ringOK_set_delay_time (k : Nat) (w : World) (h1 : 1 ≤ k) (h2 : k ≤ 256)
    (hs : w.frame_buffer_.length = 256) : RingOK k (set_delay_time (-(k : Int)) w) := by
  have hneg : (-(k : Int)) < 0 := by omega
  have hk : (-(-(k : Int))).toNat % SIZE_MOD = k := by
    unfold SIZE_MOD
    omega
  have e1 : (set_delay_time (-(k : Int)) w).frame_drop_ = k := by
    unfold set_delay_time assign_delay_time
    rw [if_pos hneg]
    exact hk
  have e2 : (set_delay_time (-(k : Int)) w).frame_buffer_pos_ = k - 1 := by
    unfold set_delay_time assign_delay_time
    rw [if_pos hneg]
    show ((-(-(k : Int))).toNat % SIZE_MOD + SIZE_MOD - 1) % SIZE_MOD = k - 1
    rw [hk]
    unfold SIZE_MOD
    omega
  have e3 : (set_delay_time (-(k : Int)) w).frame_buffer_ = w.frame_buffer_ := by
    rw [← ring_pflush w]
    unfold set_delay_time assign_delay_time
    rw [if_pos hneg]
  refine ⟨e1, h1, ?_, h2, ?_, ?_⟩
  · rw [e2]
    omega
  · rw [e3]
    exact hs
  · intro s hs1 hs2
    rw [e2] at hs1
    omega

theorem records_le_two (es : List FlashEvent) : total_records es ≤ 2 * es.length := by
  induction es with
  | nil => simp [total_records]
  | cons e es ih =>
    rw [total_records_cons, List.length_cons]
    cases e <;> simp only [FlashEvent.records] <;> omega

theorem records_all_one (es : List FlashEvent) (h : ∀ e ∈ es, ∃ i, e = FlashEvent.one i) :
    total_records es = es.length := by
  induction es with
  | nil => simp [total_records]
  | cons e es ih =>
    rw [total_records_cons, List.length_cons, ih (fun x hx => h x (List.mem_cons_of_mem _ hx))]
    obtain ⟨i, hi⟩ := h e (List.mem_cons_self _ _)
    rw [hi]
    simp only [FlashEvent.records]
    omega

theorem shows_bound_of_potential {k a b p q r : Nat} (hk : 1 ≤ k) (hq : q < k)
    (h : b * k + p ≤ a * k + q + r) : b - a ≤ (r + k - 1) / k := by
  rw [Nat.le_div_iff_mul_le (by omega), Nat.sub_mul]
  omega

/-- C2 as stated fails: with `drop = 1` and an idle device, one two-position
flash event (`m = 1`) issues two transmit requests, more than `⌈1 / 1⌉ = 1`. -/
theorem frame_drop_two_position_counterexample :
    exDrop1.frame_drop_ = 1 ∧ (0 < exDrop1.array_size ∧ 1 < exDrop1.array_size) ∧
      shows (run_events [FlashEvent.two 0 1] exDrop1) - shows exDrop1 = 2 ∧
      ¬ (2 ≤ ([FlashEvent.two 0 1].length + 1 - 1) / 1) := by
  decide

/-- C2, amended: in frame-drop mode with `drop = k` (`1 ≤ k ≤ 256`, ring
counter below `k`, as `set_delay_time(-k)` leaves the engine), for every
sequence of in-range paced flash events and every behaviour of the busy flag,
the number of transmit requests issued while processing the events is at most
`⌈r / k⌉`, where `r` counts one ring record per one-position event and two per
two-position event; hence at most `⌈2m / k⌉` for `m` events, and at most
`⌈m / k⌉` when all `m` events are one-position. -/
theorem frame_drop_transmit_bound (k : Nat) (w : World) (es : List FlashEvent)
    (h : RingOK k w) (hr : ∀ e ∈ es, e.inRange w.array_size) :
    shows (run_events es w) - shows w ≤ (total_records es + k - 1) / k ∧
      shows (run_events es w) - shows w ≤ (2 * es.length + k - 1) / k ∧
      ((∀ e ∈ es, ∃ i, e = FlashEvent.one i) →
        shows (run_events es w) - shows w ≤ (es.length + k - 1) / k) := by
  obtain ⟨h1, -, hp⟩ := run_events_potential es w h hr
  have hb := shows_bound_of_potential h.pos_k (h1.pos) hp
  refine ⟨hb, ?_, ?_⟩
  · refine Nat.le_trans hb (Nat.div_le_div_right ?_)
    have := records_le_two es
    omega
  · intro hone
    rw [records_all_one es hone] at hb
    exact hb

theorem initWorld_slots (xs : List Nat) (dev : Nat → Bool) :
    (initWorld xs dev).frame_buffer_.length = 256 := by
  show (List.replicate 256 0).length = 256
  exact List.length_replicate _ _

theorem exDrop4_ringOK : RingOK 4 exDrop4 := by
  have h := ringOK_set_delay_time 4 (initWorld exBuffer (fun _ => false)) (by decide)
    (by decide) (initWorld_slots _ _)
  exact h

theorem exDrop4_size : exDrop4.array_size = 8 := by
  decide

/-- Witness of the amended C2: four one-position events with `drop = 4`. -/
theorem frame_drop_transmit_bound_witness :
    RingOK 4 exDrop4 ∧
      shows (run_events [FlashEvent.one 0, FlashEvent.one 1, FlashEvent.one 2, FlashEvent.one 3]
        exDrop4) - shows exDrop4 ≤ 1 :=
  ⟨exDrop4_ringOK,
    (frame_drop_transmit_bound 4 exDrop4
      [FlashEvent.one 0, FlashEvent.one 1, FlashEvent.one 2, FlashEvent.one 3]
      exDrop4_ringOK
      (by
        intro e he
        rw [exDrop4_size]
        simp only [List.mem_cons, List.mem_singleton, List.not_mem_nil, or_false] at he
        rcases he with rfl | rfl | rfl | rfl <;> simp [FlashEvent.inRange])).1⟩

/-! ## Hot positions and the ring -/

theorem hot_congr_steady {w v : World} (hf : Steady w v) (hp : v.pixels = w.pixels)
    (ht : ∀ q, lastPaint v.trace q = lastPaint w.trace q) (m : Bool) (q : Nat) :
    Hot m v q ↔ Hot m w q := by
  have hs : v.array_size = w.array_size := by
    unfold World.array_size
    rw [hf.array]
  unfold Hot Settled
  rw [ht q, hs, hp, low_color_congr q hf.array hf.intensity hf.HSV_HUE_MAX]

theorem Silent.hot_iff {w v : World} (h : Silent w v) (m : Bool) (q : Nat) :
    Hot m v q ↔ Hot m w q :=
  hot_congr_steady h.steady h.pixels h.paints m q

theorem Silent.pend_iff {w v : World} (h : Silent w v) (q : Nat) : Pend v q ↔ Pend w q := by
  unfold Pend
  rw [h.frame_buffer_, h.frame_buffer_pos_, h.steady.frame_drop_]

theorem Silent.size_same {w v : World} (h : Silent w v) : v.array_size = w.array_size := by
  unfold World.array_size
  rw [h.steady.array]

theorem silent_refl (w : World) : Silent w w :=
  ⟨(frame_refl w).steady, rfl, rfl, rfl, fun _ => rfl, ⟨[], rfl⟩⟩

theorem Silent.sil_trans {a b c : World} (h1 : Silent a b) (h2 : Silent b c) : Silent a c := by
  obtain ⟨e1, t1⟩ := h1.grows
  obtain ⟨e2, t2⟩ := h2.grows
  refine ⟨h1.steady.strans h2.steady, h2.pixels.trans h1.pixels,
    h2.frame_buffer_.trans h1.frame_buffer_, h2.frame_buffer_pos_.trans h1.frame_buffer_pos_,
    fun q => (h2.paints q).trans (h1.paints q), ⟨e2 ++ e1, ?_⟩⟩
  rw [t2, t1, List.append_assoc]

theorem Silent.ringOK {k : Nat} {w v : World} (h : Silent w v) (hr : RingOK k w) :
    RingOK k v := by
  refine ⟨h.steady.frame_drop_.trans hr.drop, hr.pos_k, ?_, hr.fits, ?_, ?_⟩
  · rw [h.frame_buffer_pos_]
    exact hr.pos
  · rw [h.frame_buffer_]
    exact hr.slots
  · intro s h1 h2
    rw [h.frame_buffer_pos_] at h1
    rw [h.frame_buffer_, h.size_same]
    exact hr.inRange s h1 h2

theorem Silent.engineOK {w v : World} (h : Silent w v) (hr : EngineOK w) : EngineOK v := by
  rcases hr with h0 | ⟨k, hk⟩
  · exact Or.inl (h.steady.frame_drop_.trans h0)
  · exact Or.inr ⟨k, h.ringOK hk⟩

theorem Silent.tidy {m : Bool} {P : Nat → Prop} {w v : World} (h : Silent w v)
    (ht : Tidy m P w) : Tidy m P v := by
  intro q hq
  rcases ht q ((h.hot_iff m q).1 hq) with hp | hp
  · exact Or.inl ((h.pend_iff q).2 hp)
  · exact Or.inr hp

theorem Tidy.mono {m : Bool} {P Q : Nat → Prop} {w : World} (h : Tidy m P w)
    (hpq : ∀ q, P q → Q q) : Tidy m Q w := by
  intro q hq
  rcases h q hq with hp | hp
  · exact Or.inl hp
  · exact Or.inr (hpq q hp)

theorem silent_log (e : Ev) (w : World) (he : ∀ l i c, e ≠ Ev.setPixel l i c) :
    Silent w (w.log e) := by
  refine ⟨(frame_log e w).steady, rfl, rfl, rfl, fun q => ?_, ⟨[e], rfl⟩⟩
  show lastPaint (e :: w.trace) q = lastPaint w.trace q
  cases e with
  | setPixel l i c => exact absurd rfl (he l i c)
  | _ => rfl

theorem silent_call_SoundAccessHook (v : Nat) (w : World) :
    Silent w (call_SoundAccessHook v w) := by
  unfold call_SoundAccessHook
  split
  · exact silent_log _ w (by simp)
  · exact silent_refl w

theorem silent_call_ComparisonCountHook (w : World) :
    Silent w (call_ComparisonCountHook w) := by
  unfold call_ComparisonCountHook
  split
  · exact silent_log _ w (by simp)
  · exact silent_refl w

theorem silent_count_up (w : World) : Silent w (count_up w) := by
  refine ⟨steady_count_up w, ?_, ?_, ?_, ?_, ?_⟩ <;> unfold count_up
  · split <;> rfl
  · split <;> rfl
  · split <;> rfl
  · intro q
    split <;> rfl
  · split <;> exact ⟨[], rfl⟩

theorem silent_IncrementCounter (w : World) : Silent w (SortAnimation.IncrementCounter w) :=
  (silent_count_up w).sil_trans (silent_call_ComparisonCountHook _)

theorem silent_show (w : World) : Silent w (strip_show w) :=
  silent_log _ w (by simp)

theorem silent_show_unless_busy (w : World) : Silent w (show_unless_busy w) := by
  have hb : Silent w (strip_busy w).2 :=
    ⟨(frame_busy w).steady, rfl, rfl, rfl, fun _ => rfl, ⟨[Ev.busy (w.busy w.busy_calls)], rfl⟩⟩
  unfold show_unless_busy
  split
  · exact hb
  · exact hb.sil_trans (silent_show _)

theorem silent_log_yield (w : World) : Silent w (w.log Ev.yield) :=
  silent_log _ w (by simp)

theorem silent_note (c : Call) (w : World) : Silent w (note c w) :=
  ⟨steady_note c w, rfl, rfl, rfl, fun _ => rfl, ⟨[], rfl⟩⟩

theorem silent_dispatch_access_stack (v : Nat) (d : Bool) (w : World) :
    Silent w (Item.dispatch_access stackItem v d w) := by
  unfold Item.dispatch_access
  refine Silent.sil_trans ?_ (silent_call_SoundAccessHook v _)
  split
  · have e : SortAnimation.OnAccess stackItem d w = w := by
      unfold SortAnimation.OnAccess stackItem
      rw [if_pos (Or.inl (by decide))]
    rw [e]
    exact silent_refl w
  · exact silent_refl w

theorem silent_Item_OnAccess_stack (v : Nat) (d : Bool) (w : World) :
    Silent w (Item.OnAccess stackItem v d w) :=
  (silent_note _ w).sil_trans (silent_dispatch_access_stack v d _)

/-- Ring updates do not change which positions are hot. -/
theorem hot_ring_store (i : Nat) (w : World) (m : Bool) (q : Nat) :
    Hot m (ring_store i w) q ↔ Hot m w q :=
  hot_congr (frame_ring_store i w) rfl (fun _ => rfl) m q

theorem hot_ring_dec (w : World) (m : Bool) (q : Nat) :
    Hot m (ring_dec w) q ↔ Hot m w q :=
  hot_congr (frame_ring_dec w) rfl (fun _ => rfl) m q

theorem hot_ring_reset (w : World) (m : Bool) (q : Nat) :
    Hot m (ring_reset w) q ↔ Hot m w q :=
  hot_congr (frame_ring_reset w) (ring_reset_fields w).2.2 (fun _ => by rw [ring_reset_trace]) m q

theorem hot_yield_delay {m : Bool} {q : Nat} {w : World} (h : Hot m (yield_delay w) q) :
    Hot m w q :=
  ((silent_log_yield w).hot_iff m q).1 ((quiet_yield_delay w).cool m q h)

theorem hot_flash_high {m : Bool} {i q : Nat} {w : World} (h : Hot m (flash_high i w) q) :
    Hot m w q ∨ q = i := by
  by_cases hq : q = i
  · exact Or.inr hq
  · left
    have hne : ¬ i = q := fun e => hq e.symm
    have hf : Frame w (flash_high i w) := frame_flash_high i w
    rw [flash_high_eq] at h hf
    unfold Hot Settled at h ⊢
    rw [hf.size_eq, hf.low_color_eq q] at h
    rcases h with h | ⟨h0, h1, h2⟩
    · left
      simpa [strip_setPixel, lastPaint, hne] using h
    · right
      refine ⟨h0, h1, ?_⟩
      simpa [strip_setPixel, List.getElem?_set, hne] using h2

theorem pend_flash_high (i q : Nat) (w : World) : Pend (flash_high i w) q ↔ Pend w q := by
  unfold Pend
  rw [(ring_flash_high i w).1, (ring_flash_high i w).2, (frame_flash_high i w).frame_drop_]

theorem tidy_flash_high {m : Bool} {P : Nat → Prop} {i : Nat} {w : World}
    (h : Tidy m (fun q => q = i ∨ P q) w) :
    Tidy m (fun q => q = i ∨ P q) (flash_high i w) := by
  intro q hq
  rcases hot_flash_high hq with h1 | h1
  · rcases h q h1 with h2 | h2
    · exact Or.inl ((pend_flash_high i q w).2 h2)
    · exact Or.inr h2
  · exact Or.inr (Or.inl h1)

/-- The replay loop of a flush leaves no replayed slot position hot. -/
theorem restore_fold_cools (m : Bool) (l : List Nat) :
    ∀ (w : World) (s : Nat), s ∈ l → w.frame_buffer_.getD s 0 < w.array_size →
      ¬ Hot m (l.foldl (fun acc k => restore_slot k acc) w) (w.frame_buffer_.getD s 0) := by
  induction l with
  | nil =>
    intro w s hs
    cases hs
  | cons a l ih =>
    intro w s hs hlt
    simp only [List.foldl_cons]
    have hstep := quiet_restore_slot a w
    have hrest := quiet_foldl (fun acc k => restore_slot k acc)
      (fun w k => quiet_restore_slot k w) l (restore_slot a w)
    by_cases hsa : s = a
    · subst hsa
      intro hh
      have h1 := hrest.cool m _ hh
      unfold restore_slot at h1
      rw [if_pos hlt] at h1
      exact (hot_flash_low h1).1 rfl
    · have hmem : s ∈ l := by
        rcases List.mem_cons.1 hs with h | h
        · exact absurd h hsa
        · exact h
      have h2 := ih _ s hmem (by
        rw [hstep.frame_buffer_, hstep.frame.size_eq]
        exact hlt)
      rw [hstep.frame_buffer_] at h2
      exact h2

theorem restore_ring_cools (m : Bool) (w : World) (s : Nat) (hs : s < w.frame_drop_)
    (hlt : w.frame_buffer_.getD s 0 < w.array_size) :
    ¬ Hot m (restore_ring w) (w.frame_buffer_.getD s 0) :=
  restore_fold_cools m (List.range w.frame_drop_) w s (List.mem_range.2 hs) hlt

theorem getD_set_self (l : List Nat) (p i : Nat) (h : p < l.length) :
    (l.set p i).getD p 0 = i := by
  simp [List.getD_eq_getElem?_getD, List.getElem?_set, h]

theorem getD_set_other (l : List Nat) (p s i : Nat) (h : p ≠ s) :
    (l.set p i).getD s 0 = l.getD s 0 := by
  simp [List.getD_eq_getElem?_getD, List.getElem?_set, h]

/-- One ring record: if every hot position is pending, is `i`, or satisfies
`P`, then afterwards every hot position is pending or satisfies `P`. -/
theorem tidy_flash_low_buffer {m : Bool} {P : Nat → Prop} {k i : Nat} {w : World}
    (h : RingOK k w) (hi : i < w.array_size) (ht : Tidy m (fun q => q = i ∨ P q) w) :
    Tidy m P (flash_low_buffer i w) := by
  have hplt : w.frame_buffer_pos_ < w.frame_buffer_.length := by
    rw [h.slots]
    have := h.pos
    have := h.fits
    omega
  by_cases hp : w.frame_buffer_pos_ = 0
  · have ev : flash_low_buffer i w =
        yield_delay (ring_reset (restore_ring (show_unless_busy (ring_store i w)))) := by
      unfold flash_low_buffer
      rw [if_pos hp]
    rw [ev]
    intro q hq
    right
    have hsil := silent_show_unless_busy (ring_store i w)
    have hfb : (show_unless_busy (ring_store i w)).frame_buffer_ =
        w.frame_buffer_.set w.frame_buffer_pos_ i := hsil.frame_buffer_
    have hsz : (show_unless_busy (ring_store i w)).array_size = w.array_size := hsil.size_same
    have hdr : (show_unless_busy (ring_store i w)).frame_drop_ = k :=
      hsil.steady.frame_drop_.trans h.drop
    have h1 : Hot m (restore_ring (show_unless_busy (ring_store i w))) q :=
      (hot_ring_reset _ m q).1 (hot_yield_delay hq)
    have h2 : Hot m w q :=
      (hot_ring_store i w m q).1 ((hsil.hot_iff m q).1 ((quiet_restore_ring _).cool m q h1))
    have hcool : ∀ s, s < k → (w.frame_buffer_.set w.frame_buffer_pos_ i).getD s 0 < w.array_size →
        q ≠ (w.frame_buffer_.set w.frame_buffer_pos_ i).getD s 0 := by
      intro s hs hlt e
      have := restore_ring_cools m (show_unless_busy (ring_store i w)) s (by rw [hdr]; exact hs)
        (by rw [hfb, hsz]; exact hlt)
      rw [hfb, ← e] at this
      exact this h1
    rcases ht q h2 with hpend | hq2 | hq2
    · obtain ⟨s, hs1, hs2, hs3⟩ := hpend
      rw [h.drop] at hs2
      exfalso
      have hne : w.frame_buffer_pos_ ≠ s := by omega
      have hslot := getD_set_other w.frame_buffer_ w.frame_buffer_pos_ s i hne
      apply hcool s hs2
      · rw [hslot]
        exact h.inRange s hs1 hs2
      · rw [hslot, hs3]
    · exfalso
      have hslot := getD_set_self w.frame_buffer_ w.frame_buffer_pos_ i hplt
      apply hcool w.frame_buffer_pos_ h.pos
      · rw [hslot]
        exact hi
      · rw [hslot, hq2]
    · exact hq2
  · have ev : flash_low_buffer i w = ring_dec (ring_store i w) := by
      unfold flash_low_buffer
      rw [if_neg hp]
    rw [ev]
    intro q hq
    have h2 : Hot m w q := (hot_ring_store i w m q).1 ((hot_ring_dec _ m q).1 hq)
    have hpos : (ring_dec (ring_store i w)).frame_buffer_pos_ = w.frame_buffer_pos_ - 1 := rfl
    have hfb : (ring_dec (ring_store i w)).frame_buffer_ =
        w.frame_buffer_.set w.frame_buffer_pos_ i := rfl
    have hdr : (ring_dec (ring_store i w)).frame_drop_ = w.frame_drop_ := rfl
    rcases ht q h2 with hpend | hq2 | hq2
    · left
      obtain ⟨s, hs1, hs2, hs3⟩ := hpend
      refine ⟨s, ?_, ?_, ?_⟩
      · rw [hpos]
        omega
      · rw [hdr]
        exact hs2
      · rw [hfb, getD_set_other _ _ _ _ (by omega)]
        exact hs3
    · left
      refine ⟨w.frame_buffer_pos_, ?_, ?_, ?_⟩
      · rw [hpos]
        omega
      · rw [hdr, h.drop]
        exact h.pos
      · rw [hfb, getD_set_self _ _ _ hplt, hq2]
    · exact Or.inr hq2

/-- After `pflush` the only hot positions left are those singled out by `P`. -/
theorem pflush_cools {m : Bool} {P : Nat → Prop} {k : Nat} {w : World} (h : RingOK k w)
    (ht : Tidy m P w) : ∀ q, Hot m (pflush w) q → P q := by
  intro q hq
  have h1 : Hot m (restore_ring w) q := by
    unfold pflush at hq
    exact (hot_ring_reset _ m q).1 (hot_yield_delay (((silent_show _).hot_iff m q).1 hq))
  have h2 : Hot m w q := (quiet_restore_ring w).cool m q h1
  rcases ht q h2 with hpend | hp
  · exfalso
    obtain ⟨s, hs1, hs2, hs3⟩ := hpend
    have := restore_ring_cools m w s hs2 (by
      rw [h.drop] at hs2
      exact h.inRange s hs1 hs2)
    rw [hs3] at this
    exact this h1
  · exact hp

theorem ringOK_pflush {k : Nat} {w : World} (h : RingOK k w) : RingOK k (pflush w) := by
  have hf := frame_pflush w
  have hpos : (pflush w).frame_buffer_pos_ = k - 1 := by
    unfold pflush
    show (yield_delay (ring_reset (restore_ring w))).frame_buffer_pos_ = k - 1
    rw [(ring_yield_delay _).2]
    exact ring_reset_pos _ ((quiet_restore_ring w).frame.frame_drop_.trans h.drop) h.pos_k h.fits
  refine ⟨hf.frame_drop_.trans h.drop, h.pos_k, ?_, h.fits, ?_, ?_⟩
  · rw [hpos]
    have := h.pos_k
    omega
  · rw [ring_pflush]
    exact h.slots
  · intro s hs1 hs2
    rw [hpos] at hs1
    omega

/-! ## The log only grows -/

theorem grows_refl (w : World) : Grows w w := ⟨[], rfl⟩

theorem Grows.gtrans {a b c : World} (h1 : Grows a b) (h2 : Grows b c) : Grows a c := by
  obtain ⟨e1, t1⟩ := h1
  obtain ⟨e2, t2⟩ := h2
  exact ⟨e2 ++ e1, by rw [t2, t1, List.append_assoc]⟩

theorem Quiet.grows_of {w v : World} (h : Quiet w v) : Grows w v := by
  obtain ⟨es, ht, -⟩ := h.trace
  exact ⟨es, ht⟩

theorem grows_of_trace_eq {w v : World} (h : v.trace = w.trace) : Grows w v := ⟨[], h⟩

theorem grows_flash_high (i : Nat) (w : World) : Grows w (flash_high i w) := by
  rw [flash_high_eq]
  exact ⟨[Ev.setPixel Level.high i (high_color i w)], rfl⟩

theorem grows_yield_delay (w : World) : Grows w (yield_delay w) :=
  (silent_log_yield w).grows.gtrans (quiet_yield_delay w).grows_of

theorem grows_flash_low_buffer (i : Nat) (w : World) : Grows w (flash_low_buffer i w) := by
  unfold flash_low_buffer
  split
  · exact ((((grows_of_trace_eq (ring_store_trace i w)).gtrans
      (silent_show_unless_busy _).grows).gtrans (quiet_restore_ring _).grows_of).gtrans
      (grows_of_trace_eq (ring_reset_trace _))).gtrans (grows_yield_delay _)
  · exact grows_of_trace_eq rfl

theorem grows_flash (i : Nat) (d : Bool) (w : World) : Grows w (flash i d w) := by
  unfold flash
  split
  · exact (quiet_flash_low i w).grows_of
  · split
    · exact (((grows_flash_high i w).gtrans (silent_show_unless_busy _).grows).gtrans
        (grows_yield_delay _)).gtrans (quiet_flash_low i _).grows_of
    · exact (grows_flash_high i w).gtrans (grows_flash_low_buffer i _)

theorem grows_flash2 (i j : Nat) (d : Bool) (w : World) : Grows w (flash2 i j d w) := by
  unfold flash2
  split
  · exact (quiet_flash_low i w).grows_of.gtrans (quiet_flash_low j _).grows_of
  · split
    · exact (((((grows_flash_high i w).gtrans (grows_flash_high j _)).gtrans
        (silent_show_unless_busy _).grows).gtrans (grows_yield_delay _)).gtrans
        (quiet_flash_low j _).grows_of).gtrans (quiet_flash_low i _).grows_of
    · exact (((grows_flash_high i w).gtrans (grows_flash_high j _)).gtrans
        (grows_flash_low_buffer j _)).gtrans (grows_flash_low_buffer i _)

theorem grows_pflush (w : World) : Grows w (pflush w) :=
  ((((quiet_restore_ring w).grows_of).gtrans (grows_of_trace_eq (ring_reset_trace _))).gtrans
    (grows_yield_delay _)).gtrans (silent_show _).grows

theorem lastPaint_append_ne_none (es t : List Ev) (q : Nat) (h : lastPaint t q ≠ none) :
    lastPaint (es ++ t) q ≠ none := by
  induction es with
  | nil => exact h
  | cons e es ih =>
    cases e with
    | setPixel l i c =>
      simp only [List.cons_append, lastPaint]
      split
      · simp
      · exact ih
    | _ => exact ih

theorem Grows.seen {w v : World} (h : Grows w v) {q : Nat} (hs : Seen w q) : Seen v q := by
  obtain ⟨es, ht⟩ := h
  unfold Seen
  rw [ht]
  exact lastPaint_append_ne_none es w.trace q hs

theorem seen_flash_high (i : Nat) (w : World) : Seen (flash_high i w) i := by
  rw [flash_high_eq]
  simp [Seen, strip_setPixel, lastPaint]

theorem grows_event (e : FlashEvent) (w : World) : Grows w (e.run w) := by
  cases e with
  | one i => exact grows_flash i true w
  | two i j => exact grows_flash2 i j true w

theorem grows_run_events (es : List FlashEvent) : ∀ w, Grows w (run_events es w) := by
  induction es with
  | nil => exact fun w => grows_refl w
  | cons e es ih => exact fun w => (grows_event e w).gtrans (ih _)

/-- In frame-drop mode every position of a paced flash event has been painted
once the event is processed. -/
theorem seen_event {k : Nat} (e : FlashEvent) {w : World} (h : RingOK k w) :
    ∀ q ∈ e.positions, Seen (e.run w) q := by
  cases e with
  | one i =>
    intro q hq
    simp only [FlashEvent.positions, List.mem_singleton] at hq
    subst hq
    simp only [FlashEvent.run]
    rw [flash_drop_eq q h]
    exact (grows_flash_low_buffer q _).seen (seen_flash_high q w)
  | two i j =>
    intro q hq
    simp only [FlashEvent.positions, List.mem_cons, List.mem_singleton, List.not_mem_nil,
      or_false] at hq
    simp only [FlashEvent.run]
    rw [flash2_drop_eq i j h]
    have hg := (grows_flash_low_buffer j (flash_high j (flash_high i w))).gtrans
      (grows_flash_low_buffer i _)
    rcases hq with hq | hq
    · subst hq
      exact hg.seen ((grows_flash_high j _).seen (seen_flash_high q w))
    · subst hq
      exact hg.seen (seen_flash_high q _)

/-- A paced flash event in frame-drop mode keeps every hot position pending,
and removes its own positions from the exceptions. -/
theorem tidy_event {m : Bool} {P : Nat → Prop} {k : Nat} (e : FlashEvent) {w : World}
    (h : RingOK k w) (hr : e.inRange w.array_size) (ht : Tidy m P w) :
    Tidy m (fun q => P q ∧ q ∉ e.positions) (e.run w) := by
  cases e with
  | one i =>
    simp only [FlashEvent.run, FlashEvent.positions, List.mem_singleton]
    rw [flash_drop_eq i h]
    have h1 : Tidy m (fun q => q = i ∨ (P q ∧ ¬ q = i)) w := by
      refine ht.mono (fun q hq => ?_)
      by_cases hqi : q = i
      · exact Or.inl hqi
      · exact Or.inr ⟨hq, hqi⟩
    exact tidy_flash_low_buffer (ringOK_flash_high h)
      (by rw [(frame_flash_high i w).size_eq]; exact hr) (tidy_flash_high h1)
  | two i j =>
    simp only [FlashEvent.run, FlashEvent.positions, List.mem_cons, List.mem_singleton,
      List.not_mem_nil, or_false]
    rw [flash2_drop_eq i j h]
    have hA := ringOK_flash_high (i := j) (ringOK_flash_high (i := i) h)
    have hsA : (flash_high j (flash_high i w)).array_size = w.array_size :=
      ((frame_flash_high i w).ftrans (frame_flash_high j _)).size_eq
    have hB := ringOK_flash_low_buffer hA (by rw [hsA]; exact hr.2)
    have hsB : (flash_low_buffer j (flash_high j (flash_high i w))).array_size = w.array_size :=
      (frame_flash_low_buffer j _).size_eq.trans hsA
    have h1 : Tidy m (fun q => q = i ∨ (q = j ∨ (q = i ∨ (P q ∧ ¬ (q = i ∨ q = j))))) w := by
      refine ht.mono (fun q hq => ?_)
      by_cases hqi : q = i
      · exact Or.inl hqi
      · by_cases hqj : q = j
        · exact Or.inr (Or.inl hqj)
        · exact Or.inr (Or.inr (Or.inr ⟨hq, fun c => c.elim hqi hqj⟩))
    have h2 : Tidy m (fun q => q = j ∨ (q = i ∨ (P q ∧ ¬ (q = i ∨ q = j))))
        (flash_high j (flash_high i w)) := by
      refine tidy_flash_high ((tidy_flash_high h1).mono (fun q hq => ?_))
      rcases hq with hq | hq
      · exact Or.inr (Or.inl hq)
      · exact hq
    have h3 := tidy_flash_low_buffer hA (by rw [hsA]; exact hr.2) h2
    exact tidy_flash_low_buffer hB (by rw [hsB]; exact hr.1) h3

theorem tidy_run_events {m : Bool} {k : Nat} (es : List FlashEvent) :
    ∀ (P : Nat → Prop) (w : World), RingOK k w → (∀ e ∈ es, e.inRange w.array_size) →
      Tidy m P w →
      Tidy m (fun q => P q ∧ q ∉ touched es) (run_events es w) ∧
        ∀ q ∈ touched es, Seen (run_events es w) q := by
  induction es with
  | nil =>
    intro P w _ _ ht
    exact ⟨ht.mono (fun q hq => ⟨hq, by simp [touched]⟩), fun q hq => by simp [touched] at hq⟩
  | cons e es ih =>
    intro P w h hr ht
    obtain ⟨h1, hs1, -⟩ := event_step e h (hr e (List.mem_cons_self _ _))
    have ht1 := tidy_event (m := m) e h (hr e (List.mem_cons_self _ _)) ht
    obtain ⟨ht2, hseen⟩ := ih _ (e.run w) h1 (by
      intro x hx
      rw [hs1]
      exact hr x (List.mem_cons_of_mem _ hx)) ht1
    rw [run_events_cons]
    refine ⟨ht2.mono (fun q hq => ⟨hq.1.1, ?_⟩), ?_⟩
    · simp only [touched, List.mem_append, not_or]
      exact ⟨hq.1.2, hq.2⟩
    · intro q hq
      simp only [touched, List.mem_append] at hq
      rcases hq with hq | hq
      · exact (grows_run_events es _).seen (seen_event e h q hq)
      · exact hseen q hq

theorem lastPaint_low_of {t : List Ev} {q : Nat} (h1 : lastPaint t q ≠ none)
    (h2 : lastPaint t q ≠ some Level.high) : lastPaint t q = some Level.low := by
  cases h : lastPaint t q with
  | none => exact absurd h h1
  | some l =>
    cases l with
    | low => rfl
    | high => exact absurd h h2

theorem set_delay_time_trace (d : Int) (w : World) :
    (set_delay_time d w).trace = (pflush w).trace := by
  unfold set_delay_time
  exact assign_delay_time_trace d (pflush w)

/-- C9: no position is left stuck at high intensity. For every drop `k` in
`1..256` (ring invariant `RingOK k`) and every sequence of in-range paced
flash events processed in frame-drop mode, after a subsequent `pflush` (and
hence after any `set_delay_time`, whose log is that of its `pflush`) the most
recent paint of every position flashed by the events is a normal-intensity
paint (`flash_low`); and if no position was stuck outside the ring before the
events, then no position at all is stuck afterwards. -/
theorem no_position_stuck (k : Nat) (w : World) (es : List FlashEvent) (d : Int)
    (h : RingOK k w) (hr : ∀ e ∈ es, e.inRange w.array_size) :
    (∀ q, q ∈ touched es →
      lastPaint (pflush (run_events es w)).trace q = some Level.low ∧
        lastPaint (set_delay_time d (run_events es w)).trace q = some Level.low) ∧
    (Tidy false (fun _ => False) w →
      ∀ q, lastPaint (pflush (run_events es w)).trace q ≠ some Level.high) := by
  obtain ⟨hring, -, -⟩ := run_events_potential es w h hr
  constructor
  · intro q hq
    obtain ⟨ht, hseen⟩ := tidy_run_events (m := false) es (fun _ => True) w h hr
      (fun _ _ => Or.inr trivial)
    have hcool := pflush_cools hring ht q
    have hnot : lastPaint (pflush (run_events es w)).trace q ≠ some Level.high :=
      fun c => (hcool (Or.inl c)).2 hq
    have hlow := lastPaint_low_of ((grows_pflush _).seen (hseen q hq)) hnot
    refine ⟨hlow, ?_⟩
    rw [set_delay_time_trace]
    exact hlow
  · intro hclean q c
    obtain ⟨ht, -⟩ := tidy_run_events (m := false) es (fun _ => False) w h hr hclean
    exact (pflush_cools hring ht q (Or.inl c)).1

/-- Witness of C9: a comparison and an access with `drop = 4`, then the flush. -/
theorem no_position_stuck_witness :
    RingOK 4 exDrop4 ∧
      lastPaint (pflush (run_events [FlashEvent.two 0 1, FlashEvent.one 2] exDrop4)).trace 1
        = some Level.low :=
  ⟨exDrop4_ringOK,
    ((no_position_stuck 4 exDrop4 [FlashEvent.two 0 1, FlashEvent.one 2] 0 exDrop4_ringOK
      (by
        intro e he
        rw [exDrop4_size]
        simp only [List.mem_cons, List.mem_singleton, List.not_mem_nil, or_false] at he
        rcases he with rfl | rfl <;> simp [FlashEvent.inRange])).1 1
      (by simp [touched, FlashEvent.positions])).1⟩

/-! ## Paced flashes in either mode, and writes into the buffer -/

theorem not_pend_direct {w : World} (h : w.frame_drop_ = 0) (q : Nat) : ¬ Pend w q := by
  rintro ⟨s, -, hs, -⟩
  rw [h] at hs
  omega

theorem flash_direct_eq (i : Nat) {w : World} (h : w.frame_drop_ = 0) :
    flash i true w = flash_low i (yield_delay (show_unless_busy (flash_high i w))) := by
  unfold flash
  simp [h]

/-- A paced one-position flash of an in-range position, in either mode. -/
theorem tidy_flash {m : Bool} {P : Nat → Prop} {i : Nat} {w : World} (h : EngineOK w)
    (hi : i < w.array_size) (ht : Tidy m (fun q => q = i ∨ P q) w) :
    EngineOK (flash i true w) ∧ Tidy m P (flash i true w) := by
  rcases h with h0 | ⟨k, hk⟩
  · refine ⟨Or.inl ((frame_flash i true w).frame_drop_.trans h0), ?_⟩
    rw [flash_direct_eq i h0]
    intro q hq
    obtain ⟨hne, h1⟩ := hot_flash_low hq
    have h2 : Hot m (flash_high i w) q :=
      ((silent_show_unless_busy _).hot_iff m q).1 (hot_yield_delay h1)
    rcases hot_flash_high h2 with h3 | h3
    · rcases ht q h3 with h4 | h4 | h4
      · exact absurd h4 (not_pend_direct h0 q)
      · exact absurd h4 hne
      · exact Or.inr h4
    · exact absurd h3 hne
  · rw [flash_drop_eq i hk]
    have h1 := ringOK_flash_high (i := i) hk
    have hi1 : i < (flash_high i w).array_size := by
      rw [(frame_flash_high i w).size_eq]
      exact hi
    exact ⟨Or.inr ⟨k, ringOK_flash_low_buffer h1 hi1⟩,
      tidy_flash_low_buffer h1 hi1 (tidy_flash_high ht)⟩

theorem poke_size (i v : Nat) (w : World) : (poke i v w).array_size = w.array_size := by
  simp [poke, World.array_size]

theorem low_color_poke {i q : Nat} (v : Nat) (w : World) (hq : q ≠ i) :
    low_color q (poke i v w) = low_color q w := by
  have hg : (poke i v w).array.getD q 0 = w.array.getD q 0 := by
    show (w.array.set i v).getD q 0 = w.array.getD q 0
    exact getD_set_other _ _ _ _ (fun e => hq e.symm)
  unfold low_color value_to_hue
  rw [hg, poke_size]
  rfl

theorem hot_poke {m : Bool} {i q v : Nat} {w : World} (h : Hot m (poke i v w) q) :
    Hot m w q ∨ q = i := by
  by_cases hq : q = i
  · exact Or.inr hq
  · left
    unfold Hot Settled at h ⊢
    rw [poke_size, low_color_poke v w hq] at h
    exact h

theorem ringOK_poke {k i v : Nat} {w : World} (h : RingOK k w) : RingOK k (poke i v w) := by
  refine ⟨h.drop, h.pos_k, h.pos, h.fits, h.slots, ?_⟩
  intro s h1 h2
  rw [poke_size]
  exact h.inRange s h1 h2

theorem engineOK_poke {i v : Nat} {w : World} (h : EngineOK w) : EngineOK (poke i v w) := by
  rcases h with h0 | ⟨k, hk⟩
  · exact Or.inl h0
  · exact Or.inr ⟨k, ringOK_poke hk⟩

theorem tidy_poke {m : Bool} {P : Nat → Prop} {i v : Nat} {w : World}
    (ht : Tidy m (fun q => q = i ∨ P q) w) :
    Tidy m (fun q => q = i ∨ P q) (poke i v w) := by
  intro q hq
  rcases hot_poke hq with h1 | h1
  · rcases ht q h1 with h2 | h2
    · exact Or.inl h2
    · exact Or.inr h2
  · exact Or.inr (Or.inl h1)

/-- The engine's reaction to a comparison of the in-range element `i` with an
element outside the buffer. -/
theorem OnComparison_in_out (i : Nat) (b : Int) (w : World) (hi : i < w.array_size)
    (hb : b < 0 ∨ (w.array_size : Int) ≤ b) :
    SortAnimation.OnComparison i b w = flash i true (SortAnimation.IncrementCounter w) := by
  have hs : (SortAnimation.IncrementCounter w).array_size = w.array_size :=
    (silent_IncrementCounter w).size_same
  have hnb : ¬ (b ≥ 0 ∧ b < (w.array_size : Int)) := by omega
  have ha : (i : Int) ≥ 0 ∧ (i : Int) < (w.array_size : Int) := by omega
  unfold SortAnimation.OnComparison OnComparison_flash
  rw [hs, if_neg (fun c => hnb c.2), if_pos ha]
  rfl

theorem OnAccess_in (i : Nat) (w : World) (hi : i < w.array_size) :
    SortAnimation.OnAccess i true w = flash i true w := by
  have ha : ¬ ((i : Int) < 0 ∨ (i : Int) ≥ (w.array_size : Int)) := by omega
  unfold SortAnimation.OnAccess
  rw [if_neg ha]
  rfl

theorem stackItem_outside (w : World) : stackItem < 0 ∨ (w.array_size : Int) ≤ stackItem := by
  left
  unfold stackItem
  omega

/-- With the engine registered, a paced access report for the in-range element `i`. -/
theorem tidy_Item_OnAccess {m : Bool} {P : Nat → Prop} {i v : Nat} {w : World}
    (hh : w.sort_animation_hook = true) (h : EngineOK w) (hi : i < w.array_size)
    (ht : Tidy m (fun q => q = i ∨ P q) w) :
    EngineOK (Item.OnAccess i v true w) ∧ Tidy m P (Item.OnAccess i v true w) := by
  have hn := silent_note (Call.access i true) w
  have hh : (note (Call.access i true) w).sort_animation_hook = true := hh
  have hi : i < (note (Call.access i true) w).array_size := hi
  have h := hn.engineOK h
  have ht := hn.tidy ht
  unfold Item.OnAccess Item.dispatch_access
  rw [if_pos hh, OnAccess_in i _ hi]
  obtain ⟨h1, h2⟩ := tidy_flash h hi ht
  exact ⟨(silent_call_SoundAccessHook v _).engineOK h1, (silent_call_SoundAccessHook v _).tidy h2⟩

/-- With the engine registered, a comparison report of the in-range element
`i` with a local. -/
theorem tidy_Item_OnComparison {m : Bool} {P : Nat → Prop} {i va vb : Nat} {w : World}
    (hh : w.sort_animation_hook = true) (h : EngineOK w) (hi : i < w.array_size)
    (ht : Tidy m (fun q => q = i ∨ P q) w) :
    EngineOK (Item.OnComparison i va stackItem vb w) ∧
      Tidy m P (Item.OnComparison i va stackItem vb w) := by
  have hn := silent_note (Call.comparison i stackItem) w
  have hh : (note (Call.comparison i stackItem) w).sort_animation_hook = true := hh
  have hi : i < (note (Call.comparison i stackItem) w).array_size := hi
  have h := hn.engineOK h
  have ht := hn.tidy ht
  unfold Item.OnComparison
  generalize note (Call.comparison i stackItem) w = w at hh hi h ht ⊢
  unfold Item.dispatch_comparison
  rw [if_pos hh, OnComparison_in_out i stackItem w hi (stackItem_outside w)]
  have hs := silent_IncrementCounter w
  obtain ⟨h1, h2⟩ := tidy_flash (hs.engineOK h) (by rw [hs.size_same]; exact hi) (hs.tidy ht)
  have hsnd := (silent_call_SoundAccessHook va _).sil_trans
    (silent_call_SoundAccessHook vb (call_SoundAccessHook va
      (flash i true (SortAnimation.IncrementCounter w))))
  exact ⟨hsnd.engineOK h1, hsnd.tidy h2⟩

/-! ## Settling twice -/

/-- The device-side fields that a settling iteration never changes. -/
theorem array_check_step_kept (i : Nat) (w : World) :
    (array_check_step i w).intensity = w.intensity ∧
      (array_check_step i w).HSV_HUE_MAX = w.HSV_HUE_MAX ∧
      (array_check_step i w).pixels.length = w.pixels.length := by
  have hs := array_check_cmp_steady i w
  unfold array_check_step
  split
  · unfold array_check_mark move_from_tmp
    have h1 := steady_Item_OnAccess stackItem black true (array_check_cmp i w)
    have h2 := steady_Item_OnAccess (↑i)
      (peek i (poke i black (Item.OnAccess stackItem black true (array_check_cmp i w))))
      true (poke i black (Item.OnAccess stackItem black true (array_check_cmp i w)))
    refine ⟨?_, ?_, ?_⟩
    · rw [h2.intensity]
      exact h1.intensity.trans hs.intensity
    · rw [h2.HSV_HUE_MAX]
      exact h1.HSV_HUE_MAX.trans hs.HSV_HUE_MAX
    · rw [h2.pixels_length]
      exact h1.pixels_length.trans hs.pixels_length
  · exact ⟨hs.intensity, hs.HSV_HUE_MAX, hs.pixels_length⟩

/-- One settling iteration flashes position `i` and leaves it pending or settled. -/
theorem tidy_array_check_step {m : Bool} {i : Nat} {w : World}
    (hh : w.sort_animation_hook = true) (h : EngineOK w) (hi : i < w.array_size)
    (ht : Tidy m (fun q => i ≤ q) w) :
    EngineOK (array_check_step i w) ∧ Tidy m (fun q => i + 1 ≤ q) (array_check_step i w) := by
  have hs1 := silent_Item_OnAccess_stack (toU16 i) true w
  have ht1 : Tidy m (fun q => q = i ∨ i + 1 ≤ q) (Item.OnAccess stackItem (toU16 i) true w) :=
    hs1.tidy (ht.mono (fun q hq => by omega))
  obtain ⟨hc1, hc2⟩ : EngineOK (array_check_cmp i w) ∧
      Tidy m (fun q => i + 1 ≤ q) (array_check_cmp i w) := by
    unfold array_check_cmp
    exact tidy_Item_OnComparison (hs1.steady.sort_animation_hook.trans hh) (hs1.engineOK h)
      (by rw [hs1.size_same]; exact hi) ht1
  have hcs := array_check_cmp_steady i w
  have hsz : (array_check_cmp i w).array_size = w.array_size := by
    unfold World.array_size
    rw [hcs.array]
  unfold array_check_step
  split
  · unfold array_check_mark move_from_tmp
    have hs3 := silent_Item_OnAccess_stack black true (array_check_cmp i w)
    have ht3 : Tidy m (fun q => q = i ∨ i + 1 ≤ q)
        (Item.OnAccess stackItem black true (array_check_cmp i w)) :=
      hs3.tidy (hc2.mono (fun q hq => Or.inr hq))
    exact tidy_Item_OnAccess
      (by
        show (Item.OnAccess stackItem black true (array_check_cmp i w)).sort_animation_hook = true
        rw [hs3.steady.sort_animation_hook, hcs.sort_animation_hook]
        exact hh)
      (engineOK_poke (hs3.engineOK hc1))
      (by rw [poke_size, hs3.size_same, hsz]; exact hi)
      (tidy_poke ht3)
  · exact ⟨hc1, hc2⟩

theorem tidy_array_check_fold {m : Bool} (w : World) (hh : w.sort_animation_hook = true)
    (h : EngineOK w) (n : Nat) (hn : n ≤ w.array_size) :
    EngineOK ((List.range n).foldl (fun acc i => array_check_step i acc) w) ∧
      Tidy m (fun q => n ≤ q) ((List.range n).foldl (fun acc i => array_check_step i acc) w) := by
  induction n with
  | zero => exact ⟨h, fun q _ => Or.inr (Nat.zero_le q)⟩
  | succ n ih =>
    obtain ⟨h1, h2⟩ := ih (Nat.le_of_succ_le hn)
    obtain ⟨-, f2, f3, -⟩ := array_check_fold (List.range n) w
    have hsz : ((List.range n).foldl (fun acc i => array_check_step i acc) w).array_size
        = w.array_size := by
      unfold World.array_size
      rw [f3, (check_fold_spec w.array n (Nat.le_of_succ_le hn)).1]
    rw [List.range_succ, List.foldl_append]
    simp only [List.foldl_cons, List.foldl_nil]
    exact tidy_array_check_step (f2.trans hh) h1 (by rw [hsz]; exact hn) h2

theorem pflush_cools_engine {m : Bool} {P : Nat → Prop} {w : World} (h : EngineOK w)
    (ht : Tidy m P w) : EngineOK (pflush w) ∧ ∀ q, Hot m (pflush w) q → P q := by
  rcases h with h0 | ⟨k, hk⟩
  · refine ⟨Or.inl ((frame_pflush w).frame_drop_.trans h0), fun q hq => ?_⟩
    have h1 : Hot m (restore_ring w) q := by
      unfold pflush at hq
      exact (hot_ring_reset _ m q).1 (hot_yield_delay (((silent_show _).hot_iff m q).1 hq))
    rcases ht q ((quiet_restore_ring w).cool m q h1) with h2 | h2
    · exact absurd h2 (not_pend_direct h0 q)
    · exact h2
  · exact ⟨Or.inr ⟨k, ringOK_pflush hk⟩, pflush_cools hk ht⟩

theorem array_check_fold_kept (l : List Nat) :
    ∀ w : World,
      (l.foldl (fun acc i => array_check_step i acc) w).intensity = w.intensity ∧
      (l.foldl (fun acc i => array_check_step i acc) w).HSV_HUE_MAX = w.HSV_HUE_MAX ∧
      (l.foldl (fun acc i => array_check_step i acc) w).pixels.length = w.pixels.length := by
  induction l with
  | nil => exact fun w => ⟨rfl, rfl, rfl⟩
  | cons a l ih =>
    intro w
    obtain ⟨k1, k2, k3⟩ := array_check_step_kept a w
    obtain ⟨j1, j2, j3⟩ := ih (array_check_step a w)
    exact ⟨j1.trans k1, j2.trans k2, j3.trans k3⟩

/-- What one settling run (`array_check`, then `pflush`) establishes. -/
theorem settle_spec (w : World) (hh : w.sort_animation_hook = true) (h : EngineOK w) :
    EngineOK (pflush (array_check w)) ∧
      (pflush (array_check w)).sort_animation_hook = true ∧
      (pflush (array_check w)).intensity = w.intensity ∧
      (pflush (array_check w)).HSV_HUE_MAX = w.HSV_HUE_MAX ∧
      (pflush (array_check w)).pixels.length = w.pixels.length ∧
      (pflush (array_check w)).array = (array_check w).array ∧
      ∀ q, q < w.array_size → Settled (pflush (array_check w)) q := by
  have hf := frame_pflush (array_check w)
  have h12 : EngineOK (array_check w) ∧ Tidy true (fun q => w.array_size ≤ q) (array_check w) :=
    tidy_array_check_fold (m := true) w hh h w.array_size (Nat.le_refl _)
  have hk : (array_check w).intensity = w.intensity ∧
      (array_check w).HSV_HUE_MAX = w.HSV_HUE_MAX ∧
      (array_check w).pixels.length = w.pixels.length :=
    array_check_fold_kept _ w
  have hhook : (array_check w).sort_animation_hook = true :=
    (array_check_fold _ w).2.1.trans hh
  obtain ⟨h3, h4⟩ := pflush_cools_engine h12.1 h12.2
  have hsz : (pflush (array_check w)).array_size = w.array_size := by
    unfold World.array_size
    rw [hf.array, (array_check_array w).1]
  refine ⟨h3, hf.sort_animation_hook.trans hhook, hf.intensity.trans hk.1,
    hf.HSV_HUE_MAX.trans hk.2.1, hf.pixels_length.trans hk.2.2, hf.array, ?_⟩
  intro q hq
  by_contra hns
  have := h4 q (Or.inr ⟨rfl, by rw [hsz]; exact hq, hns⟩)
  omega

theorem check_twice (A : List Nat) (B : List Nat) (hl : B.length = A.length)
    (hB : ∀ j, B.getD j 0 = if j < A.length then
      (if A.getD j 0 = toU16 j then A.getD j 0 else black) else A.getD j 0)
    (C : List Nat) (hlc : C.length = B.length)
    (hC : ∀ j, C.getD j 0 = if j < B.length then
      (if B.getD j 0 = toU16 j then B.getD j 0 else black) else B.getD j 0) : C = B := by
  apply list_eq_of_getD hlc
  intro j hj
  rw [hlc] at hj
  rw [hC j, if_pos hj]
  by_cases h : B.getD j 0 = toU16 j
  · rw [if_pos h]
  · rw [if_neg h]
    have hb := hB j
    rw [if_pos (by rw [← hl]; exact hj)] at hb
    by_cases h2 : A.getD j 0 = toU16 j
    · rw [if_pos h2] at hb
      exact absurd (hb.trans h2) h
    · rw [if_neg h2] at hb
      exact hb.symm

/-- C8: settling is idempotent. With the engine registered and in a sound
state (direct mode, or frame-drop mode with the ring invariant) on a strip
that has one pixel per buffer element, once `array_check` followed by
`pflush` has run, running both a second time leaves every buffer value and
every pixel colour exactly as they were after the first run; the brightness
of the device does not change in between, and no bound on the buffer length
is needed. -/
theorem settling_idempotent (w : World) (hh : w.sort_animation_hook = true)
    (h : EngineOK w) (hp : w.pixels.length = w.array_size) :
    (pflush (array_check (pflush (array_check w)))).array = (pflush (array_check w)).array ∧
      (pflush (array_check (pflush (array_check w)))).pixels =
        (pflush (array_check w)).pixels := by
  obtain ⟨e1, k1, i1, v1, l1, a1, s1⟩ := settle_spec w hh h
  obtain ⟨-, -, i2, v2, l2, a2, s2⟩ := settle_spec (pflush (array_check w)) k1 e1
  have hA := array_check_array w
  have hB := array_check_array (pflush (array_check w))
  have harr : (pflush (array_check (pflush (array_check w)))).array =
      (pflush (array_check w)).array := by
    rw [a2]
    refine check_twice w.array (pflush (array_check w)).array ?_ ?_ _ hB.1 hB.2
    · rw [a1]
      exact hA.1
    · rw [a1]
      exact hA.2
  have hsz : (pflush (array_check w)).array_size = w.array_size := by
    unfold World.array_size
    rw [a1, hA.1]
  refine ⟨harr, ?_⟩
  apply List.ext_getElem?
  intro n
  by_cases hn : n < w.pixels.length
  · have hn1 : n < (pflush (array_check w)).pixels.length := by rw [l1]; exact hn
    have hn2 : n < (pflush (array_check (pflush (array_check w)))).pixels.length := by
      rw [l2]
      exact hn1
    rw [List.getElem?_eq_getElem hn1, List.getElem?_eq_getElem hn2]
    have c1 := s1 n (by rw [← hp]; exact hn) _ (List.getElem?_eq_getElem hn1)
    have c2 := s2 n (by rw [hsz, ← hp]; exact hn) _ (List.getElem?_eq_getElem hn2)
    rw [c1, c2, low_color_congr n harr i2 v2]
  · have hn1 : (pflush (array_check w)).pixels.length ≤ n := by rw [l1]; omega
    have hn2 : (pflush (array_check (pflush (array_check w)))).pixels.length ≤ n := by
      rw [l2]
      exact hn1
    rw [List.getElem?_eq_none hn1, List.getElem?_eq_none hn2]

/-- Witness of C8: the example buffer behind an engine in frame-drop mode 4. -/
theorem settling_idempotent_witness :
    (exDrop4.sort_animation_hook = true ∧ EngineOK exDrop4 ∧
        exDrop4.pixels.length = exDrop4.array_size) ∧
      (pflush (array_check (pflush (array_check exDrop4)))).pixels =
        (pflush (array_check exDrop4)).pixels :=
  ⟨⟨by decide, Or.inr ⟨4, exDrop4_ringOK⟩, by decide⟩,
    (settling_idempotent exDrop4 (by decide) (Or.inr ⟨4, exDrop4_ringOK⟩) (by decide)).2⟩

/-! ## The sleep loop runs to its exit -/

/-- The iteration allowance `remain / 100000` of `yield_delay_loop` is enough:
the loop stops because its condition `remain > 100000` has become false. -/
theorem yield_delay_loop_exit (fuel : Nat) :
    ∀ (remain : Nat) (w : World), remain / 100000 ≤ fuel →
      (yield_delay_loop fuel remain w).1 ≤ 100000 := by
  induction fuel with
  | zero =>
    intro remain w h
    unfold yield_delay_loop
    show remain ≤ 100000
    omega
  | succ fuel ih =>
    intro remain w h
    unfold yield_delay_loop
    split
    · apply ih
      omega
    · show remain ≤ 100000
      omega

/-! ## The constructor leaves a sound engine -/

/-- `set_delay_time(d)` leaves the engine in direct mode for `d ≥ 0` and with
a sound ring for `-256 ≤ d < 0`. -/
theorem engineOK_set_delay_time (d : Int) (w : World) (hd : -256 ≤ d)
    (hs : w.frame_buffer_.length = 256) : EngineOK (set_delay_time d w) := by
  by_cases hneg : d < 0
  · right
    refine ⟨(-d).toNat, ?_⟩
    have e : d = -(((-d).toNat : Nat) : Int) := by omega
    have h := ringOK_set_delay_time (-d).toNat w (by omega) (by omega) hs
    rw [← e] at h
    exact h
  · left
    unfold set_delay_time assign_delay_time
    rw [if_neg hneg]


/-! ## The operations of `Item` and the events they emit -/

theorem calls_IncrementCounter (w : World) :
    (SortAnimation.IncrementCounter w).calls = w.calls := by
  unfold SortAnimation.IncrementCounter
  rw [(frame_call_ComparisonCountHook _).calls]
  unfold count_up
  split <;> rfl

theorem calls_Item_OnComparison (a : Int) (va : Nat) (b : Int) (vb : Nat) (w : World) :
    (Item.OnComparison a va b vb w).calls = Call.comparison a b :: w.calls := by
  unfold Item.OnComparison Item.dispatch_comparison
  rw [((frame_call_SoundAccessHook va _).ftrans (frame_call_SoundAccessHook vb _)).calls]
  split
  · unfold SortAnimation.OnComparison
    rw [(frame_OnComparison_flash a b _).calls, calls_IncrementCounter]
    rfl
  · rfl

theorem calls_Item_IncrementCounter (w : World) :
    (Item.IncrementCounter w).calls = Call.counter :: w.calls := by
  unfold Item.IncrementCounter Item.dispatch_counter
  split
  · rw [calls_IncrementCounter]
    rfl
  · rfl

theorem store_calls (a : Int) (v : Nat) (w : World) : (store a v w).calls = w.calls := by
  unfold store
  split <;> rfl

theorem store_array (a : Int) (v : Nat) (w : World) :
    (store a v w).array =
      if 0 ≤ a ∧ a < (w.array_size : Int) then w.array.set a.toNat v else w.array := by
  unfold store
  split <;> rfl

theorem store_size (a : Int) (v : Nat) (w : World) :
    (store a v w).array_size = w.array_size := by
  unfold World.array_size
  rw [store_array]
  split
  · exact List.length_set _ _ _
  · rfl

/-- The value of the buffer element at an in-range offset after a store to it. -/
theorem peek_store_self (i v : Nat) (w : World) (hi : i < w.array_size) :
    peek i (store i v w) = v := by
  unfold peek
  rw [store_array, if_pos ⟨by omega, by exact_mod_cast hi⟩]
  simp only [Int.toNat_ofNat]
  exact getD_set_self _ _ _ hi

/-- What a write operation leaves behind: the buffer after the stores, and
one more recorded call. -/
theorem Item_OnAccess_effect (a : Int) (v : Nat) (d : Bool) (w : World) :
    (Item.OnAccess a v d w).calls = Call.access a d :: w.calls ∧
      (Item.OnAccess a v d w).array = w.array :=
  ⟨calls_Item_OnAccess a v d w, (steady_Item_OnAccess a v d w).array⟩

/-- C11: every state-changing operation of `Item` (construction from a raw
value, copy and move construction, copy and move assignment, post-increment,
post-decrement, both `SetNoDelay` overloads) records exactly one call of
`Item::OnAccess`, for the item `self` that it writes, and no other hook call;
the call carries `with_delay = false` for the two `SetNoDelay` overloads and
`true` for all the others.  The buffer afterwards is the buffer after the
stores of the operation. -/
theorem Item_write_emits_one_access (self src : Int) (d v : Nat) (w : World) :
    ((Item.construct self d w).calls = Call.access self true :: w.calls ∧
      (Item.copy_construct self v w).calls = Call.access self true :: w.calls ∧
      (Item.move_construct self src v w).calls = Call.access self true :: w.calls ∧
      (Item.copy_assign self v w).calls = Call.access self true :: w.calls ∧
      (Item.move_assign self src v w).calls = Call.access self true :: w.calls ∧
      (Item.post_increment self v w).calls = Call.access self true :: w.calls ∧
      (Item.post_decrement self v w).calls = Call.access self true :: w.calls ∧
      (Item.SetNoDelay self d w).calls = Call.access self false :: w.calls ∧
      (Item.SetNoDelay_item self v w).calls = Call.access self false :: w.calls) ∧
    ((Item.construct self d w).array = (store self (toU16 d) w).array ∧
      (Item.copy_construct self v w).array = (store self v w).array ∧
      (Item.move_construct self src v w).array = (store src black (store self v w)).array ∧
      (Item.copy_assign self v w).array = (store self v w).array ∧
      (Item.move_assign self src v w).array = (store src black (store self v w)).array ∧
      (Item.post_increment self v w).array = (store self (toU16 (v + 1)) w).array ∧
      (Item.post_decrement self v w).array = (store self (toU16 (v + 65535)) w).array ∧
      (Item.SetNoDelay self d w).array = (store self (toU16 d) w).array ∧
      (Item.SetNoDelay_item self v w).array = (store self v w).array) := by
  unfold Item.construct Item.copy_construct Item.move_construct Item.copy_assign
    Item.move_assign Item.post_increment Item.post_decrement Item.SetNoDelay
    Item.SetNoDelay_item
  simp only [(Item_OnAccess_effect _ _ _ _).1, (Item_OnAccess_effect _ _ _ _).2, store_calls,
    and_self]

/-- C12: each of `==`, `!=`, `<`, `<=`, `>`, `>=` and `cmp` records exactly one
call of `Item::OnComparison` (and no access call) and returns the relation on
the raw values; `cmp` returns `0`, `-1` or `+1` as the values are equal, smaller
or larger, so `cmp(a, b) = -cmp(b, a)`. -/
theorem Item_comparison_one_event (a : Int) (va : Nat) (b : Int) (vb : Nat) (w v : World) :
    ((Item.eq a va b vb w).2.calls = Call.comparison a b :: w.calls ∧
      (Item.ne a va b vb w).2.calls = Call.comparison a b :: w.calls ∧
      (Item.lt a va b vb w).2.calls = Call.comparison a b :: w.calls ∧
      (Item.le a va b vb w).2.calls = Call.comparison a b :: w.calls ∧
      (Item.gt a va b vb w).2.calls = Call.comparison a b :: w.calls ∧
      (Item.ge a va b vb w).2.calls = Call.comparison a b :: w.calls ∧
      (Item.cmp a va b vb w).2.calls = Call.comparison a b :: w.calls) ∧
    (((Item.eq a va b vb w).1 = true ↔ va = vb) ∧
      ((Item.ne a va b vb w).1 = true ↔ va ≠ vb) ∧
      ((Item.lt a va b vb w).1 = true ↔ va < vb) ∧
      ((Item.le a va b vb w).1 = true ↔ va ≤ vb) ∧
      ((Item.gt a va b vb w).1 = true ↔ va > vb) ∧
      ((Item.ge a va b vb w).1 = true ↔ va ≥ vb)) ∧
    (((Item.cmp a va b vb w).1 = 0 ↔ va = vb) ∧
      ((Item.cmp a va b vb w).1 = -1 ↔ va < vb) ∧
      ((Item.cmp a va b vb w).1 = 1 ↔ va > vb) ∧
      (Item.cmp a va b vb w).1 = -(Item.cmp b vb a va v).1) := by
  refine ⟨?_, ?_, ?_⟩
  · unfold Item.eq Item.ne Item.lt Item.le Item.gt Item.ge Item.cmp
    simp only [calls_Item_OnComparison, and_self]
  · unfold Item.eq Item.ne Item.lt Item.le Item.gt Item.ge
    simp only [decide_eq_true_eq, and_self]
  · unfold Item.cmp
    simp only
    rcases Nat.lt_trichotomy va vb with h | h | h
    · have h1 : va ≠ vb := by omega
      have h2 : vb ≠ va := by omega
      have h3 : ¬ vb < va := by omega
      simp [h, h1, h2, h3]
    · subst h
      simp
    · have h1 : va ≠ vb := by omega
      have h2 : vb ≠ va := by omega
      have h3 : ¬ va < vb := by omega
      simp [h, h1, h2, h3]

/-- C13: `equal_direct`, `less_direct` and `greater_direct` return the same
booleans as `==`, `<` and `>` on the same items and leave the whole world as it
was: no hook call is recorded, the comparison counter and every member of the
engine are unchanged. -/
theorem direct_comparisons_silent (a : Int) (va : Nat) (b : Int) (vb : Nat) (w : World) :
    ((Item.equal_direct va vb w).1 = (Item.eq a va b vb w).1 ∧
      (Item.less_direct va vb w).1 = (Item.lt a va b vb w).1 ∧
      (Item.greater_direct va vb w).1 = (Item.gt a va b vb w).1) ∧
    ((Item.equal_direct va vb w).2 = w ∧ (Item.less_direct va vb w).2 = w ∧
      (Item.greater_direct va vb w).2 = w) :=
  ⟨⟨rfl, rfl, rfl⟩, rfl, rfl, rfl⟩


/-! ## CycleSort and the comparison counter -/

theorem charged_refl (w : World) : Charged w w :=
  ⟨rfl, rfl, id, [], rfl, rfl⟩

theorem charges_append (d e : List Call) : charges (d ++ e) = charges d + charges e := by
  unfold charges
  rw [List.filter_append, List.length_append]

theorem Charged.ctrans {a b c : World} (h1 : Charged a b) (h2 : Charged b c) : Charged a c := by
  obtain ⟨hh1, he1, hb1, d1, hd1, hc1⟩ := h1
  obtain ⟨hh2, he2, hb2, d2, hd2, hc2⟩ := h2
  refine ⟨hh2.trans hh1, he2.trans he1, fun h => hb2 (hb1 h), d2 ++ d1, ?_, ?_⟩
  · rw [hd2, hd1, List.append_assoc]
  · rw [hc2, charges_append, Nat.add_mod, hc1, ← Nat.add_mod]
    congr 1
    omega

theorem charged_note_access (a : Int) (d : Bool) (w : World) :
    Charged w (note (Call.access a d) w) :=
  ⟨rfl, rfl, id, [Call.access a d], rfl, rfl⟩

theorem charged_poke (i v : Nat) (w : World) : Charged w (poke i v w) :=
  ⟨rfl, rfl, id, [], rfl, rfl⟩

theorem charged_Item_OnAccess (a : Int) (v : Nat) (d : Bool) (w : World) :
    Charged w (Item.OnAccess a v d w) := by
  have hs := steady_Item_OnAccess a v d w
  refine ⟨hs.sort_animation_hook, hs.enable_count_, ?_, [Call.access a d],
    calls_Item_OnAccess a v d w, ?_⟩
  · rw [counter_Item_OnAccess]
    exact id
  · rw [counter_Item_OnAccess]
    rfl

theorem charged_Item_OnComparison (a : Int) (va : Nat) (b : Int) (vb : Nat) (w : World)
    (hh : w.sort_animation_hook = true) (he : w.enable_count_ = true) :
    Charged w (Item.OnComparison a va b vb w) := by
  have hs := steady_Item_OnComparison a va b vb w
  refine ⟨hs.sort_animation_hook, hs.enable_count_, ?_, [Call.comparison a b],
    calls_Item_OnComparison a va b vb w, ?_⟩
  · rw [counter_Item_OnComparison, if_pos ⟨hh, he⟩]
    exact fun _ => Nat.mod_lt _ (by decide)
  · rw [counter_Item_OnComparison, if_pos ⟨hh, he⟩, Nat.mod_mod]
    rfl

theorem steady_Item_IncrementCounter (w : World) : Steady w (Item.IncrementCounter w) := by
  unfold Item.IncrementCounter Item.dispatch_counter
  refine (steady_note Call.counter w).strans ?_
  split
  · exact steady_IncrementCounter _
  · exact (frame_refl _).steady

theorem counter_Item_IncrementCounter (w : World)
    (hh : w.sort_animation_hook = true) (he : w.enable_count_ = true) :
    (Item.IncrementCounter w).counter_value = (w.counter_value + 1) % SIZE_MOD := by
  unfold Item.IncrementCounter Item.dispatch_counter
  have hh2 : (note Call.counter w).sort_animation_hook = true := hh
  have he2 : (note Call.counter w).enable_count_ = true := he
  rw [if_pos hh2, counter_IncrementCounter, if_pos he2]
  rfl

theorem charged_Item_IncrementCounter (w : World)
    (hh : w.sort_animation_hook = true) (he : w.enable_count_ = true) :
    Charged w (Item.IncrementCounter w) := by
  have hs := steady_Item_IncrementCounter w
  refine ⟨hs.sort_animation_hook, hs.enable_count_, ?_, [Call.counter],
    calls_Item_IncrementCounter w, ?_⟩
  · rw [counter_Item_IncrementCounter w hh he]
    exact fun _ => Nat.mod_lt _ (by decide)
  · rw [counter_Item_IncrementCounter w hh he, Nat.mod_mod]
    rfl

theorem charged_swap (i j : Nat) (w : World) : Charged w (swap i j w) := by
  unfold swap move_from_tmp move_assign move_to_tmp
  exact ((((((charged_poke _ _ w).ctrans (charged_Item_OnAccess _ _ _ _)).ctrans
    (charged_poke _ _ _)).ctrans (charged_poke _ _ _)).ctrans
    (charged_Item_OnAccess _ _ _ _)).ctrans (charged_poke _ _ _)).ctrans
    (charged_Item_OnAccess _ _ _ _)

theorem silent_Item_IncrementCounter (w : World) : Silent w (Item.IncrementCounter w) := by
  unfold Item.IncrementCounter Item.dispatch_counter
  refine (silent_note Call.counter w).sil_trans ?_
  split
  · exact silent_IncrementCounter _
  · exact silent_refl _

/-- The rank-finding loop: one recorded counter increment per scanned element,
nothing else. -/
theorem CycleSort_scan_spec (cycleStart : Nat) (c : Nat) : ∀ (i rank : Nat) (w : World),
    w.sort_animation_hook = true → w.enable_count_ = true → w.counter_value < SIZE_MOD →
    (CycleSort_scan cycleStart c i rank w).2.calls = List.replicate c Call.counter ++ w.calls ∧
      (CycleSort_scan cycleStart c i rank w).2.counter_value =
        (w.counter_value + c) % SIZE_MOD ∧
      Silent w (CycleSort_scan cycleStart c i rank w).2 := by
  induction c with
  | zero =>
    intro i rank w _ _ hc
    exact ⟨rfl, (Nat.mod_eq_of_lt hc).symm, silent_refl w⟩
  | succ c ih =>
    intro i rank w hh he hc
    have hs := steady_Item_IncrementCounter w
    have hcnt := counter_Item_IncrementCounter w hh he
    obtain ⟨h1, h2, h3⟩ := ih (i + 1) (CycleSort_scan_step cycleStart i rank w).1
      (Item.IncrementCounter w) (hs.sort_animation_hook.trans hh) (hs.enable_count_.trans he)
      (by rw [hcnt]; exact Nat.mod_lt _ (by decide))
    refine ⟨?_, ?_, ?_⟩
    · show (CycleSort_scan cycleStart c (i + 1) _ (Item.IncrementCounter w)).2.calls = _
      rw [h1, calls_Item_IncrementCounter, List.replicate_succ', List.append_assoc]
      rfl
    · show (CycleSort_scan cycleStart c (i + 1) _ (Item.IncrementCounter w)).2.counter_value = _
      rw [h2, hcnt, Nat.mod_add_mod]
      congr 1
      omega
    · exact (silent_Item_IncrementCounter w).sil_trans h3

theorem charged_scan (cycleStart : Nat) (c : Nat) : ∀ (i rank : Nat) (w : World),
    w.sort_animation_hook = true → w.enable_count_ = true →
    Charged w (CycleSort_scan cycleStart c i rank w).2 := by
  induction c with
  | zero =>
    intro i rank w _ _
    exact charged_refl w
  | succ c ih =>
    intro i rank w hh he
    have hs := steady_Item_IncrementCounter w
    exact (charged_Item_IncrementCounter w hh he).ctrans
      (ih (i + 1) (CycleSort_scan_step cycleStart i rank w).1 (Item.IncrementCounter w)
        (hs.sort_animation_hook.trans hh) (hs.enable_count_.trans he))

theorem charged_skip (cycleStart : Nat) (f : Nat) : ∀ (rank : Nat) (w : World)
    (r : Nat × World), w.sort_animation_hook = true → w.enable_count_ = true →
    CycleSort_skip cycleStart f rank w = some r → Charged w r.2 := by
  induction f with
  | zero =>
    intro rank w r _ _ h
    simp [CycleSort_skip] at h
  | succ f ih =>
    intro rank w r hh he h
    have hc := charged_Item_OnComparison cycleStart (peek cycleStart w) rank (peek rank w) w hh he
    unfold CycleSort_skip at h
    split at h
    · exact hc.ctrans (ih _ _ r (hc.1.trans hh) (hc.2.1.trans he) h)
    · cases h
      exact hc

theorem charged_cycle (n cycleStart : Nat) (f : Nat) : ∀ (w w1 : World),
    w.sort_animation_hook = true → w.enable_count_ = true →
    CycleSort_cycle n cycleStart f w = some w1 → Charged w w1 := by
  induction f with
  | zero =>
    intro w w1 _ _ h
    simp [CycleSort_cycle] at h
  | succ f ih =>
    intro w w1 hh he h
    have hr : Charged w (CycleSort_rank n cycleStart w).2 := charged_scan _ _ _ _ w hh he
    unfold CycleSort_cycle at h
    split at h
    · cases h
      exact hr
    · unfold CycleSort_place at h
      cases hsk : CycleSort_skip cycleStart n (CycleSort_rank n cycleStart w).1
          (CycleSort_rank n cycleStart w).2 with
      | none => simp [hsk] at h
      | some r =>
        have h2 := charged_skip cycleStart n _ _ r (hr.1.trans hh) (hr.2.1.trans he) hsk
        have h3 := (hr.ctrans h2).ctrans (charged_swap r.1 cycleStart r.2)
        simp only [hsk] at h
        split at h
        · exact h3.ctrans (ih _ w1 (h3.1.trans hh) (h3.2.1.trans he) h)
        · cases h
          exact h3

theorem charged_outer (n : Nat) (c : Nat) : ∀ (cycleStart : Nat) (w w1 : World),
    w.sort_animation_hook = true → w.enable_count_ = true →
    CycleSort_outer n c cycleStart w = some w1 → Charged w w1 := by
  induction c with
  | zero =>
    intro cycleStart w w1 _ _ h
    cases h
    exact charged_refl w
  | succ c ih =>
    intro cycleStart w w1 hh he h
    unfold CycleSort_outer at h
    cases hcy : CycleSort_cycle n cycleStart (n + 1) w with
    | none => simp [hcy] at h
    | some w2 =>
      have h2 := charged_cycle n cycleStart _ w w2 hh he hcy
      simp only [hcy] at h
      exact h2.ctrans (ih _ w2 w1 (h2.1.trans hh) (h2.2.1.trans he) h)

theorem charges_split (d : List Call) : charges d = comparisons d + increments d := by
  induction d with
  | nil => rfl
  | cons c d ih =>
    unfold charges comparisons increments at ih ⊢
    cases c <;> simp [List.filter_cons, List.count_cons] <;> omega


/-- C20 as stated fails: with the engine registered and counting enabled, the
rank-finding scan from `cycleStart = 0` over the 8-element example buffer
charges its 7 direct comparisons to the counter, and the whole run of
`CycleSort` leaves the counter at 45 after only 3 observed `==` comparisons. -/
theorem CycleSort_scan_counted_counterexample :
    exDirectIdle.enable_count_ = true ∧ exDirectIdle.counter_value = 0 ∧
      (CycleSort_rank 8 0 exDirectIdle).2.counter_value = 7 ∧
      ¬ ((CycleSort_rank 8 0 exDirectIdle).2.counter_value = exDirectIdle.counter_value) ∧
      (CycleSort 8 exDirectIdle).map (fun w => (w.counter_value, comparisons w.calls)) =
        some (45, 3) := by
  decide

/-- C20, amended: with the engine registered and counting enabled, a
rank-finding scan of `CycleSort` over the `n - cycleStart - 1` elements after
`cycleStart` records no comparison event and paints nothing, but records one
`Item::IncrementCounter` call per scanned element and so adds
`n - cycleStart - 1` to `counter_value` (modulo 2^64); over a whole run of
`CycleSort` the counter grows by the number of observed comparisons plus the
number of scanned elements. -/
theorem CycleSort_scan_charged (n cycleStart : Nat) (w : World)
    (hh : w.sort_animation_hook = true) (he : w.enable_count_ = true)
    (hc : w.counter_value < SIZE_MOD) :
    ((CycleSort_rank n cycleStart w).2.calls =
        List.replicate (n - (cycleStart + 1)) Call.counter ++ w.calls ∧
      (CycleSort_rank n cycleStart w).2.counter_value =
        (w.counter_value + (n - (cycleStart + 1))) % SIZE_MOD ∧
      Silent w (CycleSort_rank n cycleStart w).2) ∧
    ∀ w1, CycleSort n w = some w1 →
      ∃ d, w1.calls = d ++ w.calls ∧
        w1.counter_value = (w.counter_value + (comparisons d + increments d)) % SIZE_MOD := by
  refine ⟨CycleSort_scan_spec cycleStart _ _ _ w hh he hc, ?_⟩
  intro w1 h
  obtain ⟨_, _, hb, d, hd, hm⟩ := charged_outer n _ 0 w w1 hh he h
  refine ⟨d, hd, ?_⟩
  rw [← charges_split, ← hm, Nat.mod_eq_of_lt (hb hc)]

/-- Witness of the amended C20: the first scan over the 8-element example. -/
theorem CycleSort_scan_charged_witness :
    exDirectIdle.sort_animation_hook = true ∧ exDirectIdle.enable_count_ = true ∧
      exDirectIdle.counter_value < SIZE_MOD ∧
      (CycleSort_rank 8 0 exDirectIdle).2.counter_value =
        (exDirectIdle.counter_value + (8 - (0 + 1))) % SIZE_MOD :=
  ⟨by decide, by decide, by decide,
    (CycleSort_scan_charged 8 0 exDirectIdle (by decide) (by decide) (by decide)).1.2.1⟩


/-! ## The setup shuffle -/

/-- C15 fails on three elements: of the 27 sequences of draws from `0..2`,
four make `array_randomize` leave the identity `[0, 1, 2]` and five make it
leave `[0, 2, 1]`, so the permutations are not produced equally often. -/
theorem array_randomize_biased :
    (draw_sequences 3 3).length = 27 ∧
      shuffle_count 3 [0, 1, 2] = 4 ∧ shuffle_count 3 [0, 2, 1] = 5 ∧
      shuffle_count 3 [0, 1, 2] ≠ shuffle_count 3 [0, 2, 1] := by
  decide


/-! ## Merge sort: the buffer values -/

theorem store_stackItem (v : Nat) (w : World) : store stackItem v w = w := by
  unfold store stackItem
  rw [if_neg]
  omega

theorem store_nat_array (k v : Nat) (w : World) :
    (store (k : Nat) v w).array = w.array.set k v := by
  rw [store_array]
  split
  · simp
  · rename_i h
    have hk : w.array.length ≤ k := by
      unfold World.array_size at h
      omega
    exact (List.set_eq_of_length_le hk).symm

theorem store_g_terminate (a : Int) (v : Nat) (w : World) :
    (store a v w).g_terminate = w.g_terminate := by
  unfold store
  split <;> rfl

/-- A comparison leaves the data alone. -/
theorem Item_lt_data (a : Int) (va : Nat) (b : Int) (vb : Nat) (w : World) :
    (Item.lt a va b vb w).2.array = w.array ∧
      (Item.lt a va b vb w).2.g_terminate = w.g_terminate :=
  ⟨(steady_Item_OnComparison a va b vb w).array, (steady_Item_OnComparison a va b vb w).g_terminate⟩

theorem Item_gt_data (a : Int) (va : Nat) (b : Int) (vb : Nat) (w : World) :
    (Item.gt a va b vb w).2.array = w.array ∧
      (Item.gt a va b vb w).2.g_terminate = w.g_terminate :=
  ⟨(steady_Item_OnComparison a va b vb w).array, (steady_Item_OnComparison a va b vb w).g_terminate⟩

theorem Item_eq_data (a : Int) (va : Nat) (b : Int) (vb : Nat) (w : World) :
    (Item.eq a va b vb w).2.array = w.array ∧
      (Item.eq a va b vb w).2.g_terminate = w.g_terminate :=
  ⟨(steady_Item_OnComparison a va b vb w).array, (steady_Item_OnComparison a va b vb w).g_terminate⟩

/-- A move assignment between a buffer element and an item outside the buffer. -/
theorem move_assign_out_data (k v : Nat) (w : World) :
    (Item.move_assign stackItem k v w).array = w.array.set k black ∧
      (Item.move_assign stackItem k v w).g_terminate = w.g_terminate := by
  unfold Item.move_assign
  have hs := steady_Item_OnAccess stackItem
    (if stackItem = (k : Int) then black else v) true (store k black (store stackItem v w))
  rw [hs.array, hs.g_terminate, store_nat_array, store_g_terminate, store_stackItem]
  exact ⟨rfl, rfl⟩

theorem move_assign_in_data (k v : Nat) (w : World) :
    (Item.move_assign (k : Nat) stackItem v w).array = w.array.set k v ∧
      (Item.move_assign (k : Nat) stackItem v w).g_terminate = w.g_terminate := by
  unfold Item.move_assign
  have hs := steady_Item_OnAccess k
    (if (k : Int) = stackItem then black else v) true (store stackItem black (store k v w))
  rw [hs.array, hs.g_terminate, store_stackItem, store_nat_array, store_g_terminate]
  exact ⟨rfl, rfl⟩

theorem Merge_take_data (k : Nat) (out : List Nat) (w : World) :
    (Merge_take k out w).1 = (take_list k out w.array).1 ∧
      (Merge_take k out w).2.array = (take_list k out w.array).2 ∧
      (Merge_take k out w).2.g_terminate = w.g_terminate :=
  ⟨rfl, (move_assign_out_data k _ w).1, (move_assign_out_data k _ w).2⟩

theorem Merge_main_data (mid hi : Nat) (c : Nat) : ∀ (i j : Nat) (out : List Nat) (w : World),
    w.g_terminate = false →
    (Merge_main mid hi c i j out w).data = Merge_main_list mid hi c i j out w.array ∧
      (Merge_main mid hi c i j out w).s.g_terminate = false := by
  induction c with
  | zero =>
    intro i j out w hg
    exact ⟨rfl, hg⟩
  | succ c ih =>
    intro i j out w hg
    unfold Merge_main Merge_main_list
    have hl := Item_lt_data i (peek i w) j (peek j w) w
    by_cases hc : i < mid ∧ j < hi
    · rw [if_pos ⟨hc.1, hc.2, hg⟩, if_pos hc]
      have ht1 := Merge_take_data i out (Item.lt i (peek i w) j (peek j w) w).2
      have ht2 := Merge_take_data j out (Item.lt i (peek i w) j (peek j w) w).2
      rw [hl.1] at ht1 ht2
      by_cases hlt : w.array.getD i 0 < w.array.getD j 0
      · rw [if_pos hlt, if_pos (by simpa [Item.lt, peek] using hlt)]
        have := ih (i + 1) j (Merge_take i out (Item.lt i (peek i w) j (peek j w) w).2).1
          (Merge_take i out (Item.lt i (peek i w) j (peek j w) w).2).2
          (ht1.2.2.trans (hl.2.trans hg))
        refine ⟨this.1.trans ?_, this.2⟩
        rw [ht1.1, ht1.2.1]
      · rw [if_neg hlt, if_neg (by simpa [Item.lt, peek] using hlt)]
        have := ih i (j + 1) (Merge_take j out (Item.lt i (peek i w) j (peek j w) w).2).1
          (Merge_take j out (Item.lt i (peek i w) j (peek j w) w).2).2
          (ht2.2.2.trans (hl.2.trans hg))
        refine ⟨this.1.trans ?_, this.2⟩
        rw [ht2.1, ht2.2.1]
    · rw [if_neg (fun h => hc ⟨h.1, h.2.1⟩), if_neg hc]
      exact ⟨rfl, hg⟩

theorem Merge_rest_data (c : Nat) : ∀ (k : Nat) (out : List Nat) (w : World),
    (Merge_rest c k out w).1 = (Merge_rest_list c k out w.array).1 ∧
      (Merge_rest c k out w).2.array = (Merge_rest_list c k out w.array).2 ∧
      (Merge_rest c k out w).2.g_terminate = w.g_terminate := by
  induction c with
  | zero =>
    intro k out w
    exact ⟨rfl, rfl, rfl⟩
  | succ c ih =>
    intro k out w
    unfold Merge_rest Merge_rest_list
    have ht := Merge_take_data k out w
    have := ih (k + 1) (Merge_take k out w).1 (Merge_take k out w).2
    refine ⟨this.1.trans ?_, this.2.1.trans ?_, this.2.2.trans ht.2.2⟩
    · rw [ht.1, ht.2.1]
    · rw [ht.1, ht.2.1]

theorem Merge_gather_data (lo mid hi : Nat) (w : World) (hg : w.g_terminate = false) :
    (Merge_gather lo mid hi w).1 = (Merge_gather_list lo mid hi w.array).1 ∧
      (Merge_gather lo mid hi w).2.array = (Merge_gather_list lo mid hi w.array).2 ∧
      (Merge_gather lo mid hi w).2.g_terminate = false := by
  unfold Merge_gather Merge_gather_list Merge_rests Merge_rests_list
  obtain ⟨hm, hmg⟩ := Merge_main_data mid hi ((mid - lo) + (hi - mid)) lo mid [] w hg
  generalize Merge_main mid hi ((mid - lo) + (hi - mid)) lo mid [] w = s at hm hmg
  rw [← hm]
  show (Merge_rest (hi - s.j) s.j _ _).1 = (Merge_rest_list (hi - s.j) s.j _ _).1 ∧
    (Merge_rest (hi - s.j) s.j _ _).2.array = (Merge_rest_list (hi - s.j) s.j _ _).2 ∧ _
  have h1 := Merge_rest_data (mid - s.i) s.i s.out s.s
  have h2 := Merge_rest_data (hi - s.j) s.j (Merge_rest (mid - s.i) s.i s.out s.s).1
    (Merge_rest (mid - s.i) s.i s.out s.s).2
  refine ⟨h2.1.trans ?_, h2.2.1.trans ?_, ?_⟩
  · rw [h1.1, h1.2.1]
    rfl
  · rw [h1.1, h1.2.1]
    rfl
  · rw [h2.2.2, h1.2.2]; exact hmg

theorem Merge_back_data (lo : Nat) (c : Nat) : ∀ (i : Nat) (out : List Nat) (w : World),
    w.g_terminate = false →
    (Merge_back lo c i out w).1 = (Merge_back_list lo c i out w.array).1 ∧
      (Merge_back lo c i out w).2.array = (Merge_back_list lo c i out w.array).2 ∧
      (Merge_back lo c i out w).2.g_terminate = false := by
  induction c with
  | zero =>
    intro i out w hg
    exact ⟨rfl, rfl, hg⟩
  | succ c ih =>
    intro i out w hg
    unfold Merge_back Merge_back_list
    rw [if_pos hg]
    have hm := move_assign_in_data (lo + i) (out.getD i 0) w
    have := ih (i + 1) (out.set i black)
      (Item.move_assign ((lo + i : Nat) : Int) stackItem (out.getD i 0) w) (hm.2.trans hg)
    refine ⟨this.1.trans ?_, this.2.1.trans ?_, this.2.2⟩
    · rw [hm.1]
    · rw [hm.1]

/-- `Merge` changes the buffer values as `Merge_list` says, whatever the sink. -/
theorem Merge_data (lo mid hi : Nat) (w : World) (hg : w.g_terminate = false) :
    (Merge lo mid hi w).array = Merge_list lo mid hi w.array ∧
      (Merge lo mid hi w).g_terminate = false := by
  unfold Merge Merge_list
  obtain ⟨h1, h2, h3⟩ := Merge_gather_data lo mid hi w hg
  obtain ⟨_, h5, h6⟩ := Merge_back_data lo (hi - lo) 0 (Merge_gather lo mid hi w).1
    (Merge_gather lo mid hi w).2 h3
  refine ⟨h5.trans ?_, h6⟩
  rw [h1, h2]

/-- `MergeSort` changes the buffer values as `MergeSort_list` says, whatever
the sink. -/
theorem MergeSort_rec_data (f : Nat) : ∀ (lo hi : Nat) (w : World), w.g_terminate = false →
    (MergeSort_rec f lo hi w).map World.array = MergeSort_list f lo hi w.array ∧
      ∀ w1, MergeSort_rec f lo hi w = some w1 → w1.g_terminate = false := by
  induction f with
  | zero =>
    intro lo hi w _
    exact ⟨rfl, fun w1 h => by simp [MergeSort_rec] at h⟩
  | succ f ih =>
    intro lo hi w hg
    unfold MergeSort_rec MergeSort_list
    rw [if_neg (by simp [hg])]
    by_cases hc : lo + 1 < hi
    · rw [if_pos hc, if_pos hc]
      obtain ⟨e1, g1⟩ := ih lo ((lo + hi) / 2) w hg
      rw [← e1]
      cases h1 : MergeSort_rec f lo ((lo + hi) / 2) w with
      | none => exact ⟨rfl, fun w1 h => by simp at h⟩
      | some w1 =>
        obtain ⟨e2, g2⟩ := ih ((lo + hi) / 2) hi w1 (g1 w1 h1)
        simp only [Option.some_bind, Option.map_some']
        rw [← e2]
        cases h2 : MergeSort_rec f ((lo + hi) / 2) hi w1 with
        | none => exact ⟨rfl, fun w1 h => by simp at h⟩
        | some w2 =>
          obtain ⟨e3, g3⟩ := Merge_data lo ((lo + hi) / 2) hi w2 (g2 w2 h2)
          simp only [Option.some_bind, Option.map_some']
          refine ⟨by rw [e3], fun w3 h => ?_⟩
          cases h
          exact g3
    · rw [if_neg hc, if_neg hc]
      refine ⟨rfl, fun w1 h => ?_⟩
      cases h
      exact hg


/-! ## Merge sort: correctness on the buffer values -/

theorem getD_at (P : List Nat) (x : Nat) (Q : List Nat) (k : Nat) (hk : P.length = k) :
    (P ++ x :: Q).getD k 0 = x := by
  subst hk
  exact getD_append_cons P x Q

theorem set_at (P : List Nat) (x : Nat) (Q : List Nat) (k y : Nat) (hk : P.length = k) :
    (P ++ x :: Q).set k y = P ++ y :: Q := by
  subst hk
  induction P with
  | nil => rfl
  | cons a P ih => simp [ih]

theorem Merge_rest_list_spec (c : Nat) : ∀ (k : Nat) (out X R S : List Nat),
    X.length = k → R.length = c →
    Merge_rest_list c k out (X ++ (R ++ S)) =
      (out ++ R, X ++ (List.replicate c black ++ S)) := by
  induction c with
  | zero =>
    intro k out X R S _ hR
    have : R = [] := List.length_eq_zero.mp hR
    subst this
    simp [Merge_rest_list]
  | succ c ih =>
    intro k out X R S hX hR
    cases R with
    | nil => simp at hR
    | cons a R =>
      unfold Merge_rest_list take_list
      simp only [List.cons_append]
      rw [getD_at X a _ k hX, set_at X a _ k black hX]
      have := ih (k + 1) (out ++ [a]) (X ++ [black]) R S (by simp [hX]) (by simpa using hR)
      simp only [List.append_assoc, List.singleton_append] at this
      rw [this]
      simp [List.replicate_succ]

theorem Merge_gather_list_spec (c : Nat) : ∀ (i j mid hi : Nat) (out X L Y R S : List Nat),
    X.length = i → i + L.length = mid → mid + Y.length = j → j + R.length = hi →
    L.length + R.length = c →
    Merge_rests_list mid hi (Merge_main_list mid hi c i j out (X ++ (L ++ (Y ++ (R ++ S))))) =
      (out ++ merge_runs L R,
        X ++ (List.replicate L.length black ++ (Y ++ (List.replicate R.length black ++ S)))) := by
  induction c with
  | zero =>
    intro i j mid hi out X L Y R S hX hL hY hR hc
    have hL0 : L = [] := List.length_eq_zero.mp (by omega)
    have hR0 : R = [] := List.length_eq_zero.mp (by omega)
    subst hL0 hR0
    simp only [List.length_nil, Nat.add_zero] at hL hR
    subst hL hR
    simp [Merge_main_list, Merge_rests_list, Merge_rest_list, merge_runs]
  | succ c ih =>
    intro i j mid hi out X L Y R S hX hL hY hR hc
    cases L with
    | nil =>
      simp only [List.length_nil, Nat.add_zero] at hL
      unfold Merge_main_list
      rw [if_neg (by omega)]
      unfold Merge_rests_list
      simp only [List.nil_append]
      rw [show mid - i = 0 by omega]
      simp only [Merge_rest_list]
      have := Merge_rest_list_spec (hi - j) j out (X ++ Y) R S (by simp; omega) (by omega)
      simp only [List.append_assoc] at this
      rw [this, show hi - j = R.length by omega]
      simp [merge_runs]
    | cons a L =>
      cases R with
      | nil =>
        simp only [List.length_nil, Nat.add_zero] at hR
        unfold Merge_main_list
        rw [if_neg (by omega)]
        unfold Merge_rests_list
        simp only
        have := Merge_rest_list_spec (mid - i) i out X (a :: L) (Y ++ S) hX (by omega)
        simp only [List.nil_append]
        rw [this, show hi - j = 0 by omega]
        simp only [Merge_rest_list, List.length_nil, List.replicate_zero, List.nil_append]
        rw [show mid - i = (a :: L).length by omega]
        simp [merge_runs]
      | cons b R =>
        simp only [List.length_cons] at hL hR hc
        unfold Merge_main_list
        rw [if_pos ⟨by omega, by omega⟩]
        have hgi : (X ++ (a :: L ++ (Y ++ (b :: R ++ S)))).getD i 0 = a := by
          simp only [List.cons_append]
          exact getD_at X a _ i hX
        have hgj : (X ++ (a :: L ++ (Y ++ (b :: R ++ S)))).getD j 0 = b := by
          have := getD_at (X ++ (a :: L ++ Y)) b (R ++ S) j (by simp; omega)
          simpa [List.append_assoc] using this
        rw [hgi, hgj]
        by_cases hab : a < b
        · rw [if_pos hab]
          unfold take_list
          simp only
          rw [hgi]
          have hs : (X ++ (a :: L ++ (Y ++ (b :: R ++ S)))).set i black =
              (X ++ [black]) ++ (L ++ (Y ++ (b :: R ++ S))) := by
            simp only [List.cons_append]
            rw [set_at X a _ i black hX]
            simp
          rw [hs]
          have := ih (i + 1) j mid hi (out ++ [a]) (X ++ [black]) L Y (b :: R) S
            (by simp [hX]) (by omega) hY (by simp; omega) (by simp; omega)
          rw [this]
          simp [merge_runs, hab, List.replicate_succ]
        · rw [if_neg hab]
          unfold take_list
          simp only
          rw [hgj]
          have hs : (X ++ (a :: L ++ (Y ++ (b :: R ++ S)))).set j black =
              X ++ (a :: L ++ ((Y ++ [black]) ++ (R ++ S))) := by
            have := set_at (X ++ (a :: L ++ Y)) b (R ++ S) j black (by simp; omega)
            simpa [List.append_assoc] using this
          rw [hs]
          have := ih i (j + 1) mid hi (out ++ [b]) X (a :: L) (Y ++ [black]) R S
            hX (by simp; omega) (by simp; omega) (by omega) (by simp; omega)
          rw [this]
          simp [merge_runs, hab, List.replicate_succ]

theorem Merge_back_list_spec (lo : Nat) (c : Nat) : ∀ (i : Nat) (K1 O2 P O1 B2 S : List Nat),
    P.length = lo → O1.length = i → K1.length = i → B2.length = c → O2.length = c →
    Merge_back_list lo c i (K1 ++ O2) (P ++ (O1 ++ (B2 ++ S))) =
      (K1 ++ List.replicate c black, P ++ (O1 ++ (O2 ++ S))) := by
  induction c with
  | zero =>
    intro i K1 O2 P O1 B2 S _ _ _ hB hO
    have h1 : B2 = [] := List.length_eq_zero.mp hB
    have h2 : O2 = [] := List.length_eq_zero.mp hO
    subst h1 h2
    simp [Merge_back_list]
  | succ c ih =>
    intro i K1 O2 P O1 B2 S hP hO1 hK hB hO
    cases B2 with
    | nil => simp at hB
    | cons b B2 =>
      cases O2 with
      | nil => simp at hO
      | cons o O2 =>
        unfold Merge_back_list
        rw [getD_at K1 o O2 i hK, set_at K1 o O2 i black hK]
        have hs : (P ++ (O1 ++ (b :: B2 ++ S))).set (lo + i) o =
            P ++ ((O1 ++ [o]) ++ (B2 ++ S)) := by
          have := set_at (P ++ O1) b (B2 ++ S) (lo + i) o (by simp; omega)
          simpa [List.append_assoc] using this
        rw [hs]
        have := ih (i + 1) (K1 ++ [black]) O2 P (O1 ++ [o]) B2 S hP (by simp [hO1])
          (by simp [hK]) (by simpa using hB) (by simpa using hO)
        simp only [List.append_assoc, List.singleton_append] at this ⊢
        rw [this]
        simp [List.replicate_succ]

theorem merge_runs_nil_right (L : List Nat) : merge_runs L [] = L := by
  cases L <;> simp [merge_runs]

theorem merge_runs_perm : ∀ (L R : List Nat), (merge_runs L R).Perm (L ++ R) := by
  intro L
  induction L with
  | nil => intro R; simp [merge_runs]
  | cons a L ihL =>
    intro R
    induction R with
    | nil => simp [merge_runs]
    | cons b R ihR =>
      unfold merge_runs
      split
      · exact (ihL (b :: R)).cons a
      · refine ((ihR).cons b).trans ?_
        simpa using (@List.perm_middle _ b (a :: L) R).symm

theorem merge_runs_length (L R : List Nat) : (merge_runs L R).length = L.length + R.length := by
  rw [(merge_runs_perm L R).length_eq, List.length_append]

theorem merge_runs_sorted : ∀ (L R : List Nat), L.Pairwise (· ≤ ·) → R.Pairwise (· ≤ ·) →
    (merge_runs L R).Pairwise (· ≤ ·) := by
  intro L
  induction L with
  | nil => intro R _ hR; simpa [merge_runs] using hR
  | cons a L ihL =>
    intro R
    induction R with
    | nil => intro hL _; simpa [merge_runs] using hL
    | cons b R ihR =>
      intro hL hR
      unfold merge_runs
      split
      · rename_i hab
        refine List.pairwise_cons.mpr ⟨?_, ihL (b :: R) (List.pairwise_cons.mp hL).2 hR⟩
        intro x hx
        rcases List.mem_append.mp ((merge_runs_perm L (b :: R)).subset hx) with h | h
        · exact (List.pairwise_cons.mp hL).1 x h
        · rcases List.mem_cons.mp h with h | h
          · omega
          · have := (List.pairwise_cons.mp hR).1 x h
            omega
      · rename_i hab
        refine List.pairwise_cons.mpr ⟨?_, ihR hL (List.pairwise_cons.mp hR).2⟩
        intro x hx
        rcases List.mem_append.mp ((merge_runs_perm (a :: L) R).subset hx) with h | h
        · rcases List.mem_cons.mp h with h | h
          · omega
          · have := (List.pairwise_cons.mp hL).1 x h
            omega
        · exact (List.pairwise_cons.mp hR).1 x h

/-- `Merge` on the buffer values: the two runs are replaced by their merge. -/
theorem Merge_list_spec (lo mid hi : Nat) (P L R S : List Nat)
    (hP : P.length = lo) (hL : lo + L.length = mid) (hR : mid + R.length = hi) :
    Merge_gather_list lo mid hi (P ++ (L ++ (R ++ S))) =
        (merge_runs L R, P ++ (List.replicate (L.length + R.length) black ++ S)) ∧
      Merge_back_list lo (hi - lo) 0 (merge_runs L R)
          (P ++ (List.replicate (L.length + R.length) black ++ S)) =
        (List.replicate (hi - lo) black, P ++ (merge_runs L R ++ S)) ∧
      Merge_list lo mid hi (P ++ (L ++ (R ++ S))) = P ++ (merge_runs L R ++ S) := by
  have hg : Merge_gather_list lo mid hi (P ++ (L ++ (R ++ S))) =
      (merge_runs L R, P ++ (List.replicate (L.length + R.length) black ++ S)) := by
    unfold Merge_gather_list
    have := Merge_gather_list_spec (L.length + R.length) lo mid mid hi [] P L [] R S hP hL rfl hR
      rfl
    simp only [List.nil_append] at this
    rw [show mid - lo + (hi - mid) = L.length + R.length by omega, this, List.replicate_add,
      List.append_assoc]
  have hb : Merge_back_list lo (hi - lo) 0 (merge_runs L R)
      (P ++ (List.replicate (L.length + R.length) black ++ S)) =
      (List.replicate (hi - lo) black, P ++ (merge_runs L R ++ S)) := by
    have := Merge_back_list_spec lo (hi - lo) 0 [] (merge_runs L R) P []
      (List.replicate (L.length + R.length) black) S hP rfl rfl
      (by rw [List.length_replicate]; omega) (by rw [merge_runs_length]; omega)
    simpa only [List.nil_append] using this
  refine ⟨hg, hb, ?_⟩
  unfold Merge_list
  rw [hg]
  simp only
  rw [hb]

theorem pairwise_short (M : List Nat) (h : M.length ≤ 1) : M.Pairwise (· ≤ ·) := by
  cases M with
  | nil => exact List.Pairwise.nil
  | cons a M =>
    cases M with
    | nil => simp
    | cons b M => simp at h

/-- `MergeSort(A, lo, hi)` on the buffer values: with enough fuel it returns,
and the range is sorted in place. -/
theorem MergeSort_list_spec (f : Nat) : ∀ (lo hi : Nat) (P M S : List Nat),
    P.length = lo → lo + M.length = hi → 1 ≤ f → M.length ≤ f →
    ∃ M1, MergeSort_list f lo hi (P ++ (M ++ S)) = some (P ++ (M1 ++ S)) ∧
      M1.Perm M ∧ M1.Pairwise (· ≤ ·) := by
  induction f with
  | zero => intro lo hi P M S _ _ h; omega
  | succ f ih =>
    intro lo hi P M S hP hM _ hf
    unfold MergeSort_list
    by_cases hc : lo + 1 < hi
    · rw [if_pos hc]
      have hmid1 : lo < (lo + hi) / 2 := by omega
      have hmid2 : (lo + hi) / 2 < hi := by omega
      generalize (lo + hi) / 2 = mid at hmid1 hmid2
      have hsplit : M = M.take (mid - lo) ++ M.drop (mid - lo) := (List.take_append_drop _ _).symm
      have hl1 : (M.take (mid - lo)).length = mid - lo := by
        rw [List.length_take]; omega
      have hl2 : (M.drop (mid - lo)).length = hi - mid := by
        rw [List.length_drop]; omega
      generalize M.take (mid - lo) = M1 at hsplit hl1
      generalize M.drop (mid - lo) = M2 at hsplit hl2
      subst hsplit
      obtain ⟨N1, e1, p1, s1⟩ := ih lo mid P M1 (M2 ++ S) hP (by omega) (by omega) (by omega)
      rw [List.append_assoc, e1, Option.some_bind]
      have hN1 : N1.length = M1.length := p1.length_eq
      obtain ⟨N2, e2, p2, s2⟩ := ih mid hi (P ++ N1) M2 S (by simp; omega) (by omega) (by omega)
        (by omega)
      simp only [List.append_assoc] at e2
      rw [e2, Option.some_bind]
      have hN2 : N2.length = M2.length := p2.length_eq
      have hm := (Merge_list_spec lo mid hi P N1 N2 S hP (by omega) (by omega)).2.2
      rw [hm]
      exact ⟨merge_runs N1 N2, rfl, (merge_runs_perm N1 N2).trans (p1.append p2),
        merge_runs_sorted N1 N2 s1 s2⟩
    · rw [if_neg hc]
      exact ⟨M, rfl, List.Perm.refl M, pairwise_short M (by omega)⟩


theorem pairwise_perm_range (A : List Nat) (N : Nat) (hs : A.Pairwise (· ≤ ·))
    (hp : A.Perm (List.range N)) : A = List.range N :=
  List.eq_of_perm_of_sorted hp hs (List.sorted_le_range N)

/-- With enough fuel `MergeSort` returns, and its buffer is the sorted input. -/
theorem MergeSort_returns (w : World) (hg : w.g_terminate = false) :
    ∃ w1, MergeSort w.array.length w = some w1 ∧ w1.array.Perm w.array ∧
      w1.array.Pairwise (· ≤ ·) := by
  obtain ⟨hd, _⟩ := MergeSort_rec_data (w.array.length + 1) 0 w.array.length w hg
  obtain ⟨M1, e, p, s⟩ := MergeSort_list_spec (w.array.length + 1) 0 w.array.length [] w.array []
    rfl (by omega) (by omega) (by omega)
  simp only [List.nil_append, List.append_nil] at e
  rw [e] at hd
  unfold MergeSort
  cases h : MergeSort_rec (w.array.length + 1) 0 w.array.length w with
  | none => simp [h] at hd
  | some w1 =>
    rw [h] at hd
    simp only [Option.map_some', Option.some.injEq] at hd
    exact ⟨w1, rfl, hd ▸ p, hd ▸ s⟩

/-! ## Merge sort: the moves -/

theorem accesses_cons_access (a b : Int) (cs : List Call) :
    accesses a (Call.access b true :: cs) = accesses a cs + (if b = a then 1 else 0) := by
  unfold accesses
  rw [List.count_cons]
  by_cases h : b = a
  · subst h; simp
  · have : ¬ (Call.access b true == Call.access a true) = true := by
      simp [h]
    simp [h]

theorem accesses_cons_comparison (a b c : Int) (cs : List Call) :
    accesses a (Call.comparison b c :: cs) = accesses a cs := by
  unfold accesses
  rw [List.count_cons]
  simp

theorem Merge_take_calls (k : Nat) (out : List Nat) (w : World) :
    (Merge_take k out w).2.calls = Call.access stackItem true :: w.calls ∧
      (Merge_take k out w).1.length = out.length + 1 := by
  unfold Merge_take Item.move_assign
  simp only [calls_Item_OnAccess, store_calls, List.length_append, List.length_singleton,
    and_self]

theorem stackItem_ne_nat (k : Nat) : ¬ stackItem = (k : Int) := by
  unfold stackItem
  omega

/-- Moving elements out: one access event for a scratch item per element
moved, none for an element of the buffer. -/
theorem Merge_main_calls (mid hi : Nat) (c : Nat) : ∀ (i j : Nat) (out : List Nat) (w : World),
    accesses stackItem (Merge_main mid hi c i j out w).s.calls + out.length =
        accesses stackItem w.calls + (Merge_main mid hi c i j out w).out.length ∧
      ∀ k : Nat, accesses k (Merge_main mid hi c i j out w).s.calls = accesses k w.calls := by
  induction c with
  | zero => intro i j out w; exact ⟨rfl, fun _ => rfl⟩
  | succ c ih =>
    intro i j out w
    unfold Merge_main
    have hl : (Item.lt i (peek i w) j (peek j w) w).2.calls = Call.comparison i j :: w.calls :=
      calls_Item_OnComparison _ _ _ _ w
    split
    · split
      · obtain ⟨t1, t2⟩ := Merge_take_calls i out (Item.lt i (peek i w) j (peek j w) w).2
        obtain ⟨i1, i2⟩ := ih (i + 1) j (Merge_take i out (Item.lt i (peek i w) j (peek j w) w).2).1
          (Merge_take i out (Item.lt i (peek i w) j (peek j w) w).2).2
        rw [t1, hl, accesses_cons_access, accesses_cons_comparison, t2, if_pos rfl] at i1
        refine ⟨by omega, fun k => ?_⟩
        rw [i2 k, t1, hl, accesses_cons_access, accesses_cons_comparison,
          if_neg (stackItem_ne_nat k)]
        rfl
      · obtain ⟨t1, t2⟩ := Merge_take_calls j out (Item.lt i (peek i w) j (peek j w) w).2
        obtain ⟨i1, i2⟩ := ih i (j + 1) (Merge_take j out (Item.lt i (peek i w) j (peek j w) w).2).1
          (Merge_take j out (Item.lt i (peek i w) j (peek j w) w).2).2
        rw [t1, hl, accesses_cons_access, accesses_cons_comparison, t2, if_pos rfl] at i1
        refine ⟨by omega, fun k => ?_⟩
        rw [i2 k, t1, hl, accesses_cons_access, accesses_cons_comparison,
          if_neg (stackItem_ne_nat k)]
        rfl
    · exact ⟨rfl, fun _ => rfl⟩

theorem Merge_rest_calls (c : Nat) : ∀ (k : Nat) (out : List Nat) (w : World),
    accesses stackItem (Merge_rest c k out w).2.calls + out.length =
        accesses stackItem w.calls + (Merge_rest c k out w).1.length ∧
      ∀ q : Nat, accesses q (Merge_rest c k out w).2.calls = accesses q w.calls := by
  induction c with
  | zero => intro k out w; exact ⟨rfl, fun _ => rfl⟩
  | succ c ih =>
    intro k out w
    unfold Merge_rest
    obtain ⟨t1, t2⟩ := Merge_take_calls k out w
    obtain ⟨i1, i2⟩ := ih (k + 1) (Merge_take k out w).1 (Merge_take k out w).2
    rw [t1, accesses_cons_access, t2, if_pos rfl] at i1
    refine ⟨by omega, fun q => ?_⟩
    rw [i2 q, t1, accesses_cons_access, if_neg (stackItem_ne_nat q)]
    rfl

theorem Merge_gather_calls (lo mid hi : Nat) (w : World) :
    accesses stackItem (Merge_gather lo mid hi w).2.calls =
        accesses stackItem w.calls + (Merge_gather lo mid hi w).1.length ∧
      ∀ q : Nat, accesses q (Merge_gather lo mid hi w).2.calls = accesses q w.calls := by
  unfold Merge_gather Merge_rests
  obtain ⟨m1, m2⟩ := Merge_main_calls mid hi ((mid - lo) + (hi - mid)) lo mid [] w
  generalize Merge_main mid hi ((mid - lo) + (hi - mid)) lo mid [] w = s at m1 m2
  obtain ⟨a1, a2⟩ := Merge_rest_calls (mid - s.i) s.i s.out s.s
  obtain ⟨b1, b2⟩ := Merge_rest_calls (hi - s.j) s.j (Merge_rest (mid - s.i) s.i s.out s.s).1
    (Merge_rest (mid - s.i) s.i s.out s.s).2
  simp only [List.length_nil, Nat.add_zero] at m1
  refine ⟨by omega, fun q => ?_⟩
  rw [b2 q, a2 q, m2 q]

/-- Moving elements back: one access event for each element of the range. -/
theorem Merge_back_calls (lo : Nat) (c : Nat) : ∀ (i : Nat) (out : List Nat) (w : World),
    w.g_terminate = false →
    accesses stackItem (Merge_back lo c i out w).2.calls = accesses stackItem w.calls ∧
      ∀ q : Nat, accesses q (Merge_back lo c i out w).2.calls =
        accesses q w.calls + (if lo + i ≤ q ∧ q < lo + i + c then 1 else 0) := by
  induction c with
  | zero =>
    intro i out w _
    refine ⟨rfl, fun q => ?_⟩
    rw [if_neg (by omega)]
    rfl
  | succ c ih =>
    intro i out w hg
    unfold Merge_back
    rw [if_pos hg]
    have hm := move_assign_in_data (lo + i) (out.getD i 0) w
    have hc : (Item.move_assign ((lo + i : Nat) : Int) stackItem (out.getD i 0) w).calls =
        Call.access ((lo + i : Nat) : Int) true :: w.calls := by
      unfold Item.move_assign
      simp only [calls_Item_OnAccess, store_calls]
    obtain ⟨i1, i2⟩ := ih (i + 1) (out.set i black)
      (Item.move_assign ((lo + i : Nat) : Int) stackItem (out.getD i 0) w) (hm.2.trans hg)
    rw [hc, accesses_cons_access] at i1
    refine ⟨?_, fun q => ?_⟩
    · rw [i1, if_neg (fun e => stackItem_ne_nat (lo + i) e.symm)]
      rfl
    · rw [i2 q, hc, accesses_cons_access]
      by_cases hq : lo + i = q
      · rw [if_pos (by exact_mod_cast hq), if_neg (by omega), if_pos (by omega)]
      · rw [if_neg (by exact_mod_cast hq)]
        by_cases hq2 : lo + (i + 1) ≤ q ∧ q < lo + (i + 1) + c
        · rw [if_pos hq2, if_pos (by omega)]
        · rw [if_neg hq2, if_neg (by omega)]

/-- `Merge` records one access event for a scratch item per element of the
range, and one access event for each element of the range. -/
theorem Merge_calls (lo mid hi : Nat) (w : World) (hg : w.g_terminate = false) :
    accesses stackItem (Merge lo mid hi w).calls =
        accesses stackItem w.calls + (Merge_gather lo mid hi w).1.length ∧
      ∀ q : Nat, accesses q (Merge lo mid hi w).calls =
        accesses q w.calls + (if lo ≤ q ∧ q < hi then 1 else 0) := by
  unfold Merge
  obtain ⟨g1, g2⟩ := Merge_gather_calls lo mid hi w
  obtain ⟨_, _, g3⟩ := Merge_gather_data lo mid hi w hg
  obtain ⟨b1, b2⟩ := Merge_back_calls lo (hi - lo) 0 (Merge_gather lo mid hi w).1
    (Merge_gather lo mid hi w).2 g3
  refine ⟨by rw [b1, g1], fun q => ?_⟩
  rw [b2 q, g2 q]
  by_cases hq : lo ≤ q ∧ q < hi
  · rw [if_pos hq, if_pos (by omega)]
  · rw [if_neg hq, if_neg (by omega)]

/-- C18: on a buffer that is a permutation of `0..N-1`, with the cancellation
flag clear, `MergeSort(A, N)` returns and leaves `[0, 1, ..., N-1]`.  Each
`Merge(A, lo, mid, hi)` on two sorted runs `L`, `R` first moves every element
to the scratch array, which then holds the merge of the runs while the range
of the buffer holds only the moved-from value, and then moves every element
back: the range ends as the merge, which is sorted and a permutation of the
two runs (so it holds `0xFFFF` only if a run did), the rest of the buffer is
untouched and the scratch array holds only the moved-from value.  The moves are
counted by their access events: `hi - lo` for scratch items, and one for each
element of the range. -/
theorem MergeSort_sorts (w : World) (N : Nat) (hg : w.g_terminate = false)
    (hp : w.array.Perm (List.range N)) :
    (∃ w1, MergeSort N w = some w1 ∧ w1.array = List.range N) ∧
    ∀ (v : World) (lo mid hi : Nat) (P L R S : List Nat), v.g_terminate = false →
      v.array = P ++ (L ++ (R ++ S)) → P.length = lo → lo + L.length = mid →
      mid + R.length = hi → L.Pairwise (· ≤ ·) → R.Pairwise (· ≤ ·) →
      ((Merge_gather lo mid hi v).1 = merge_runs L R ∧
        (Merge_gather lo mid hi v).2.array = P ++ (List.replicate (hi - lo) black ++ S)) ∧
      ((Merge_back lo (hi - lo) 0 (Merge_gather lo mid hi v).1 (Merge_gather lo mid hi v).2).1 =
          List.replicate (hi - lo) black ∧
        (Merge lo mid hi v).array = P ++ (merge_runs L R ++ S)) ∧
      (merge_runs L R).Pairwise (· ≤ ·) ∧ (merge_runs L R).Perm (L ++ R) ∧
      (black ∉ L ++ R → black ∉ merge_runs L R) ∧
      accesses stackItem (Merge lo mid hi v).calls = accesses stackItem v.calls + (hi - lo) ∧
      ∀ q : Nat, lo ≤ q → q < hi →
        accesses q (Merge lo mid hi v).calls = accesses q v.calls + 1 := by
  constructor
  · have hN : w.array.length = N := by rw [hp.length_eq, List.length_range]
    obtain ⟨w1, h1, p1, s1⟩ := MergeSort_returns w hg
    rw [hN] at h1
    exact ⟨w1, h1, pairwise_perm_range _ N s1 (p1.trans hp)⟩
  · intro v lo mid hi P L R S hv hA hP hL hR sL sR
    obtain ⟨g1, g2, g3⟩ := Merge_gather_data lo mid hi v hv
    obtain ⟨b1, _, _⟩ := Merge_back_data lo (hi - lo) 0 (Merge_gather lo mid hi v).1
      (Merge_gather lo mid hi v).2 g3
    obtain ⟨m1, m2, m3⟩ := Merge_list_spec lo mid hi P L R S hP hL hR
    rw [hA, m1] at g1 g2
    simp only at g1 g2
    rw [show L.length + R.length = hi - lo by omega] at g2
    obtain ⟨c1, c2⟩ := Merge_calls lo mid hi v hv
    refine ⟨⟨g1, g2⟩, ⟨?_, ?_⟩, merge_runs_sorted L R sL sR, merge_runs_perm L R, ?_, ?_, ?_⟩
    · rw [show L.length + R.length = hi - lo by omega] at m2
      rw [b1, g1, g2, m2]
    · rw [(Merge_data lo mid hi v hv).1, hA, m3]
    · intro hb hm
      exact hb ((merge_runs_perm L R).subset hm)
    · rw [c1, g1, merge_runs_length]
      omega
    · intro q h1 h2
      rw [c2 q, if_pos ⟨h1, h2⟩]

/-- Witness of C18 on the 8-element example buffer. -/
theorem MergeSort_sorts_witness :
    (exDirectIdle.g_terminate = false ∧ exDirectIdle.array.Perm (List.range 8)) ∧
      ∃ w1, MergeSort 8 exDirectIdle = some w1 ∧ w1.array = List.range 8 :=
  ⟨⟨by decide, by decide⟩, (MergeSort_sorts exDirectIdle 8 (by decide) (by decide)).1⟩


/-! ## Cocktail shaker sort: the buffer values -/

theorem Cocktail_step_data (k : Nat) (w : World) :
    (Cocktail_step k w).1 = (Cocktail_step_list k w.array).1 ∧
      (Cocktail_step k w).2.array = (Cocktail_step_list k w.array).2 := by
  unfold Cocktail_step Cocktail_step_list
  have hd := Item_gt_data k (peek k w) (k + 1 : Nat) (peek (k + 1) w) w
  refine ⟨rfl, ?_⟩
  by_cases h : w.array.getD k 0 > w.array.getD (k + 1) 0
  · rw [if_pos h, if_pos (by simpa [Item.gt, peek] using h), (swap_fields _ _ _).2, hd.1]
  · rw [if_neg h, if_neg (by simpa [Item.gt, peek] using h), hd.1]

theorem Cocktail_down_data (lo : Nat) (c : Nat) : ∀ (mov : Nat) (w : World),
    (Cocktail_down lo c mov w).1 = (Cocktail_down_list lo c mov w.array).1 ∧
      (Cocktail_down lo c mov w).2.array = (Cocktail_down_list lo c mov w.array).2 := by
  induction c with
  | zero => intro mov w; exact ⟨rfl, rfl⟩
  | succ c ih =>
    intro mov w
    unfold Cocktail_down Cocktail_down_list
    obtain ⟨h1, h2⟩ := Cocktail_step_data (lo + c) w
    have := ih (if (Cocktail_step (lo + c) w).1 then lo + c + 1 else mov)
      (Cocktail_step (lo + c) w).2
    rw [h2] at this
    rw [← h1]
    exact this

theorem Cocktail_up_data (c : Nat) : ∀ (i mov : Nat) (w : World),
    (Cocktail_up c i mov w).1 = (Cocktail_up_list c i mov w.array).1 ∧
      (Cocktail_up c i mov w).2.array = (Cocktail_up_list c i mov w.array).2 := by
  induction c with
  | zero => intro i mov w; exact ⟨rfl, rfl⟩
  | succ c ih =>
    intro i mov w
    unfold Cocktail_up Cocktail_up_list
    obtain ⟨h1, h2⟩ := Cocktail_step_data i w
    have := ih (i + 1) (if (Cocktail_step i w).1 then i else mov) (Cocktail_step i w).2
    rw [h2] at this
    rw [← h1]
    exact this

theorem Cocktail_round_data (lo hi mov : Nat) (w : World) :
    (Cocktail_down lo (hi - lo) mov w).1 = (Cocktail_down_list lo (hi - lo) mov w.array).1 ∧
      (Cocktail_round_up hi (Cocktail_down lo (hi - lo) mov w)).1 =
        (Cocktail_round_up_list hi (Cocktail_down_list lo (hi - lo) mov w.array)).1 ∧
      (Cocktail_round_up hi (Cocktail_down lo (hi - lo) mov w)).2.array =
        (Cocktail_round_up_list hi (Cocktail_down_list lo (hi - lo) mov w.array)).2 := by
  obtain ⟨h1, h2⟩ := Cocktail_down_data lo (hi - lo) mov w
  unfold Cocktail_round_up Cocktail_round_up_list
  obtain ⟨h3, h4⟩ := Cocktail_up_data (hi - (Cocktail_down lo (hi - lo) mov w).1)
    (Cocktail_down lo (hi - lo) mov w).1 (Cocktail_down lo (hi - lo) mov w).1
    (Cocktail_down lo (hi - lo) mov w).2
  rw [h2, h1] at h3 h4
  rw [h1]
  exact ⟨rfl, h3, h4⟩

/-- `CocktailShakerSort` changes the buffer values as the loop on lists says,
whatever the sink. -/
theorem Cocktail_while_data (f : Nat) : ∀ (lo hi mov : Nat) (w : World),
    (Cocktail_while f lo hi mov w).map World.array =
      Cocktail_while_list f lo hi mov w.array := by
  induction f with
  | zero =>
    intro lo hi mov w
    unfold Cocktail_while Cocktail_while_list
    split <;> rfl
  | succ f ih =>
    intro lo hi mov w
    unfold Cocktail_while Cocktail_while_list
    by_cases h : lo < hi
    · rw [if_pos h, if_pos h]
      obtain ⟨h1, h2, h3⟩ := Cocktail_round_data lo hi mov w
      rw [ih, h1, h2, h3]
    · rw [if_neg h, if_neg h]
      rfl


/-! ## Cocktail shaker sort: correctness on the buffer values -/

theorem swap_list_length (A : List Nat) (i j : Nat) : (swap_list A i j).length = A.length := by
  unfold swap_list
  simp

theorem swap_list_getD (A : List Nat) (i j : Nat) (hi : i < A.length) (hj : j < A.length)
    (hij : i ≠ j) :
    (swap_list A i j).getD i 0 = A.getD j 0 ∧ (swap_list A i j).getD j 0 = A.getD i 0 ∧
      ∀ t, t ≠ i → t ≠ j → (swap_list A i j).getD t 0 = A.getD t 0 := by
  unfold swap_list
  refine ⟨?_, ?_, ?_⟩
  · rw [getD_set_other _ _ _ _ (Ne.symm hij), getD_set_other _ _ _ _ (Ne.symm hij),
      getD_set_self _ _ _ (by simpa using hi), getD_set_other _ _ _ _ hij]
  · rw [getD_set_self _ _ _ (by simpa using hj)]
  · intro t hti htj
    rw [getD_set_other _ _ _ _ (Ne.symm htj), getD_set_other _ _ _ _ (Ne.symm htj),
      getD_set_other _ _ _ _ (Ne.symm hti), getD_set_other _ _ _ _ (Ne.symm hti)]

theorem adjacent_split (A : List Nat) (k : Nat) (h : k + 1 < A.length) :
    ∃ L x y R, A = L ++ x :: y :: R ∧ L.length = k := by
  refine ⟨A.take k, A.getD k 0, A.getD (k + 1) 0, A.drop (k + 2), ?_, ?_⟩
  · apply list_eq_of_getD
    · simp
      omega
    · intro j hj
      by_cases h1 : j < k
      · rw [List.getD_append _ _ _ _ (by simp; omega)]
        simp [List.getD_eq_getElem?_getD, List.getElem?_take, h1]
      · rw [List.getD_append_right _ _ _ _ (by simp; omega)]
        simp only [List.length_take, Nat.min_eq_left (by omega : k ≤ A.length)]
        by_cases h2 : j = k
        · subst h2
          simp
        · by_cases h3 : j = k + 1
          · subst h3
            simp
          · have : j - k = (j - k - 2) + 2 := by omega
            rw [this]
            simp only [List.getD_cons_succ]
            simp [List.getD_eq_getElem?_getD]
            congr 2
            omega
  · simp
    omega

theorem swap_list_adjacent_perm (A : List Nat) (k : Nat) (h : k + 1 < A.length) :
    (swap_list A k (k + 1)).Perm A := by
  obtain ⟨L, x, y, R, hA, hL⟩ := adjacent_split A k h
  subst hL
  rw [hA, swap_list_adjacent]
  exact List.Perm.append_left L (List.Perm.swap x y R)

/-- Adjacent order on a range gives order between any two of its positions. -/
theorem chain_le (A : List Nat) (p q : Nat)
    (h : ∀ k, p < k → k ≤ q → A.getD (k - 1) 0 ≤ A.getD k 0) :
    ∀ d a, p ≤ a → a + d ≤ q → A.getD a 0 ≤ A.getD (a + d) 0 := by
  intro d
  induction d with
  | zero => intro a _ _; exact Nat.le_refl _
  | succ d ih =>
    intro a ha hq
    have h1 := ih a ha (by omega)
    have h2 := h (a + (d + 1)) (by omega) hq
    rw [show a + (d + 1) - 1 = a + d by omega] at h2
    exact Nat.le_trans h1 h2

theorem chain_le_between (A : List Nat) (p q : Nat)
    (h : ∀ k, p < k → k ≤ q → A.getD (k - 1) 0 ≤ A.getD k 0) (a b : Nat)
    (ha : p ≤ a) (hab : a ≤ b) (hb : b ≤ q) : A.getD a 0 ≤ A.getD b 0 := by
  have := chain_le A p q h (b - a) a ha (by omega)
  rwa [show a + (b - a) = b by omega] at this

/-- The downward pass over the pairs below `lo + c`, when the element at
`lo + c` is at most everything after it in the window: either nothing was
swapped and this part of the window was in order, or everything before the new
`mov` is in order and at most everything after it in the window. -/
theorem Cocktail_down_list_spec (lo hi : Nat) (c : Nat) : ∀ (mov : Nat) (A : List Nat),
    lo + c ≤ hi → hi < A.length →
    (∀ b, lo + c < b → b ≤ hi → A.getD (lo + c) 0 ≤ A.getD b 0) →
    (Cocktail_down_list lo c mov A).2.length = A.length ∧
    (Cocktail_down_list lo c mov A).2.Perm A ∧
    (∀ k, k < lo ∨ lo + c < k → (Cocktail_down_list lo c mov A).2.getD k 0 = A.getD k 0) ∧
    (∀ k, lo ≤ k → k ≤ lo + c →
      ∃ k1, lo ≤ k1 ∧ k1 ≤ lo + c ∧ (Cocktail_down_list lo c mov A).2.getD k 0 = A.getD k1 0) ∧
    (((Cocktail_down_list lo c mov A).1 = mov ∧ (Cocktail_down_list lo c mov A).2 = A ∧
        ∀ k, lo < k → k ≤ lo + c → A.getD (k - 1) 0 ≤ A.getD k 0) ∨
      (lo < (Cocktail_down_list lo c mov A).1 ∧ (Cocktail_down_list lo c mov A).1 ≤ lo + c ∧
        ∀ a b, lo ≤ a → a < (Cocktail_down_list lo c mov A).1 → a < b → b ≤ hi →
          (Cocktail_down_list lo c mov A).2.getD a 0 ≤
            (Cocktail_down_list lo c mov A).2.getD b 0)) := by
  induction c with
  | zero =>
    intro mov A _ _ _
    refine ⟨rfl, List.Perm.refl _, fun _ _ => rfl, fun k h1 h2 => ⟨k, h1, h2, rfl⟩, ?_⟩
    left
    exact ⟨rfl, rfl, fun k h1 h2 => by omega⟩
  | succ c ih =>
    intro mov A hc hn hpre
    unfold Cocktail_down_list Cocktail_step_list
    simp only
    by_cases hgt : A.getD (lo + c) 0 > A.getD (lo + c + 1) 0
    · -- the pair is swapped
      rw [if_pos hgt]
      simp only [hgt, decide_True, if_true]
      obtain ⟨g1, g2, g3⟩ := swap_list_getD A (lo + c) (lo + c + 1) (by omega) (by omega)
        (by omega)
      have hlen := swap_list_length A (lo + c) (lo + c + 1)
      have hperm := swap_list_adjacent_perm A (lo + c) (by omega)
      generalize swap_list A (lo + c) (lo + c + 1) = A1 at g1 g2 g3 hlen hperm
      have hpre1 : ∀ b, lo + c < b → b ≤ hi → A1.getD (lo + c) 0 ≤ A1.getD b 0 := by
        intro b hb1 hb2
        rw [g1]
        by_cases hb : b = lo + c + 1
        · rw [hb, g2]; omega
        · rw [g3 b (by omega) hb]
          exact hpre b (by omega) hb2
      obtain ⟨i1, i2, i3, i4, i5⟩ := ih (lo + c + 1) A1 (by omega) (by omega) hpre1
      generalize Cocktail_down_list lo c (lo + c + 1) A1 = r at i1 i2 i3 i4 i5
      refine ⟨i1.trans hlen, i2.trans hperm, ?_, ?_, ?_⟩
      · intro k hk
        rw [i3 k (by omega), g3 k (by omega) (by omega)]
      · intro k hk1 hk2
        by_cases hk : k = lo + c + 1
        · refine ⟨lo + c, by omega, by omega, ?_⟩
          rw [i3 k (by omega), hk, g2]
        · obtain ⟨k1, h1, h2, h3⟩ := i4 k hk1 (by omega)
          by_cases hk1c : k1 = lo + c
          · exact ⟨lo + c + 1, by omega, by omega, by rw [h3, hk1c, g1]⟩
          · exact ⟨k1, h1, by omega, by rw [h3, g3 k1 hk1c (by omega)]⟩
      · right
        rcases i5 with ⟨e1, e2, e3⟩ | ⟨e1, e2, e3⟩
        · refine ⟨by omega, by omega, ?_⟩
          intro a b ha1 ha2 hab hb
          rw [e1] at ha2
          rw [e2]
          by_cases hbc : b ≤ lo + c
          · exact chain_le_between A1 lo (lo + c) e3 a b ha1 (by omega) hbc
          · exact Nat.le_trans (chain_le_between A1 lo (lo + c) e3 a (lo + c) ha1 (by omega)
              (Nat.le_refl _)) (hpre1 b (by omega) hb)
        · exact ⟨e1, by omega, e3⟩
    · -- the pair is in order
      rw [if_neg hgt]
      simp only [hgt, decide_False, Bool.false_eq_true, if_false]
      have hpre1 : ∀ b, lo + c < b → b ≤ hi → A.getD (lo + c) 0 ≤ A.getD b 0 := by
        intro b hb1 hb2
        by_cases hb : b = lo + c + 1
        · rw [hb]; omega
        · have : A.getD (lo + c + 1) 0 ≤ A.getD b 0 := hpre b (by omega) hb2
          omega
      obtain ⟨i1, i2, i3, i4, i5⟩ := ih mov A (by omega) hn hpre1
      generalize Cocktail_down_list lo c mov A = r at i1 i2 i3 i4 i5
      refine ⟨i1, i2, fun k hk => i3 k (by omega), ?_, ?_⟩
      · intro k hk1 hk2
        by_cases hk : k = lo + c + 1
        · exact ⟨k, hk1, hk2, i3 k (by omega)⟩
        · obtain ⟨k1, h1, h2, h3⟩ := i4 k hk1 (by omega)
          exact ⟨k1, h1, by omega, h3⟩
      · rcases i5 with ⟨e1, e2, e3⟩ | ⟨e1, e2, e3⟩
        · left
          refine ⟨e1, e2, ?_⟩
          intro k hk1 hk2
          by_cases hk : k = lo + c + 1
          · rw [hk, show lo + c + 1 - 1 = lo + c by omega]; omega
          · exact e3 k hk1 (by omega)
        · right
          exact ⟨e1, by omega, e3⟩

/-- The upward pass over the pairs from `i` on, when the element at `i` is at
least everything before it in the window: either nothing was swapped and this
part of the window was in order, or everything after the new `mov` is in order
and at least everything before it in the window. -/
theorem Cocktail_up_list_spec (lo hi : Nat) (c : Nat) : ∀ (i mov : Nat) (A : List Nat),
    lo ≤ i → i + c = hi → hi < A.length →
    (∀ a, lo ≤ a → a < i → A.getD a 0 ≤ A.getD i 0) →
    (Cocktail_up_list c i mov A).2.length = A.length ∧
    (Cocktail_up_list c i mov A).2.Perm A ∧
    (∀ k, k < i ∨ hi < k → (Cocktail_up_list c i mov A).2.getD k 0 = A.getD k 0) ∧
    (∀ k, i ≤ k → k ≤ hi →
      ∃ k1, i ≤ k1 ∧ k1 ≤ hi ∧ (Cocktail_up_list c i mov A).2.getD k 0 = A.getD k1 0) ∧
    (((Cocktail_up_list c i mov A).1 = mov ∧ (Cocktail_up_list c i mov A).2 = A ∧
        ∀ k, i < k → k ≤ hi → A.getD (k - 1) 0 ≤ A.getD k 0) ∨
      (i ≤ (Cocktail_up_list c i mov A).1 ∧ (Cocktail_up_list c i mov A).1 < hi ∧
        ∀ a b, (Cocktail_up_list c i mov A).1 < b → b ≤ hi → lo ≤ a → a < b →
          (Cocktail_up_list c i mov A).2.getD a 0 ≤ (Cocktail_up_list c i mov A).2.getD b 0)) := by
  induction c with
  | zero =>
    intro i mov A _ _ _ _
    refine ⟨rfl, List.Perm.refl _, fun _ _ => rfl, fun k h1 h2 => ⟨k, h1, h2, rfl⟩, ?_⟩
    left
    exact ⟨rfl, rfl, fun k h1 h2 => by omega⟩
  | succ c ih =>
    intro i mov A hlo hc hn hpre
    unfold Cocktail_up_list Cocktail_step_list
    simp only
    by_cases hgt : A.getD i 0 > A.getD (i + 1) 0
    · rw [if_pos hgt]
      simp only [hgt, decide_True, if_true]
      obtain ⟨g1, g2, g3⟩ := swap_list_getD A i (i + 1) (by omega) (by omega) (by omega)
      have hlen := swap_list_length A i (i + 1)
      have hperm := swap_list_adjacent_perm A i (by omega)
      generalize swap_list A i (i + 1) = A1 at g1 g2 g3 hlen hperm
      have hpre1 : ∀ a, lo ≤ a → a < i + 1 → A1.getD a 0 ≤ A1.getD (i + 1) 0 := by
        intro a ha1 ha2
        rw [g2]
        by_cases ha : a = i
        · rw [ha, g1]; omega
        · rw [g3 a ha (by omega)]
          exact hpre a ha1 (by omega)
      obtain ⟨i1, i2, i3, i4, i5⟩ := ih (i + 1) i A1 (by omega) (by omega) (by omega) hpre1
      generalize Cocktail_up_list c (i + 1) i A1 = r at i1 i2 i3 i4 i5
      refine ⟨i1.trans hlen, i2.trans hperm, ?_, ?_, ?_⟩
      · intro k hk
        rw [i3 k (by omega), g3 k (by omega) (by omega)]
      · intro k hk1 hk2
        by_cases hk : k = i
        · refine ⟨i + 1, by omega, by omega, ?_⟩
          rw [i3 k (by omega), hk, g1]
        · obtain ⟨k1, h1, h2, h3⟩ := i4 k (by omega) hk2
          by_cases hk1c : k1 = i + 1
          · exact ⟨i, by omega, by omega, by rw [h3, hk1c, g2]⟩
          · exact ⟨k1, by omega, h2, by rw [h3, g3 k1 (by omega) hk1c]⟩
      · right
        rcases i5 with ⟨e1, e2, e3⟩ | ⟨e1, e2, e3⟩
        · refine ⟨by omega, by omega, ?_⟩
          intro a b hb1 hb2 ha hab
          rw [e1] at hb1
          rw [e2]
          by_cases hai : a ≤ i
          · exact Nat.le_trans (hpre1 a ha (by omega))
              (chain_le_between A1 (i + 1) hi e3 (i + 1) b (Nat.le_refl _) (by omega) hb2)
          · exact chain_le_between A1 (i + 1) hi e3 a b (by omega) (by omega) hb2
        · exact ⟨by omega, e2, e3⟩
    · rw [if_neg hgt]
      simp only [hgt, decide_False, Bool.false_eq_true, if_false]
      have hpre1 : ∀ a, lo ≤ a → a < i + 1 → A.getD a 0 ≤ A.getD (i + 1) 0 := by
        intro a ha1 ha2
        by_cases ha : a = i
        · rw [ha]; omega
        · have := hpre a ha1 (by omega)
          omega
      obtain ⟨i1, i2, i3, i4, i5⟩ := ih (i + 1) mov A (by omega) (by omega) hn hpre1
      generalize Cocktail_up_list c (i + 1) mov A = r at i1 i2 i3 i4 i5
      refine ⟨i1, i2, fun k hk => i3 k (by omega), ?_, ?_⟩
      · intro k hk1 hk2
        by_cases hk : k = i
        · exact ⟨k, hk1, hk2, i3 k (by omega)⟩
        · obtain ⟨k1, h1, h2, h3⟩ := i4 k (by omega) hk2
          exact ⟨k1, by omega, h2, h3⟩
      · rcases i5 with ⟨e1, e2, e3⟩ | ⟨e1, e2, e3⟩
        · left
          refine ⟨e1, e2, ?_⟩
          intro k hk1 hk2
          by_cases hk : k = i + 1
          · rw [hk, show i + 1 - 1 = i by omega]; omega
          · exact e3 k (by omega) hk2
        · right
          exact ⟨by omega, e2, e3⟩

/-- On a buffer in order the upward pass swaps nothing. -/
theorem Cocktail_up_list_sorted (c : Nat) : ∀ (i mov : Nat) (A : List Nat),
    i + c < A.length → Low A.length A → Cocktail_up_list c i mov A = (mov, A) := by
  induction c with
  | zero => intro i mov A _ _; rfl
  | succ c ih =>
    intro i mov A hn hs
    unfold Cocktail_up_list Cocktail_step_list
    have h : ¬ A.getD i 0 > A.getD (i + 1) 0 := by
      have := hs i (i + 1) (by omega) (by omega) (by omega)
      omega
    simp only [h, decide_False, Bool.false_eq_true, if_false]
    exact ih (i + 1) mov A (by omega) hs

theorem sorted_of_window (A : List Nat) (lo hi : Nat) (hL : Low lo A) (hH : High hi A)
    (hw : ∀ k, lo < k → k ≤ hi → A.getD (k - 1) 0 ≤ A.getD k 0) : Low A.length A := by
  intro a b _ hab hb
  by_cases h1 : a < lo
  · exact hL a b h1 hab hb
  · by_cases h2 : hi < b
    · exact hH a b h2 hb hab
    · exact chain_le_between A lo hi hw a b (by omega) (by omega) (by omega)

theorem low_of_sorted (A : List Nat) (lo : Nat) (hs : Low A.length A) : Low lo A := by
  intro a b _ hab hb
  exact hs a b (by omega) hab hb

theorem high_of_sorted (A : List Nat) (hi : Nat) (hs : Low A.length A) : High hi A := by
  intro a b _ hb hab
  exact hs a b (by omega) hab hb

theorem pairwise_of_sorted (A : List Nat) (hs : Low A.length A) : A.Pairwise (· ≤ ·) := by
  rw [List.pairwise_iff_getElem]
  intro i j hi hj hij
  have := hs i j hi hij hj
  rwa [List.getD_eq_getElem _ _ hi, List.getD_eq_getElem _ _ hj] at this

/-- One round of the loop of `CocktailShakerSort`: after the downward pass the
positions before the new `lo`, and after the upward pass the positions after
the new `hi`, hold what they hold in the sorted buffer; the window shrinks. -/
theorem Cocktail_round_list_spec (lo hi mov : Nat) (A : List Nat) (hn : hi < A.length)
    (hlt : lo < hi) (hmov : mov ≤ hi) (hL : Low lo A) (hH : High hi A) :
    ((Cocktail_down_list lo (hi - lo) mov A).2.length = A.length ∧
      (Cocktail_down_list lo (hi - lo) mov A).2.Perm A ∧
      Low (Cocktail_down_list lo (hi - lo) mov A).1 (Cocktail_down_list lo (hi - lo) mov A).2 ∧
      High hi (Cocktail_down_list lo (hi - lo) mov A).2) ∧
    ((Cocktail_round_up_list hi (Cocktail_down_list lo (hi - lo) mov A)).2.length = A.length ∧
      (Cocktail_round_up_list hi (Cocktail_down_list lo (hi - lo) mov A)).2.Perm A ∧
      Low (Cocktail_down_list lo (hi - lo) mov A).1
        (Cocktail_round_up_list hi (Cocktail_down_list lo (hi - lo) mov A)).2 ∧
      High (Cocktail_round_up_list hi (Cocktail_down_list lo (hi - lo) mov A)).1
        (Cocktail_round_up_list hi (Cocktail_down_list lo (hi - lo) mov A)).2) ∧
    (Cocktail_round_up_list hi (Cocktail_down_list lo (hi - lo) mov A)).1 ≤ hi ∧
    (Cocktail_round_up_list hi (Cocktail_down_list lo (hi - lo) mov A)).1 -
      (Cocktail_down_list lo (hi - lo) mov A).1 < hi - lo := by
  obtain ⟨i1, i2, i3, i4, i5⟩ := Cocktail_down_list_spec lo hi (hi - lo) mov A (by omega) hn
    (fun b h1 h2 => by omega)
  unfold Cocktail_round_up_list
  generalize Cocktail_down_list lo (hi - lo) mov A = d at i1 i2 i3 i4 i5
  obtain ⟨m1, A1⟩ := d
  simp only at i1 i2 i3 i4 i5 ⊢
  rw [show lo + (hi - lo) = hi by omega] at i3 i4 i5
  rcases i5 with ⟨e1, e2, e3⟩ | ⟨e1, e2, e3⟩
  · -- nothing was swapped: the buffer is in order
    subst e1 e2
    have hs := sorted_of_window A1 lo hi hL hH e3
    rw [Cocktail_up_list_sorted (hi - m1) m1 m1 A1 (by omega) hs]
    exact ⟨⟨rfl, List.Perm.refl _, low_of_sorted A1 m1 hs, hH⟩,
      ⟨rfl, List.Perm.refl _, low_of_sorted A1 m1 hs, high_of_sorted A1 m1 hs⟩, hmov, by omega⟩
  · have hL1 : Low m1 A1 := by
      intro a b ha hab hb
      rw [i1] at hb
      by_cases halo : a < lo
      · rw [i3 a (Or.inl halo)]
        by_cases hbw : b < lo ∨ hi < b
        · rw [i3 b hbw]
          exact hL a b halo hab hb
        · obtain ⟨k1, h1, h2, h3⟩ := i4 b (by omega) (by omega)
          rw [h3]
          exact hL a k1 halo (by omega) (by omega)
      · by_cases hbh : b ≤ hi
        · exact e3 a b (by omega) ha hab hbh
        · obtain ⟨k1, h1, h2, h3⟩ := i4 a (by omega) (by omega)
          rw [h3, i3 b (by omega)]
          exact hH k1 b (by omega) hb (by omega)
    have hH1 : High hi A1 := by
      intro a b hb1 hb2 hab
      rw [i1] at hb2
      rw [i3 b (Or.inr hb1)]
      by_cases haw : a < lo ∨ hi < a
      · rw [i3 a haw]
        exact hH a b hb1 hb2 hab
      · obtain ⟨k1, h1, h2, h3⟩ := i4 a (by omega) (by omega)
        rw [h3]
        exact hH k1 b hb1 hb2 (by omega)
    obtain ⟨j1, j2, j3, j4, j5⟩ := Cocktail_up_list_spec m1 hi (hi - m1) m1 m1 A1
      (Nat.le_refl _) (by omega) (by omega) (fun a h1 h2 => by omega)
    generalize Cocktail_up_list (hi - m1) m1 m1 A1 = u at j1 j2 j3 j4 j5
    obtain ⟨m2, A2⟩ := u
    simp only at j1 j2 j3 j4 j5 ⊢
    refine ⟨⟨i1, i2, hL1, hH1⟩, ⟨j1.trans i1, j2.trans i2, ?_, ?_⟩, ?_, ?_⟩
    · -- Low m1 A2
      intro a b ha hab hb
      rw [j1] at hb
      rw [j3 a (Or.inl ha)]
      by_cases hbw : b < m1 ∨ hi < b
      · rw [j3 b hbw]
        exact hL1 a b ha hab hb
      · obtain ⟨k1, h1, h2, h3⟩ := j4 b (by omega) (by omega)
        rw [h3]
        exact hL1 a k1 ha (by omega) (by omega)
    · -- High m2 A2
      rcases j5 with ⟨f1, f2, f3⟩ | ⟨f1, f2, f3⟩
      · subst f1 f2
        intro a b hb1 hb2 hab
        by_cases hbh : hi < b
        · exact hH1 a b hbh hb2 hab
        · by_cases ham : a < m2
          · exact hL1 a b ham hab hb2
          · exact chain_le_between A2 m2 hi f3 a b (by omega) (by omega) (by omega)
      · intro a b hb1 hb2 hab
        rw [j1] at hb2
        by_cases hbh : hi < b
        · rw [j3 b (Or.inr hbh)]
          by_cases haw : a < m1 ∨ hi < a
          · rw [j3 a haw]
            exact hH1 a b hbh hb2 hab
          · obtain ⟨k1, h1, h2, h3⟩ := j4 a (by omega) (by omega)
            rw [h3]
            exact hH1 k1 b hbh hb2 (by omega)
        · by_cases ham : a < m1
          · obtain ⟨k1, h1, h2, h3⟩ := j4 b (by omega) (by omega)
            rw [h3, j3 a (Or.inl ham)]
            exact hL1 a k1 ham (by omega) (by omega)
          · exact f3 a b hb1 (by omega) (by omega) hab
    · rcases j5 with ⟨f1, _, _⟩ | ⟨_, f2, _⟩ <;> omega
    · rcases j5 with ⟨f1, _, _⟩ | ⟨_, f2, _⟩ <;> omega

/-- The loop of `CocktailShakerSort` on the buffer values: with fuel for the
width of the window it returns, and the buffer is in order. -/
theorem Cocktail_while_list_spec (f : Nat) : ∀ (lo hi mov : Nat) (A : List Nat),
    hi < A.length → mov ≤ hi → Low lo A → High hi A → hi - lo ≤ f →
    ∃ A1, Cocktail_while_list f lo hi mov A = some A1 ∧ A1.Perm A ∧ Low A1.length A1 := by
  induction f with
  | zero =>
    intro lo hi mov A _ _ hL hH hf
    unfold Cocktail_while_list
    rw [if_neg (by omega)]
    refine ⟨A, rfl, List.Perm.refl _, ?_⟩
    exact sorted_of_window A lo hi hL hH (fun k h1 h2 => by omega)
  | succ f ih =>
    intro lo hi mov A hn hmov hL hH hf
    unfold Cocktail_while_list
    by_cases hlt : lo < hi
    · rw [if_pos hlt]
      obtain ⟨_, ⟨r1, r2, r3, r4⟩, r5, r6⟩ := Cocktail_round_list_spec lo hi mov A hn hlt hmov hL hH
      obtain ⟨A1, h1, h2, h3⟩ := ih (Cocktail_down_list lo (hi - lo) mov A).1
        (Cocktail_round_up_list hi (Cocktail_down_list lo (hi - lo) mov A)).1
        (Cocktail_round_up_list hi (Cocktail_down_list lo (hi - lo) mov A)).1
        (Cocktail_round_up_list hi (Cocktail_down_list lo (hi - lo) mov A)).2
        (by omega) (Nat.le_refl _) r3 r4 (by omega)
      exact ⟨A1, h1, h2.trans r2, h3⟩
    · rw [if_neg hlt]
      exact ⟨A, rfl, List.Perm.refl _, sorted_of_window A lo hi hL hH (fun k h1 h2 => by omega)⟩


/-! ## Buffers that are a permutation of `0..N-1` -/

theorem perm_range_facts (A : List Nat) (N : Nat) (hp : A.Perm (List.range N)) :
    A.length = N ∧ (∀ k, k < N → A.getD k 0 < N) ∧
      (∀ i j, i < N → j < N → A.getD i 0 = A.getD j 0 → i = j) ∧
      (∀ v, v < N → ∃ p, p < N ∧ A.getD p 0 = v) := by
  have hlen : A.length = N := by rw [hp.length_eq, List.length_range]
  have hnd : A.Nodup := hp.nodup_iff.mpr (List.nodup_range N)
  refine ⟨hlen, ?_, ?_, ?_⟩
  · intro k hk
    have hk1 : k < A.length := by omega
    have : A.getD k 0 ∈ List.range N := by
      rw [List.getD_eq_getElem _ _ hk1]
      exact hp.subset (List.getElem_mem hk1)
    exact List.mem_range.mp this
  · intro i j hi hj h
    have hi1 : i < A.length := by omega
    have hj1 : j < A.length := by omega
    rw [List.getD_eq_getElem _ _ hi1, List.getD_eq_getElem _ _ hj1] at h
    exact (List.Nodup.getElem_inj_iff hnd).mp h
  · intro v hv
    have : v ∈ A := hp.symm.subset (List.mem_range.mpr hv)
    obtain ⟨p, hp1, hp2⟩ := List.getElem_of_mem this
    exact ⟨p, by omega, by rw [List.getD_eq_getElem _ _ hp1]; exact hp2⟩

theorem low_of_placed (A : List Nat) (N lo hi : Nat) (hp : A.Perm (List.range N))
    (h : Placed lo hi A) : Low lo A := by
  obtain ⟨hlen, _, hinj, _⟩ := perm_range_facts A N hp
  intro a b ha hab hb
  rw [h a (by omega) (Or.inl ha)]
  by_contra hc
  have hlt : A.getD b 0 < a := by omega
  have h1 := h (A.getD b 0) (by omega) (Or.inl (by omega))
  have := hinj _ _ (by omega) (by omega) h1
  omega

theorem high_of_placed (A : List Nat) (N lo hi : Nat) (hp : A.Perm (List.range N))
    (h : Placed lo hi A) : High hi A := by
  obtain ⟨hlen, hval, hinj, _⟩ := perm_range_facts A N hp
  intro a b hb1 hb2 hab
  rw [h b hb2 (Or.inr hb1)]
  by_contra hc
  have hgt : b < A.getD a 0 := by omega
  have hv := hval a (by omega)
  have h1 := h (A.getD a 0) (by omega) (Or.inr (by omega))
  have := hinj _ _ (by omega) (by omega) h1
  omega

theorem placed_low (A : List Nat) (N lo : Nat) (hp : A.Perm (List.range N)) (h : Low lo A) :
    ∀ k, k < lo → k < A.length → A.getD k 0 = k := by
  obtain ⟨hlen, _, hinj, hsur⟩ := perm_range_facts A N hp
  intro k
  induction k using Nat.strong_induction_on with
  | _ k ih =>
    intro hk hkn
    obtain ⟨p, hp1, hp2⟩ := hsur k (by omega)
    have hpk : k ≤ p := by
      by_contra hc
      have := ih p (by omega) (by omega) (by omega)
      omega
    have hge : k ≤ A.getD k 0 := by
      by_contra hc
      have h1 := ih (A.getD k 0) (by omega) (by omega) (by omega)
      have := hinj _ _ (by omega) (by omega) h1
      omega
    by_cases hpe : p = k
    · subst hpe; exact hp2
    · have := h k p hk (by omega) (by omega)
      omega

theorem placed_high (A : List Nat) (N hi : Nat) (hp : A.Perm (List.range N)) (h : High hi A) :
    ∀ k, hi < k → k < A.length → A.getD k 0 = k := by
  obtain ⟨hlen, hval, hinj, hsur⟩ := perm_range_facts A N hp
  have key : ∀ d k, k + d + 1 = N → hi < k → A.getD k 0 = k := by
    intro d
    induction d using Nat.strong_induction_on with
    | _ d ih =>
      intro k hkd hk
      obtain ⟨p, hp1, hp2⟩ := hsur k (by omega)
      have hpk : p ≤ k := by
        by_contra hc
        have := ih (N - p - 1) (by omega) p (by omega) (by omega)
        omega
      have hle : A.getD k 0 ≤ k := by
        by_contra hc
        have hv := hval k (by omega)
        have h1 := ih (N - A.getD k 0 - 1) (by omega) (A.getD k 0) (by omega) (by omega)
        have := hinj _ _ (by omega) (by omega) h1
        omega
      by_cases hpe : p = k
      · subst hpe; exact hp2
      · have := h p k hk (by omega) (by omega)
        omega
  intro k hk hkn
  exact key (N - k - 1) k (by omega) hk

theorem placed_of_low_high (A : List Nat) (N lo hi : Nat) (hp : A.Perm (List.range N))
    (hL : Low lo A) (hH : High hi A) : Placed lo hi A := by
  intro k hk h
  rcases h with h | h
  · exact placed_low A N lo hp hL k h hk
  · exact placed_high A N hi hp hH k h hk

/-! ## Cocktail shaker sort: the claim -/

/-- `CocktailShakerSort` returns on every non-empty buffer and leaves it in
order. -/
theorem CocktailShakerSort_returns (w : World) (h0 : 0 < w.array.length)
    (hM : w.array.length < SIZE_MOD) :
    ∃ w1, CocktailShakerSort w.array.length w = some w1 ∧ w1.array.Perm w.array ∧
      w1.array.Pairwise (· ≤ ·) := by
  have hhi : (w.array.length + SIZE_MOD - 1) % SIZE_MOD = w.array.length - 1 := by
    unfold SIZE_MOD at hM ⊢
    omega
  obtain ⟨A1, h1, h2, h3⟩ := Cocktail_while_list_spec w.array.length 0 (w.array.length - 1) 0
    w.array (by omega) (by omega) (fun a b ha _ _ => by omega)
    (fun a b hb1 hb2 _ => by omega) (by omega)
  have hd := Cocktail_while_data w.array.length 0 (w.array.length - 1) 0 w
  rw [h1] at hd
  unfold CocktailShakerSort
  rw [hhi]
  cases h : Cocktail_while w.array.length 0 (w.array.length - 1) 0 w with
  | none => simp [h] at hd
  | some w1 =>
    rw [h] at hd
    simp only [Option.map_some', Option.some.injEq] at hd
    exact ⟨w1, rfl, hd ▸ h2, pairwise_of_sorted _ (hd ▸ h3)⟩

/-- C19: on a buffer that is a permutation of `0..N-1` (`0 < N < 2^64`),
`CocktailShakerSort` returns and leaves `[0, 1, ..., N-1]`.  Shrinking the
window never excludes an element that is out of place: whenever every position
outside the window `lo..hi` holds its final value, then after the downward pass
every position before the new `lo = mov`, and after the upward pass every
position after the new `hi = mov`, holds its final value as well. -/
theorem CocktailShakerSort_sorts (w : World) (N : Nat) (hN : 0 < N) (hM : N < SIZE_MOD)
    (hp : w.array.Perm (List.range N)) :
    (∃ w1, CocktailShakerSort N w = some w1 ∧ w1.array = List.range N) ∧
    Placed 0 (N - 1) w.array ∧
    ∀ (v : World) (lo hi mov : Nat), v.array.Perm (List.range N) → lo < hi → hi < N →
      mov ≤ hi → Placed lo hi v.array →
      Placed (Cocktail_down lo (hi - lo) mov v).1 hi (Cocktail_down lo (hi - lo) mov v).2.array ∧
      Placed (Cocktail_down lo (hi - lo) mov v).1
        (Cocktail_round_up hi (Cocktail_down lo (hi - lo) mov v)).1
        (Cocktail_round_up hi (Cocktail_down lo (hi - lo) mov v)).2.array ∧
      (Cocktail_round_up hi (Cocktail_down lo (hi - lo) mov v)).1 -
        (Cocktail_down lo (hi - lo) mov v).1 < hi - lo := by
  have hlen : w.array.length = N := by rw [hp.length_eq, List.length_range]
  refine ⟨?_, ?_, ?_⟩
  · obtain ⟨w1, h1, p1, s1⟩ := CocktailShakerSort_returns w (by omega) (by omega)
    rw [hlen] at h1
    exact ⟨w1, h1, pairwise_perm_range _ N s1 (p1.trans hp)⟩
  · intro k hk h
    omega
  · intro v lo hi mov hv hlt hhi hmov hpl
    have hvlen : v.array.length = N := by rw [hv.length_eq, List.length_range]
    obtain ⟨⟨d1, d2, d3, d4⟩, ⟨u1, u2, u3, u4⟩, _, hm⟩ := Cocktail_round_list_spec lo hi mov
      v.array (by omega) hlt hmov (low_of_placed _ N lo hi hv hpl) (high_of_placed _ N lo hi hv hpl)
    obtain ⟨e1, e2, e3⟩ := Cocktail_round_data lo hi mov v
    obtain ⟨_, e4⟩ := Cocktail_down_data lo (hi - lo) mov v
    rw [e1, e2, e3, e4]
    exact ⟨placed_of_low_high _ N _ _ (d2.trans hv) d3 d4,
      placed_of_low_high _ N _ _ (u2.trans hv) u3 u4, hm⟩

/-- Witness of C19 on the 8-element example buffer. -/
theorem CocktailShakerSort_sorts_witness :
    (0 < 8 ∧ 8 < SIZE_MOD ∧ exDirectIdle.array.Perm (List.range 8)) ∧
      ∃ w1, CocktailShakerSort 8 exDirectIdle = some w1 ∧ w1.array = List.range 8 :=
  ⟨⟨by decide, by decide, by decide⟩,
    (CocktailShakerSort_sorts exDirectIdle 8 (by decide) (by decide) (by decide)).1⟩


/-! ## Heap sort: the buffer values -/

theorem HeapSort_pick_data (n child : Nat) (w : World) :
    (HeapSort_pick n child w).map (fun r => r.1) = HeapSort_pick_list n child w.array ∧
      ∀ r, HeapSort_pick n child w = some r →
        r.2.array = w.array ∧ r.2.g_terminate = w.g_terminate := by
  unfold HeapSort_pick HeapSort_pick_list World.array_size
  have hd := Item_gt_data (child + 1 : Nat) (peek (child + 1) w) child (peek child w) w
  by_cases h1 : child + 1 < n
  · rw [if_pos h1, if_pos h1]
    by_cases h2 : child + 1 < w.array.length
    · rw [if_pos h2, if_pos h2]
      refine ⟨?_, ?_⟩
      · simp [Item.gt, peek]
      · intro r hr
        cases hr
        exact hd
    · rw [if_neg h2, if_neg h2]
      exact ⟨rfl, fun r hr => by cases hr⟩
  · rw [if_neg h1, if_neg h1]
    refine ⟨rfl, ?_⟩
    intro r hr
    cases hr
    exact ⟨rfl, rfl⟩

theorem HeapSort_sift_data (n : Nat) (f : Nat) : ∀ (parent child : Nat) (w : World),
    (HeapSort_sift n f parent child w).map World.array =
        HeapSort_sift_list n f parent child w.array ∧
      ∀ w1, HeapSort_sift n f parent child w = some w1 → w1.g_terminate = w.g_terminate := by
  induction f with
  | zero =>
    intro parent child w
    unfold HeapSort_sift HeapSort_sift_list
    split
    · exact ⟨rfl, fun w1 h => by cases h⟩
    · exact ⟨rfl, fun w1 h => by cases h; rfl⟩
  | succ f ih =>
    intro parent child w
    unfold HeapSort_sift HeapSort_sift_list
    by_cases hc : child < n
    · rw [if_pos hc, if_pos hc]
      obtain ⟨p1, p2⟩ := HeapSort_pick_data n child w
      rw [← p1]
      cases hp : HeapSort_pick n child w with
      | none => exact ⟨rfl, fun w1 h => by cases h⟩
      | some r =>
        obtain ⟨a1, a2⟩ := p2 r hp
        simp only [Option.some_bind, Option.map_some']
        unfold World.array_size
        rw [a1]
        by_cases hb : r.1 < w.array.length ∧ parent < w.array.length
        · rw [if_pos hb, if_pos hb]
          have hd := Item_gt_data r.1 (peek r.1 r.2) parent (peek parent r.2) r.2
          by_cases hg : w.array.getD r.1 0 > w.array.getD parent 0
          · have hg2 : (Item.gt r.1 (peek r.1 r.2) parent (peek parent r.2) r.2).1 = true := by
              simp only [Item.gt, peek, a1]
              simpa using hg
            rw [if_pos hg, if_pos hg2]
            have hs := swap_fields parent r.1
              (Item.gt r.1 (peek r.1 r.2) parent (peek parent r.2) r.2).2
            obtain ⟨i1, i2⟩ := ih r.1 (r.1 * 2 + 1)
              (swap parent r.1 (Item.gt r.1 (peek r.1 r.2) parent (peek parent r.2) r.2).2)
            rw [hs.2, hd.1, a1] at i1
            refine ⟨i1, fun w1 h => ?_⟩
            rw [i2 w1 h, hs.1, hd.2, a2]
          · have hg2 : ¬ (Item.gt r.1 (peek r.1 r.2) parent (peek parent r.2) r.2).1 = true := by
              simp only [Item.gt, peek, a1]
              simpa using hg
            rw [if_neg hg, if_neg hg2]
            refine ⟨by simp only [Option.map_some', hd.1, a1], fun w1 h => ?_⟩
            cases h
            rw [hd.2, a2]
        · rw [if_neg hb, if_neg hb]
          exact ⟨rfl, fun w1 h => by cases h⟩
    · rw [if_neg hc, if_neg hc]
      exact ⟨rfl, fun w1 h => by cases h; rfl⟩

/-- `HeapSort` changes the buffer values as the loop on lists says, whatever
the sink. -/
theorem HeapSort_loop_data (f : Nat) : ∀ (i n : Nat) (w : World), w.g_terminate = false →
    (HeapSort_loop f i n w).map World.array = HeapSort_loop_list f i n w.array := by
  induction f with
  | zero =>
    intro i n w hg
    unfold HeapSort_loop HeapSort_loop_list
    rw [if_neg (by simp [hg])]
    rfl
  | succ f ih =>
    intro i n w hg
    unfold HeapSort_loop HeapSort_loop_list
    rw [if_neg (by simp [hg])]
    by_cases hi : i > 0
    · rw [if_pos hi, if_pos hi]
      obtain ⟨s1, s2⟩ := HeapSort_sift_data n n (i - 1) ((i - 1) * 2 + 1) w
      rw [← s1]
      cases hs : HeapSort_sift n n (i - 1) ((i - 1) * 2 + 1) w with
      | none => rfl
      | some w1 =>
        simp only [Option.some_bind, Option.map_some']
        exact ih (i - 1) n w1 ((s2 w1 hs).trans hg)
    · rw [if_neg hi, if_neg hi]
      by_cases hn : (n + SIZE_MOD - 1) % SIZE_MOD = 0
      · rw [if_pos hn, if_pos hn]
        rfl
      · rw [if_neg hn, if_neg hn]
        unfold World.array_size
        by_cases hb : (n + SIZE_MOD - 1) % SIZE_MOD < w.array.length
        · rw [if_pos hb, if_pos hb]
          have hsw := swap_fields 0 ((n + SIZE_MOD - 1) % SIZE_MOD) w
          obtain ⟨s1, s2⟩ := HeapSort_sift_data ((n + SIZE_MOD - 1) % SIZE_MOD)
            ((n + SIZE_MOD - 1) % SIZE_MOD) 0 (0 * 2 + 1)
            (swap 0 ((n + SIZE_MOD - 1) % SIZE_MOD) w)
          rw [hsw.2] at s1
          rw [← s1]
          cases hs : HeapSort_sift ((n + SIZE_MOD - 1) % SIZE_MOD)
              ((n + SIZE_MOD - 1) % SIZE_MOD) 0 (0 * 2 + 1)
              (swap 0 ((n + SIZE_MOD - 1) % SIZE_MOD) w) with
          | none => rfl
          | some w1 =>
            simp only [Option.some_bind, Option.map_some']
            exact ih 0 _ w1 ((s2 w1 hs).trans (hsw.1.trans hg))
        · rw [if_neg hb, if_neg hb]
          rfl


/-! ## Heap sort: correctness on the buffer values -/

theorem split_at (A : List Nat) (k : Nat) (h : k < A.length) :
    ∃ L x R, A = L ++ x :: R ∧ L.length = k := by
  refine ⟨A.take k, A.getD k 0, A.drop (k + 1), ?_, ?_⟩
  · rw [List.getD_eq_getElem _ _ h, ← List.drop_eq_getElem_cons h, List.take_append_drop]
  · rw [List.length_take]
    omega

theorem swap_list_split (L M R : List Nat) (x y : Nat) :
    swap_list (L ++ x :: (M ++ y :: R)) L.length (L.length + 1 + M.length) =
      L ++ y :: (M ++ x :: R) := by
  have hj : (L ++ y :: M).length = L.length + 1 + M.length := by simp; omega
  have hj2 : (L ++ black :: M).length = L.length + 1 + M.length := by simp; omega
  unfold swap_list
  rw [set_at L x _ _ black rfl, getD_at L x _ _ rfl]
  have e1 : L ++ black :: (M ++ y :: R) = (L ++ black :: M) ++ y :: R := by simp
  rw [e1, getD_at _ y R _ hj2, ← e1, set_at L black _ _ y rfl]
  have e2 : L ++ y :: (M ++ y :: R) = (L ++ y :: M) ++ y :: R := by simp
  rw [e2, set_at _ y R _ black hj, set_at _ black R _ x hj]
  simp

theorem swap_list_perm (A : List Nat) (i j : Nat) (hij : i < j) (hj : j < A.length) :
    (swap_list A i j).Perm A := by
  obtain ⟨L, x, T, hA, hL⟩ := split_at A i (by omega)
  have hT : j - i - 1 < T.length := by
    have := congrArg List.length hA
    simp at this
    omega
  obtain ⟨M, y, R, hT2, hM⟩ := split_at T (j - i - 1) hT
  subst hL hT2
  have hjj : j = L.length + 1 + M.length := by omega
  rw [hA, hjj, swap_list_split]
  refine List.Perm.append_left L ?_
  have h1 : (y :: (M ++ x :: R)).Perm (y :: x :: (M ++ R)) :=
    List.Perm.cons y List.perm_middle
  have h2 : (x :: (M ++ y :: R)).Perm (x :: y :: (M ++ R)) :=
    List.Perm.cons x List.perm_middle
  exact h1.trans ((List.Perm.swap x y _).trans h2.symm)

theorem HeapSort_pick_list_spec (n c : Nat) (A : List Nat) (hc : c < n) (hn : n ≤ A.length) :
    ∃ m, HeapSort_pick_list n c A = some m ∧ (m = c ∨ m = c + 1) ∧ m < n ∧
      A.getD c 0 ≤ A.getD m 0 ∧ (c + 1 < n → A.getD (c + 1) 0 ≤ A.getD m 0) := by
  unfold HeapSort_pick_list
  by_cases h1 : c + 1 < n
  · rw [if_pos h1, if_pos (by omega)]
    by_cases h2 : A.getD (c + 1) 0 > A.getD c 0
    · rw [if_pos h2]
      exact ⟨c + 1, rfl, Or.inr rfl, h1, by omega, fun _ => Nat.le_refl _⟩
    · rw [if_neg h2]
      exact ⟨c, rfl, Or.inl rfl, hc, Nat.le_refl _, fun _ => by omega⟩
  · rw [if_neg h1]
    exact ⟨c, rfl, Or.inl rfl, hc, Nat.le_refl _, fun h => absurd h h1⟩

/-- The sift loop restores the heap condition at `parent` when it holds at
every other node from `lo` on; it only permutes the first `n` elements. -/
theorem HeapSort_sift_list_spec (n lo : Nat) (f : Nat) : ∀ (p c : Nat) (A : List Nat),
    c = p * 2 + 1 → n ≤ A.length → p < n → lo ≤ p → n ≤ c + f →
    (∀ j, lo ≤ j → j ≠ p → HeapAt A n j) →
    (∀ q, lo ≤ q → (p = 2 * q + 1 ∨ p = 2 * q + 2) →
      ∀ c1, (c1 = 2 * p + 1 ∨ c1 = 2 * p + 2) → c1 < n → A.getD c1 0 ≤ A.getD q 0) →
    ∃ A1, HeapSort_sift_list n f p c A = some A1 ∧ A1.length = A.length ∧ A1.Perm A ∧
      (∀ j, lo ≤ j → HeapAt A1 n j) ∧ (∀ k, n ≤ k → A1.getD k 0 = A.getD k 0) ∧
      (∀ k, k < n → ∃ k1, k1 < n ∧ A1.getD k 0 = A.getD k1 0) := by
  induction f with
  | zero =>
    intro p c A hc hn hp hlo hf h1 _
    unfold HeapSort_sift_list
    rw [if_neg (by omega)]
    refine ⟨A, rfl, rfl, List.Perm.refl _, ?_, fun _ _ => rfl, fun k hk => ⟨k, hk, rfl⟩⟩
    intro j hj
    by_cases hjp : j = p
    · subst hjp
      exact ⟨fun h => by omega, fun h => by omega⟩
    · exact h1 j hj hjp
  | succ f ih =>
    intro p c A hc hn hp hlo hf h1 h2
    unfold HeapSort_sift_list
    by_cases hcn : c < n
    · rw [if_pos hcn]
      obtain ⟨m, hm, hmc, hmn, hm1, hm2⟩ := HeapSort_pick_list_spec n c A hcn hn
      rw [hm, Option.some_bind, if_pos ⟨by omega, by omega⟩]
      by_cases hgt : A.getD m 0 > A.getD p 0
      · rw [if_pos hgt]
        obtain ⟨g1, g2, g3⟩ := swap_list_getD A p m (by omega) (by omega) (by omega)
        have hlen := swap_list_length A p m
        have hperm : (swap_list A p m).Perm A := swap_list_perm A p m (by omega) (by omega)
        generalize swap_list A p m = A1 at g1 g2 g3 hlen hperm
        have s1 : ∀ j, lo ≤ j → j ≠ m → HeapAt A1 n j := by
          intro j hj hjm
          by_cases hjp : j = p
          · subst hjp
            rw [HeapAt, g1]
            constructor
            · intro hx
              by_cases hxm : 2 * j + 1 = m
              · rw [hxm, g2]; omega
              · rw [g3 _ (by omega) hxm]
                rcases hmc with e | e
                · omega
                · have := hm1
                  rw [hc, show j * 2 + 1 = 2 * j + 1 by omega] at this
                  exact this
            · intro hx
              by_cases hxm : 2 * j + 2 = m
              · rw [hxm, g2]; omega
              · rw [g3 _ (by omega) hxm]
                have := hm2 (by omega)
                rw [hc, show j * 2 + 1 + 1 = 2 * j + 2 by omega] at this
                exact this
          · have hj0 := h1 j hj hjp
            rw [HeapAt, g3 j hjp hjm]
            constructor
            · intro hx
              by_cases hxp : 2 * j + 1 = p
              · rw [hxp, g1]
                exact h2 j hj (Or.inl hxp.symm) m (by omega) hmn
              · rw [g3 _ hxp (by omega)]
                exact hj0.1 hx
            · intro hx
              by_cases hxp : 2 * j + 2 = p
              · rw [hxp, g1]
                exact h2 j hj (Or.inr hxp.symm) m (by omega) hmn
              · rw [g3 _ hxp (by omega)]
                exact hj0.2 hx
        have s2 : ∀ q, lo ≤ q → (m = 2 * q + 1 ∨ m = 2 * q + 2) →
            ∀ c1, (c1 = 2 * m + 1 ∨ c1 = 2 * m + 2) → c1 < n →
              A1.getD c1 0 ≤ A1.getD q 0 := by
          intro q hq hqm c1 hc1 hc1n
          have hqp : q = p := by omega
          rw [hqp, g1, g3 c1 (by omega) (by omega)]
          have := h1 m (by omega) (by omega)
          rcases hc1 with e | e
          · rw [e]; exact this.1 (by omega)
          · rw [e]; exact this.2 (by omega)
        obtain ⟨A2, e1, e2, e3, e4, e5, e6⟩ := ih m (m * 2 + 1) A1 rfl (by omega) hmn (by omega)
          (by omega) s1 s2
        refine ⟨A2, e1, e2.trans hlen, e3.trans hperm, e4, ?_, ?_⟩
        · intro k hk
          rw [e5 k hk, g3 k (by omega) (by omega)]
        · intro k hk
          obtain ⟨k1, hk1, hk2⟩ := e6 k hk
          by_cases hkp : k1 = p
          · exact ⟨m, hmn, by rw [hk2, hkp, g1]⟩
          · by_cases hkm : k1 = m
            · exact ⟨p, hp, by rw [hk2, hkm, g2]⟩
            · exact ⟨k1, hk1, by rw [hk2, g3 k1 hkp hkm]⟩
      · rw [if_neg hgt]
        refine ⟨A, rfl, rfl, List.Perm.refl _, ?_, fun _ _ => rfl, fun k hk => ⟨k, hk, rfl⟩⟩
        intro j hj
        by_cases hjp : j = p
        · subst hjp
          constructor
          · intro _
            have := hm1
            rw [hc, show j * 2 + 1 = 2 * j + 1 by omega] at this
            omega
          · intro hx
            have := hm2 (by omega)
            rw [hc, show j * 2 + 1 + 1 = 2 * j + 2 by omega] at this
            omega
        · exact h1 j hj hjp
    · rw [if_neg hcn]
      refine ⟨A, rfl, rfl, List.Perm.refl _, ?_, fun _ _ => rfl, fun k hk => ⟨k, hk, rfl⟩⟩
      intro j hj
      by_cases hjp : j = p
      · subst hjp
        exact ⟨fun h => by omega, fun h => by omega⟩
      · exact h1 j hj hjp

/-- The root of a heap holds its largest element. -/
theorem heap_root_max (A : List Nat) (n : Nat) (h : ∀ j, HeapAt A n j) :
    ∀ k, k < n → A.getD k 0 ≤ A.getD 0 0 := by
  intro k
  induction k using Nat.strong_induction_on with
  | _ k ih =>
    intro hk
    by_cases h0 : k = 0
    · rw [h0]
    · have hq := ih ((k - 1) / 2) (by omega) (by omega)
      have hh := h ((k - 1) / 2)
      by_cases hodd : k = 2 * ((k - 1) / 2) + 1
      · have := hh.1 (by omega)
        rw [← hodd] at this
        omega
      · have hev : k = 2 * ((k - 1) / 2) + 2 := by omega
        have := hh.2 (by omega)
        rw [← hev] at this
        omega

/-- The loop of `HeapSort` on the buffer values: from a state where the nodes
from `i` on satisfy the heap condition and the elements after the heap are in
their final order, the loop returns with fuel `i + n` and the buffer is in
order. -/
theorem HeapSort_loop_list_spec (f : Nat) : ∀ (i n : Nat) (A : List Nat),
    1 ≤ n → n ≤ A.length → A.length < SIZE_MOD → i ≤ n →
    (∀ j, i ≤ j → HeapAt A n j) → High (n - 1) A → i + n ≤ f →
    ∃ A1, HeapSort_loop_list f i n A = some A1 ∧ A1.Perm A ∧ Low A1.length A1 := by
  induction f with
  | zero => intro i n A h1 _ _ _ _ _ hf; omega
  | succ f ih =>
    intro i n A h1 hn hM hin hheap hhigh hf
    unfold HeapSort_loop_list
    by_cases hi : i > 0
    · rw [if_pos hi]
      obtain ⟨A1, e1, e2, e3, e4, e5, e6⟩ := HeapSort_sift_list_spec n (i - 1) n (i - 1)
        ((i - 1) * 2 + 1) A rfl hn (by omega) (Nat.le_refl _) (by omega)
        (fun j hj hjn => hheap j (by omega)) (fun q hq hqp => by omega)
      rw [e1, Option.some_bind]
      have hhigh1 : High (n - 1) A1 := by
        intro a b hb1 hb2 hab
        rw [e2] at hb2
        rw [e5 b (by omega)]
        by_cases han : a < n
        · obtain ⟨k1, hk1, hk2⟩ := e6 a han
          rw [hk2]
          exact hhigh k1 b hb1 hb2 (by omega)
        · rw [e5 a (by omega)]
          exact hhigh a b hb1 hb2 hab
      obtain ⟨A2, g1, g2, g3⟩ := ih (i - 1) n A1 h1 (by omega) (by omega) (by omega) e4 hhigh1
        (by omega)
      exact ⟨A2, g1, g2.trans e3, g3⟩
    · rw [if_neg hi]
      have hi0 : i = 0 := by omega
      subst hi0
      have hn1 : (n + SIZE_MOD - 1) % SIZE_MOD = n - 1 := by
        unfold SIZE_MOD at hM ⊢
        omega
      rw [hn1]
      by_cases hz : n - 1 = 0
      · rw [if_pos hz]
        refine ⟨A, rfl, List.Perm.refl _, ?_⟩
        intro a b _ hab hb
        exact hhigh a b (by omega) hb hab
      · rw [if_neg hz, if_pos (by omega)]
        have hroot := heap_root_max A n (fun j => hheap j (Nat.zero_le _))
        obtain ⟨s1, s2, s3⟩ := swap_list_getD A 0 (n - 1) (by omega) (by omega) (by omega)
        have hlen := swap_list_length A 0 (n - 1)
        have hperm := swap_list_perm A 0 (n - 1) (by omega) (by omega)
        generalize swap_list A 0 (n - 1) = A1 at s1 s2 s3 hlen hperm
        have hS1 : ∀ j, 0 ≤ j → j ≠ 0 → HeapAt A1 (n - 1) j := by
          intro j _ hj
          have hj0 := hheap j (Nat.zero_le _)
          constructor
          · intro hx
            rw [s3 _ (by omega) (by omega), s3 j hj (by omega)]
            exact hj0.1 (by omega)
          · intro hx
            rw [s3 _ (by omega) (by omega), s3 j hj (by omega)]
            exact hj0.2 (by omega)
        obtain ⟨A2, e1, e2, e3, e4, e5, e6⟩ := HeapSort_sift_list_spec (n - 1) 0 (n - 1) 0
          (0 * 2 + 1) A1 rfl (by omega) (by omega) (Nat.le_refl _) (by omega) hS1
          (fun q hq hqp => by omega)
        rw [e1, Option.some_bind]
        have hhigh2 : High (n - 1 - 1) A2 := by
          intro a b hb1 hb2 hab
          rw [e2, hlen] at hb2
          rw [e5 b (by omega)]
          have hva : ∃ k1, A2.getD a 0 = A.getD k1 0 ∧ (b = n - 1 → k1 < n) ∧
              (b ≠ n - 1 → k1 < b) := by
            by_cases han : a < n - 1
            · obtain ⟨k1, hk1, hk2⟩ := e6 a han
              by_cases hk0 : k1 = 0
              · exact ⟨n - 1, by rw [hk2, hk0, s1], fun _ => by omega, fun _ => by omega⟩
              · exact ⟨k1, by rw [hk2, s3 k1 hk0 (by omega)], fun _ => by omega,
                  fun _ => by omega⟩
            · rw [e5 a (by omega)]
              by_cases han1 : a = n - 1
              · exact ⟨0, by rw [han1, s2], fun _ => by omega, fun _ => by omega⟩
              · exact ⟨a, by rw [s3 a (by omega) han1], fun _ => by omega, fun _ => hab⟩
          obtain ⟨k1, hk2, hk3, hk4⟩ := hva
          rw [hk2]
          by_cases hbn : b = n - 1
          · rw [hbn, s2]
            exact hroot k1 (hk3 hbn)
          · rw [s3 b (by omega) hbn]
            exact hhigh k1 b (by omega) hb2 (hk4 hbn)
        obtain ⟨A3, g1, g2, g3⟩ := ih 0 (n - 1) A2 (by omega) (by omega) (by omega) (by omega)
          (fun j _ => e4 j (Nat.zero_le _)) hhigh2 (by omega)
        exact ⟨A3, g1, (g2.trans e3).trans hperm, g3⟩

/-- `HeapSort` returns on every non-empty buffer, never uses an index outside
the buffer, and leaves the buffer in order. -/
theorem HeapSort_returns (w : World) (hg : w.g_terminate = false) (h0 : 0 < w.array.length)
    (hM : w.array.length < SIZE_MOD) :
    ∃ w1, HeapSort w.array.length w = some w1 ∧ w1.array.Perm w.array ∧
      w1.array.Pairwise (· ≤ ·) := by
  obtain ⟨A1, h1, h2, h3⟩ := HeapSort_loop_list_spec (w.array.length / 2 + w.array.length)
    (w.array.length / 2) w.array.length w.array h0 (Nat.le_refl _) hM (by omega)
    (fun j hj => ⟨fun h => by omega, fun h => by omega⟩) (fun a b hb1 hb2 _ => by omega)
    (Nat.le_refl _)
  have hd := HeapSort_loop_data (w.array.length / 2 + w.array.length) (w.array.length / 2)
    w.array.length w hg
  rw [h1] at hd
  unfold HeapSort
  cases h : HeapSort_loop (w.array.length / 2 + w.array.length) (w.array.length / 2)
      w.array.length w with
  | none => simp [h] at hd
  | some w1 =>
    rw [h] at hd
    simp only [Option.map_some', Option.some.injEq] at hd
    exact ⟨w1, rfl, hd ▸ h2, pairwise_of_sorted _ (hd ▸ h3)⟩

/-- C16: on a buffer that is a permutation of `0..N-1` (`0 < N < 2^64`), with
the cancellation flag clear, `HeapSort` returns and leaves `[0, 1, ..., N-1]`.
In the embedding every index used by the sift loop and by the front/back swap
is checked against the size of the buffer, and the run ends in `none` if a
check fails; so the result `some` says that every index used was inside
`0..N-1` (run on 9 elements of the 8-element example buffer, it ends in
`none`). -/
theorem HeapSort_sorts (w : World) (N : Nat) (hN : 0 < N) (hM : N < SIZE_MOD)
    (hg : w.g_terminate = false) (hp : w.array.Perm (List.range N)) :
    (∃ w1, HeapSort N w = some w1 ∧ w1.array = List.range N) ∧
      (HeapSort 9 exDirectIdle).isSome = false := by
  have hlen : w.array.length = N := by rw [hp.length_eq, List.length_range]
  obtain ⟨w1, h1, p1, s1⟩ := HeapSort_returns w hg (by omega) (by omega)
  rw [hlen] at h1
  exact ⟨⟨w1, h1, pairwise_perm_range _ N s1 (p1.trans hp)⟩, by decide⟩

/-- Witness of C16 on the 8-element example buffer. -/
theorem HeapSort_sorts_witness :
    (0 < 8 ∧ 8 < SIZE_MOD ∧ exDirectIdle.g_terminate = false ∧
      exDirectIdle.array.Perm (List.range 8)) ∧
      ∃ w1, HeapSort 8 exDirectIdle = some w1 ∧ w1.array = List.range 8 :=
  ⟨⟨by decide, by decide, by decide, by decide⟩,
    (HeapSort_sorts exDirectIdle 8 (by decide) (by decide) (by decide) (by decide)).1⟩


/-! ## Quick sort: the buffer values -/

theorem Steady.rules {w v : World} (h : Steady w v) : SameRules w v :=
  ⟨h.g_terminate, h.g_quicksort_pivot, h.rand_stream⟩

theorem SameRules.rtrans {a b c : World} (h1 : SameRules a b) (h2 : SameRules b c) :
    SameRules a c :=
  ⟨h2.g_terminate.trans h1.g_terminate, h2.g_quicksort_pivot.trans h1.g_quicksort_pivot,
    h2.rand_stream.trans h1.rand_stream⟩

theorem rules_refl (w : World) : SameRules w w := ⟨rfl, rfl, rfl⟩

theorem swap_rules (i j : Nat) (w : World) :
    SameRules w (swap i j w) ∧ (swap i j w).rand_calls = w.rand_calls := by
  unfold swap move_from_tmp move_assign move_to_tmp
  constructor
  · constructor
    · simp only [(steady_Item_OnAccess _ _ _ _).g_terminate, poke_g_terminate]
    · simp only [(steady_Item_OnAccess _ _ _ _).g_quicksort_pivot, poke]
    · simp only [(steady_Item_OnAccess _ _ _ _).rand_stream, poke]
  · simp only [(steady_Item_OnAccess _ _ _ _).rand_calls, poke]

theorem steady_Item_lt (a : Int) (va : Nat) (b : Int) (vb : Nat) (w : World) :
    Steady w (Item.lt a va b vb w).2 := steady_Item_OnComparison a va b vb w

theorem steady_Item_gt (a : Int) (va : Nat) (b : Int) (vb : Nat) (w : World) :
    Steady w (Item.gt a va b vb w).2 := steady_Item_OnComparison a va b vb w

theorem steady_Item_eq (a : Int) (va : Nat) (b : Int) (vb : Nat) (w : World) :
    Steady w (Item.eq a va b vb w).2 := steady_Item_OnComparison a va b vb w

theorem median3_pick_data (lo mid hi : Nat) (w : World) :
    (median3_pick lo mid hi w).1 = median3_pick_list lo mid hi w.array ∧
      Steady w (median3_pick lo mid hi w).2 := by
  unfold median3_pick median3_pick_list
  simp only [Item.lt, Item.gt, peek, decide_eq_true_eq]
  have s1 := steady_Item_OnComparison lo (w.array.getD lo 0) mid (w.array.getD mid 0) w
  split
  · split
    · exact ⟨rfl, s1.strans (steady_Item_OnComparison _ _ _ _ _)⟩
    · exact ⟨rfl, (s1.strans (steady_Item_OnComparison _ _ _ _ _)).strans
        (steady_Item_OnComparison _ _ _ _ _)⟩
  · split
    · exact ⟨rfl, s1.strans (steady_Item_OnComparison _ _ _ _ _)⟩
    · exact ⟨rfl, (s1.strans (steady_Item_OnComparison _ _ _ _ _)).strans
        (steady_Item_OnComparison _ _ _ _ _)⟩

theorem median3_data (lo hi : Nat) (w : World) :
    (median3 lo hi w).map (fun s => s.1) = median3_list lo hi w.array ∧
      ∀ s, median3 lo hi w = some s → Steady w s.2 := by
  unfold median3 median3_list
  simp only [Item.eq, peek, decide_eq_true_eq]
  have s1 := steady_Item_OnComparison lo (w.array.getD lo 0) ((lo + hi) / 2 : Nat)
    (w.array.getD ((lo + hi) / 2) 0) w
  split
  · split
    · exact ⟨rfl, fun s h => by cases h; exact s1⟩
    · have s2 := s1.strans (steady_Item_OnComparison lo (w.array.getD lo 0) (hi - 1 : Nat)
        (w.array.getD (hi - 1) 0) _)
      split
      · exact ⟨rfl, fun s h => by cases h; exact s2⟩
      · have s3 := s2.strans (steady_Item_OnComparison ((lo + hi) / 2 : Nat)
          (w.array.getD ((lo + hi) / 2) 0) (hi - 1 : Nat) (w.array.getD (hi - 1) 0) _)
        split
        · exact ⟨rfl, fun s h => by cases h; exact s3⟩
        · obtain ⟨p1, p2⟩ := median3_pick_data lo ((lo + hi) / 2) hi
            (Item.OnComparison ((lo + hi) / 2 : Nat) (w.array.getD ((lo + hi) / 2) 0)
              (hi - 1 : Nat) (w.array.getD (hi - 1) 0)
              (Item.OnComparison lo (w.array.getD lo 0) (hi - 1 : Nat) (w.array.getD (hi - 1) 0)
                (Item.OnComparison lo (w.array.getD lo 0) ((lo + hi) / 2 : Nat)
                  (w.array.getD ((lo + hi) / 2) 0) w)))
          rw [s3.array] at p1
          refine ⟨?_, fun s h => ?_⟩
          · simp only [Option.map_some', p1]
          · cases h
            exact s3.strans p2
  · exact ⟨rfl, fun s h => by cases h⟩

theorem QuickSortSelectPivot_data (lo hi : Nat) (w : World) :
    (QuickSortSelectPivot lo hi w).map (fun s => (s.1, s.2.rand_calls)) =
        QuickSortSelectPivot_list w.g_quicksort_pivot w.rand_stream lo hi w.array w.rand_calls ∧
      ∀ s, QuickSortSelectPivot lo hi w = some s → SameRules w s.2 ∧ s.2.array = w.array := by
  unfold QuickSortSelectPivot QuickSortSelectPivot_list
  cases hr : w.g_quicksort_pivot with
  | PIVOT_FIRST => exact ⟨rfl, fun s h => by cases h; exact ⟨rules_refl w, rfl⟩⟩
  | PIVOT_LAST => exact ⟨rfl, fun s h => by cases h; exact ⟨rules_refl w, rfl⟩⟩
  | PIVOT_MID => exact ⟨rfl, fun s h => by cases h; exact ⟨rules_refl w, rfl⟩⟩
  | PIVOT_RANDOM =>
    simp only
    split
    · exact ⟨rfl, fun s h => by cases h⟩
    · exact ⟨rfl, fun s h => by cases h; exact ⟨⟨rfl, rfl, rfl⟩, rfl⟩⟩
  | PIVOT_MEDIAN3 =>
    simp only
    obtain ⟨m1, m2⟩ := median3_data lo hi w
    rw [← m1]
    cases hm : median3 lo hi w with
    | none => exact ⟨rfl, fun s h => by cases h⟩
    | some s =>
      have hs := m2 s hm
      refine ⟨?_, fun s1 h => ?_⟩
      · simp only [Option.map_some', hs.rand_calls]
      · cases h
        exact ⟨hs.rules, hs.array⟩
  | PIVOT_SIZE => exact ⟨rfl, fun s h => by cases h; exact ⟨rules_refl w, rfl⟩⟩

theorem QS_scan_up_data (lo hi p : Nat) (f : Nat) : ∀ (i : Nat) (w : World),
    (QS_scan_up lo hi p f i w).map (fun r => r.1) = QS_scan_up_list lo hi p f i w.array ∧
      ∀ r, QS_scan_up lo hi p f i w = some r → Steady w r.2 := by
  induction f with
  | zero => intro i w; exact ⟨rfl, fun r h => by cases h⟩
  | succ f ih =>
    intro i w
    unfold QS_scan_up QS_scan_up_list
    have hs := steady_Item_lt i (peek i w) p (peek p w) w
    split
    · simp only [Item.lt, peek, decide_eq_true_eq] at hs ⊢
      split
      · obtain ⟨i1, i2⟩ := ih (i + 1) (Item.OnComparison i (w.array.getD i 0) p
          (w.array.getD p 0) w)
        rw [hs.array] at i1
        exact ⟨i1, fun r h => hs.strans (i2 r h)⟩
      · exact ⟨rfl, fun r h => by cases h; exact hs⟩
    · exact ⟨rfl, fun r h => by cases h⟩

theorem QS_scan_down_data (lo hi p : Nat) (f : Nat) : ∀ (j1 : Nat) (w : World),
    (QS_scan_down lo hi p f j1 w).map (fun r => r.1) = QS_scan_down_list lo hi p f j1 w.array ∧
      ∀ r, QS_scan_down lo hi p f j1 w = some r → Steady w r.2 := by
  induction f with
  | zero => intro j1 w; exact ⟨rfl, fun r h => by cases h⟩
  | succ f ih =>
    intro j1 w
    unfold QS_scan_down QS_scan_down_list
    have hs := steady_Item_gt (j1 - 1 : Nat) (peek (j1 - 1) w) p (peek p w) w
    split
    · simp only [Item.gt, peek, decide_eq_true_eq] at hs ⊢
      split
      · obtain ⟨i1, i2⟩ := ih (j1 - 1) (Item.OnComparison (j1 - 1 : Nat)
          (w.array.getD (j1 - 1) 0) p (w.array.getD p 0) w)
        rw [hs.array] at i1
        exact ⟨i1, fun r h => hs.strans (i2 r h)⟩
      · exact ⟨rfl, fun r h => by cases h; exact hs⟩
    · exact ⟨rfl, fun r h => by cases h⟩

/-- The reduction of a cut to the buffer values. -/
theorem QS_partition_data (lo hi : Nat) (f : Nat) : ∀ (i j1 p : Nat) (w : World),
    w.g_terminate = false →
    (QS_partition lo hi f i j1 p w).map (fun c => (⟨c.i, c.j1, c.s.array⟩ : QSCut (List Nat))) =
        QS_partition_list lo hi f i j1 p w.array ∧
      ∀ c, QS_partition lo hi f i j1 p w = some c →
        SameRules w c.s ∧ c.s.rand_calls = w.rand_calls := by
  induction f with
  | zero =>
    intro i j1 p w hg
    unfold QS_partition QS_partition_list
    by_cases h : i < j1
    · rw [if_pos ⟨h, hg⟩, if_pos h]
      exact ⟨rfl, fun c hc => by cases hc⟩
    · rw [if_neg (fun hh => h hh.1), if_neg h]
      exact ⟨rfl, fun c hc => by cases hc; exact ⟨rules_refl w, rfl⟩⟩
  | succ f ih =>
    intro i j1 p w hg
    unfold QS_partition QS_partition_list
    by_cases h : i < j1
    · rw [if_pos ⟨h, hg⟩, if_pos h]
      obtain ⟨u1, u2⟩ := QS_scan_up_data lo hi p (hi - lo + 1) i w
      rw [← u1]
      cases hu : QS_scan_up lo hi p (hi - lo + 1) i w with
      | none => exact ⟨rfl, fun c hc => by cases hc⟩
      | some a =>
        have sa := u2 a hu
        obtain ⟨d1, d2⟩ := QS_scan_down_data lo hi p (hi - lo + 1) j1 a.2
        rw [sa.array] at d1
        simp only [Option.some_bind, Option.map_some']
        rw [← d1]
        cases hd : QS_scan_down lo hi p (hi - lo + 1) j1 a.2 with
        | none => exact ⟨rfl, fun c hc => by cases hc⟩
        | some b =>
          have sb := sa.strans (d2 b hd)
          simp only [Option.some_bind, Option.map_some']
          by_cases hab : a.1 < b.1
          · rw [if_pos hab, if_pos hab]
            obtain ⟨r1, r2⟩ := swap_rules a.1 (b.1 - 1) b.2
            obtain ⟨i1, i2⟩ := ih (a.1 + 1) (b.1 - 1) (follow_pivot p a.1 (b.1 - 1))
              (swap a.1 (b.1 - 1) b.2) (r1.g_terminate.trans (sb.g_terminate.trans hg))
            rw [(swap_fields _ _ _).2, sb.array] at i1
            refine ⟨i1, fun c hc => ?_⟩
            obtain ⟨k1, k2⟩ := i2 c hc
            exact ⟨(sb.rules.rtrans r1).rtrans k1, k2.trans (r2.trans sb.rand_calls)⟩
          · rw [if_neg hab, if_neg hab]
            obtain ⟨i1, i2⟩ := ih a.1 b.1 p b.2 (sb.g_terminate.trans hg)
            rw [sb.array] at i1
            refine ⟨i1, fun c hc => ?_⟩
            obtain ⟨k1, k2⟩ := i2 c hc
            exact ⟨sb.rules.rtrans k1, k2.trans sb.rand_calls⟩
    · rw [if_neg (fun hh => h hh.1), if_neg h]
      exact ⟨rfl, fun c hc => by cases hc; exact ⟨rules_refl w, rfl⟩⟩

/-- `QuickSortLR` changes the buffer values and the number of random draws as
`QuickSortLR_list` says, whatever the sink. -/
theorem QuickSortLR_rec_data (f : Nat) : ∀ (lo hi : Nat) (w : World), w.g_terminate = false →
    (QuickSortLR_rec f lo hi w).map (fun v => (v.array, v.rand_calls)) =
        QuickSortLR_list w.g_quicksort_pivot w.rand_stream f lo hi w.array w.rand_calls ∧
      ∀ v, QuickSortLR_rec f lo hi w = some v → SameRules w v := by
  induction f with
  | zero => intro lo hi w _; exact ⟨rfl, fun v h => by cases h⟩
  | succ f ih =>
    intro lo hi w hg
    unfold QuickSortLR_rec QuickSortLR_list
    rw [if_neg (by simp [hg])]
    obtain ⟨p1, p2⟩ := QuickSortSelectPivot_data lo hi w
    rw [← p1]
    cases hs : QuickSortSelectPivot lo hi w with
    | none => exact ⟨rfl, fun v h => by cases h⟩
    | some s =>
      obtain ⟨rs, as⟩ := p2 s hs
      simp only [Option.some_bind, Option.map_some']
      obtain ⟨q1, q2⟩ := QS_partition_data lo hi (hi - lo + 1) lo hi s.1 s.2
        (rs.g_terminate.trans hg)
      rw [as] at q1
      rw [← q1]
      cases hc : QS_partition lo hi (hi - lo + 1) lo hi s.1 s.2 with
      | none => exact ⟨rfl, fun v h => by cases h⟩
      | some c =>
        obtain ⟨rc, cc⟩ := q2 c hc
        have rwc := rs.rtrans rc
        simp only [Option.some_bind, Option.map_some']
        -- the left part
        have hleft : ((if lo + 1 < c.j1 then QuickSortLR_rec f lo c.j1 c.s else some c.s).map
              (fun v => (v.array, v.rand_calls)) =
            (if lo + 1 < c.j1 then
                QuickSortLR_list w.g_quicksort_pivot w.rand_stream f lo c.j1 c.s.array
                  s.2.rand_calls
              else some (c.s.array, s.2.rand_calls))) ∧
            ∀ v, (if lo + 1 < c.j1 then QuickSortLR_rec f lo c.j1 c.s else some c.s) = some v →
              SameRules w v := by
          split
          · obtain ⟨i1, i2⟩ := ih lo c.j1 c.s (rwc.g_terminate.trans hg)
            rw [rwc.g_quicksort_pivot, rwc.rand_stream, cc] at i1
            exact ⟨i1, fun v h => rwc.rtrans (i2 v h)⟩
          · exact ⟨by rw [Option.map_some', cc], fun v h => by cases h; exact rwc⟩
        obtain ⟨l1, l2⟩ := hleft
        rw [← l1]
        cases hl : (if lo + 1 < c.j1 then QuickSortLR_rec f lo c.j1 c.s else some c.s) with
        | none => exact ⟨rfl, fun v h => by cases h⟩
        | some w1 =>
          have r1 := l2 w1 hl
          simp only [Option.some_bind, Option.map_some']
          split
          · obtain ⟨i1, i2⟩ := ih c.i hi w1 (r1.g_terminate.trans hg)
            rw [r1.g_quicksort_pivot, r1.rand_stream] at i1
            exact ⟨i1, fun v h => r1.rtrans (i2 v h)⟩
          · exact ⟨rfl, fun v h => by cases h; exact r1⟩


/-! ## Quick sort: correctness on the buffer values -/

theorem median3_list_range (lo hi : Nat) (A : List Nat) (h : lo < hi) :
    ∃ p, median3_list lo hi A = some p ∧ lo ≤ p ∧ p < hi := by
  unfold median3_list median3_pick_list
  rw [if_pos h]
  have hm1 : lo ≤ (lo + hi) / 2 := by omega
  have hm2 : (lo + hi) / 2 < hi := by omega
  split
  · exact ⟨lo, rfl, Nat.le_refl _, h⟩
  · split
    · exact ⟨hi - 1, rfl, by omega, by omega⟩
    · split
      · exact ⟨hi - 1, rfl, by omega, by omega⟩
      · refine ⟨_, rfl, ?_⟩
        split <;> split <;> (try split) <;> omega

/-- Every pivot rule, under every outcome of the random draw, selects an index
of the range. -/
theorem QuickSortSelectPivot_list_range (rule : QuickSortPivotType) (rs : Nat → Nat)
    (lo hi : Nat) (A : List Nat) (rc : Nat) (h : lo < hi) :
    ∃ s, QuickSortSelectPivot_list rule rs lo hi A rc = some s ∧ lo ≤ s.1 ∧ s.1 < hi := by
  unfold QuickSortSelectPivot_list
  cases rule with
  | PIVOT_FIRST => exact ⟨_, rfl, Nat.le_refl _, h⟩
  | PIVOT_LAST => exact ⟨_, rfl, by simp only; omega, by simp only; omega⟩
  | PIVOT_MID => exact ⟨_, rfl, by simp only; omega, by simp only; omega⟩
  | PIVOT_RANDOM =>
    simp only
    rw [if_neg (by omega)]
    refine ⟨_, rfl, by simp only; omega, ?_⟩
    have := Nat.mod_lt (rs rc) (show hi - lo > 0 by omega)
    simp only
    omega
  | PIVOT_MEDIAN3 =>
    obtain ⟨p, hp, h1, h2⟩ := median3_list_range lo hi A h
    simp only [hp, Option.map_some']
    exact ⟨_, rfl, h1, h2⟩
  | PIVOT_SIZE => exact ⟨_, rfl, Nat.le_refl _, h⟩

/-- The upward scan stops at the latest at an element that is not smaller than
the pivot. -/
theorem QS_scan_up_list_spec (lo hi p : Nat) (A : List Nat) (hp : lo ≤ p ∧ p < hi) (s : Nat)
    (hs : s < hi) (hsv : ¬ A.getD s 0 < A.getD p 0) (f : Nat) : ∀ (i : Nat),
    lo ≤ i → i ≤ s → s - i < f →
    ∃ a, QS_scan_up_list lo hi p f i A = some a ∧ i ≤ a ∧ a ≤ s ∧
      ¬ A.getD a 0 < A.getD p 0 ∧ ∀ k, i ≤ k → k < a → A.getD k 0 < A.getD p 0 := by
  induction f with
  | zero => intro i _ _ h; omega
  | succ f ih =>
    intro i hi1 hi2 hf
    unfold QS_scan_up_list
    rw [if_pos ⟨⟨hi1, by omega⟩, hp⟩]
    by_cases hlt : A.getD i 0 < A.getD p 0
    · rw [if_pos hlt]
      have hne : i ≠ s := fun e => hsv (e ▸ hlt)
      obtain ⟨a, e1, e2, e3, e4, e5⟩ := ih (i + 1) (by omega) (by omega) (by omega)
      refine ⟨a, e1, by omega, e3, e4, ?_⟩
      intro k hk1 hk2
      by_cases hk : k = i
      · rw [hk]; exact hlt
      · exact e5 k (by omega) hk2
    · rw [if_neg hlt]
      exact ⟨i, rfl, Nat.le_refl _, hi2, hlt, fun k h1 h2 => by omega⟩

/-- The downward scan stops at the latest at an element that is not larger than
the pivot. -/
theorem QS_scan_down_list_spec (lo hi p : Nat) (A : List Nat) (hp : lo ≤ p ∧ p < hi) (t : Nat)
    (ht : lo ≤ t) (htv : ¬ A.getD t 0 > A.getD p 0) (f : Nat) : ∀ (j1 : Nat),
    t < j1 → j1 ≤ hi → j1 - t ≤ f →
    ∃ b, QS_scan_down_list lo hi p f j1 A = some b ∧ t < b ∧ b ≤ j1 ∧
      ¬ A.getD (b - 1) 0 > A.getD p 0 ∧ ∀ k, b ≤ k → k < j1 → A.getD k 0 > A.getD p 0 := by
  induction f with
  | zero => intro j1 _ _ h; omega
  | succ f ih =>
    intro j1 hj1 hj2 hf
    unfold QS_scan_down_list
    rw [if_pos ⟨⟨by omega, hj2⟩, hp⟩]
    by_cases hgt : A.getD (j1 - 1) 0 > A.getD p 0
    · rw [if_pos hgt]
      have hne : j1 - 1 ≠ t := fun e => htv (e ▸ hgt)
      obtain ⟨b, e1, e2, e3, e4, e5⟩ := ih (j1 - 1) (by omega) (by omega) (by omega)
      refine ⟨b, e1, e2, by omega, e4, ?_⟩
      intro k hk1 hk2
      by_cases hk : k = j1 - 1
      · rw [hk]; exact hgt
      · exact e5 k hk1 (by omega)
    · rw [if_neg hgt]
      exact ⟨j1, rfl, hj1, Nat.le_refl _, hgt, fun k h1 h2 => by omega⟩

theorem swap_list_self (A : List Nat) (i : Nat) (h : i < A.length) : swap_list A i i = A := by
  unfold swap_list
  apply list_eq_of_getD
  · simp
  · intro k hk
    by_cases hki : i = k
    · subst hki
      rw [getD_set_self _ _ _ (by simpa using h)]
    · rw [getD_set_other _ _ _ _ hki, getD_set_other _ _ _ _ hki, getD_set_other _ _ _ _ hki,
        getD_set_other _ _ _ _ hki]

/-- What `swap(A[i], A[j])` does to the buffer values, for `i ≤ j` inside the
buffer. -/
theorem swap_list_le (A : List Nat) (i j : Nat) (hij : i ≤ j) (hj : j < A.length) :
    (swap_list A i j).length = A.length ∧ (swap_list A i j).Perm A ∧
      (swap_list A i j).getD i 0 = A.getD j 0 ∧ (swap_list A i j).getD j 0 = A.getD i 0 ∧
      ∀ t, t ≠ i → t ≠ j → (swap_list A i j).getD t 0 = A.getD t 0 := by
  by_cases h : i = j
  · subst h
    rw [swap_list_self A i hj]
    exact ⟨rfl, List.Perm.refl _, rfl, rfl, fun _ _ _ => rfl⟩
  · obtain ⟨g1, g2, g3⟩ := swap_list_getD A i j (by omega) hj h
    exact ⟨swap_list_length A i j, swap_list_perm A i j (by omega) hj, g1, g2, g3⟩

/-- The partition loop: it returns, the scan indices have crossed and moved,
and some value `v` (the pivot) separates the part before `i` from the part from
`j + 1` on. -/
theorem QS_partition_list_spec (lo hi : Nat) (f : Nat) : ∀ (i j1 p : Nat) (A : List Nat),
    hi ≤ A.length → lo ≤ i → i ≤ hi → lo ≤ j1 → j1 ≤ hi → lo ≤ p → p < hi →
    (∀ k, lo ≤ k → k < i → A.getD k 0 ≤ A.getD p 0) →
    (∀ k, j1 ≤ k → k < hi → A.getD p 0 ≤ A.getD k 0) →
    (¬ i < j1 → lo < i ∧ j1 < hi) →
    (i < j1 → ∃ s t, i ≤ s ∧ s < hi ∧ A.getD p 0 ≤ A.getD s 0 ∧ lo ≤ t ∧ t < j1 ∧
      A.getD t 0 ≤ A.getD p 0 ∧ ((i = lo ∧ j1 = hi ∧ s ≤ t) ∨ (lo < i ∧ j1 < hi))) →
    j1 - i ≤ f →
    ∃ c, QS_partition_list lo hi f i j1 p A = some c ∧ c.s.length = A.length ∧ c.s.Perm A ∧
      (∀ k, k < lo ∨ hi ≤ k → c.s.getD k 0 = A.getD k 0) ∧
      (∀ k, lo ≤ k → k < hi → ∃ k1, lo ≤ k1 ∧ k1 < hi ∧ c.s.getD k 0 = A.getD k1 0) ∧
      c.j1 ≤ c.i ∧ lo < c.i ∧ c.i ≤ hi ∧ lo ≤ c.j1 ∧ c.j1 < hi ∧
      ∃ v, (∀ k, lo ≤ k → k < c.i → c.s.getD k 0 ≤ v) ∧
        (∀ k, c.j1 ≤ k → k < hi → v ≤ c.s.getD k 0) := by
  induction f with
  | zero =>
    intro i j1 p A hn hi1 hi2 hj1 hj2 hp1 hp2 h1 h2 hst hS hf
    have hnot : ¬ i < j1 := by omega
    unfold QS_partition_list
    rw [if_neg hnot]
    obtain ⟨q1, q2⟩ := hst hnot
    exact ⟨⟨i, j1, A⟩, rfl, rfl, List.Perm.refl _, fun _ _ => rfl,
      fun k a b => ⟨k, a, b, rfl⟩, by simp only; omega, q1, hi2, hj1, q2, A.getD p 0, h1, h2⟩
  | succ f ih =>
    intro i j1 p A hn hi1 hi2 hj1 hj2 hp1 hp2 h1 h2 hst hS hf
    unfold QS_partition_list
    by_cases hlt : i < j1
    · rw [if_pos hlt]
      obtain ⟨s, t, s1, s2, s3, t1, t2, t3, hfirst⟩ := hS hlt
      obtain ⟨a, ea, a1, a2, a3, a4⟩ := QS_scan_up_list_spec lo hi p A ⟨hp1, hp2⟩ s s2
        (by omega) (hi - lo + 1) i hi1 s1 (by omega)
      obtain ⟨b, eb, b1, b2, b3, b4⟩ := QS_scan_down_list_spec lo hi p A ⟨hp1, hp2⟩ t t1
        (by omega) (hi - lo + 1) j1 t2 hj2 (by omega)
      rw [ea, Option.some_bind, eb, Option.some_bind]
      by_cases hab : a < b
      · rw [if_pos hab]
        obtain ⟨w1, w2, w3, w4, w5⟩ := swap_list_le A a (b - 1) (by omega) (by omega)
        generalize swap_list A a (b - 1) = A1 at w1 w2 w3 w4 w5
        have hpv : A1.getD (follow_pivot p a (b - 1)) 0 = A.getD p 0 := by
          unfold follow_pivot
          split
          · rename_i e; rw [w4, e]
          · split
            · rename_i e; rw [w3, e]
            · rename_i e1 e2; exact w5 p e1 e2
        have hpr : lo ≤ follow_pivot p a (b - 1) ∧ follow_pivot p a (b - 1) < hi := by
          unfold follow_pivot
          split
          · omega
          · split <;> omega
        obtain ⟨c, e1, e2, e3, e4, e5, e6, e7, e8, e9, e10, v, e11, e12⟩ := ih (a + 1) (b - 1)
          (follow_pivot p a (b - 1)) A1 (by omega) (by omega) (by omega) (by omega) (by omega)
          hpr.1 hpr.2
          (by
            intro k hk1 hk2
            rw [hpv]
            by_cases hka : k = a
            · rw [hka, w3]; omega
            · rw [w5 k hka (by omega)]
              by_cases hki : k < i
              · exact h1 k hk1 hki
              · exact Nat.le_of_lt (a4 k (by omega) (by omega)))
          (by
            intro k hk1 hk2
            rw [hpv]
            by_cases hkb : k = b - 1
            · rw [hkb, w4]; omega
            · rw [w5 k (by omega) hkb]
              by_cases hkj : k < j1
              · exact Nat.le_of_lt (b4 k (by omega) hkj)
              · exact h2 k (by omega) hk2)
          (fun _ => ⟨by omega, by omega⟩)
          (by
            intro hh
            refine ⟨b - 1, a, by omega, by omega, ?_, by omega, by omega, ?_,
              Or.inr ⟨by omega, by omega⟩⟩
            · rw [hpv, w4]; omega
            · rw [hpv, w3]; omega)
          (by omega)
        refine ⟨c, e1, e2.trans w1, e3.trans w2, ?_, ?_, e6, e7, e8, e9, e10, v, e11, e12⟩
        · intro k hk
          rw [e4 k hk, w5 k (by omega) (by omega)]
        · intro k hk1 hk2
          obtain ⟨k1, x1, x2, x3⟩ := e5 k hk1 hk2
          by_cases hka : k1 = a
          · exact ⟨b - 1, by omega, by omega, by rw [x3, hka, w3]⟩
          · by_cases hkb : k1 = b - 1
            · exact ⟨a, by omega, by omega, by rw [x3, hkb, w4]⟩
            · exact ⟨k1, x1, x2, by rw [x3, w5 k1 hka hkb]⟩
      · rw [if_neg hab]
        have hbounds : lo < a ∧ b < hi := by
          rcases hfirst with ⟨_, _, hst2⟩ | ⟨q1, q2⟩
          · omega
          · omega
        have hex : QS_partition_list lo hi f a b p A = some ⟨a, b, A⟩ := by
          cases f with
          | zero => unfold QS_partition_list; rw [if_neg hab]
          | succ f => unfold QS_partition_list; rw [if_neg hab]
        refine ⟨⟨a, b, A⟩, hex, rfl, List.Perm.refl _, fun _ _ => rfl,
          fun k x y => ⟨k, x, y, rfl⟩, by simp only; omega, hbounds.1, by simp only; omega,
          by simp only; omega, hbounds.2, A.getD p 0, ?_, ?_⟩
        · intro k hk1 hk2
          by_cases hki : k < i
          · exact h1 k hk1 hki
          · exact Nat.le_of_lt (a4 k (by omega) hk2)
        · intro k hk1 hk2
          by_cases hkj : k < j1
          · exact Nat.le_of_lt (b4 k hk1 hkj)
          · exact h2 k (by omega) hk2
    · rw [if_neg hlt]
      obtain ⟨q1, q2⟩ := hst hlt
      exact ⟨⟨i, j1, A⟩, rfl, rfl, List.Perm.refl _, fun _ _ => rfl,
        fun k a b => ⟨k, a, b, rfl⟩, by simp only; omega, q1, hi2, hj1, q2, A.getD p 0, h1, h2⟩

/-- `QuickSortLR` on the buffer values: with fuel for the size of the range it
returns, whatever the pivot rule and the random draws; the range is put in
order in place. -/
theorem QuickSortLR_list_spec (rule : QuickSortPivotType) (rs : Nat → Nat) (f : Nat) :
    ∀ (lo hi : Nat) (A : List Nat) (rc : Nat),
    lo < hi → hi ≤ A.length → hi - lo + 1 ≤ f →
    ∃ r, QuickSortLR_list rule rs f lo hi A rc = some r ∧ r.1.length = A.length ∧
      r.1.Perm A ∧ (∀ k, k < lo ∨ hi ≤ k → r.1.getD k 0 = A.getD k 0) ∧
      (∀ k, lo ≤ k → k < hi → ∃ k1, lo ≤ k1 ∧ k1 < hi ∧ r.1.getD k 0 = A.getD k1 0) ∧
      ∀ a b, lo ≤ a → a < b → b < hi → r.1.getD a 0 ≤ r.1.getD b 0 := by
  induction f with
  | zero => intro lo hi A rc _ _ h; omega
  | succ f ih =>
    intro lo hi A rc hlh hn hf
    unfold QuickSortLR_list
    obtain ⟨s, es, p1, p2⟩ := QuickSortSelectPivot_list_range rule rs lo hi A rc hlh
    rw [es, Option.some_bind]
    obtain ⟨c, ec, c1, c2, c3, c4, c5, c6, c7, c8, c9, v, c10, c11⟩ :=
      QS_partition_list_spec lo hi (hi - lo + 1) lo hi s.1 A hn (Nat.le_refl _) (by omega)
        (by omega) (Nat.le_refl _) p1 p2 (fun k h1 h2 => by omega) (fun k h1 h2 => by omega)
        (fun h => by omega)
        (fun _ => ⟨s.1, s.1, p1, p2, Nat.le_refl _, p1, p2, Nat.le_refl _,
          Or.inl ⟨rfl, rfl, Nat.le_refl _⟩⟩)
        (by omega)
    rw [ec, Option.some_bind]
    -- the left part
    have hleft : ∃ r, (if lo + 1 < c.j1 then QuickSortLR_list rule rs f lo c.j1 c.s s.2
          else some (c.s, s.2)) = some r ∧ r.1.length = c.s.length ∧ r.1.Perm c.s ∧
        (∀ k, k < lo ∨ c.j1 ≤ k → r.1.getD k 0 = c.s.getD k 0) ∧
        (∀ k, lo ≤ k → k < c.j1 → ∃ k1, lo ≤ k1 ∧ k1 < c.j1 ∧ r.1.getD k 0 = c.s.getD k1 0) ∧
        ∀ a b, lo ≤ a → a < b → b < c.j1 → r.1.getD a 0 ≤ r.1.getD b 0 := by
      split
      · exact ih lo c.j1 c.s s.2 (by omega) (by omega) (by omega)
      · exact ⟨(c.s, s.2), rfl, rfl, List.Perm.refl _, fun _ _ => rfl,
          fun k x y => ⟨k, x, y, rfl⟩, fun a b x y z => by omega⟩
    obtain ⟨r1, el, l1, l2, l3, l4, l5⟩ := hleft
    rw [el, Option.some_bind]
    have hright : ∃ r, (if c.i + 1 < hi then QuickSortLR_list rule rs f c.i hi r1.1 r1.2
          else some r1) = some r ∧ r.1.length = r1.1.length ∧ r.1.Perm r1.1 ∧
        (∀ k, k < c.i ∨ hi ≤ k → r.1.getD k 0 = r1.1.getD k 0) ∧
        (∀ k, c.i ≤ k → k < hi → ∃ k1, c.i ≤ k1 ∧ k1 < hi ∧ r.1.getD k 0 = r1.1.getD k1 0) ∧
        ∀ a b, c.i ≤ a → a < b → b < hi → r.1.getD a 0 ≤ r.1.getD b 0 := by
      split
      · exact ih c.i hi r1.1 r1.2 (by omega) (by omega) (by omega)
      · exact ⟨r1, rfl, rfl, List.Perm.refl _, fun _ _ => rfl,
          fun k x y => ⟨k, x, y, rfl⟩, fun a b x y z => by omega⟩
    obtain ⟨r2, er, g1, g2, g3, g4, g5⟩ := hright
    rw [er]
    -- values of the three zones after both recursive calls
    have hlow : ∀ k, lo ≤ k → k < c.i → r2.1.getD k 0 ≤ v := by
      intro k hk1 hk2
      rw [g3 k (Or.inl hk2)]
      by_cases hkj : k < c.j1
      · obtain ⟨k1, x1, x2, x3⟩ := l4 k hk1 hkj
        rw [x3]
        exact c10 k1 x1 (by omega)
      · rw [l3 k (Or.inr (by omega))]
        exact c10 k hk1 hk2
    have hhigh : ∀ k, c.j1 ≤ k → k < hi → v ≤ r2.1.getD k 0 := by
      intro k hk1 hk2
      by_cases hki : k < c.i
      · rw [g3 k (Or.inl hki), l3 k (Or.inr hk1)]
        exact c11 k hk1 hk2
      · obtain ⟨k1, x1, x2, x3⟩ := g4 k (by omega) hk2
        rw [x3, l3 k1 (Or.inr (by omega))]
        exact c11 k1 (by omega) x2
    refine ⟨r2, rfl, g1.trans (l1.trans c1), (g2.trans l2).trans c2, ?_, ?_, ?_⟩
    · intro k hk
      rw [g3 k (by omega), l3 k (by omega), c3 k hk]
    · intro k hk1 hk2
      have h1 : ∃ k1, lo ≤ k1 ∧ k1 < hi ∧ r2.1.getD k 0 = r1.1.getD k1 0 := by
        by_cases hki : k < c.i
        · exact ⟨k, hk1, hk2, g3 k (Or.inl hki)⟩
        · obtain ⟨k1, x1, x2, x3⟩ := g4 k (by omega) hk2
          exact ⟨k1, by omega, x2, x3⟩
      obtain ⟨k1, x1, x2, x3⟩ := h1
      have h2 : ∃ k2, lo ≤ k2 ∧ k2 < hi ∧ r1.1.getD k1 0 = c.s.getD k2 0 := by
        by_cases hkj : k1 < c.j1
        · obtain ⟨k2, y1, y2, y3⟩ := l4 k1 x1 hkj
          exact ⟨k2, y1, by omega, y3⟩
        · exact ⟨k1, x1, x2, l3 k1 (Or.inr (by omega))⟩
      obtain ⟨k2, y1, y2, y3⟩ := h2
      obtain ⟨k3, z1, z2, z3⟩ := c4 k2 y1 y2
      exact ⟨k3, z1, z2, by rw [x3, y3, z3]⟩
    · intro a b ha hab hb
      by_cases hai : c.i ≤ a
      · exact g5 a b hai hab hb
      · by_cases hbj : b < c.j1
        · rw [g3 a (Or.inl (by omega)), g3 b (Or.inl (by omega))]
          exact l5 a b ha hab hbj
        · exact Nat.le_trans (hlow a ha (by omega)) (hhigh b (by omega) hb)


/-- `QuickSortLR(A, 0, n - 1)` returns on every non-empty buffer, whatever the
pivot rule and the random draws, and leaves the buffer in order. -/
theorem QuickSortLR_rec_returns (w : World) (hg : w.g_terminate = false)
    (h0 : 0 < w.array.length) :
    ∃ w1, QuickSortLR_rec (w.array.length + 1) 0 w.array.length w = some w1 ∧
      w1.array.Perm w.array ∧ w1.array.Pairwise (· ≤ ·) := by
  obtain ⟨r, h1, h2, h3, _, _, h6⟩ := QuickSortLR_list_spec w.g_quicksort_pivot w.rand_stream
    (w.array.length + 1) 0 w.array.length w.array w.rand_calls h0 (Nat.le_refl _) (by omega)
  obtain ⟨hd, _⟩ := QuickSortLR_rec_data (w.array.length + 1) 0 w.array.length w hg
  rw [h1] at hd
  cases h : QuickSortLR_rec (w.array.length + 1) 0 w.array.length w with
  | none => simp [h] at hd
  | some w1 =>
    rw [h] at hd
    simp only [Option.map_some', Option.some.injEq] at hd
    have ha : w1.array = r.1 := by rw [← hd]
    refine ⟨w1, rfl, ha ▸ h3, pairwise_of_sorted _ ?_⟩
    intro a b _ hab hb
    rw [ha] at hb ⊢
    exact h6 a b (Nat.zero_le _) hab (by omega)

/-- C17: on a buffer that is a permutation of `0..N-1` (`N > 0`), with the
cancellation flag clear, `QuickSortLR(A, 0, N - 1)` returns and leaves
`[0, 1, ..., N-1]` under every pivot rule and every stream of outcomes of the
random draws; so does `QuickSortLR(A, N)`, which draws the rule.  In the
embedding every use of `i`, `j` or `p` as an index is checked against the range
`lo..hi` of the call and the run ends in `none` if a check fails (as the scan
with a pivot index outside the range does); so the result `some` says that
these indices stayed inside `[lo, hi]`. -/
theorem QuickSortLR_sorts (w : World) (N : Nat) (hN : 0 < N) (hg : w.g_terminate = false)
    (hp : w.array.Perm (List.range N)) :
    (∀ (rule : QuickSortPivotType) (rs : Nat → Nat),
      ∃ w1, QuickSortLR_rec (N + 1) 0 N { w with g_quicksort_pivot := rule, rand_stream := rs } =
        some w1 ∧ w1.array = List.range N) ∧
    (∃ w1, QuickSortLR N w = some w1 ∧ w1.array = List.range N) ∧
    (QS_scan_up 0 8 8 9 0 exDirectIdle).isSome = false := by
  have hlen : w.array.length = N := by rw [hp.length_eq, List.length_range]
  have key : ∀ v : World, v.g_terminate = false → v.array = w.array →
      ∃ w1, QuickSortLR_rec (N + 1) 0 N v = some w1 ∧ w1.array = List.range N := by
    intro v hv ha
    obtain ⟨w1, h1, p1, s1⟩ := QuickSortLR_rec_returns v hv (by rw [ha]; omega)
    rw [ha, hlen] at h1
    exact ⟨w1, h1, pairwise_perm_range _ N s1 ((ha ▸ p1).trans hp)⟩
  exact ⟨fun rule rs => key _ hg rfl, key _ hg rfl, by decide⟩

/-- Witness of C17 on the 8-element example buffer, with the median-of-three
rule. -/
theorem QuickSortLR_sorts_witness :
    (0 < 8 ∧ exDirectIdle.g_terminate = false ∧ exDirectIdle.array.Perm (List.range 8)) ∧
      ∃ w1, QuickSortLR_rec (8 + 1) 0 8
          { exDirectIdle with g_quicksort_pivot := QuickSortPivotType.PIVOT_MEDIAN3,
                              rand_stream := fun k => 7 * k + 3 } = some w1 ∧
        w1.array = List.range 8 :=
  ⟨⟨by decide, by decide, by decide⟩,
    (QuickSortLR_sorts exDirectIdle 8 (by decide) (by decide) (by decide)).1
      QuickSortPivotType.PIVOT_MEDIAN3 (fun k => 7 * k + 3)⟩


/-! ## The data never depend on the sink -/

theorem InsertionSort_inner_data (key : Nat) (n : Nat) : ∀ (w : World),
    (InsertionSort_inner key n w).array = InsertionSort_inner_list key n w.array ∧
      (InsertionSort_inner key n w).g_terminate = w.g_terminate := by
  induction n with
  | zero => intro w; exact ⟨rfl, rfl⟩
  | succ j ih =>
    intro w
    unfold InsertionSort_inner InsertionSort_inner_list
    obtain ⟨c1, c2⟩ := InsertionSort_cmp_fields key j w
    have hp : peek j (InsertionSort_cmp key j w) = w.array.getD j 0 := by
      unfold peek
      rw [c2]
    rw [hp]
    split
    · obtain ⟨i1, i2⟩ := ih (swap j (j + 1) (InsertionSort_cmp key j w))
      obtain ⟨s1, s2⟩ := swap_fields j (j + 1) (InsertionSort_cmp key j w)
      rw [s2, c2] at i1
      exact ⟨i1, i2.trans (s1.trans c1)⟩
    · exact ⟨c2, c1⟩

/-- `InsertionSort` changes the buffer values as the loops on lists say,
whatever the sink. -/
theorem InsertionSort_outer_data (left : Nat) : ∀ (i : Nat) (w : World),
    w.g_terminate = false →
    (InsertionSort_outer left i w).array = InsertionSort_outer_list left i w.array := by
  induction left with
  | zero => intro i w _; rfl
  | succ left ih =>
    intro i w hg
    unfold InsertionSort_outer InsertionSort_outer_list
    rw [if_neg (by simp [hg])]
    have ha := steady_Item_OnAccess stackItem (peek i w) true w
    obtain ⟨i1, i2⟩ := InsertionSort_inner_data (peek i w) i
      (Item.OnAccess stackItem (peek i w) true w)
    rw [ih _ _ (i2.trans (ha.g_terminate.trans hg)), i1, ha.array]
    rfl

theorem steady_CycleSort_scan (cycleStart : Nat) (c : Nat) : ∀ (i rank : Nat) (w : World),
    (CycleSort_scan cycleStart c i rank w).1 = CycleSort_scan_list cycleStart c i rank w.array ∧
      Steady w (CycleSort_scan cycleStart c i rank w).2 := by
  induction c with
  | zero => intro i rank w; exact ⟨rfl, (frame_refl w).steady⟩
  | succ c ih =>
    intro i rank w
    unfold CycleSort_scan CycleSort_scan_list
    have hs := steady_Item_IncrementCounter w
    obtain ⟨i1, i2⟩ := ih (i + 1) (CycleSort_scan_step cycleStart i rank w).1
      (CycleSort_scan_step cycleStart i rank w).2
    have e2 : (CycleSort_scan_step cycleStart i rank w).2 = Item.IncrementCounter w := rfl
    rw [e2] at i1 i2 ⊢
    rw [hs.array] at i1
    refine ⟨i1.trans ?_, hs.strans i2⟩
    simp [CycleSort_scan_step, Item.less_direct, peek]

theorem steady_CycleSort_skip (cycleStart : Nat) (f : Nat) : ∀ (rank : Nat) (w : World),
    (CycleSort_skip cycleStart f rank w).map (fun r => r.1) =
        CycleSort_skip_list cycleStart f rank w.array ∧
      ∀ r, CycleSort_skip cycleStart f rank w = some r → Steady w r.2 := by
  induction f with
  | zero => intro rank w; exact ⟨rfl, fun r h => by cases h⟩
  | succ f ih =>
    intro rank w
    unfold CycleSort_skip CycleSort_skip_list
    have hs := steady_Item_eq cycleStart (peek cycleStart w) rank (peek rank w) w
    simp only [Item.eq, peek, decide_eq_true_eq] at hs ⊢
    split
    · obtain ⟨i1, i2⟩ := ih (rank + 1) (Item.OnComparison cycleStart
        (w.array.getD cycleStart 0) rank (w.array.getD rank 0) w)
      rw [hs.array] at i1
      exact ⟨i1, fun r h => hs.strans (i2 r h)⟩
    · exact ⟨rfl, fun r h => by cases h; exact hs⟩

theorem CycleSort_cycle_data (n cycleStart : Nat) (f : Nat) : ∀ (w : World),
    (CycleSort_cycle n cycleStart f w).map World.array =
      CycleSort_cycle_list n cycleStart f w.array := by
  induction f with
  | zero => intro w; rfl
  | succ f ih =>
    intro w
    unfold CycleSort_cycle CycleSort_cycle_list CycleSort_rank
    obtain ⟨r1, r2⟩ := steady_CycleSort_scan cycleStart (n - (cycleStart + 1)) (cycleStart + 1)
      cycleStart w
    rw [r1]
    split
    · simp only [Option.map_some', r2.array]
    · unfold CycleSort_place
      obtain ⟨k1, k2⟩ := steady_CycleSort_skip cycleStart n
        (CycleSort_scan_list cycleStart (n - (cycleStart + 1)) (cycleStart + 1) cycleStart w.array)
        (CycleSort_scan cycleStart (n - (cycleStart + 1)) (cycleStart + 1) cycleStart w).2
      rw [r2.array] at k1
      rw [← k1]
      cases hsk : CycleSort_skip cycleStart n
          (CycleSort_scan_list cycleStart (n - (cycleStart + 1)) (cycleStart + 1) cycleStart
            w.array)
          (CycleSort_scan cycleStart (n - (cycleStart + 1)) (cycleStart + 1) cycleStart w).2 with
      | none => rfl
      | some r =>
        have hs := r2.strans (k2 r hsk)
        have hsw := (swap_fields r.1 cycleStart r.2).2
        rw [hs.array] at hsw
        simp only [Option.map_some', Option.some_bind]
        by_cases hne : r.1 ≠ cycleStart
        · simp only [hne, ne_eq, not_false_eq_true, decide_True, if_true]
          rw [ih, hsw]
        · simp only [hne, ne_eq, decide_False, Bool.false_eq_true, if_false, not_true_eq_false,
            Option.map_some', hsw]

/-- `CycleSort` changes the buffer values as the loops on lists say, whatever
the sink. -/
theorem CycleSort_outer_data (n : Nat) (c : Nat) : ∀ (cycleStart : Nat) (w : World),
    (CycleSort_outer n c cycleStart w).map World.array =
      CycleSort_outer_list n c cycleStart w.array := by
  induction c with
  | zero => intro cycleStart w; rfl
  | succ c ih =>
    intro cycleStart w
    unfold CycleSort_outer CycleSort_outer_list
    rw [← CycleSort_cycle_data]
    cases h : CycleSort_cycle n cycleStart (n + 1) w with
    | none => rfl
    | some w1 =>
      simp only [Option.map_some', Option.some_bind]
      exact ih _ w1


theorem Steady.same {w v w1 v1 : World} (h : SameData w v) (hw : Steady w w1)
    (hv : Steady v v1) : SameData w1 v1 :=
  ⟨hv.array.trans (h.array.trans hw.array.symm),
    hv.g_terminate.trans (h.g_terminate.trans hw.g_terminate.symm),
    hv.g_quicksort_pivot.trans (h.g_quicksort_pivot.trans hw.g_quicksort_pivot.symm),
    hv.rand_stream.trans (h.rand_stream.trans hw.rand_stream.symm),
    hv.rand_calls.trans (h.rand_calls.trans hw.rand_calls.symm)⟩

theorem same_poke {w v : World} (h : SameData w v) (i x : Nat) :
    SameData (poke i x w) (poke i x v) :=
  ⟨by show v.array.set i x = w.array.set i x; rw [h.array], h.g_terminate,
    h.g_quicksort_pivot, h.rand_stream, h.rand_calls⟩

theorem same_random {w v : World} (h : SameData w v) :
    (random v).1 = (random w).1 ∧ SameData (random w).2 (random v).2 := by
  unfold random
  refine ⟨by simp only [h.rand_stream, h.rand_calls], h.array, h.g_terminate,
    h.g_quicksort_pivot, h.rand_stream, ?_⟩
  show v.rand_calls + 1 = w.rand_calls + 1
  rw [h.rand_calls]

theorem same_store {w v : World} (h : SameData w v) (a : Int) (x : Nat) :
    SameData (store a x w) (store a x v) := by
  unfold store World.array_size
  rw [h.array]
  split
  · exact same_poke h _ _
  · exact h

/-- A routine that acts on the world only through the operations of `Item`, the
random number generator and the cancellation flag returns the same value and
leaves the same data whatever the sink. -/
theorem Routine.run_same {α : Type} (r : Routine α) : ∀ (w v : World), SameData w v →
    (r.run v).1 = (r.run w).1 ∧ SameData (r.run w).2 (r.run v).2 := by
  induction r with
  | done a => intro w v h; exact ⟨rfl, h⟩
  | read i k ih =>
    intro w v h
    unfold Routine.run
    have e : peek i v = peek i w := by unfold peek; rw [h.array]
    rw [e]
    exact ih (peek i w) w v h
  | write i x k ih =>
    intro w v h
    unfold Routine.run
    exact ih _ _ (same_poke h i x)
  | access a x d k ih =>
    intro w v h
    unfold Routine.run
    exact ih _ _ (Steady.same h (steady_Item_OnAccess a x d w) (steady_Item_OnAccess a x d v))
  | comparison a va b vb k ih =>
    intro w v h
    unfold Routine.run
    exact ih _ _ (Steady.same h (steady_Item_OnComparison a va b vb w)
      (steady_Item_OnComparison a va b vb v))
  | counter k ih =>
    intro w v h
    unfold Routine.run
    exact ih _ _ (Steady.same h (steady_Item_IncrementCounter w)
      (steady_Item_IncrementCounter v))
  | draw k ih =>
    intro w v h
    unfold Routine.run
    obtain ⟨e, hs⟩ := same_random h
    rw [e]
    exact ih _ _ _ hs
  | flag k ih =>
    intro w v h
    unfold Routine.run
    rw [h.g_terminate]
    exact ih _ w v h

theorem swap_routine_run (i j : Nat) (w : World) :
    (swap_routine i j).run w = ((), swap i j w) := rfl


theorem same_access {w v : World} (h : SameData w v) (a : Int) (x : Nat) (d : Bool) :
    SameData (Item.OnAccess a x d w) (Item.OnAccess a x d v) :=
  Steady.same h (steady_Item_OnAccess a x d w) (steady_Item_OnAccess a x d v)

theorem same_comparison {w v : World} (h : SameData w v) (a : Int) (va : Nat) (b : Int)
    (vb : Nat) : SameData (Item.OnComparison a va b vb w) (Item.OnComparison a va b vb v) :=
  Steady.same h (steady_Item_OnComparison a va b vb w) (steady_Item_OnComparison a va b vb v)

theorem map_fst_of_data {X Y : Option World} {L : Option (List Nat × Nat)}
    (hx : X.map (fun u => (u.array, u.rand_calls)) = L)
    (hy : Y.map (fun u => (u.array, u.rand_calls)) = L) :
    Y.map World.array = X.map World.array := by
  have h1 := congrArg (Option.map Prod.fst) hx
  have h2 := congrArg (Option.map Prod.fst) hy
  simp only [Option.map_map] at h1 h2
  exact h2.trans h1.symm

set_option maxRecDepth 200000 in
/-- C14 as stated fails for `BozoSort`, which swaps random pairs until 20 s
have passed on the clock: with the same buffer and the same random outcomes,
behind a sink that sleeps 2.5 s per access one round of swaps is made, behind a
sink that sleeps 1.25 s per access two rounds, and the buffers left differ
(the clock counting exactly the time slept). -/
theorem BozoSort_sink_counterexample :
    SameData (exPaced 2500000 (fun k => (3 * k + 1) % 8))
        (exPaced 1250000 (fun k => (3 * k + 1) % 8)) ∧
      (BozoSort sleep_clock 4 (exPaced 2500000 (fun k => (3 * k + 1) % 8))).map World.array =
        some [6, 2, 7, 5, 1, 3, 0, 4] ∧
      (BozoSort sleep_clock 4 (exPaced 1250000 (fun k => (3 * k + 1) % 8))).map World.array =
        some [3, 1, 4, 0, 2, 6, 5, 7] :=
  ⟨⟨by decide, by decide, by decide, rfl, by decide⟩, by decide, by decide⟩

/-- C14, amended: data correctness does not depend on the sink for the
operations of `Item` and for every routine that acts on the world only through
them, the random number generator and the cancellation flag.  If two worlds
hold the same data (buffer, cancellation flag clear, pivot rule, random
outcomes) behind any two sinks (engine with any pacing delay, or none), then
every write operation of `Item` leaves the same data in both, every comparison
returns the same value in both, and `InsertionSort`, `CocktailShakerSort`,
`QuickSortLR`, `MergeSort`, `HeapSort` and `CycleSort` return in both or in
neither and leave the same buffer; the same holds for every `Routine`.
`BozoSort`, which reads the clock, is not such a routine. -/
theorem data_independent_of_sink (w v : World) (h : SameData w v)
    (hg : w.g_terminate = false) :
    (∀ (self src : Int) (d x : Nat),
      SameData (Item.construct self d w) (Item.construct self d v) ∧
      SameData (Item.copy_construct self x w) (Item.copy_construct self x v) ∧
      SameData (Item.move_construct self src x w) (Item.move_construct self src x v) ∧
      SameData (Item.copy_assign self x w) (Item.copy_assign self x v) ∧
      SameData (Item.move_assign self src x w) (Item.move_assign self src x v) ∧
      SameData (Item.post_increment self x w) (Item.post_increment self x v) ∧
      SameData (Item.post_decrement self x w) (Item.post_decrement self x v) ∧
      SameData (Item.SetNoDelay self d w) (Item.SetNoDelay self d v) ∧
      SameData (Item.SetNoDelay_item self x w) (Item.SetNoDelay_item self x v) ∧
      (Item.value self x v).1 = (Item.value self x w).1 ∧
      SameData (Item.value self x w).2 (Item.value self x v).2) ∧
    (∀ (a b : Int) (va vb : Nat),
      ((Item.eq a va b vb v).1 = (Item.eq a va b vb w).1 ∧
        (Item.ne a va b vb v).1 = (Item.ne a va b vb w).1 ∧
        (Item.lt a va b vb v).1 = (Item.lt a va b vb w).1 ∧
        (Item.le a va b vb v).1 = (Item.le a va b vb w).1 ∧
        (Item.gt a va b vb v).1 = (Item.gt a va b vb w).1 ∧
        (Item.ge a va b vb v).1 = (Item.ge a va b vb w).1 ∧
        (Item.cmp a va b vb v).1 = (Item.cmp a va b vb w).1) ∧
      SameData (Item.eq a va b vb w).2 (Item.eq a va b vb v).2 ∧
      SameData (Item.cmp a va b vb w).2 (Item.cmp a va b vb v).2) ∧
    ((∀ n, (InsertionSort n v).array = (InsertionSort n w).array) ∧
      (∀ n, (CocktailShakerSort n v).map World.array =
        (CocktailShakerSort n w).map World.array) ∧
      (∀ f lo hi, (QuickSortLR_rec f lo hi v).map World.array =
        (QuickSortLR_rec f lo hi w).map World.array) ∧
      (∀ n, (QuickSortLR n v).map World.array = (QuickSortLR n w).map World.array) ∧
      (∀ n, (MergeSort n v).map World.array = (MergeSort n w).map World.array) ∧
      (∀ n, (HeapSort n v).map World.array = (HeapSort n w).map World.array) ∧
      (∀ n, (CycleSort n v).map World.array = (CycleSort n w).map World.array)) ∧
    ∀ (α : Type) (r : Routine α),
      (r.run v).1 = (r.run w).1 ∧ SameData (r.run w).2 (r.run v).2 := by
  have hgv : v.g_terminate = false := h.g_terminate.trans hg
  refine ⟨?_, ?_, ⟨?_, ?_, ?_, ?_, ?_, ?_, ?_⟩, fun α r => Routine.run_same r w v h⟩
  · intro self src d x
    exact ⟨same_access (same_store h _ _) _ _ _, same_access (same_store h _ _) _ _ _,
      same_access (same_store (same_store h _ _) _ _) _ _ _,
      same_access (same_store h _ _) _ _ _,
      same_access (same_store (same_store h _ _) _ _) _ _ _,
      same_access (same_store h _ _) _ _ _, same_access (same_store h _ _) _ _ _,
      same_access (same_store h _ _) _ _ _, same_access (same_store h _ _) _ _ _, rfl,
      same_access h _ _ _⟩
  · intro a b va vb
    exact ⟨⟨rfl, rfl, rfl, rfl, rfl, rfl, rfl⟩, same_comparison h a va b vb,
      same_comparison h a va b vb⟩
  · intro n
    unfold InsertionSort
    rw [InsertionSort_outer_data _ _ v hgv, InsertionSort_outer_data _ _ w hg, h.array]
  · intro n
    unfold CocktailShakerSort
    rw [Cocktail_while_data, Cocktail_while_data, h.array]
  · intro f lo hi
    have h1 := (QuickSortLR_rec_data f lo hi w hg).1
    have h2 := (QuickSortLR_rec_data f lo hi v hgv).1
    rw [h.array, h.g_quicksort_pivot, h.rand_stream, h.rand_calls] at h2
    exact map_fst_of_data h1 h2
  · intro n
    unfold QuickSortLR
    obtain ⟨e, hs⟩ := same_random h
    have hs2 : SameData { (random w).2 with g_quicksort_pivot := pivot_of_nat (random w).1 }
        { (random v).2 with g_quicksort_pivot := pivot_of_nat (random v).1 } :=
      ⟨hs.array, hs.g_terminate, by show pivot_of_nat _ = pivot_of_nat _; rw [e],
        hs.rand_stream, hs.rand_calls⟩
    have h1 := (QuickSortLR_rec_data (n + 1) 0 n
      { (random w).2 with g_quicksort_pivot := pivot_of_nat (random w).1 } hg).1
    have h2 := (QuickSortLR_rec_data (n + 1) 0 n
      { (random v).2 with g_quicksort_pivot := pivot_of_nat (random v).1 } hgv).1
    rw [hs2.array, hs2.g_quicksort_pivot, hs2.rand_stream, hs2.rand_calls] at h2
    exact map_fst_of_data h1 h2
  · intro n
    unfold MergeSort
    rw [(MergeSort_rec_data _ _ _ v hgv).1, (MergeSort_rec_data _ _ _ w hg).1, h.array]
  · intro n
    unfold HeapSort
    rw [HeapSort_loop_data _ _ _ v hgv, HeapSort_loop_data _ _ _ w hg, h.array]
  · intro n
    unfold CycleSort
    rw [CycleSort_outer_data, CycleSort_outer_data, h.array]

/-- Witness of the amended C14: the example buffer behind an engine that
sleeps 1 ms per step, and with no sink at all. -/
theorem data_independent_of_sink_witness :
    (SameData (exPaced 1000 (fun _ => 0)) exNoSink ∧
      (exPaced 1000 (fun _ => 0)).g_terminate = false) ∧
      (HeapSort 8 exNoSink).map World.array =
        (HeapSort 8 (exPaced 1000 (fun _ => 0))).map World.array :=
  ⟨⟨⟨by decide, by decide, by decide, rfl, by decide⟩, by decide⟩,
    (data_independent_of_sink (exPaced 1000 (fun _ => 0)) exNoSink
      ⟨by decide, by decide, by decide, rfl, by decide⟩ (by decide)).2.2.1.2.2.2.2.2.1 8⟩


/-! ## The three-move exchange -/

theorem move_assign_array (i j : Nat) (w : World) :
    (move_assign i j w).array = (w.array.set i (w.array.getD j 0)).set j black := by
  unfold move_assign
  rw [(steady_Item_OnAccess _ _ _ _).array]
  rfl

theorem move_to_tmp_array (i : Nat) (w : World) :
    (move_to_tmp i w).array = w.array.set i black := by
  unfold move_to_tmp
  rw [(steady_Item_OnAccess _ _ _ _).array]
  rfl

/-- C25: the exchange `tmp <- move(A[i]); A[i] <- move(A[j]); A[j] <- move(tmp)`
of two elements of the buffer leaves `A[i]` with the old raw value of `A[j]` and
`A[j]` with the old raw value of `A[i]`, keeps the length and every other
element, and leaves the sentinel in neither element unless it was the old
value of the other one, although the first move leaves the sentinel in
`A[i]`.  With `i = j` the element keeps its value, whereas a move assignment
of an element to itself alone leaves the sentinel in it. -/
theorem swap_exchanges (w : World) (i j : Nat) (hi : i < w.array.length)
    (hj : j < w.array.length) :
    (swap i j w).array.length = w.array.length ∧
      peek i (swap i j w) = peek j w ∧ peek j (swap i j w) = peek i w ∧
      (∀ t, t ≠ i → t ≠ j → peek t (swap i j w) = peek t w) ∧
      (peek j w ≠ black → peek i (swap i j w) ≠ black) ∧
      (peek i w ≠ black → peek j (swap i j w) ≠ black) ∧
      peek i (move_to_tmp i w) = black ∧
      (swap i i w).array = w.array ∧
      peek i (move_assign i i w) = black := by
  have hl : (swap i j w).array.length = w.array.length := by
    rw [(swap_fields i j w).2, swap_list_length]
  have hx : peek i (swap i j w) = peek j w ∧ peek j (swap i j w) = peek i w ∧
      ∀ t, t ≠ i → t ≠ j → peek t (swap i j w) = peek t w := by
    unfold peek
    rw [(swap_fields i j w).2]
    by_cases hij : i = j
    · subst hij
      rw [swap_list_self _ _ hi]
      exact ⟨rfl, rfl, fun _ _ _ => rfl⟩
    · exact swap_list_getD w.array i j hi hj hij
  refine ⟨hl, hx.1, hx.2.1, hx.2.2, ?_, ?_, ?_, ?_, ?_⟩
  · rw [hx.1]
    exact id
  · rw [hx.2.1]
    exact id
  · unfold peek
    rw [move_to_tmp_array, getD_set_self _ _ _ hi]
  · rw [(swap_fields i i w).2, swap_list_self _ _ hi]
  · unfold peek
    rw [move_assign_array, getD_set_self _ _ _ (by simpa using hi)]

/-- Witness of C25 on the example buffer `[3, 1, 4, 0, 2, 6, 5, 7]`: the
exchange of the elements 0 and 3 leaves `[0, 1, 4, 3, 2, 6, 5, 7]`. -/
theorem swap_exchanges_witness :
    (0 < exDirectIdle.array.length ∧ 3 < exDirectIdle.array.length) ∧
      peek 0 (swap 0 3 exDirectIdle) = peek 3 exDirectIdle ∧
      (swap 0 3 exDirectIdle).array = [0, 1, 4, 3, 2, 6, 5, 7] ∧
      peek 0 (move_assign 0 0 exDirectIdle) = black :=
  ⟨⟨by decide, by decide⟩,
    (swap_exchanges exDirectIdle 0 3 (by decide) (by decide)).2.1, by decide,
    (swap_exchanges exDirectIdle 0 0 (by decide) (by decide)).2.2.2.2.2.2.2.2⟩


/-! ## The active intensity -/

/-- C24 as stated fails: at the default `intensity_flash_high = 2` and the
device intensity 64, `flash_high` paints with intensity `64 * 2 / 100 = 1`,
below the normal intensity 64 that `flash_low` paints with. -/
theorem intensity_high_default_counterexample :
    exDirectIdle.intensity_flash_high = 2 ∧ exDirectIdle.intensity = 64 ∧
      intensity_high exDirectIdle = 1 ∧
      (flash_high 0 exDirectIdle).trace.head? =
        some (Ev.setPixel Level.high 0 (Color.hsvWhite 576 255 1 1)) ∧
      (flash_low 0 exDirectIdle).trace.head? =
        some (Ev.setPixel Level.low 0 (Color.hsv 576 255 64)) ∧
      ¬ exDirectIdle.intensity ≤ intensity_high exDirectIdle := by
  decide

/-- C24, amended: `flash_high` paints with the intensity
`min(255, s * intensity_flash_high / 100)`, where `s` is the device intensity
that `flash_low` paints with.  For every `s` in `0..255` and every value of
the 32-bit setting `intensity_flash_high` it never exceeds 255; it is at least
`s` when `intensity_flash_high ≥ 100`, and it is below `s` when
`intensity_flash_high < 100` (as for the default value 2) and `s ≥ 1`. -/
theorem intensity_high_bounds (w : World) (i : Nat) (hs : w.intensity ≤ 255)
    (hf : w.intensity_flash_high < 2 ^ 32) :
    flash_high i w = strip_setPixel Level.high i (high_color i w) w ∧
      flash_low i w = strip_setPixel Level.low i (low_color i w) w ∧
      intensity_high w = min 255 (w.intensity * w.intensity_flash_high / 100) ∧
      intensity_high w ≤ 255 ∧
      (100 ≤ w.intensity_flash_high → w.intensity ≤ intensity_high w) ∧
      (w.intensity_flash_high < 100 → 1 ≤ w.intensity → intensity_high w < w.intensity) := by
  have hm : w.intensity * w.intensity_flash_high < SIZE_MOD := by
    have : w.intensity * w.intensity_flash_high ≤ 255 * 2 ^ 32 :=
      Nat.mul_le_mul hs (Nat.le_of_lt hf)
    unfold SIZE_MOD
    omega
  have hv : intensity_high w = min 255 (w.intensity * w.intensity_flash_high / 100) := by
    unfold intensity_high
    rw [Nat.mod_eq_of_lt hm]
    split <;> omega
  refine ⟨flash_high_eq i w, flash_low_eq i w, hv, ?_, ?_, ?_⟩
  · rw [hv]
    omega
  · intro h
    rw [hv]
    have : w.intensity * 100 ≤ w.intensity * w.intensity_flash_high := Nat.mul_le_mul_left _ h
    omega
  · intro h h1
    rw [hv]
    have : w.intensity * w.intensity_flash_high ≤ w.intensity * 99 :=
      Nat.mul_le_mul_left _ (by omega)
    omega

/-- Witness of the amended C24: at `intensity_flash_high = 150` and the device
intensity 64 the active intensity is 96. -/
theorem intensity_high_bounds_witness :
    ({ exDirectIdle with intensity_flash_high := 150 }.intensity ≤ 255 ∧
        { exDirectIdle with intensity_flash_high := 150 }.intensity_flash_high < 2 ^ 32) ∧
      intensity_high { exDirectIdle with intensity_flash_high := 150 } = 96 ∧
      { exDirectIdle with intensity_flash_high := 150 }.intensity ≤
        intensity_high { exDirectIdle with intensity_flash_high := 150 } :=
  ⟨⟨by decide, by decide⟩, by decide,
    (intensity_high_bounds { exDirectIdle with intensity_flash_high := 150 } 0 (by decide)
      (by decide)).2.2.2.2.1 (by decide)⟩


/-! ## The time slept by a pacing step -/

theorem slept_us_append (a b : List Ev) : slept_us (a ++ b) = slept_us a + slept_us b := by
  induction a with
  | nil => simp [slept_us]
  | cons e a ih =>
    have h : ∀ t, slept_us (e :: t) = slept_us [e] + slept_us t := by
      intro t
      cases e <;> simp [slept_us]
    rw [List.cons_append, h, ih, h a]
    omega

theorem Sleeps.total {w v : World} {n : Nat} (h : Sleeps w v n) :
    slept_us v.trace = slept_us w.trace + n := by
  obtain ⟨es, h1, h2, -⟩ := h
  rw [h1, slept_us_append, h2]
  omega

theorem sleeps_refl (w : World) : Sleeps w w 0 :=
  ⟨[], rfl, rfl, fun _ h => absurd h (List.not_mem_nil _)⟩

theorem Sleeps.after {a b c : World} {n m : Nat} (h1 : Sleeps a b n) (h2 : Sleeps b c m) :
    Sleeps a c (n + m) := by
  obtain ⟨e1, t1, s1, b1⟩ := h1
  obtain ⟨e2, t2, s2, b2⟩ := h2
  refine ⟨e2 ++ e1, ?_, ?_, ?_⟩
  · rw [t2, t1, List.append_assoc]
  · rw [slept_us_append, s1, s2]
    omega
  · intro us hus
    rcases List.mem_append.mp hus with h | h
    · exact b2 us h
    · exact b1 us h

theorem sleeps_of_trace_eq {w v : World} (h : v.trace = w.trace) : Sleeps w v 0 :=
  ⟨[], h, rfl, fun _ h => absurd h (List.not_mem_nil _)⟩

theorem sleeps_delay_micros (us : Nat) (w : World) (h : us ≤ 100000) :
    Sleeps w (delay_micros us w) us := by
  refine ⟨[Ev.delay_micros us], rfl, ?_, ?_⟩
  · simp [slept_us]
  · intro x hx
    simp only [List.mem_singleton, Ev.delay_micros.injEq] at hx
    omega

theorem sleeps_log (e : Ev) (w : World) (he : ∀ us, e ≠ Ev.delay_micros us) :
    Sleeps w (w.log e) 0 := by
  refine ⟨[e], rfl, ?_, ?_⟩
  · cases e <;> first | rfl | exact absurd rfl (he _)
  · intro x hx
    simp only [List.mem_singleton] at hx
    exact absurd hx.symm (he x)

theorem sleeps_flash_low (i : Nat) (w : World) : Sleeps w (flash_low i w) 0 := by
  rw [flash_low_eq]
  exact ⟨[Ev.setPixel Level.low i (low_color i w)], rfl, rfl, by simp⟩

theorem sleeps_foldl {α : Type} (f : World → α → World) (hf : ∀ w a, Sleeps w (f w a) 0)
    (l : List α) : ∀ w, Sleeps w (l.foldl f w) 0 := by
  induction l with
  | nil => exact fun w => sleeps_refl w
  | cons a l ih => exact fun w => (hf w a).after (ih (f w a))

theorem sleeps_repaint_all (w : World) : Sleeps w (repaint_all w) 0 :=
  sleeps_foldl _ (fun w i => sleeps_flash_low i w) _ w

theorem sleeps_intensity_check (w : World) : Sleeps w (intensity_check w) 0 := by
  unfold intensity_check
  split
  · exact (sleeps_of_trace_eq rfl).after (sleeps_repaint_all _)
  · exact sleeps_refl w

theorem sleeps_call_DelayHook (w : World) : Sleeps w (call_DelayHook w) 0 := by
  unfold call_DelayHook
  split
  · exact sleeps_log _ w (fun _ h => Ev.noConfusion h)
  · exact sleeps_refl w

/-- The loop of `yield_delay(int32_t)` sleeps what it takes off `remain`. -/
theorem sleeps_yield_delay_loop (fuel : Nat) : ∀ (remain : Nat) (w : World),
    ∃ n, Sleeps w (yield_delay_loop fuel remain w).2 n ∧
      n + (yield_delay_loop fuel remain w).1 = remain := by
  induction fuel with
  | zero => exact fun remain w => ⟨0, sleeps_refl w, by simp [yield_delay_loop]⟩
  | succ fuel ih =>
    intro remain w
    unfold yield_delay_loop
    split
    · obtain ⟨n, h1, h2⟩ := ih (remain - 100000) (delay_micros 100000 w)
      exact ⟨100000 + n, (sleeps_delay_micros 100000 w (Nat.le_refl _)).after h1, by omega⟩
    · exact ⟨0, sleeps_refl w, by simp⟩

theorem sleeps_sleep_for (d : Int) (w : World) :
    Sleeps w (sleep_for d w) d.toNat := by
  unfold sleep_for
  split
  · obtain ⟨n, h1, h2⟩ := sleeps_yield_delay_loop (d.toNat / 100000) d.toNat w
    have hx := yield_delay_loop_exit (d.toNat / 100000) d.toNat w (Nat.le_refl _)
    have := h1.after (sleeps_delay_micros _ (yield_delay_loop (d.toNat / 100000) d.toNat w).2 hx)
    rw [h2] at this
    exact this
  · have : d.toNat = 0 := by omega
    rw [this]
    exact sleeps_refl w

theorem sleeps_yield_delay_us (d : Int) (w : World) :
    Sleeps w (yield_delay_us d w) d.toNat := by
  unfold yield_delay_us
  exact ((sleeps_sleep_for d w).after (sleeps_call_DelayHook _)).after (sleeps_intensity_check _)

theorem sleeps_log_yield (w : World) : Sleeps w (w.log Ev.yield) 0 :=
  sleeps_log _ w (fun _ h => Ev.noConfusion h)

/-- C23: `yield_delay(d)` sleeps exactly `d` microseconds in total for `d > 0`
and nothing for `d ≤ 0`.  One pacing step `yield_delay()` sleeps
`D * g_delay_factor / 1000` microseconds in total when `D ≥ 0` and this
quotient fits the 32-bit signed parameter of `yield_delay(d)`, and nothing when
`D < 0`.  Every `delay_micros` call made is for at most 100000 microseconds.
A quotient from `2^31` up to `2^32 - 1` is passed on as a negative number,
and the step then does not sleep. -/
theorem yield_delay_sleeps (w : World) (d : Int) :
    (0 < d → Sleeps w (yield_delay_us d w) d.toNat ∧
      slept_us (yield_delay_us d w).trace = slept_us w.trace + d.toNat) ∧
    (d ≤ 0 → Sleeps w (yield_delay_us d w) 0 ∧
      slept_us (yield_delay_us d w).trace = slept_us w.trace) ∧
    (0 ≤ w.delay_time_ → w.delay_time_.toNat * w.g_delay_factor / 1000 < 2 ^ 31 →
      Sleeps w (yield_delay w) (w.delay_time_.toNat * w.g_delay_factor / 1000) ∧
      slept_us (yield_delay w).trace =
        slept_us w.trace + w.delay_time_.toNat * w.g_delay_factor / 1000) ∧
    (w.delay_time_ < 0 → Sleeps w (yield_delay w) 0 ∧
      slept_us (yield_delay w).trace = slept_us w.trace) ∧
    (0 ≤ w.delay_time_ → 2 ^ 31 ≤ w.delay_time_.toNat * w.g_delay_factor / 1000 →
      w.delay_time_.toNat * w.g_delay_factor / 1000 < 2 ^ 32 →
      slept_us (yield_delay w).trace = slept_us w.trace) := by
  have key : ∀ (x : Int) (v : World), x ≤ 0 → Sleeps v (yield_delay_us x v) 0 := by
    intro x v hx
    have h := sleeps_yield_delay_us x v
    rw [show x.toNat = 0 by omega] at h
    exact h
  refine ⟨fun _ => ⟨sleeps_yield_delay_us d w, (sleeps_yield_delay_us d w).total⟩,
    fun h => ⟨key d w h, (key d w h).total⟩, ?_, ?_, ?_⟩
  · intro h0 hq
    have hm : w.delay_time_.toNat * w.g_delay_factor < SIZE_MOD := by
      unfold SIZE_MOD
      omega
    have hv : toInt32 ((w.delay_time_.toNat * w.g_delay_factor) % SIZE_MOD / 1000) =
        ((w.delay_time_.toNat * w.g_delay_factor / 1000 : Nat) : Int) := by
      rw [Nat.mod_eq_of_lt hm]
      unfold toInt32
      rw [Nat.mod_eq_of_lt (by omega), if_pos hq]
    have hs : Sleeps w (yield_delay w) (w.delay_time_.toNat * w.g_delay_factor / 1000) := by
      unfold yield_delay
      rw [if_neg (by omega), hv]
      have := (sleeps_log_yield w).after (sleeps_yield_delay_us
        ((w.delay_time_.toNat * w.g_delay_factor / 1000 : Nat) : Int) (w.log Ev.yield))
      rw [Int.toNat_ofNat, Nat.zero_add] at this
      exact this
    exact ⟨hs, hs.total⟩
  · intro hneg
    have hs : Sleeps w (yield_delay w) 0 := by
      unfold yield_delay
      rw [if_pos hneg]
      exact (sleeps_log_yield w).after (key _ _ (by omega))
    exact ⟨hs, hs.total⟩
  · intro h0 h1 h2
    have hm : w.delay_time_.toNat * w.g_delay_factor < SIZE_MOD := by
      unfold SIZE_MOD
      omega
    have hv : toInt32 ((w.delay_time_.toNat * w.g_delay_factor) % SIZE_MOD / 1000) ≤ 0 := by
      rw [Nat.mod_eq_of_lt hm]
      unfold toInt32
      rw [Nat.mod_eq_of_lt (by omega), if_neg (by omega)]
      omega
    have hs : Sleeps w (yield_delay w) 0 := by
      unfold yield_delay
      rw [if_neg (by omega)]
      exact (sleeps_log_yield w).after (key _ _ hv)
    exact hs.total


/-- Witness of C23: `yield_delay(250000)` sleeps 250000 microseconds, as the
calls `delay_micros(100000)`, `delay_micros(100000)`, `delay_micros(50000)`;
a pacing step with `D = 1000` and the factor 1000 sleeps 1000 microseconds; a
pacing step with `D = -4` does not sleep. -/
theorem yield_delay_sleeps_witness :
    ((0 : Int) < 250000 ∧
      slept_us (yield_delay_us 250000 exDirectIdle).trace =
        slept_us exDirectIdle.trace + (250000 : Int).toNat ∧
      (yield_delay_us 250000 exDirectIdle).trace.take 3 =
        [Ev.delay_micros 50000, Ev.delay_micros 100000, Ev.delay_micros 100000]) ∧
    ((0 ≤ (exPaced 1000 (fun _ => 0)).delay_time_ ∧
        (exPaced 1000 (fun _ => 0)).delay_time_.toNat *
          (exPaced 1000 (fun _ => 0)).g_delay_factor / 1000 < 2 ^ 31) ∧
      slept_us (yield_delay (exPaced 1000 (fun _ => 0))).trace =
        slept_us (exPaced 1000 (fun _ => 0)).trace +
          (exPaced 1000 (fun _ => 0)).delay_time_.toNat *
            (exPaced 1000 (fun _ => 0)).g_delay_factor / 1000) ∧
    (exDrop4.delay_time_ < 0 ∧
      slept_us (yield_delay exDrop4).trace = slept_us exDrop4.trace) :=
  ⟨⟨by decide, ((yield_delay_sleeps exDirectIdle 250000).1 (by decide)).2, by decide⟩,
    ⟨⟨by decide, by decide⟩,
      ((yield_delay_sleeps (exPaced 1000 (fun _ => 0)) 0).2.2.1 (by decide) (by decide)).2⟩,
    ⟨by decide, ((yield_delay_sleeps exDrop4 0).2.2.2.1 (by decide)).2⟩⟩


/-! ## The setup shuffle leaves a permutation -/

theorem store_rand (a : Int) (v : Nat) (w : World) :
    (store a v w).rand_stream = w.rand_stream ∧ (store a v w).rand_calls = w.rand_calls := by
  unfold store
  split <;> exact ⟨rfl, rfl⟩

theorem SetNoDelay_data (k d : Nat) (w : World) :
    (Item.SetNoDelay (k : Nat) d w).array = w.array.set k (toU16 d) ∧
      (Item.SetNoDelay (k : Nat) d w).rand_stream = w.rand_stream ∧
      (Item.SetNoDelay (k : Nat) d w).rand_calls = w.rand_calls := by
  unfold Item.SetNoDelay
  have h := steady_Item_OnAccess (k : Nat) (toU16 d) false (store (k : Nat) (toU16 d) w)
  exact ⟨h.array.trans (store_nat_array k _ w), h.rand_stream.trans (store_rand _ _ w).1,
    h.rand_calls.trans (store_rand _ _ w).2⟩

theorem SetNoDelay_item_data (k v : Nat) (w : World) :
    (Item.SetNoDelay_item (k : Nat) v w).array = w.array.set k v ∧
      (Item.SetNoDelay_item (k : Nat) v w).rand_stream = w.rand_stream ∧
      (Item.SetNoDelay_item (k : Nat) v w).rand_calls = w.rand_calls := by
  unfold Item.SetNoDelay_item
  have h := steady_Item_OnAccess (k : Nat) v false (store (k : Nat) v w)
  exact ⟨h.array.trans (store_nat_array k _ w), h.rand_stream.trans (store_rand _ _ w).1,
    h.rand_calls.trans (store_rand _ _ w).2⟩

theorem SetNoDelay_item_stack (v : Nat) (w : World) :
    (Item.SetNoDelay_item stackItem v w).array = w.array ∧
      (Item.SetNoDelay_item stackItem v w).rand_stream = w.rand_stream ∧
      (Item.SetNoDelay_item stackItem v w).rand_calls = w.rand_calls := by
  unfold Item.SetNoDelay_item
  rw [store_stackItem]
  have h := steady_Item_OnAccess stackItem v false w
  exact ⟨h.array, h.rand_stream, h.rand_calls⟩

/-- What `SwapNoDelay` does to the buffer values: two stores. -/
theorem SwapNoDelay_data (i j : Nat) (w : World) :
    (Item.SwapNoDelay i j w).array = (w.array.set j (w.array.getD i 0)).set i (w.array.getD j 0) ∧
      (Item.SwapNoDelay i j w).rand_stream = w.rand_stream ∧
      (Item.SwapNoDelay i j w).rand_calls = w.rand_calls := by
  unfold Item.SwapNoDelay
  obtain ⟨a1, a2, a3⟩ := SetNoDelay_item_stack (peek j w) w
  obtain ⟨b1, b2, b3⟩ := SetNoDelay_item_data j
    (peek i (Item.SetNoDelay_item stackItem (peek j w) w))
    (Item.SetNoDelay_item stackItem (peek j w) w)
  obtain ⟨c1, c2, c3⟩ := SetNoDelay_item_data i (peek j w)
    (Item.SetNoDelay_item (j : Nat) (peek i (Item.SetNoDelay_item stackItem (peek j w) w))
      (Item.SetNoDelay_item stackItem (peek j w) w))
  refine ⟨?_, c2.trans (b2.trans a2), c3.trans (b3.trans a3)⟩
  rw [c1, b1, a1]
  unfold peek at a1 ⊢
  rw [a1]

/-- Exchanging two elements by two stores permutes the list. -/
theorem exchange_perm (A : List Nat) (i j : Nat) (hi : i < A.length) (hj : j < A.length) :
    ((A.set j (A.getD i 0)).set i (A.getD j 0)).Perm A := by
  have hl : ((A.set j (A.getD i 0)).set i (A.getD j 0)).length = A.length := by simp
  rcases Nat.lt_trichotomy i j with h | h | h
  · have e : (A.set j (A.getD i 0)).set i (A.getD j 0) = swap_list A i j := by
      apply list_eq_of_getD (by rw [hl, swap_list_length])
      intro k _
      obtain ⟨s1, s2, s3⟩ := swap_list_getD A i j hi hj (by omega)
      by_cases hki : k = i
      · subst hki
        rw [s1, getD_set_self _ _ _ (by simpa using hi)]
      · by_cases hkj : k = j
        · subst hkj
          rw [s2, getD_set_other _ _ _ _ (fun e => hki e.symm), getD_set_self _ _ _ hj]
        · rw [s3 k hki hkj, getD_set_other _ _ _ _ (fun e => hki e.symm),
            getD_set_other _ _ _ _ (fun e => hkj e.symm)]
    rw [e]
    exact swap_list_perm A i j h hj
  · subst h
    have e : (A.set i (A.getD i 0)).set i (A.getD i 0) = A := by
      apply list_eq_of_getD hl
      intro k _
      by_cases hki : k = i
      · subst hki
        rw [getD_set_self _ _ _ (by simpa using hi)]
      · rw [getD_set_other _ _ _ _ (fun e => hki e.symm),
          getD_set_other _ _ _ _ (fun e => hki e.symm)]
    rw [e]
  · have e : (A.set j (A.getD i 0)).set i (A.getD j 0) = swap_list A j i := by
      apply list_eq_of_getD (by rw [hl, swap_list_length])
      intro k _
      obtain ⟨s1, s2, s3⟩ := swap_list_getD A j i hj hi (by omega)
      by_cases hki : k = i
      · subst hki
        rw [s2, getD_set_self _ _ _ (by simpa using hi)]
      · by_cases hkj : k = j
        · subst hkj
          rw [s1, getD_set_other _ _ _ _ (fun e => hki e.symm), getD_set_self _ _ _ hj]
        · rw [s3 k hkj hki, getD_set_other _ _ _ _ (fun e => hki e.symm),
            getD_set_other _ _ _ _ (fun e => hkj e.symm)]
    rw [e]
    exact swap_list_perm A j i h hi

/-- The first loop writes `i` into `array[i]`. -/
theorem array_randomize_fill_spec (c : Nat) : ∀ (i : Nat) (w : World) (Q : List Nat),
    w.array = List.range i ++ Q → Q.length = c → i + c ≤ 65536 →
    (array_randomize_fill c i w).array = List.range (i + c) ∧
      (array_randomize_fill c i w).rand_stream = w.rand_stream ∧
      (array_randomize_fill c i w).rand_calls = w.rand_calls := by
  induction c with
  | zero =>
    intro i w Q hA hQ _
    rw [List.length_eq_zero.mp hQ, List.append_nil] at hA
    exact ⟨hA, rfl, rfl⟩
  | succ c ih =>
    intro i w Q hA hQ hb
    unfold array_randomize_fill
    obtain ⟨d1, d2, d3⟩ := SetNoDelay_data i i w
    cases Q with
    | nil => simp at hQ
    | cons x Q =>
      have hQ1 : Q.length = c := by simpa using hQ
      have hA1 : (Item.SetNoDelay (i : Nat) i w).array = List.range (i + 1) ++ Q := by
        rw [d1, hA, set_at _ _ _ _ _ (List.length_range i), toU16_small (by omega),
          List.range_succ, List.append_assoc]
        rfl
      obtain ⟨r1, r2, r3⟩ := ih (i + 1) (Item.SetNoDelay (i : Nat) i w) Q hA1 hQ1 (by omega)
      refine ⟨?_, r2.trans d2, r3.trans d3⟩
      rw [r1]
      congr 1
      omega

/-- The second loop keeps the buffer a permutation of what it was, as long as
every draw is a position of the buffer. -/
theorem array_randomize_shuffle_spec (c : Nat) : ∀ (i : Nat) (w : World),
    i + c ≤ w.array.length →
    (∀ k, k < c → w.rand_stream (w.rand_calls + k) < w.array.length) →
    (array_randomize_shuffle c i w).array.Perm w.array := by
  induction c with
  | zero => exact fun i w _ _ => List.Perm.refl _
  | succ c ih =>
    intro i w hb hd
    unfold array_randomize_shuffle
    have hj : w.rand_stream w.rand_calls < w.array.length := hd 0 (by omega)
    obtain ⟨s1, s2, s3⟩ := SwapNoDelay_data i (random w).1 (random w).2
    have hs : (array_randomize_step i w).array =
        (w.array.set (w.rand_stream w.rand_calls) (w.array.getD i 0)).set i
          (w.array.getD (w.rand_stream w.rand_calls) 0) := s1
    have hp : (array_randomize_step i w).array.Perm w.array := by
      rw [hs]
      exact exchange_perm w.array i _ (by omega) hj
    have hr1 : (array_randomize_step i w).rand_stream = w.rand_stream := s2
    have hr2 : (array_randomize_step i w).rand_calls = w.rand_calls + 1 := s3
    refine (ih (i + 1) (array_randomize_step i w) ?_ ?_).trans hp
    · rw [hp.length_eq]
      omega
    · intro k hk
      rw [hr1, hr2, hp.length_eq, show w.rand_calls + 1 + k = w.rand_calls + (k + 1) by omega]
      exact hd (k + 1) (by omega)

/-- C22: for a buffer of `N ≤ 65535` elements and `N` draws that are all in
`0..N-1` (a draw may equal the position it is exchanged with),
`array_randomize` leaves a permutation of `0..N-1`: the buffer still has `N`
elements, every value of `0..N-1` occurs exactly once, and no element holds
the sentinel. -/
theorem array_randomize_permutation (w : World) (N : Nat) (hN : w.array.length = N)
    (hb : N ≤ 65535) (hd : ∀ k, k < N → w.rand_stream (w.rand_calls + k) < N) :
    (array_randomize w).array.Perm (List.range N) ∧
      (array_randomize w).array.length = N ∧
      (∀ v, v < N → (array_randomize w).array.count v = 1) ∧
      black ∉ (array_randomize w).array := by
  have hf := array_randomize_fill_spec N 0 w w.array (by simp) hN (by omega)
  rw [Nat.zero_add] at hf
  obtain ⟨f1, f2, f3⟩ := hf
  have hp : (array_randomize w).array.Perm (List.range N) := by
    unfold array_randomize World.array_size
    rw [hN]
    have h := array_randomize_shuffle_spec N 0 (array_randomize_fill N 0 w)
      (by rw [f1, List.length_range]; omega)
      (by
        intro k hk
        rw [f1, f2, f3, List.length_range]
        exact hd k hk)
    rw [f1] at h
    exact h
  refine ⟨hp, ?_, ?_, ?_⟩
  · rw [hp.length_eq, List.length_range]
  · intro v hv
    rw [hp.count_eq]
    exact List.count_eq_one_of_mem (List.nodup_range N) (List.mem_range.mpr hv)
  · intro hm
    have := List.mem_range.mp (hp.subset hm)
    unfold black at this
    omega

/-- Witness of C22: eight draws `2, 2, 7, 0, 4, 1, 1, 3`, one of them (the
fifth) equal to the position it is exchanged with. -/
theorem array_randomize_permutation_witness :
    ((exPaced 0 (fun k => [2, 2, 7, 0, 4, 1, 1, 3].getD k 0)).array.length = 8 ∧
        ∀ k, k < 8 → (exPaced 0 (fun k => [2, 2, 7, 0, 4, 1, 1, 3].getD k 0)).rand_stream
          ((exPaced 0 (fun k => [2, 2, 7, 0, 4, 1, 1, 3].getD k 0)).rand_calls + k) < 8) ∧
      (array_randomize (exPaced 0 (fun k => [2, 2, 7, 0, 4, 1, 1, 3].getD k 0))).array.Perm
        (List.range 8) :=
  ⟨⟨by decide, by decide⟩,
    (array_randomize_permutation (exPaced 0 (fun k => [2, 2, 7, 0, 4, 1, 1, 3].getD k 0)) 8
      (by decide) (by decide) (by decide)).1⟩


/-! ## The bounds of the ring -/

theorem RingOK.bounds {k : Nat} {w : World} (h : RingOK k w) : RingBounds k w :=
  ⟨h.drop, h.pos_k, h.pos, h.fits, h.slots⟩

/-- The ring bounds only depend on `frame_drop_`, the counter and the slots. -/
theorem RingBounds.congr {k : Nat} {w v : World} (h : RingBounds k w)
    (hd : v.frame_drop_ = w.frame_drop_) (hp : v.frame_buffer_pos_ = w.frame_buffer_pos_)
    (hb : v.frame_buffer_ = w.frame_buffer_) : RingBounds k v :=
  ⟨hd.trans h.drop, h.pos_k, by rw [hp]; exact h.pos, h.fits, by rw [hb]; exact h.slots⟩

theorem Quiet.ringBounds {k : Nat} {w v : World} (h : Quiet w v) (hr : RingBounds k w) :
    RingBounds k v :=
  hr.congr h.frame.frame_drop_ h.frame_buffer_pos_ h.frame_buffer_

theorem ringBounds_flash_high {k i : Nat} {w : World} (h : RingBounds k w) :
    RingBounds k (flash_high i w) :=
  h.congr (frame_flash_high i w).frame_drop_ (ring_flash_high i w).2 (ring_flash_high i w).1

theorem ringBounds_flash_low {k i : Nat} {w : World} (h : RingBounds k w) :
    RingBounds k (flash_low i w) :=
  (quiet_flash_low i w).ringBounds h

theorem flash_low_buffer_flush (i : Nat) {w : World} (hp : w.frame_buffer_pos_ = 0) :
    flash_low_buffer i w =
      yield_delay (ring_reset (restore_ring (show_unless_busy (ring_store i w)))) := by
  unfold flash_low_buffer
  rw [if_pos hp]

theorem flash_low_buffer_store (i : Nat) {w : World} (hp : w.frame_buffer_pos_ ≠ 0) :
    flash_low_buffer i w = ring_dec (ring_store i w) := by
  unfold flash_low_buffer
  rw [if_neg hp]

theorem ringBounds_flash_low_buffer {k i : Nat} {w : World} (h : RingBounds k w) :
    RingBounds k (flash_low_buffer i w) := by
  have hf := frame_flash_low_buffer i w
  by_cases hp : w.frame_buffer_pos_ = 0
  · obtain ⟨e1, e2, -⟩ := flush_branch_fields i w h.drop h.pos_k h.fits
    rw [← flash_low_buffer_flush i hp] at e1 e2
    refine ⟨hf.frame_drop_.trans h.drop, h.pos_k, ?_, h.fits, ?_⟩
    · rw [e1]
      have := h.pos_k
      omega
    · rw [e2, List.length_set]
      exact h.slots
  · rw [flash_low_buffer_store i hp]
    refine ⟨h.drop, h.pos_k, ?_, h.fits, ?_⟩
    · show w.frame_buffer_pos_ - 1 < k
      have := h.pos
      omega
    · show (w.frame_buffer_.set w.frame_buffer_pos_ i).length = 256
      rw [List.length_set]
      exact h.slots

theorem ringBounds_pflush {k : Nat} {w : World} (h : RingBounds k w) :
    RingBounds k (pflush w) := by
  have hpos : (pflush w).frame_buffer_pos_ = k - 1 := by
    unfold pflush
    show (yield_delay (ring_reset (restore_ring w))).frame_buffer_pos_ = k - 1
    rw [(ring_yield_delay _).2]
    exact ring_reset_pos _ ((quiet_restore_ring w).frame.frame_drop_.trans h.drop) h.pos_k h.fits
  refine ⟨(frame_pflush w).frame_drop_.trans h.drop, h.pos_k, ?_, h.fits, ?_⟩
  · rw [hpos]
    have := h.pos_k
    omega
  · rw [ring_pflush]
    exact h.slots

theorem flash_eq_of_drop (i : Nat) {w : World} (h : w.frame_drop_ ≠ 0) :
    flash i true w = flash_low_buffer i (flash_high i w) := by
  unfold flash
  simp [h]

theorem flash2_eq_of_drop (i j : Nat) {w : World} (h : w.frame_drop_ ≠ 0) :
    flash2 i j true w =
      flash_low_buffer i (flash_low_buffer j (flash_high j (flash_high i w))) := by
  unfold flash2
  simp [h]

theorem RingBounds.drop_ne {k : Nat} {w : World} (h : RingBounds k w) : w.frame_drop_ ≠ 0 := by
  rw [h.drop]
  have := h.pos_k
  omega

/-- The replay loop reads only slots of the ring, as long as it visits
indices below the number of slots. -/
theorem restore_fold_checked (l : List Nat) : ∀ (w : World),
    (∀ k ∈ l, k < w.frame_buffer_.length) →
    l.foldl (fun acc k => acc.bind (restore_slot_checked k)) (some w) =
      some (l.foldl (fun acc k => restore_slot k acc) w) := by
  induction l with
  | nil => exact fun w _ => rfl
  | cons a l ih =>
    intro w h
    simp only [List.foldl_cons, Option.some_bind]
    unfold restore_slot_checked
    rw [if_pos (h a (List.mem_cons_self _ _))]
    apply ih
    intro k hk
    rw [(quiet_restore_slot a w).frame_buffer_]
    exact h k (List.mem_cons_of_mem _ hk)

theorem restore_ring_checked_eq (w : World) (h : w.frame_drop_ ≤ w.frame_buffer_.length) :
    restore_ring_checked w = some (restore_ring w) := by
  unfold restore_ring_checked restore_ring
  apply restore_fold_checked
  intro k hk
  have := List.mem_range.mp hk
  omega

theorem flash_low_buffer_checked_eq {k : Nat} (i : Nat) {w : World} (h : RingBounds k w) :
    flash_low_buffer_checked i w = some (flash_low_buffer i w) := by
  have hpos : w.frame_buffer_pos_ < w.frame_buffer_.length := by
    rw [h.slots]
    have := h.pos
    have := h.fits
    omega
  unfold flash_low_buffer_checked flash_low_buffer ring_store_checked
  rw [if_pos hpos]
  split
  · simp only [Option.some_bind]
    rw [restore_ring_checked_eq]
    · rfl
    · rw [(frame_show_unless_busy _).frame_drop_, (ring_show_unless_busy _).1]
      show w.frame_drop_ ≤ (w.frame_buffer_.set w.frame_buffer_pos_ i).length
      rw [List.length_set, h.slots, h.drop]
      exact h.fits
  · rfl

theorem pflush_checked_eq {k : Nat} {w : World} (h : RingBounds k w) :
    pflush_checked w = some (pflush w) := by
  unfold pflush_checked pflush
  rw [restore_ring_checked_eq]
  · rfl
  · rw [h.slots, h.drop]
    exact h.fits

/-- One engine call keeps the ring bounds and passes every index check. -/
theorem call_step {k : Nat} (c : EngineCall) {w : World} (h : RingBounds k w) :
    RingBounds k (c.run w) ∧ c.run_checked w = some (c.run w) := by
  cases c with
  | one i d =>
    simp only [EngineCall.run, EngineCall.run_checked]
    cases d with
    | false =>
      have e : flash i false w = flash_low i w := by
        unfold flash
        simp
      rw [e]
      exact ⟨ringBounds_flash_low h, by unfold flash_checked; simp⟩
    | true =>
      rw [flash_eq_of_drop i h.drop_ne]
      refine ⟨ringBounds_flash_low_buffer (ringBounds_flash_high h), ?_⟩
      unfold flash_checked
      rw [if_neg (by simp), if_neg h.drop_ne]
      exact flash_low_buffer_checked_eq i (ringBounds_flash_high h)
  | two i j d =>
    simp only [EngineCall.run, EngineCall.run_checked]
    cases d with
    | false =>
      have e : flash2 i j false w = flash_low j (flash_low i w) := by
        unfold flash2
        simp
      rw [e]
      exact ⟨ringBounds_flash_low (ringBounds_flash_low h), by unfold flash2_checked; simp⟩
    | true =>
      rw [flash2_eq_of_drop i j h.drop_ne]
      have h1 : RingBounds k (flash_high j (flash_high i w)) :=
        ringBounds_flash_high (ringBounds_flash_high h)
      have h2 := ringBounds_flash_low_buffer (i := j) h1
      refine ⟨ringBounds_flash_low_buffer h2, ?_⟩
      unfold flash2_checked
      rw [if_neg (by simp), if_neg h.drop_ne, flash_low_buffer_checked_eq j h1, Option.some_bind]
      exact flash_low_buffer_checked_eq i h2
  | flush =>
    simp only [EngineCall.run, EngineCall.run_checked]
    exact ⟨ringBounds_pflush h, pflush_checked_eq h⟩

theorem run_calls_bounds {k : Nat} (cs : List EngineCall) : ∀ (w : World), RingBounds k w →
    RingBounds k (run_calls cs w) ∧ run_calls_checked cs w = some (run_calls cs w) := by
  induction cs with
  | nil => exact fun w h => ⟨h, rfl⟩
  | cons c cs ih =>
    intro w h
    obtain ⟨h1, e1⟩ := call_step c h
    obtain ⟨h2, e2⟩ := ih (c.run w) h1
    refine ⟨h2, ?_⟩
    unfold run_calls_checked at e2 ⊢
    rw [List.foldl_cons, Option.some_bind, e1]
    exact e2

/-- With `D = -257` the first ring record writes the slot 256, outside the
ring. -/
theorem ring_overflow_example :
    (set_delay_time (-257) (initWorld exBuffer (fun _ => false))).frame_buffer_pos_ = 256 ∧
      (run_calls_checked [EngineCall.one 0 true]
        (set_delay_time (-257) (initWorld exBuffer (fun _ => false)))).isSome = false := by
  have hl : (set_delay_time (-257) (initWorld exBuffer (fun _ => false))).frame_buffer_.length
      = 256 := by
    have : (set_delay_time (-257) (initWorld exBuffer (fun _ => false))).frame_buffer_ =
        (pflush (initWorld exBuffer (fun _ => false))).frame_buffer_ := rfl
    rw [this, ring_pflush, initWorld_slots]
  have hp : (set_delay_time (-257) (initWorld exBuffer (fun _ => false))).frame_buffer_pos_
      = 256 := by
    show ((-(-257 : Int)).toNat % SIZE_MOD + SIZE_MOD - 1) % SIZE_MOD = 256
    decide
  have hd : (set_delay_time (-257) (initWorld exBuffer (fun _ => false))).frame_drop_ = 257 := by
    show (-(-257 : Int)).toNat % SIZE_MOD = 257
    decide
  refine ⟨hp, ?_⟩
  generalize set_delay_time (-257) (initWorld exBuffer (fun _ => false)) = v at hl hp hd
  unfold run_calls_checked
  rw [List.foldl_cons, List.foldl_nil, Option.some_bind]
  simp only [EngineCall.run_checked]
  unfold flash_checked
  rw [if_neg (by simp), if_neg (by rw [hd]; decide)]
  unfold flash_low_buffer_checked ring_store_checked
  rw [(ring_flash_high 0 v).2, (ring_flash_high 0 v).1, hp, hl]
  rfl

/-- C26: for every delay `D` with `-256 ≤ D ≤ -1`, in every state reached from
`set_delay_time(D)` by a sequence of one-position flashes, two-position
flashes and `pflush` calls, `frame_drop_ = -D` and
`frame_buffer_pos_ < frame_drop_ ≤ 256`, the ring having 256 slots; the same
holds between the two ring records of a two-position flash.  Every write
`frame_buffer_[frame_buffer_pos_]` and every read `frame_buffer_[k]` of the
sequence uses an index inside the ring: the run with checked indices does not
fail.  With `D = -257` the first ring record fails this check. -/
theorem ring_bounds_reachable (D : Int) (w : World) (cs : List EngineCall)
    (hD1 : -256 ≤ D) (hD2 : D ≤ -1) (hs : w.frame_buffer_.length = 256) :
    ((run_calls cs (set_delay_time D w)).frame_drop_ : Int) = -D ∧
      (run_calls cs (set_delay_time D w)).frame_buffer_pos_ <
        (run_calls cs (set_delay_time D w)).frame_drop_ ∧
      (run_calls cs (set_delay_time D w)).frame_drop_ ≤ 256 ∧
      (run_calls cs (set_delay_time D w)).frame_buffer_.length = 256 ∧
      run_calls_checked cs (set_delay_time D w) = some (run_calls cs (set_delay_time D w)) ∧
      (∀ i j, RingBounds (-D).toNat
        (flash_low_buffer j (flash_high j (flash_high i (run_calls cs (set_delay_time D w)))))) ∧
      (run_calls_checked [EngineCall.one 0 true]
        (set_delay_time (-257) (initWorld exBuffer (fun _ => false)))).isSome = false := by
  have e : D = -(((-D).toNat : Nat) : Int) := by omega
  have h0 : RingBounds (-D).toNat (set_delay_time D w) := by
    have h := ringOK_set_delay_time (-D).toNat w (by omega) (by omega) hs
    rw [← e] at h
    exact h.bounds
  obtain ⟨h1, h2⟩ := run_calls_bounds cs (set_delay_time D w) h0
  refine ⟨?_, ?_, ?_, h1.slots, h2, ?_, ring_overflow_example.2⟩
  · rw [h1.drop]
    omega
  · rw [h1.drop]
    exact h1.pos
  · rw [h1.drop]
    exact h1.fits
  · intro i j
    exact ringBounds_flash_low_buffer (ringBounds_flash_high (ringBounds_flash_high h1))

/-- Witness of C26: `D = -4`, then a comparison flash, an access flash, a
flush and an unpaced access flash. -/
theorem ring_bounds_reachable_witness :
    (-256 ≤ (-4 : Int) ∧ (-4 : Int) ≤ -1 ∧
        (initWorld exBuffer (fun _ => false)).frame_buffer_.length = 256) ∧
      (run_calls [EngineCall.two 0 1 true, EngineCall.one 2 true, EngineCall.flush,
          EngineCall.one 3 false]
        (set_delay_time (-4) (initWorld exBuffer (fun _ => false)))).frame_buffer_pos_ <
      (run_calls [EngineCall.two 0 1 true, EngineCall.one 2 true, EngineCall.flush,
          EngineCall.one 3 false]
        (set_delay_time (-4) (initWorld exBuffer (fun _ => false)))).frame_drop_ :=
  ⟨⟨by decide, by decide, initWorld_slots _ _⟩,
    (ring_bounds_reachable (-4) (initWorld exBuffer (fun _ => false))
      [EngineCall.two 0 1 true, EngineCall.one 2 true, EngineCall.flush, EngineCall.one 3 false]
      (by decide) (by decide) (initWorld_slots _ _)).2.1⟩


/-! ## The cycle of frame-drop mode -/

theorem run_records_snoc (ps : List Nat) (i : Nat) (w : World) :
    run_records (ps ++ [i]) w = flash_low_buffer i (run_records ps w) := by
  unfold run_records
  rw [List.foldl_append]
  rfl

theorem lastPaint_of_mem (es t : List Ev) (l : Level) (q : Nat) (c : Color)
    (h : Ev.setPixel l q c ∈ es) : lastPaint (es ++ t) q ≠ none := by
  induction es with
  | nil => cases h
  | cons e es ih =>
    rcases List.mem_cons.mp h with h1 | h1
    · subst h1
      simp [lastPaint]
    · cases e with
      | setPixel l2 i2 c2 =>
        simp only [List.cons_append, lastPaint]
        split
        · simp
        · exact ih h1
      | _ => exact ih h1

/-- The replay loop paints every replayed slot position of the buffer at
normal intensity. -/
theorem restore_fold_paints (l : List Nat) : ∀ (w : World) (s : Nat), s ∈ l →
    w.frame_buffer_.getD s 0 < w.array_size →
    ∃ es, (l.foldl (fun acc k => restore_slot k acc) w).trace = es ++ w.trace ∧
      Ev.setPixel Level.low (w.frame_buffer_.getD s 0)
        (low_color (w.frame_buffer_.getD s 0) w) ∈ es := by
  induction l with
  | nil =>
    intro w s hs
    cases hs
  | cons a l ih =>
    intro w s hs hlt
    simp only [List.foldl_cons]
    have hstep := quiet_restore_slot a w
    by_cases hsa : s = a
    · subst hsa
      obtain ⟨es, he⟩ := (quiet_foldl (fun acc k => restore_slot k acc)
        (fun w k => quiet_restore_slot k w) l (restore_slot s w)).grows_of
      have e1 : (restore_slot s w).trace =
          Ev.setPixel Level.low (w.frame_buffer_.getD s 0)
            (low_color (w.frame_buffer_.getD s 0) w) :: w.trace := by
        unfold restore_slot
        rw [if_pos hlt, flash_low_eq]
        rfl
      refine ⟨es ++ [Ev.setPixel Level.low (w.frame_buffer_.getD s 0)
        (low_color (w.frame_buffer_.getD s 0) w)], ?_, by simp⟩
      rw [he, e1, List.append_assoc]
      rfl
    · have hmem : s ∈ l := by
        rcases List.mem_cons.1 hs with h | h
        · exact absurd h hsa
        · exact h
      obtain ⟨es, he, hm⟩ := ih (restore_slot a w) s hmem (by
        rw [hstep.frame_buffer_, hstep.frame.size_eq]
        exact hlt)
      obtain ⟨e1, ht1⟩ := hstep.grows_of
      rw [hstep.frame_buffer_, hstep.frame.low_color_eq] at hm
      refine ⟨es ++ e1, ?_, List.mem_append_left _ hm⟩
      rw [he, ht1, List.append_assoc]

theorem busy_calls_show_unless_busy (w : World) :
    (show_unless_busy w).busy_calls = w.busy_calls + 1 := by
  unfold show_unless_busy
  split <;> rfl

/-- A ring record made with the counter at zero: the flush. -/
theorem flush_record {k : Nat} (i : Nat) {v : World} (h : RingBounds k v)
    (hp : v.frame_buffer_pos_ = 0) :
    shows (flash_low_buffer i v) = shows v + (if v.busy v.busy_calls then 0 else 1) ∧
      (flash_low_buffer i v).busy_calls = v.busy_calls + 1 ∧
      yields (flash_low_buffer i v) = yields v + 1 ∧
      (flash_low_buffer i v).frame_buffer_pos_ = k - 1 ∧
      ∃ es, (flash_low_buffer i v).trace = es ++ v.trace ∧
        ∀ s, s < k → (v.frame_buffer_.set 0 i).getD s 0 < v.array_size →
          Ev.setPixel Level.low ((v.frame_buffer_.set 0 i).getD s 0)
              (low_color ((v.frame_buffer_.set 0 i).getD s 0) v) ∈ es ∧
            lastPaint (flash_low_buffer i v).trace ((v.frame_buffer_.set 0 i).getD s 0) =
              some Level.low ∧
            Settled (flash_low_buffer i v) ((v.frame_buffer_.set 0 i).getD s 0) := by
  obtain ⟨e1, -, e3⟩ := flush_branch_fields i v h.drop h.pos_k h.fits
  have ev := flash_low_buffer_flush i hp
  rw [← ev] at e1 e3
  have hq := quiet_restore_ring (show_unless_busy (ring_store i v))
  have hf2 : Frame v (show_unless_busy (ring_store i v)) :=
    (frame_ring_store i v).ftrans (frame_show_unless_busy _)
  have hb2 : (show_unless_busy (ring_store i v)).frame_buffer_ = v.frame_buffer_.set 0 i := by
    rw [(ring_show_unless_busy _).1, ← hp]
    rfl
  have hy : yields (flash_low_buffer i v) = yields v + 1 := by
    rw [ev, yields_yield_delay]
    have : yields (ring_reset (restore_ring (show_unless_busy (ring_store i v)))) =
        yields (restore_ring (show_unless_busy (ring_store i v))) := by
      unfold yields
      rw [ring_reset_trace]
    rw [this, hq.yields_eq, yields_show_unless_busy]
    rfl
  have hbc : (flash_low_buffer i v).busy_calls = v.busy_calls + 1 := by
    rw [ev, busy_calls_yield_delay, ring_reset_busy_calls, hq.busy_calls,
      busy_calls_show_unless_busy]
    rfl
  have hg2 : Grows v (show_unless_busy (ring_store i v)) :=
    (grows_of_trace_eq (ring_store_trace i v)).gtrans (silent_show_unless_busy _).grows
  have hg5 : Grows (restore_ring (show_unless_busy (ring_store i v))) (flash_low_buffer i v) := by
    rw [ev]
    exact (grows_of_trace_eq (ring_reset_trace _)).gtrans (grows_yield_delay _)
  obtain ⟨es2, t2⟩ := hg2
  obtain ⟨es5, t5⟩ := hg5
  obtain ⟨es3, t3⟩ := hq.grows_of
  refine ⟨e3, hbc, hy, e1, es5 ++ (es3 ++ es2), ?_, ?_⟩
  · rw [t5, t3, t2, List.append_assoc, List.append_assoc]
  · intro s hs hlt
    have hlt2 : (show_unless_busy (ring_store i v)).frame_buffer_.getD s 0 <
        (show_unless_busy (ring_store i v)).array_size := by
      rw [hb2, hf2.size_eq]
      exact hlt
    have hs2 : s < (show_unless_busy (ring_store i v)).frame_drop_ := by
      rw [hf2.frame_drop_, h.drop]
      exact hs
    obtain ⟨es, he, hm⟩ := restore_fold_paints (List.range
      (show_unless_busy (ring_store i v)).frame_drop_) _ s (List.mem_range.2 hs2) hlt2
    have hes : es = es3 := by
      have : es ++ (show_unless_busy (ring_store i v)).trace =
          es3 ++ (show_unless_busy (ring_store i v)).trace := by
        rw [← t3]
        exact he.symm
      exact List.append_cancel_right this
    rw [hes, hb2, hf2.low_color_eq] at hm
    have hcool : ∀ m, ¬ Hot m (flash_low_buffer i v) ((v.frame_buffer_.set 0 i).getD s 0) := by
      intro m hh
      rw [ev] at hh
      have h1 := (hot_ring_reset _ m _).1 (hot_yield_delay hh)
      have h2 := restore_ring_cools m (show_unless_busy (ring_store i v)) s hs2 hlt2
      rw [hb2] at h2
      exact h2 h1
    have hmem : Ev.setPixel Level.low ((v.frame_buffer_.set 0 i).getD s 0)
        (low_color ((v.frame_buffer_.set 0 i).getD s 0) v) ∈ es5 ++ (es3 ++ es2) :=
      List.mem_append_right _ (List.mem_append_left _ hm)
    refine ⟨hmem, ?_, ?_⟩
    · apply lastPaint_low_of
      · rw [t5, t3, t2, ← List.append_assoc, ← List.append_assoc, List.append_assoc es5]
        exact lastPaint_of_mem _ _ _ _ _ hmem
      · exact fun c => hcool false (Or.inl c)
    · by_contra hns
      refine hcool true (Or.inr ⟨rfl, ?_, hns⟩)
      rw [(frame_flash_low_buffer i v).size_eq]
      exact hlt

/-- A ring record made with a non-zero counter: the position is stored and
the counter decremented, nothing else. -/
theorem store_record (i : Nat) {v : World} (hp : v.frame_buffer_pos_ ≠ 0) :
    flash_low_buffer i v = ring_dec (ring_store i v) ∧
      (flash_low_buffer i v).trace = v.trace ∧
      (flash_low_buffer i v).pixels = v.pixels ∧
      (flash_low_buffer i v).busy_calls = v.busy_calls ∧
      (flash_low_buffer i v).frame_buffer_ = v.frame_buffer_.set v.frame_buffer_pos_ i ∧
      (flash_low_buffer i v).frame_buffer_pos_ = v.frame_buffer_pos_ - 1 := by
  rw [flash_low_buffer_store i hp]
  exact ⟨rfl, rfl, rfl, rfl, rfl, rfl⟩

/-- What the ring holds after a sequence of records made from the state left
by `set_delay_time(-k)`: with `k * a + r` records made, `r < k`, the counter is
`k - 1 - r` and the slots above it hold the last `r` positions. -/
theorem run_records_inv {k : Nat} (w0 : World) (h0 : RingBounds k w0)
    (hp0 : w0.frame_buffer_pos_ = k - 1) (ps : List Nat) :
    ∃ a r, ps.length = k * a + r ∧ r < k ∧ RingBounds k (run_records ps w0) ∧
      (run_records ps w0).frame_buffer_pos_ = k - 1 - r ∧
      (∀ u, u < r →
        (run_records ps w0).frame_buffer_.getD (k - 1 - u) 0 = ps.getD (k * a + u) 0) ∧
      (run_records ps w0).array_size = w0.array_size := by
  induction ps using List.reverseRecOn with
  | nil =>
    refine ⟨0, 0, by simp, h0.pos_k, h0, ?_, ?_, rfl⟩
    · rw [Nat.sub_zero]
      exact hp0
    · intro u hu
      omega
  | append_singleton ps i ih =>
    obtain ⟨a, r, hl, hr, hb, hpos, hslots, hsize⟩ := ih
    rw [run_records_snoc]
    have hsize2 : (flash_low_buffer i (run_records ps w0)).array_size = w0.array_size := by
      rw [(frame_flash_low_buffer i _).size_eq]
      exact hsize
    by_cases hlast : r + 1 = k
    · have hp : (run_records ps w0).frame_buffer_pos_ = 0 := by omega
      obtain ⟨-, -, -, e1, -⟩ := flush_record i hb hp
      refine ⟨a + 1, 0, ?_, h0.pos_k, ringBounds_flash_low_buffer hb, ?_, ?_, hsize2⟩
      · rw [List.length_append, List.length_singleton, hl, Nat.mul_succ]
        omega
      · rw [e1]
        omega
      · intro u hu
        omega
    · have hp : (run_records ps w0).frame_buffer_pos_ ≠ 0 := by omega
      obtain ⟨-, -, -, -, e2, e1⟩ := store_record i hp
      refine ⟨a, r + 1, ?_, by omega, ringBounds_flash_low_buffer hb, ?_, ?_, hsize2⟩
      · rw [List.length_append, List.length_singleton, hl]
        omega
      · rw [e1, hpos]
        omega
      · intro u hu
        rw [e2, hpos]
        by_cases hur : u = r
        · subst hur
          rw [getD_set_self _ _ _ (by rw [hb.slots]; have := hb.fits; omega), ← hl]
          exact (getD_at ps i [] ps.length rfl).symm
        · rw [getD_set_other _ _ _ _ (by omega), hslots u (by omega),
            List.getD_append _ _ _ _ (by omega)]

/-- C21: for every drop `k` in `1..256`, after `set_delay_time(-k)` the ring
counter is `k - 1`, and in a sequence of ring records (`flash_low_buffer`
calls) made from there the counter before record number `n + 1` is
`k - 1 - n mod k`.  The record flushes exactly when its number `n + 1` is a
multiple of `k`: it queries the device once and requests a transmit if it is
idle, repaints at normal intensity every position of the buffer among the `k`
positions recorded since the previous flush (this record's and the `k - 1`
before it), resets the counter to `k - 1` and performs exactly one pacing
step.  Every other record only stores the position and decrements the
counter: nothing is logged (no device query, no transmit request, no repaint,
no pacing step) and no pixel changes. -/
theorem frame_drop_cycle (k : Nat) (w : World) (ps : List Nat) (i : Nat)
    (h1 : 1 ≤ k) (h2 : k ≤ 256) (hs : w.frame_buffer_.length = 256) :
    (set_delay_time (-(k : Int)) w).frame_buffer_pos_ = k - 1 ∧
    (run_records ps (set_delay_time (-(k : Int)) w)).frame_buffer_pos_ =
      k - 1 - ps.length % k ∧
    ((ps.length + 1) % k = 0 →
      shows (run_records (ps ++ [i]) (set_delay_time (-(k : Int)) w)) =
        shows (run_records ps (set_delay_time (-(k : Int)) w)) +
          (if (run_records ps (set_delay_time (-(k : Int)) w)).busy
            (run_records ps (set_delay_time (-(k : Int)) w)).busy_calls then 0 else 1) ∧
      (run_records (ps ++ [i]) (set_delay_time (-(k : Int)) w)).busy_calls =
        (run_records ps (set_delay_time (-(k : Int)) w)).busy_calls + 1 ∧
      yields (run_records (ps ++ [i]) (set_delay_time (-(k : Int)) w)) =
        yields (run_records ps (set_delay_time (-(k : Int)) w)) + 1 ∧
      (run_records (ps ++ [i]) (set_delay_time (-(k : Int)) w)).frame_buffer_pos_ = k - 1 ∧
      ∃ es, (run_records (ps ++ [i]) (set_delay_time (-(k : Int)) w)).trace =
          es ++ (run_records ps (set_delay_time (-(k : Int)) w)).trace ∧
        ∀ t, ps.length + 1 - k ≤ t → t ≤ ps.length →
          (ps ++ [i]).getD t 0 < w.array_size →
          Ev.setPixel Level.low ((ps ++ [i]).getD t 0)
              (low_color ((ps ++ [i]).getD t 0)
                (run_records ps (set_delay_time (-(k : Int)) w))) ∈ es ∧
            lastPaint (run_records (ps ++ [i]) (set_delay_time (-(k : Int)) w)).trace
              ((ps ++ [i]).getD t 0) = some Level.low ∧
            Settled (run_records (ps ++ [i]) (set_delay_time (-(k : Int)) w))
              ((ps ++ [i]).getD t 0)) ∧
    ((ps.length + 1) % k ≠ 0 →
      run_records (ps ++ [i]) (set_delay_time (-(k : Int)) w) =
        ring_dec (ring_store i (run_records ps (set_delay_time (-(k : Int)) w))) ∧
      (run_records (ps ++ [i]) (set_delay_time (-(k : Int)) w)).trace =
        (run_records ps (set_delay_time (-(k : Int)) w)).trace ∧
      (run_records (ps ++ [i]) (set_delay_time (-(k : Int)) w)).pixels =
        (run_records ps (set_delay_time (-(k : Int)) w)).pixels ∧
      (run_records (ps ++ [i]) (set_delay_time (-(k : Int)) w)).frame_buffer_ =
        (run_records ps (set_delay_time (-(k : Int)) w)).frame_buffer_.set
          (run_records ps (set_delay_time (-(k : Int)) w)).frame_buffer_pos_ i ∧
      (run_records (ps ++ [i]) (set_delay_time (-(k : Int)) w)).frame_buffer_pos_ + 1 =
        (run_records ps (set_delay_time (-(k : Int)) w)).frame_buffer_pos_) := by
  have hok := ringOK_set_delay_time k w h1 h2 hs
  have hp0 : (set_delay_time (-(k : Int)) w).frame_buffer_pos_ = k - 1 := by
    have hneg : (-(k : Int)) < 0 := by omega
    unfold set_delay_time assign_delay_time
    rw [if_pos hneg]
    show ((-(-(k : Int))).toNat % SIZE_MOD + SIZE_MOD - 1) % SIZE_MOD = k - 1
    unfold SIZE_MOD
    omega
  have hsz : (set_delay_time (-(k : Int)) w).array_size = w.array_size := by
    have : (set_delay_time (-(k : Int)) w).array = (pflush w).array := by
      unfold set_delay_time assign_delay_time
      split <;> rfl
    unfold World.array_size
    rw [this, (frame_pflush w).array]
  generalize set_delay_time (-(k : Int)) w = w0 at hok hp0 hsz ⊢
  obtain ⟨a, r, hl, hr, hb, hpos, hslots, hsize⟩ := run_records_inv w0 hok.bounds hp0 ps
  have hmod : ps.length % k = r := by
    rw [hl, Nat.mul_add_mod, Nat.mod_eq_of_lt hr]
  have hiff : (ps.length + 1) % k = 0 ↔ r + 1 = k := by
    rw [hl, Nat.add_assoc, Nat.mul_add_mod]
    constructor
    · intro h
      by_contra hne
      rw [Nat.mod_eq_of_lt (by omega)] at h
      omega
    · intro h
      rw [h, Nat.mod_self]
  refine ⟨hp0, ?_, ?_, ?_⟩
  · rw [hpos, hmod]
  · intro hflush
    have hrk : r + 1 = k := hiff.mp hflush
    have hp : (run_records ps w0).frame_buffer_pos_ = 0 := by omega
    rw [run_records_snoc]
    obtain ⟨f1, f2, f3, f4, es, f5, f6⟩ := flush_record i hb hp
    refine ⟨f1, f2, f3, f4, es, f5, ?_⟩
    intro t ht1 ht2 hlt
    have hslot : ((run_records ps w0).frame_buffer_.set 0 i).getD (k - 1 - (t - k * a)) 0 =
        (ps ++ [i]).getD t 0 := by
      by_cases htl : t = ps.length
      · rw [show k - 1 - (t - k * a) = 0 by omega,
          getD_set_self _ _ _ (by rw [hb.slots]; decide), htl]
        exact (getD_at ps i [] ps.length rfl).symm
      · rw [getD_set_other _ _ _ _ (by omega), hslots (t - k * a) (by omega),
          List.getD_append _ _ _ _ (by omega), show k * a + (t - k * a) = t by omega]
    have := f6 (k - 1 - (t - k * a)) (by omega) (by
      rw [hslot, hsize, hsz]
      exact hlt)
    rw [hslot] at this
    exact this
  · intro hstore
    have hp : (run_records ps w0).frame_buffer_pos_ ≠ 0 := by
      have : ¬ r + 1 = k := fun h => hstore (hiff.mpr h)
      omega
    rw [run_records_snoc]
    obtain ⟨g1, g2, g3, -, g5, g6⟩ := store_record i hp
    refine ⟨g1, g2, g3, g5, ?_⟩
    rw [g6]
    omega


/-- Witness of C21 with `k = 4` on the example buffer, the device idle: the
fourth record flushes (one transmit request, one pacing step, counter back at
3, position 0 repainted), the third record logs nothing. -/
theorem frame_drop_cycle_witness :
    (1 ≤ 4 ∧ 4 ≤ 256 ∧ (initWorld exBuffer (fun _ => false)).frame_buffer_.length = 256) ∧
      (([0, 1, 2] : List Nat).length + 1) % 4 = 0 ∧
      shows (run_records ([0, 1, 2] ++ [3]) exDrop4) = shows (run_records [0, 1, 2] exDrop4) + 1 ∧
      yields (run_records ([0, 1, 2] ++ [3]) exDrop4) =
        yields (run_records [0, 1, 2] exDrop4) + 1 ∧
      (run_records ([0, 1, 2] ++ [3]) exDrop4).frame_buffer_pos_ = 3 ∧
      lastPaint (run_records ([0, 1, 2] ++ [3]) exDrop4).trace 0 = some Level.low ∧
      (run_records ([0, 1] ++ [2]) exDrop4).trace = (run_records [0, 1] exDrop4).trace :=
  ⟨⟨by decide, by decide, initWorld_slots _ _⟩, by decide,
    ((frame_drop_cycle 4 (initWorld exBuffer (fun _ => false)) [0, 1, 2] 3 (by decide) (by decide)
      (initWorld_slots _ _)).2.2.1 (by decide)).1,
    ((frame_drop_cycle 4 (initWorld exBuffer (fun _ => false)) [0, 1, 2] 3 (by decide) (by decide)
      (initWorld_slots _ _)).2.2.1 (by decide)).2.2.1,
    ((frame_drop_cycle 4 (initWorld exBuffer (fun _ => false)) [0, 1, 2] 3 (by decide) (by decide)
      (initWorld_slots _ _)).2.2.1 (by decide)).2.2.2.1,
    by decide,
    ((frame_drop_cycle 4 (initWorld exBuffer (fun _ => false)) [0, 1] 2 (by decide) (by decide)
      (initWorld_slots _ _)).2.2.2 (by decide)).2.1⟩

end BlinkenSort
